import Mathlib

/-!
# Verification development for the `alg` priority containers

Shallow embedding of `src/heap.js`, `src/c-queue.js`, `src/struct/link.js`,
`src/struct/tree.js` and `src/struct/c-list.js`.

Nodes are caller-owned objects with identity; they are modelled by a type `α`
with decidable equality.  Bookkeeping fields stored on the nodes
(`_lh_idx`, `_lt_par`, ...) are modelled by maps from nodes to field values.
JavaScript `null`/`undefined` is `none`.  A JavaScript `TypeError`
(property access on `null`, or the comparator handed `null`) is the result
`none` of the embedded function.  Loops take a fuel argument.  The calls of
the comparator made by an operation are listed by the functions `*_calls`,
which follow the loops of that operation.
-/

set_option autoImplicit false

set_option linter.unusedSectionVars false

set_option linter.unusedVariables false

set_option linter.unusedTactic false

set_option linter.unreachableTactic false

namespace Alg

variable {α : Type} [DecidableEq α]

/-! # Definitions -/

/-! ## 32-bit integer operators of JavaScript -/

/-- ToInt32 of the language standard, on integers. -/
def toInt32 (x : Int) : Int := (x + 2147483648) % 4294967296 - 2147483648

/-- The expression `x << 1`. -/
def shl1 (x : Int) : Int := toInt32 (2 * toInt32 x)

/-- The expression `x >> 1`. -/
def sar1 (x : Int) : Int := toInt32 x / 2

/-! ## Comparators -/

/-- A comparator that is a strict weak order: irreflexive, transitive, and
with transitive incomparability. -/
structure StrictWeak {α : Type} (prior : α → α → Bool) : Prop where
  irrefl : ∀ a, prior a a = false
  trans : ∀ a b c, prior a b = true → prior b c = true → prior a c = true
  incomp : ∀ a b c, prior a b = false → prior b a = false →
    prior b c = false → prior c b = false → prior a c = false ∧ prior c a = false

/-- The example comparator of the sources: `a.val < b.val`, on nodes that are
their own value. -/
def priorLt (a b : Nat) : Bool := decide (a < b)

/-! ## `src/heap.js` -/

/-- The heap array together with the `_lh_idx` field of every node.
`arr i = none` is a `null`/`undefined` slot; `idx n = none` is an undefined
`_lh_idx`. -/
structure HeapMem (α : Type) where
  arr : Int → Option α
  idx : α → Option Int

/-- The statement `(arr[i] = x)._lh_idx = i`. -/
def HeapMem.put (m : HeapMem α) (i : Int) (x : α) : HeapMem α :=
  { arr := Function.update m.arr i (some x), idx := Function.update m.idx x (some i) }

/-- `shift_up(li, prior, arr, i)`. -/
def shift_up (prior : α → α → Bool) (li : α) : Nat → HeapMem α → Int → Option (HeapMem α)
  | 0, _, _ => none
  | fuel + 1, m, i =>
    let j := sar1 (i - 1)
    if j ≠ -1 then
      match m.arr j with
      | none => none
      | some aj =>
        if prior li aj then shift_up prior li fuel (m.put i aj) j
        else some (m.put i li)
    else some (m.put i li)

/-- The child index that `shift_down` compares with `li`: the left child `j`,
or `k = j + 1` when `k < ln && prior(arr[k], arr[j])`. -/
def shift_down_pick (prior : α → α → Bool) (ln : Int) (m : HeapMem α) (j : Int) : Option Int :=
  if j + 1 < ln then
    match m.arr (j + 1), m.arr j with
    | some ak, some aj => some (if prior ak aj then j + 1 else j)
    | _, _ => none
  else some j

/-- `shift_down(li, prior, arr, i, ln)`. -/
def shift_down (prior : α → α → Bool) (li : α) (ln : Int) :
    Nat → HeapMem α → Int → Option (HeapMem α)
  | 0, _, _ => none
  | fuel + 1, m, i =>
    let j := shl1 i + 1
    if j < ln then
      match shift_down_pick prior ln m j with
      | none => none
      | some j =>
        match m.arr j with
        | none => none
        | some aj =>
          if prior aj li then shift_down prior li ln fuel (m.put i aj) j
          else some (m.put i li)
    else some (m.put i li)

/-- The `for` loop of `heapify`: `arr[i]._lh_idx = i` for `i` up to `ln`. -/
def heapify_mark (ln : Int) : Nat → HeapMem α → Int → Option (HeapMem α)
  | 0, _, _ => none
  | fuel + 1, m, i =>
    if i < ln then
      match m.arr i with
      | none => none
      | some x => heapify_mark ln fuel { m with idx := Function.update m.idx x (some i) } (i + 1)
    else some m

/-- The `while` loop of `heapify`. -/
def heapify_loop (prior : α → α → Bool) (ln : Int) : Nat → HeapMem α → Int → Option (HeapMem α)
  | 0, _, _ => none
  | fuel + 1, m, q =>
    if q ≠ -1 then
      match m.arr q with
      | none => none
      | some x =>
        match shift_down prior x ln fuel m q with
        | none => none
        | some m1 => heapify_loop prior ln fuel m1 (q - 1)
    else some m

/-- `heapify(prior, arr, ln)`. -/
def heapify (prior : α → α → Bool) (fuel : Nat) (m : HeapMem α) (ln : Int) : Option (HeapMem α) :=
  let q := sar1 ln - 1
  match heapify_mark ln fuel m (q + 1) with
  | none => none
  | some m1 => heapify_loop prior ln fuel m1 q

/-- `enqueue(node, prior, arr, ln)`: the updated memory and the updated `ln`. -/
def enqueue (prior : α → α → Bool) (fuel : Nat) (node : α) (m : HeapMem α) (ln : Int) :
    Option (HeapMem α × Int) :=
  match shift_up prior node fuel m ln with
  | none => none
  | some m1 => some (m1, ln + 1)

/-- `dequeue(prior, arr, ln)`. -/
def dequeue (prior : α → α → Bool) (fuel : Nat) (m : HeapMem α) (ln : Int) :
    Option (HeapMem α × Int) :=
  let ln := ln - 1
  match m.arr 0, m.arr ln with
  | some node, some li =>
    match shift_down prior li ln fuel m 0 with
    | none => none
    | some m1 =>
      some ({ arr := Function.update m1.arr ln none,
              idx := Function.update m1.idx node (some (-1)) }, ln)
  | _, _ => none

/-- `remove(node, prior, arr, ln)`.  An undefined `_lh_idx` used as the sift
position is outside the model (result `none`). -/
def remove (prior : α → α → Bool) (fuel : Nat) (node : α) (m : HeapMem α) (ln : Int) :
    Option (HeapMem α × Int) :=
  let ln := ln - 1
  let oi := m.idx node
  let m0 : HeapMem α := { m with idx := Function.update m.idx node (some (-1)) }
  let oli := m0.arr ln
  let m1 : HeapMem α := { m0 with arr := Function.update m0.arr ln none }
  if some node ≠ oli then
    match oli, oi with
    | some li, some i =>
      if prior node li then
        (shift_down prior li ln fuel m1 i).map (fun m2 => (m2, ln))
      else
        (shift_up prior li fuel m1 i).map (fun m2 => (m2, ln))
    | _, _ => none
  else some (m1, ln)

/-- `not_in_heap(node)`. -/
def not_in_heap (m : HeapMem α) (node : α) : Bool :=
  decide (m.idx node = some (-1)) || decide (m.idx node = none)

/-! ## `src/c-queue.js` -/

/-- The class `HeapQueue`: the array `arr` with the `_lh_idx` fields of the
nodes, and the logical length `ln`. -/
structure HeapQueue (α : Type) where
  mem : HeapMem α
  ln : Int

/-- A JavaScript array given by its list of elements. -/
def arrOfList (l : List (Option α)) : Int → Option α :=
  fun i => if 0 ≤ i then (l[i.toNat]?).join else none

/-- The constructor `new HeapQueue(prior, arr)`; `idx` is the `_lh_idx` field of
the nodes at the time of the call, and `[]` stands for an absent or empty `arr`. -/
def HeapQueue.new (prior : α → α → Bool) (fuel : Nat) (idx : α → Option Int)
    (arr : List (Option α)) : Option (HeapQueue α) :=
  if arr.length ≠ 0 then
    match heapify prior fuel { arr := arrOfList arr, idx := idx } arr.length with
    | none => none
    | some m => some { mem := m, ln := arr.length }
  else some { mem := { arr := arrOfList [], idx := idx }, ln := 0 }

/-- The method `enqueue(node)`. -/
def HeapQueue.enqueue (prior : α → α → Bool) (fuel : Nat) (q : HeapQueue α) (node : α) :
    Option (HeapQueue α) :=
  (Alg.enqueue prior fuel node q.mem q.ln).map (fun r => { mem := r.1, ln := r.2 })

/-- The method `dequeue()`: the updated queue and the returned value. -/
def HeapQueue.dequeue (prior : α → α → Bool) (fuel : Nat) (q : HeapQueue α) :
    Option (HeapQueue α × Option α) :=
  let node := q.mem.arr 0
  (Alg.dequeue prior fuel q.mem q.ln).map (fun r => ({ mem := r.1, ln := r.2 }, node))

/-- The method `remove(node)`. -/
def HeapQueue.remove (prior : α → α → Bool) (fuel : Nat) (q : HeapQueue α) (node : α) :
    Option (HeapQueue α) :=
  (Alg.remove prior fuel node q.mem q.ln).map (fun r => { mem := r.1, ln := r.2 })

/-- The method `first()`: the updated queue (unchanged) and the returned value. -/
def HeapQueue.first (q : HeapQueue α) : HeapQueue α × Option α := (q, q.mem.arr 0)

/-- The getter `size`. -/
def HeapQueue.size (q : HeapQueue α) : Int := q.ln

/-- The method `has(node)`. -/
def HeapQueue.has (q : HeapQueue α) (node : α) : Bool :=
  if not_in_heap q.mem node then false
  else
    match q.mem.idx node with
    | none => false
    | some i => decide (i < q.ln) && decide (q.mem.arr i = some node)

/-- The method `canHave(node)`. -/
def HeapQueue.canHave (q : HeapQueue α) (node : α) : Bool := not_in_heap q.mem node

/-! ## Heap: specification predicates -/

/-- `n` is a member of the heap: it sits in a slot below `ln`. -/
def HMem (m : HeapMem α) (ln : Int) (n : α) : Prop :=
  ∃ k, 0 ≤ k ∧ k < ln ∧ m.arr k = some n

/-- A heap of `N` slots, possibly with a hole at slot `h`, ordered from parent
index `L` on: every slot but the hole holds a node, no node sits in two
slots, nodes from `L` on have a current `_lh_idx`, and no child is strictly
prior to its parent, for parents from `L` on. -/
structure Partial (prior : α → α → Bool) (m : HeapMem α) (N L h : Int) : Prop where
  nodes : ∀ k, 0 ≤ k → k < N → k ≠ h → ∃ n, m.arr k = some n
  inj : ∀ k k2 n, 0 ≤ k → k < N → 0 ≤ k2 → k2 < N → k ≠ h → k2 ≠ h →
    m.arr k = some n → m.arr k2 = some n → k = k2
  idx : ∀ k n, L ≤ k → k < N → k ≠ h → m.arr k = some n → m.idx n = some k
  ord : ∀ p c x y, L ≤ p → c < N → (c = 2 * p + 1 ∨ c = 2 * p + 2) → p ≠ h → c ≠ h →
    m.arr p = some x → m.arr c = some y → prior y x = false

/-- The heap order of a queue: for `i < ln` and a child index `c < ln`,
`prior(arr[c], arr[i])` is false. -/
def HeapOrder (prior : α → α → Bool) (q : HeapQueue α) : Prop :=
  ∀ i c, 0 ≤ i → i < q.ln → c < q.ln → (c = 2 * i + 1 ∨ c = 2 * i + 2) →
    ∃ x y, q.mem.arr i = some x ∧ q.mem.arr c = some y ∧ prior y x = false

/-- The invariant of a queue: a full heap with current indices, within the
documented size bound. -/
structure HeapInv (prior : α → α → Bool) (q : HeapQueue α) : Prop where
  lo : 0 ≤ q.ln
  hi : q.ln ≤ 1073741824
  part : Partial prior q.mem q.ln 0 (-1)

/-- Result of a sift that fills the hole `i` of `m` with `li`. -/
structure SiftPost (prior : α → α → Bool) (li : α) (N L i : Int) (m m' : HeapMem α) : Prop where
  part : Partial prior m' N L (-1)
  mem : ∀ n, HMem m' N n ↔ (n = li ∨ ∃ k, 0 ≤ k ∧ k < N ∧ k ≠ i ∧ m.arr k = some n)
  out : ∀ k, (k < 0 ∨ N ≤ k) → m'.arr k = m.arr k
  idxOut : ∀ n, ¬ HMem m' N n → m'.idx n = m.idx n

/-- Effect of a successful `enqueue` on a queue. -/
structure EnqPost (prior : α → α → Bool) (q q' : HeapQueue α) (n : α) : Prop where
  inv : HeapInv prior q'
  size : q'.ln = q.ln + 1
  mem : ∀ x, HMem q'.mem q'.ln x ↔ (x = n ∨ HMem q.mem q.ln x)
  idxOut : ∀ x, ¬ HMem q'.mem q'.ln x → q'.mem.idx x = q.mem.idx x

/-- Effect of a successful `dequeue` or `remove` that takes `n` out of a queue. -/
structure DelPost (prior : α → α → Bool) (q q' : HeapQueue α) (n : α) : Prop where
  inv : HeapInv prior q'
  size : q'.ln = q.ln - 1
  mem : ∀ x, HMem q'.mem q'.ln x ↔ (x ≠ n ∧ HMem q.mem q.ln x)
  idxOut : ∀ x, ¬ HMem q'.mem q'.ln x → x ≠ n → q'.mem.idx x = q.mem.idx x
  idxN : q'.mem.idx n = some (-1)
  slot : q'.mem.arr q'.ln = none

/-- The slots below `N` hold distinct nodes. -/
structure Loaded (m : HeapMem α) (N : Int) : Prop where
  nodes : ∀ k, 0 ≤ k → k < N → ∃ n, m.arr k = some n
  inj : ∀ k k2 n, 0 ≤ k → k < N → 0 ≤ k2 → k2 < N →
    m.arr k = some n → m.arr k2 = some n → k = k2

/-- Effect of the constructor on a list of distinct nodes. -/
structure NewPost (prior : α → α → Bool) (nodes : List α) (idx : α → Option Int)
    (q : HeapQueue α) : Prop where
  inv : HeapInv prior q
  size : q.ln = nodes.length
  mem : ∀ x, HMem q.mem q.ln x ↔ x ∈ nodes
  idxOut : ∀ x, x ∉ nodes → q.mem.idx x = idx x

/-- The queues reached from the constructor (on an absent array, or on an array
of distinct nodes) by calls of `enqueue` on a non-member below the size bound,
of `dequeue` on a non-empty queue and of `remove` on a member. -/
inductive HeapQueue.Reach (prior : α → α → Bool) : HeapQueue α → Prop
  | new (fuel : Nat) (idx : α → Option Int) (nodes : List α) (q : HeapQueue α) :
      nodes.Nodup → (nodes.length : Int) ≤ 1073741824 →
      HeapQueue.new prior fuel idx (nodes.map some) = some q → HeapQueue.Reach prior q
  | enqueue (fuel : Nat) (q q' : HeapQueue α) (n : α) :
      HeapQueue.Reach prior q → ¬ HMem q.mem q.ln n → q.ln < 1073741824 →
      q.enqueue prior fuel n = some q' → HeapQueue.Reach prior q'
  | dequeue (fuel : Nat) (q q' : HeapQueue α) (r : Option α) :
      HeapQueue.Reach prior q → 0 < q.ln →
      q.dequeue prior fuel = some (q', r) → HeapQueue.Reach prior q'
  | remove (fuel : Nat) (q q' : HeapQueue α) (n : α) :
      HeapQueue.Reach prior q → HMem q.mem q.ln n →
      q.remove prior fuel n = some q' → HeapQueue.Reach prior q'

/-- The calls `enqueue(n)` for the nodes `n` of a list, in order. -/
def HeapQueue.enqueueAll (prior : α → α → Bool) (fuel : Nat) :
    HeapQueue α → List α → Option (HeapQueue α)
  | q, [] => some q
  | q, n :: ns =>
    match q.enqueue prior fuel n with
    | none => none
    | some q' => HeapQueue.enqueueAll prior fuel q' ns

/-- The call `dequeue()` repeated `k` times: the final queue and the returned
values in order. -/
def HeapQueue.dequeueN (prior : α → α → Bool) (fuel : Nat) :
    Nat → HeapQueue α → Option (HeapQueue α × List (Option α))
  | 0, q => some (q, [])
  | k + 1, q =>
    match q.dequeue prior fuel with
    | none => none
    | some (q', r) =>
      match HeapQueue.dequeueN prior fuel k q' with
      | none => none
      | some (q'', rs) => some (q'', r :: rs)

/-- Loading a queue by `new HeapQueue(prior)` and one `enqueue` per node. -/
def HeapQueue.loadByEnqueue (prior : α → α → Bool) (fuel : Nat) (idx : α → Option Int)
    (nodes : List α) : Option (HeapQueue α) :=
  match HeapQueue.new prior fuel idx [] with
  | none => none
  | some q => HeapQueue.enqueueAll prior fuel q nodes

/-- The outcome of draining a queue loaded with `nodes`: every `dequeue`
returned a node, the returned nodes are a permutation of `nodes` in which no
later node is strictly prior to an earlier one, and the final size is 0. -/
def SortedDrain (prior : α → α → Bool) (nodes : List α)
    (res : Option (HeapQueue α × List (Option α))) : Prop :=
  ∃ (q : HeapQueue α) (out : List α), res = some (q, out.map some) ∧ out.Perm nodes ∧
    out.Pairwise (fun a b => prior b a = false) ∧ q.size = 0

/-- An empty queue on fresh nodes. -/
def heapEmpty : HeapQueue Nat := { mem := { arr := fun _ => none, idx := fun _ => none }, ln := 0 }

/-- The queue `new HeapQueue(prior, [5, 3, 8, 1])` on fresh nodes, under
"lower value is prior". -/
def heapDemo : HeapQueue Nat :=
  (HeapQueue.new priorLt 20 (fun _ => none) ([5, 3, 8, 1].map some)).getD heapEmpty

/-- The queue `heapDemo` after `enqueue(4)`. -/
def heapDemo1 : HeapQueue Nat := (heapDemo.enqueue priorLt 20 4).getD heapEmpty

/-- The queue `heapDemo1` after `remove(3)`. -/
def heapDemo2 : HeapQueue Nat := (heapDemo1.remove priorLt 20 3).getD heapEmpty

/-! ## `src/struct/link.js` and `src/struct/tree.js`: node fields -/

/-- The list and tree fields of every node: `_l_prev`, `_l_next`, `_lt_par`,
`_lt_lch`, `_lt_rch` (`none` is `null` or undefined) and `_lt_color`
(0: red, 1: black; an undefined colour is falsy like 0). -/
structure Store (α : Type) where
  prev : α → Option α
  next : α → Option α
  par : α → Option α
  lch : α → Option α
  rch : α → Option α
  color : α → Nat

/-- The assignment `x._lt_par = v`. -/
def Store.setPar (s : Store α) (x : α) (v : Option α) : Store α :=
  { s with par := Function.update s.par x v }

/-- The assignment `x._lt_lch = v`. -/
def Store.setLch (s : Store α) (x : α) (v : Option α) : Store α :=
  { s with lch := Function.update s.lch x v }

/-- The assignment `x._lt_rch = v`. -/
def Store.setRch (s : Store α) (x : α) (v : Option α) : Store α :=
  { s with rch := Function.update s.rch x v }

/-- The assignment `x._lt_color = v`. -/
def Store.setColor (s : Store α) (x : α) (v : Nat) : Store α :=
  { s with color := Function.update s.color x v }

/-- The assignment `x._l_prev = v`. -/
def Store.setPrev (s : Store α) (x : α) (v : Option α) : Store α :=
  { s with prev := Function.update s.prev x v }

/-- The assignment `x._l_next = v`. -/
def Store.setNext (s : Store α) (x : α) (v : Option α) : Store α :=
  { s with next := Function.update s.next x v }

/-! ## `src/struct/link.js` -/

/-- `init(node)` of `link.js`. -/
def Link.init (s : Store α) (node : α) : Store α :=
  (s.setNext node (some node)).setPrev node (some node)

/-- `init_node(node)` of `link.js`. -/
def Link.init_node (s : Store α) (node : α) : Store α :=
  (s.setNext node none).setPrev node none

/-- `insert_before(node, next_node)`: in evaluation order,
`node._l_next = next_node`, `p = next_node._l_prev`, `node._l_prev = p`,
`p._l_next = node`, `next_node._l_prev = node`. -/
def Link.insert_before (s : Store α) (node next_node : α) : Option (Store α) :=
  let s1 := s.setNext node (some next_node)
  match s1.prev next_node with
  | none => none
  | some p =>
    let s2 := s1.setPrev node (some p)
    let s3 := s2.setNext p (some node)
    some (s3.setPrev next_node (some node))

/-- `insert_after(node, prev_node)`. -/
def Link.insert_after (s : Store α) (node prev_node : α) : Option (Store α) :=
  let s1 := s.setPrev node (some prev_node)
  match s1.next prev_node with
  | none => none
  | some n =>
    let s2 := s1.setNext node (some n)
    let s3 := s2.setPrev n (some node)
    some (s3.setNext prev_node (some node))

/-- `remove(node)` of `link.js`: `p = node._l_prev`, `n = node._l_next`,
`p._l_next = n`, `n._l_prev = node._l_prev`, then both fields of `node` are
set to `null`. -/
def Link.remove (s : Store α) (node : α) : Option (Store α) :=
  match s.prev node with
  | none => none
  | some p =>
    let n := s.next node
    let s1 := s.setNext p n
    match n with
    | none => none
    | some n =>
      let s2 := s1.setPrev n (s1.prev node)
      some ((s2.setNext node none).setPrev node none)

/-- `not_in_list(node)`. -/
def Link.not_in_list (s : Store α) (node : α) : Bool := (s.prev node).isNone

/-! ## `src/struct/tree.js` -/

/-- `init_node(node)` of `tree.js`, also named `clean_up`. -/
def Tree.init_node (s : Store α) (node : α) : Store α :=
  (((s.setPar node none).setLch node none).setRch node none).setColor node 0

/-- `clean_up`, the alias of `init_node`. -/
def Tree.clean_up (s : Store α) (node : α) : Store α := Tree.init_node s node

/-- `bind_left(node, par_node)`. -/
def Tree.bind_left (s : Store α) (node par_node : Option α) : Store α :=
  let s1 := match node with
    | some n => s.setPar n par_node
    | none => s
  match par_node with
  | some p => s1.setLch p node
  | none => s1

/-- `bind_right(node, par_node)`. -/
def Tree.bind_right (s : Store α) (node par_node : Option α) : Store α :=
  let s1 := match node with
    | some n => s.setPar n par_node
    | none => s
  match par_node with
  | some p => s1.setRch p node
  | none => s1

/-- `bind_replace(node, target, target_par)`. -/
def Tree.bind_replace (s : Store α) (node : Option α) (target : α) (target_par : Option α) :
    Store α :=
  let s1 := match node with
    | some n => s.setPar n target_par
    | none => s
  match target_par with
  | some p => if s1.lch p = some target then s1.setLch p node else s1.setRch p node
  | none => s1

/-- `rotate_right(node)`. -/
def Tree.rotate_right (s : Store α) (node : α) : Option (Store α) :=
  match s.lch node with
  | none => none
  | some ll =>
    let lp := s.par node
    let s1 := Tree.bind_left s (s.rch ll) (some node)
    let s2 := Tree.bind_right s1 (some node) (some ll)
    some (Tree.bind_replace s2 (some ll) node lp)

/-- `rotate_left(node)`. -/
def Tree.rotate_left (s : Store α) (node : α) : Option (Store α) :=
  match s.rch node with
  | none => none
  | some lr =>
    let lp := s.par node
    let s1 := Tree.bind_right s (s.lch lr) (some node)
    let s2 := Tree.bind_left s1 (some node) (some lr)
    some (Tree.bind_replace s2 (some lr) node lp)

/-- `rotate_right_left(node)`. -/
def Tree.rotate_right_left (s : Store α) (node : α) : Option (Store α) :=
  match s.lch node, s.par node with
  | some ll, some lp =>
    let lpp := s.par lp
    let s1 := Tree.bind_left s (s.rch ll) (some node)
    let s2 := Tree.bind_right s1 (some node) (some ll)
    let s3 := Tree.bind_right s2 (s2.lch ll) (some lp)
    let s4 := Tree.bind_left s3 (some lp) (some ll)
    some (Tree.bind_replace s4 (some ll) lp lpp)
  | _, _ => none

/-- `rotate_left_right(node)`. -/
def Tree.rotate_left_right (s : Store α) (node : α) : Option (Store α) :=
  match s.rch node, s.par node with
  | some lr, some lp =>
    let lpp := s.par lp
    let s1 := Tree.bind_right s (s.lch lr) (some node)
    let s2 := Tree.bind_left s1 (some node) (some lr)
    let s3 := Tree.bind_left s2 (s2.rch lr) (some lp)
    let s4 := Tree.bind_right s3 (some lp) (some lr)
    some (Tree.bind_replace s4 (some lr) lp lpp)
  | _, _ => none

/-- The descent loop of `add`: the last node `lp` visited and whether the
branch taken there is `_lt_lch`. -/
def Tree.add_descend (prior : α → α → Bool) (s : Store α) (node : α) :
    Nat → α → Option (α × Bool)
  | 0, _ => none
  | fuel + 1, root =>
    let left := prior node root
    match (if left then s.lch root else s.rch root) with
    | some c => Tree.add_descend prior s node fuel c
    | none => some (root, left)

/-- `add(node, prior, root)`. -/
def Tree.add (prior : α → α → Bool) (fuel : Nat) (s : Store α) (node root : α) :
    Option (Store α) :=
  match Tree.add_descend prior s node fuel root with
  | none => none
  | some (lp, left) =>
    let s1 := s.setPar node (some lp)
    some (if left then s1.setLch lp (some node) else s1.setRch lp (some node))

/-- How the first loop of `rb_add` ends: by `return root`, or by `break` with
the current `node`, `lp` and `lpp`. -/
inductive Tree.AddLoop (α : Type) where
  | ret (s : Store α) : Tree.AddLoop α
  | brk (s : Store α) (node lp lpp : α) : Tree.AddLoop α

/-- The recolouring loop of `rb_add`. -/
def Tree.rb_add_loop (root : α) : Nat → Store α → α → Option (Tree.AddLoop α)
  | 0, _, _ => none
  | fuel + 1, s, node =>
    match s.par node with
    | none => none
    | some lp =>
      if s.color lp ≠ 0 then some (.ret s)
      else
        match s.par lp with
        | none => none
        | some lpp =>
          let la := if s.rch lpp ≠ some lp then s.rch lpp else s.lch lpp
          match la with
          | some a =>
            if s.color a = 0 then
              let s1 := (s.setColor a 1).setColor lp 1
              if lpp ≠ root then Tree.rb_add_loop root fuel (s1.setColor lpp 0) lpp
              else some (.ret s1)
            else some (.brk s node lp lpp)
          | none => some (.brk s node lp lpp)

/-- The part of `rb_add` after the loop: recolouring, one rotation, and the
returned root. -/
def Tree.rb_add_rotate (s : Store α) (root node lp lpp : α) : Option (Store α × α) :=
  let s1 := s.setColor lpp 0
  let r : Option (Store α × α) :=
    if s1.rch lpp = some lp then
      if s1.rch lp = some node then (Tree.rotate_left s1 lpp).map (fun s2 => (s2, lp))
      else (Tree.rotate_right_left s1 lp).map (fun s2 => (s2, node))
    else
      if s1.rch lp = some node then (Tree.rotate_left_right s1 lp).map (fun s2 => (s2, node))
      else (Tree.rotate_right s1 lpp).map (fun s2 => (s2, lp))
  match r with
  | none => none
  | some (s2, la) => some (s2.setColor la 1, if lpp ≠ root then root else la)

/-- The end of `rb_add` after its loop: `return root`, or the rotation. -/
def Tree.AddLoop.finish (root : α) : Tree.AddLoop α → Option (Store α × α)
  | .ret s => some (s, root)
  | .brk s node lp lpp => Tree.rb_add_rotate s root node lp lpp

/-- `rb_add(node, prior, root)`: the updated fields and the returned root. -/
def Tree.rb_add (prior : α → α → Bool) (fuel : Nat) (s : Store α) (node root : α) :
    Option (Store α × α) :=
  match Tree.add prior fuel s node root with
  | none => none
  | some s1 =>
    match Tree.rb_add_loop root fuel s1 node with
    | none => none
    | some o => o.finish root

/-- The loop of `get_lmax`, entered with `cur` non-null. -/
def Tree.get_lmax_loop (s : Store α) : Nat → α → Option α
  | 0, _ => none
  | fuel + 1, cur =>
    match s.rch cur with
    | some c => Tree.get_lmax_loop s fuel c
    | none => some cur

/-- `get_lmax(node)`. -/
def Tree.get_lmax (fuel : Nat) (s : Store α) (node : α) : Option α :=
  match s.lch node with
  | none => none
  | some cur => Tree.get_lmax_loop s fuel cur

/-- `get_target(node, lmax_cache)`. -/
def Tree.get_target (fuel : Nat) (s : Store α) (node : α) (lmax_cache : Option α) : Option α :=
  if (s.lch node).isSome && (s.rch node).isSome then
    match lmax_cache with
    | some c => some c
    | none => Tree.get_lmax fuel s node
  else some node

/-- `move_target(target, node, root)`: the updated fields and the returned
root (`none` is the strict `null`). -/
def Tree.move_target (s : Store α) (target node : α) (root : Option α) :
    Store α × Option α :=
  let lch := (s.lch target).orElse (fun _ => s.rch target)
  let s1 := Tree.bind_replace s lch target (s.par target)
  let s2 :=
    if target ≠ node then
      let a := Tree.bind_left s1 (s1.lch node) (some target)
      let b := Tree.bind_right a (a.rch node) (some target)
      let c := Tree.bind_replace b (some target) node (b.par node)
      c.setColor target (c.color node)
    else s1
  let s3 := Tree.clean_up s2 node
  if some node ≠ root then (s3, root)
  else if target ≠ node then (s3, some target)
  else
    match lch with
    | some l => (s3.setColor l 1, some l)
    | none => (s3, none)

/-- `remove(node, root, lmax_cache)` of `tree.js`. -/
def Tree.remove (fuel : Nat) (s : Store α) (node : α) (root lmax_cache : Option α) :
    Option (Store α × Option α) :=
  match Tree.get_target fuel s node lmax_cache with
  | none => none
  | some target => some (Tree.move_target s target node root)

/-- How the first loop of `rb_remove` ends: by `return move_target(...)`, or
by `break` with the current `lp` and `la`. -/
inductive Tree.RemLoop (α : Type) where
  | ret (s : Store α) : Tree.RemLoop α
  | brk (s : Store α) (lp la : α) : Tree.RemLoop α

/-- A child slot that is `null` or holds a black node:
`!x || x._lt_color`. -/
def Tree.nullOrBlack (s : Store α) (x : Option α) : Bool :=
  match x with
  | none => true
  | some c => decide (s.color c ≠ 0)

/-- The recolouring loop of `rb_remove`. -/
def Tree.rb_remove_loop : Nat → Store α → α → Option (Tree.RemLoop α)
  | 0, _, _ => none
  | fuel + 1, s, lch =>
    match s.par lch with
    | some lp =>
      let la := if s.rch lp ≠ some lch then s.rch lp else s.lch lp
      if s.color lp ≠ 0 then
        match la with
        | none => none
        | some a =>
          if s.color a ≠ 0 ∧ Tree.nullOrBlack s (s.lch a) = true ∧
              Tree.nullOrBlack s (s.rch a) = true then
            Tree.rb_remove_loop fuel (s.setColor a 0) lp
          else some (.brk s lp a)
      else
        match la with
        | none => none
        | some a => some (.brk s lp a)
    | none => some (.ret s)

/-- A child slot that holds a red node: `x && !x._lt_color`. -/
def Tree.isRed (s : Store α) (x : Option α) : Bool :=
  match x with
  | none => false
  | some c => decide (s.color c = 0)

/-- The code of `rb_remove` after the loop for a red sibling `la`: recolouring
and one rotation; the updated fields, the updated `root` and the new `la`. -/
def Tree.rb_remove_fix1 (s : Store α) (root : Option α) (lp la : α) :
    Option (Store α × Option α × Option α) :=
  if s.color la = 0 then
    let s1 := (s.setColor la 1).setColor lp 0
    let root1 := if some lp = root then some la else root
    if s1.rch lp = some la then
      (Tree.rotate_left s1 lp).map (fun s2 => (s2, root1, s2.rch lp))
    else
      (Tree.rotate_right s1 lp).map (fun s2 => (s2, root1, s2.lch lp))
  else some (s, root, some la)

/-- The code of `rb_remove` from `lch = null` up to the last call of
`move_target`: the rotations for a red nephew, or the recolouring of `la`. -/
def Tree.rb_remove_fix2 (s2 : Store α) (root2 : Option α) (lp la2 : α) :
    Option (Store α × Option α) :=
  let p2 : Option (Store α × Option α) :=
    if s2.rch lp = some la2 then
      if Tree.isRed s2 (s2.rch la2) then
        match s2.rch la2 with
        | some c => (Tree.rotate_left (s2.setColor c 1) lp).map (fun s3 => (s3, some la2))
        | none => none
      else if Tree.isRed s2 (s2.lch la2) then
        (Tree.rotate_right_left s2 la2).map (fun s3 => (s3, s2.lch la2))
      else some (s2, none)
    else
      if Tree.isRed s2 (s2.lch la2) then
        match s2.lch la2 with
        | some c => (Tree.rotate_right (s2.setColor c 1) lp).map (fun s3 => (s3, some la2))
        | none => none
      else if Tree.isRed s2 (s2.rch la2) then
        (Tree.rotate_left_right s2 la2).map (fun s3 => (s3, s2.rch la2))
      else some (s2, none)
  match p2 with
  | none => none
  | some (s3, some l) =>
    some ((s3.setColor l (s3.color lp)).setColor lp 1, if some lp = root2 then some l else root2)
  | some (s3, none) => some ((s3.setColor la2 0).setColor lp 1, root2)

/-- The part of `rb_remove` after the loop, up to the last call of
`move_target`: the updated fields and the updated `root`. -/
def Tree.rb_remove_fix (s : Store α) (root : Option α) (lp la : α) :
    Option (Store α × Option α) :=
  match Tree.rb_remove_fix1 s root lp la with
  | some (s2, root2, some la2) => Tree.rb_remove_fix2 s2 root2 lp la2
  | _ => none

/-- The end of `rb_remove` after its loop, up to the call of `move_target`:
nothing more after the `return` inside the loop, the rotations after `break`. -/
def Tree.RemLoop.finish (root : Option α) : Tree.RemLoop α → Option (Store α × Option α)
  | .ret s => some (s, root)
  | .brk s lp la => Tree.rb_remove_fix s root lp la

/-- `rb_remove(node, root, lmax_cache)`: the updated fields and the returned
root (`none` is the strict `null`). -/
def Tree.rb_remove (fuel : Nat) (s : Store α) (node : α) (root lmax_cache : Option α) :
    Option (Store α × Option α) :=
  match Tree.get_target fuel s node lmax_cache with
  | none => none
  | some target =>
    if s.color target ≠ 0 then
      match (s.lch target).orElse (fun _ => s.rch target) with
      | some lch => some (Tree.move_target (s.setColor lch 1) target node root)
      | none =>
        match Tree.rb_remove_loop fuel s target with
        | none => none
        | some o =>
          match o.finish root with
          | none => none
          | some (s2, root2) => some (Tree.move_target s2 target node root2)
    else some (Tree.move_target s target node root)

/-- `init(node)` of `tree.js`. -/
def Tree.init (s : Store α) (node : α) : Store α := s.setColor node 1

/-- `not_in_tree(node)`: `!(node._lt_par ?? node._lt_color)`. -/
def Tree.not_in_tree (s : Store α) (node : α) : Bool :=
  match s.par node with
  | some _ => false
  | none => decide (s.color node = 0)

/-! ## `src/struct/c-list.js` -/

/-- The class `TreeList`: the fields of the nodes, `tRoot`, the sentinel
`lHead` and `ln`. -/
structure TreeList (α : Type) where
  store : Store α
  tRoot : Option α
  lHead : α
  ln : Int

/-- The constructor `new TreeList(prior)`; `head` is the fresh sentinel
object. -/
def TreeList.new (s : Store α) (head : α) : TreeList α :=
  { store := Link.init (Link.init_node (Tree.init_node s head) head) head,
    tRoot := none, lHead := head, ln := 0 }

/-- `TreeList.initNode(node)`. -/
def TreeList.initNode (s : Store α) (node : α) : Store α :=
  Link.init_node (Tree.init_node s node) node

/-- The list splice of the method `add`, after `rb_add`. -/
def TreeList.add_link (s : Store α) (node : α) : Option (Store α) :=
  match s.rch node with
  | some r => Link.insert_before s node r
  | none =>
    match s.par node with
    | none => none
    | some lp =>
      if s.rch lp = some node then Link.insert_after s node lp
      else Link.insert_before s node lp

/-- The method `add(node)`. -/
def TreeList.add (prior : α → α → Bool) (fuel : Nat) (L : TreeList α) (node : α) :
    Option (TreeList α) :=
  match L.tRoot with
  | some root =>
    match Tree.rb_add prior fuel L.store node root with
    | none => none
    | some (s1, root1) =>
      (TreeList.add_link s1 node).map
        (fun s2 => { L with store := s2, tRoot := some root1, ln := L.ln + 1 })
  | none =>
    (Link.insert_after (Tree.init L.store node) node L.lHead).map
      (fun s2 => { L with store := s2, tRoot := some node, ln := L.ln + 1 })

/-- The method `remove(node)`. -/
def TreeList.remove (fuel : Nat) (L : TreeList α) (node : α) : Option (TreeList α) :=
  match Tree.rb_remove fuel L.store node L.tRoot (L.store.prev node) with
  | none => none
  | some (s1, root1) =>
    (Link.remove s1 node).map (fun s2 => { L with store := s2, tRoot := root1, ln := L.ln - 1 })

/-- The list walk of `forEach` with an operator that never breaks, and of the
iterator: the nodes visited, in order. -/
def TreeList.walk (s : Store α) (head : α) : Nat → Option α → Option (List α)
  | 0, _ => none
  | fuel + 1, cur =>
    if cur ≠ some head then
      match cur with
      | none => none
      | some c => (TreeList.walk s head fuel (s.next c)).map (fun r => c :: r)
    else some []

/-- The forward traversal of the list. -/
def TreeList.toList (fuel : Nat) (L : TreeList α) : Option (List α) :=
  TreeList.walk L.store L.lHead fuel (L.store.next L.lHead)

/-- The method `first()`. -/
def TreeList.first (L : TreeList α) : Option α :=
  if L.store.next L.lHead ≠ some L.lHead then L.store.next L.lHead else none

/-- The getter `size`. -/
def TreeList.size (L : TreeList α) : Int := L.ln

/-- The tree descent of `has` and `uniHas`. -/
def TreeList.descend (prior : α → α → Bool) (s : Store α) (node : α) :
    Nat → Option α → Option Bool
  | 0, _ => none
  | _ + 1, none => some false
  | fuel + 1, some cur =>
    if cur = node then some true
    else TreeList.descend prior s node fuel (if prior node cur then s.lch cur else s.rch cur)

/-- The list scan of `has`. -/
def TreeList.scan (s : Store α) (head node : α) : Nat → Option α → Option Bool
  | 0, _ => none
  | fuel + 1, cur =>
    if cur ≠ some head then
      if cur = some node then some true
      else
        match cur with
        | none => none
        | some c => TreeList.scan s head node fuel (s.next c)
    else some false

/-- The method `has(node)`. -/
def TreeList.has (prior : α → α → Bool) (fuel : Nat) (L : TreeList α) (node : α) : Option Bool :=
  if Link.not_in_list L.store node || Tree.not_in_tree L.store node then some false
  else
    match TreeList.descend prior L.store node fuel L.tRoot with
    | none => none
    | some true => some true
    | some false => TreeList.scan L.store L.lHead node fuel (L.store.next L.lHead)

/-- The method `uniHas(node)`. -/
def TreeList.uniHas (prior : α → α → Bool) (fuel : Nat) (L : TreeList α) (node : α) :
    Option Bool :=
  if Link.not_in_list L.store node || Tree.not_in_tree L.store node then some false
  else TreeList.descend prior L.store node fuel L.tRoot

/-- The method `canHave(node)`. -/
def TreeList.canHave (L : TreeList α) (node : α) : Bool :=
  Link.not_in_list L.store node && Tree.not_in_tree L.store node

/-! ## Trees and lists held in the node fields -/

/-- A binary tree of nodes with colours (`true` is black). -/
inductive RBT (α : Type) where
  | nil : RBT α
  | node (c : Bool) (l : RBT α) (x : α) (r : RBT α) : RBT α

/-- The root node of a tree, `none` for the empty tree. -/
def RBT.root : RBT α → Option α
  | .nil => none
  | .node _ _ x _ => some x

/-- The in-order traversal: left subtree, node, right subtree. -/
def RBT.toList : RBT α → List α
  | .nil => []
  | .node _ l x r => l.toList ++ x :: r.toList

/-- The root is black, or the tree is empty. -/
def RBT.blackRoot : RBT α → Bool
  | .nil => true
  | .node c _ _ _ => c

/-- The number of black nodes on the leftmost path. -/
def RBT.bh : RBT α → Nat
  | .nil => 0
  | .node c l _ _ => l.bh + (if c then 1 else 0)

/-- Every path from a node to a `null` child has the same number of black
nodes. -/
def RBT.Bal : RBT α → Prop
  | .nil => True
  | .node _ l _ r => l.bh = r.bh ∧ l.Bal ∧ r.Bal

/-- No red node has a red child. -/
def RBT.NRR : RBT α → Prop
  | .nil => True
  | .node c l _ r => (c = false → l.blackRoot = true ∧ r.blackRoot = true) ∧ l.NRR ∧ r.NRR

/-- A valid red-black tree: black root, no red node with a red child, equal
black height on all paths. -/
structure RBT.Valid (t : RBT α) : Prop where
  black : t.blackRoot = true
  nrr : t.NRR
  bal : t.Bal

/-- The node fields hold the tree `t` below the parent `p`: parent and child
links are mutually consistent and the colours are those of `t`. -/
def Repr (s : Store α) : RBT α → Option α → Prop
  | .nil, _ => True
  | .node c l x r, p =>
    s.par x = p ∧ s.lch x = l.root ∧ s.rch x = r.root ∧ decide (s.color x ≠ 0) = c ∧
      Repr s l (some x) ∧ Repr s r (some x)

/-- The node fields link `a`, the nodes of the list, and `b` in this order,
forward by `_l_next` and backward by `_l_prev`. -/
def Chain (s : Store α) : α → List α → α → Prop
  | a, [], b => s.next a = some b ∧ s.prev b = some a
  | a, x :: xs, b => s.next a = some x ∧ s.prev x = some a ∧ Chain s x xs b

/-- The list and tree of `L` hold exactly the tree `t`: a valid red-black tree
rooted at `tRoot` with consistent links, whose in-order traversal is the
circular list around the sentinel, sorted by `prior`, with `ln` its length. -/
structure TreeList.Models (prior : α → α → Bool) (L : TreeList α) (t : RBT α) : Prop where
  repr : Repr L.store t none
  root : t.root = L.tRoot
  nodup : t.toList.Nodup
  rb : t.Valid
  chain : Chain L.store L.lHead t.toList L.lHead
  head : L.lHead ∉ t.toList
  size : L.ln = t.toList.length
  sorted : t.toList.Pairwise (fun a b => prior b a = false)

/-- A valid `TreeList`. -/
def TreeList.Valid (prior : α → α → Bool) (L : TreeList α) : Prop :=
  ∃ t, L.Models prior t

/-! ## Tree contexts -/

/-- One step of a path from a subtree up to the root: the subtree is the left
child (`L`) or the right child (`R`) of the node `x`, whose colour and other
subtree the frame records. -/
inductive Frame (α : Type) where
  | L (c : Bool) (x : α) (r : RBT α) : Frame α
  | R (c : Bool) (l : RBT α) (x : α) : Frame α

/-- The node of a frame. -/
def Frame.node : Frame α → α
  | .L _ x _ => x
  | .R _ _ x => x

/-- The colour of the node of a frame. -/
def Frame.color : Frame α → Bool
  | .L c _ _ => c
  | .R c _ _ => c

/-- The other subtree of the node of a frame. -/
def Frame.sib : Frame α → RBT α
  | .L _ _ r => r
  | .R _ l _ => l

/-- The tree obtained by putting `u` below the frames, innermost frame first. -/
def plug : RBT α → List (Frame α) → RBT α
  | u, [] => u
  | u, .L c x r :: rest => plug (.node c u x r) rest
  | u, .R c l x :: rest => plug (.node c l x u) rest

/-- The parent of the subtree below the frames. -/
def ctxPar : List (Frame α) → Option α
  | [] => none
  | f :: _ => some f.node

/-- The nodes of the frames that come before the subtree in order. -/
def ctxLeft : List (Frame α) → List α
  | [] => []
  | .L _ _ _ :: rest => ctxLeft rest
  | .R _ l x :: rest => ctxLeft rest ++ (l.toList ++ [x])

/-- The nodes of the frames that come after the subtree in order. -/
def ctxRight : List (Frame α) → List α
  | [] => []
  | .L _ x r :: rest => x :: r.toList ++ ctxRight rest
  | .R _ _ _ :: rest => ctxRight rest

/-- The node fields hold the frames around a subtree with root pointer `h`. -/
def ReprCtx (s : Store α) : List (Frame α) → Option α → Prop
  | [], _ => True
  | .L c x r :: rest, h =>
    s.par x = ctxPar rest ∧ s.lch x = h ∧ s.rch x = r.root ∧ decide (s.color x ≠ 0) = c ∧
      Repr s r (some x) ∧ ReprCtx s rest (some x)
  | .R c l x :: rest, h =>
    s.par x = ctxPar rest ∧ s.lch x = l.root ∧ s.rch x = h ∧ decide (s.color x ≠ 0) = c ∧
      Repr s l (some x) ∧ ReprCtx s rest (some x)

/-- The root of the tree around a subtree with root pointer `h`. -/
def ctxRoot : List (Frame α) → Option α → Option α
  | [], h => h
  | f :: rest, _ => ctxRoot rest (some f.node)

/-- The node `x`, its subtrees and the frames around it share no node. -/
structure Sep (ctx : List (Frame α)) (l : RBT α) (x : α) (r : RBT α) : Prop where
  l_nd : l.toList.Nodup
  r_nd : r.toList.Nodup
  c_nd : (ctxLeft ctx ++ ctxRight ctx).Nodup
  x_l : x ∉ l.toList
  x_r : x ∉ r.toList
  x_c : x ∉ ctxLeft ctx ++ ctxRight ctx
  l_r : ∀ y, y ∈ l.toList → y ∉ r.toList
  l_c : ∀ y, y ∈ l.toList → y ∉ ctxLeft ctx ++ ctxRight ctx
  r_c : ∀ y, y ∈ r.toList → y ∉ ctxLeft ctx ++ ctxRight ctx

/-- Whether the frame has the subtree as left child. -/
def Frame.isL : Frame α → Bool
  | .L _ _ _ => true
  | .R _ _ _ => false

/-- The frames from the place where `add` attaches `n` up to the root of `t`;
`acc` holds the frames above `t`. -/
def RBT.insPath (prior : α → α → Bool) (n : α) : RBT α → List (Frame α) → List (Frame α)
  | .nil, acc => acc
  | .node c l x r, acc =>
    if prior n x then RBT.insPath prior n l (.L c x r :: acc)
    else RBT.insPath prior n r (.R c l x :: acc)

/-- The subtree at the node of a frame, with colour `c`, the subtree `u` on
the side of the hole and `sib` on the other side. -/
def Frame.fillSib (f : Frame α) (c : Bool) (u sib : RBT α) : RBT α :=
  match f with
  | .L _ x _ => .node c u x sib
  | .R _ _ x => .node c sib x u

/-- The subtree at the node of a frame, with colour `c` and the subtree `u`
on the side of the hole. -/
def Frame.fill (f : Frame α) (c : Bool) (u : RBT α) : RBT α := f.fillSib c u f.sib

/-- The rotation at the end of `rb_add`, on the subtree `u` of the current
node, its parent frame `f1` and grandparent frame `f2`: the grandparent turns
red and the new top of the three turns black. -/
def insRot (u : RBT α) (f1 f2 : Frame α) : Option (RBT α) :=
  match f2, f1, u with
  | .R _ sib lpp, .R _ a lp, u => some (.node true (.node false sib lpp a) lp u)
  | .R _ sib lpp, .L c1 lp b, .node _ ul n ur =>
    some (.node true (.node false sib lpp ul) n (.node c1 ur lp b))
  | .L _ lpp sib, .R c1 a lp, .node _ ul n ur =>
    some (.node true (.node c1 a lp ul) n (.node false ur lpp sib))
  | .L _ lpp sib, .L _ lp b, u => some (.node true u lp (.node false b lpp sib))
  | _, _, _ => none

/-- The loop and rotation of `rb_add` on trees: `u` is the subtree of the
current node and the list holds the frames above it. -/
def insFix (u : RBT α) : List (Frame α) → Option (RBT α)
  | [] => none
  | [f1] => if f1.color then some (plug u [f1]) else none
  | f1 :: f2 :: rest2 =>
    if f1.color then some (plug u (f1 :: f2 :: rest2))
    else
      match f2.sib with
      | .node false a la b =>
        if rest2.isEmpty then some (f2.fillSib f2.color (f1.fill true u) (.node true a la b))
        else insFix (f2.fillSib false (f1.fill true u) (.node true a la b)) rest2
      | _ => (insRot u f1 f2).map (fun v => plug v rest2)

/-- The frames are those of a valid red-black tree around a subtree of black
height `k` whose root is black (or absent) when `hb` holds. -/
def CtxInv : List (Frame α) → Nat → Bool → Prop
  | [], _, hb => hb = true
  | f :: rest, k, hb =>
    f.sib.Bal ∧ f.sib.NRR ∧ f.sib.bh = k ∧ (f.color = false → hb = true ∧ f.sib.blackRoot = true) ∧
      CtxInv rest (k + if f.color then 1 else 0) f.color

/-- A store with the single black node `1` as a tree; every other node is
free. -/
def rbDemoStore : Store Nat :=
  ⟨fun _ => none, fun _ => none, fun _ => none, fun _ => none, fun _ => none,
    fun x => if x = 1 then 1 else 0⟩

/-- The place of a freshly added node `n` in the tree after `rb_add`: `n` is a
leaf, or its right child has no left child. -/
def InsShape (n : α) (t : RBT α) : Prop :=
  ∃ ctx c l r, t = plug (.node c l n r) ctx ∧
    ((l = .nil ∧ r = .nil) ∨ ∃ c2 x r2, r = .node c2 .nil x r2)

/-- A node that is in no structure: all links `null`, colour red. -/
def Store.Free (s : Store α) (n : α) : Prop :=
  s.prev n = none ∧ s.next n = none ∧ s.par n = none ∧ s.lch n = none ∧ s.rch n = none ∧
    s.color n = 0

/-- The rotations and recolourings at the end of `rb_remove`, on the frame
`f` of `lp` and the frames above it, when the sibling is black: the new frames
around the subtree that lacks one black node. -/
def remRot (f : Frame α) (rest : List (Frame α)) : Option (List (Frame α)) :=
  match f with
  | .L cp lp (.node cb bl b br) =>
    match br with
    | .node false brl x brr => some (.L true lp bl :: .L cp b (.node true brl x brr) :: rest)
    | _ =>
      match bl with
      | .node false bll y blr => some (.L true lp bll :: .L cp y (.node cb blr b br) :: rest)
      | _ => some (.L true lp (.node false bl b br) :: rest)
  | .R cp (.node cb bl b br) lp =>
    match bl with
    | .node false bll x blr => some (.R true br lp :: .R cp (.node true bll x blr) b :: rest)
    | _ =>
      match br with
      | .node false brl y brr => some (.R true brr lp :: .R cp (.node cb bl b brl) y :: rest)
      | _ => some (.R true (.node false bl b br) lp :: rest)
  | _ => none

/-- The loop of `rb_remove` and the code after it, on the frames around the
subtree that lacks one black node: the new frames. -/
def remFix : List (Frame α) → Option (List (Frame α))
  | [] => some []
  | .L cp lp (.node ca al a ar) :: rest =>
    if cp && ca && al.blackRoot && ar.blackRoot then
      (remFix rest).map (fun out => .L true lp (.node false al a ar) :: out)
    else if ca then remRot (.L cp lp (.node ca al a ar)) rest
    else remRot (.L false lp al) (.L true a ar :: rest)
  | .R cp (.node ca al a ar) lp :: rest =>
    if cp && ca && al.blackRoot && ar.blackRoot then
      (remFix rest).map (fun out => .R true (.node false al a ar) lp :: out)
    else if ca then remRot (.R cp (.node ca al a ar) lp) rest
    else remRot (.R false ar lp) (.R true al a :: rest)
  | _ => none

/-- A store holding the tree with black root `2`, red left child `1` and red
right child `3`. -/
def rbDemoStore3 : Store Nat :=
  ⟨fun _ => none, fun _ => none,
    fun x => if x = 1 then some 2 else if x = 3 then some 2 else none,
    fun x => if x = 2 then some 1 else none,
    fun x => if x = 2 then some 3 else none,
    fun x => if x = 2 then 1 else 0⟩

/-- The in-order traversal of the specification, read from the node fields:
the left subtree, the node, the right subtree, starting at `cur`. -/
def specInorder (s : Store α) : Nat → Option α → Option (List α)
  | 0, _ => none
  | _ + 1, none => some []
  | fuel + 1, some x =>
    match specInorder s fuel (s.lch x), specInorder s fuel (s.rch x) with
    | some a, some b => some (a ++ x :: b)
    | _, _ => none

/-- The lists reached from `new TreeList(prior)` by calls of `add` on a node in
no structure and of `remove` on a member. The second index lists the members
in the order of their most recent `add`. -/
inductive TreeList.Reach (prior : α → α → Bool) : TreeList α → List α → Prop
  | new (s : Store α) (head : α) : TreeList.Reach prior (TreeList.new s head) []
  | add (fuel : Nat) (L L' : TreeList α) (n : α) (hist : List α) :
      TreeList.Reach prior L hist → L.store.Free n → L.add prior fuel n = some L' →
      TreeList.Reach prior L' (hist ++ [n])
  | remove (fuel : Nat) (L L' : TreeList α) (n : α) (hist : List α) :
      TreeList.Reach prior L hist → n ∈ hist → L.remove fuel n = some L' →
      TreeList.Reach prior L' (hist.erase n)

/-- The order of two members `a`, `b` of a list whose members were last added
in the order `hist`: `a` is prior to `b`, or neither is prior to the other and
the most recent `add` of `a` came before that of `b`. -/
def TieOrder (prior : α → α → Bool) (hist : List α) (a b : α) : Prop :=
  prior a b = true ∨ (prior a b = false ∧ prior b a = false ∧ List.Sublist [a, b] hist)

/-- The invariant of the reached lists: the list is valid, its nodes are the
members, and the traversal follows `TieOrder`. -/
structure TreeList.Inv (prior : α → α → Bool) (L : TreeList α) (hist : List α) (t : RBT α) :
    Prop where
  models : L.Models prior t
  mem : ∀ x, x ∈ hist ↔ x ∈ t.toList
  nodup : hist.Nodup
  ties : t.toList.Pairwise (TieOrder prior hist)

instance Store.Free.decidable (s : Store α) (n : α) : Decidable (s.Free n) := by
  unfold Store.Free
  exact inferInstance

/-- A node with a value, as made by `makeNode(val)`; `id` tells apart nodes of
equal value. -/
structure ValNode where
  val : Nat
  id : Nat

instance ValNode.decEq : DecidableEq ValNode := fun a b =>
  decidable_of_iff (a.val = b.val ∧ a.id = b.id) (by cases a; cases b; simp)

/-- The node of value `v` and identity `i`. -/
def vn (v i : Nat) : ValNode := ⟨v, i⟩

/-- The comparator "lower value is prior": `a.val < b.val`. -/
def valPrior (a b : ValNode) : Bool := decide (a.val < b.val)

/-- Fields in which every node is in no structure. -/
def emptyStore : Store (ValNode) :=
  ⟨fun _ => none, fun _ => none, fun _ => none, fun _ => none, fun _ => none, fun _ => 0⟩

/-- The calls `add(n)` for the nodes `n` of a list, in order. -/
def TreeList.addAll (prior : α → α → Bool) (fuel : Nat) :
    TreeList α → List α → Option (TreeList α)
  | L, [] => some L
  | L, n :: ns =>
    match L.add prior fuel n with
    | none => none
    | some L' => TreeList.addAll prior fuel L' ns

/-- A new list under "lower value is prior", with sentinel `vn 0 0`. -/
def tlDemo0 : TreeList ValNode := TreeList.new emptyStore (vn 0 0)

/-- The list `tlDemo0` after `add` of the node of value 5. -/
def tlDemo1 : TreeList ValNode := (tlDemo0.add valPrior 10 (vn 5 1)).getD tlDemo0

/-- Then after `add` of the first node of value 3. -/
def tlDemo2 : TreeList ValNode := (tlDemo1.add valPrior 10 (vn 3 2)).getD tlDemo0

/-- Then after `add` of the node of value 8. -/
def tlDemo3 : TreeList ValNode := (tlDemo2.add valPrior 10 (vn 8 3)).getD tlDemo0

/-- Then after `add` of the node of value 1. -/
def tlDemo4 : TreeList ValNode := (tlDemo3.add valPrior 10 (vn 1 4)).getD tlDemo0

/-- Then after `add` of the second node of value 3. -/
def tlDemo5 : TreeList ValNode := (tlDemo4.add valPrior 10 (vn 3 5)).getD tlDemo0

/-- Then after `remove` of the first node of value 3. -/
def tlDemo6 : TreeList ValNode := (tlDemo5.remove 10 (vn 3 2)).getD tlDemo0

/-- Then after `add` of the first node of value 3 again. -/
def tlDemo7 : TreeList ValNode := (tlDemo6.add valPrior 10 (vn 3 2)).getD tlDemo0

/-- The queue `heapDemo` after four calls of `dequeue()`: an emptied queue. -/
def heapDrained : HeapQueue Nat :=
  ((heapDemo.dequeueN priorLt 20 4).map (fun r => r.1)).getD heapDemo

/-- The member nodes of a queue: the nodes of the slots `arr[0..ln)`, in
slot order. -/
def HeapQueue.members (q : HeapQueue α) : List α :=
  (List.range q.ln.toNat).filterMap (fun k : Nat => q.mem.arr (k : Int))

/-- The array objects of a program state, by identity: the elements and the
`length` of each array, and the identity that the next new array gets. -/
structure ArrObjs (α : Type) where
  elems : Nat → Int → Option α
  length : Nat → Nat
  fresh : Nat

/-- The expression `[...arr]` on the array object `a`: a new array with the
elements of `a` below its length; the updated objects and the new identity. -/
def ArrObjs.spread (o : ArrObjs α) (a : Nat) : ArrObjs α × Nat :=
  ({ elems := Function.update o.elems o.fresh
       (fun i => if 0 ≤ i ∧ i < (o.length a : Int) then o.elems a i else none),
     length := Function.update o.length o.fresh (o.length a),
     fresh := o.fresh + 1 }, o.fresh)

/-- The expression `[]`: a new empty array. -/
def ArrObjs.empty (o : ArrObjs α) : ArrObjs α × Nat :=
  ({ elems := Function.update o.elems o.fresh (fun _ => none),
     length := Function.update o.length o.fresh 0,
     fresh := o.fresh + 1 }, o.fresh)

/-- The constructor `new HeapQueue(prior, arr)` on array objects: `arr` is the
identity of the caller's array (`none` for an absent `arr`).  The result is
the array objects after the call, the identity of `this.arr`, and the queue
(the elements of `this.arr` with the `_lh_idx` fields, and `ln`). -/
def HeapQueue.construct (prior : α → α → Bool) (fuel : Nat) (idx : α → Option Int)
    (o : ArrObjs α) (arr : Option Nat) : Option (ArrObjs α × Nat × HeapQueue α) :=
  match arr with
  | some a =>
    if o.length a ≠ 0 then
      let o1 := (o.spread a).1
      let c := (o.spread a).2
      match heapify prior fuel { arr := o1.elems c, idx := idx } (o1.length c) with
      | none => none
      | some m =>
        some ({ o1 with elems := Function.update o1.elems c m.arr }, c,
          { mem := m, ln := o1.length c })
    else
      let o1 := o.empty.1
      let c := o.empty.2
      some (o1, c, { mem := { arr := o1.elems c, idx := idx }, ln := o1.length c })
  | none =>
    let o1 := o.empty.1
    let c := o.empty.2
    some (o1, c, { mem := { arr := o1.elems c, idx := idx }, ln := o1.length c })

/-- The queues reached from the empty queue `new HeapQueue(prior)` by calls of
`enqueue` on a non-member below the size bound, of `dequeue` on a non-empty
queue and of `remove` on a member, with the number of calls of `enqueue` and
the number of calls of `dequeue` and `remove`. -/
inductive HeapQueue.Run (prior : α → α → Bool) : HeapQueue α → Nat → Nat → Prop
  | new (fuel : Nat) (idx : α → Option Int) (q : HeapQueue α) :
      HeapQueue.new prior fuel idx [] = some q → HeapQueue.Run prior q 0 0
  | enqueue (fuel : Nat) (q q' : HeapQueue α) (n : α) (a d : Nat) :
      HeapQueue.Run prior q a d → ¬ HMem q.mem q.ln n → q.ln < 1073741824 →
      q.enqueue prior fuel n = some q' → HeapQueue.Run prior q' (a + 1) d
  | dequeue (fuel : Nat) (q q' : HeapQueue α) (r : Option α) (a d : Nat) :
      HeapQueue.Run prior q a d → 0 < q.ln →
      q.dequeue prior fuel = some (q', r) → HeapQueue.Run prior q' a (d + 1)
  | remove (fuel : Nat) (q q' : HeapQueue α) (n : α) (a d : Nat) :
      HeapQueue.Run prior q a d → HMem q.mem q.ln n →
      q.remove prior fuel n = some q' → HeapQueue.Run prior q' a (d + 1)

/-- The lists reached from `new TreeList(prior)` by calls of `add` on a node in
no structure and of `remove` on a member, with the members in the order of
their most recent `add`, the number of calls of `add` and the number of calls
of `remove`. -/
inductive TreeList.Run (prior : α → α → Bool) : TreeList α → List α → Nat → Nat → Prop
  | new (s : Store α) (head : α) : TreeList.Run prior (TreeList.new s head) [] 0 0
  | add (fuel : Nat) (L L' : TreeList α) (n : α) (hist : List α) (a d : Nat) :
      TreeList.Run prior L hist a d → L.store.Free n → L.add prior fuel n = some L' →
      TreeList.Run prior L' (hist ++ [n]) (a + 1) d
  | remove (fuel : Nat) (L L' : TreeList α) (n : α) (hist : List α) (a d : Nat) :
      TreeList.Run prior L hist a d → n ∈ hist → L.remove fuel n = some L' →
      TreeList.Run prior L' (hist.erase n) a (d + 1)

/-- The empty queue `new HeapQueue(prior)` on fresh nodes. -/
def heapRun0 : HeapQueue Nat := (HeapQueue.new priorLt 20 (fun _ => none) []).getD heapEmpty

/-- Then after `enqueue(5)`. -/
def heapRun1 : HeapQueue Nat := (heapRun0.enqueue priorLt 20 5).getD heapEmpty

/-- Then after `enqueue(3)`. -/
def heapRun2 : HeapQueue Nat := (heapRun1.enqueue priorLt 20 3).getD heapEmpty

/-- Then after `dequeue()`. -/
def heapRun3 : HeapQueue Nat := ((heapRun2.dequeue priorLt 20).map (fun r => r.1)).getD heapEmpty

/-- Array objects with the single array `[5, 3, 8, 1]`, of identity 0. -/
def arrDemo : ArrObjs Nat :=
  { elems := fun a => if a = 0 then arrOfList ([5, 3, 8, 1].map some) else fun _ => none,
    length := fun a => if a = 0 then 4 else 0,
    fresh := 1 }

/-- The sequence `xs` with `n` inserted immediately before the first element
`x` with `prior(n, x)`, or at the end if there is none. -/
def insertBeforePrior (prior : α → α → Bool) (n : α) : List α → List α
  | [] => [n]
  | x :: xs => if prior n x then n :: x :: xs else x :: insertBeforePrior prior n xs

/-- The loop of `forEach(operator)`, entered with the value `cur` read from
`_l_next`.  The operator is one that, handed `node`, calls `remove(node)` on
the list or leaves the list as it is: `operator st L node` is its new state,
whether it calls `remove(node)`, and the value it returns (`true` breaks the
loop); `rfuel` is the fuel of `remove`.  The result is the final state of the
operator, the final list, and the calls of the operator in order: the node
handed over, whether it was removed, and the returned value. -/
def TreeList.forEach_loop {σ : Type} (operator : σ → TreeList α → α → σ × Bool × Bool)
    (rfuel : Nat) (head : α) :
    Nat → σ → TreeList α → Option α → Option (σ × TreeList α × List (α × Bool × Bool))
  | 0, _, _, _ => none
  | fuel + 1, st, L, cur =>
    if cur ≠ some head then
      match cur with
      | none => none
      | some node =>
        let next := L.store.next node
        let r := operator st L node
        match (if r.2.1 then L.remove rfuel node else some L) with
        | none => none
        | some L1 =>
          if r.2.2 then some (r.1, L1, [(node, r.2.1, r.2.2)])
          else (TreeList.forEach_loop operator rfuel head fuel r.1 L1 next).map
            (fun out => (out.1, out.2.1, (node, r.2.1, r.2.2) :: out.2.2))
    else some (st, L, [])

/-- The method `forEach(operator)`. -/
def TreeList.forEach {σ : Type} (operator : σ → TreeList α → α → σ × Bool × Bool)
    (rfuel fuel : Nat) (st : σ) (L : TreeList α) :
    Option (σ × TreeList α × List (α × Bool × Bool)) :=
  TreeList.forEach_loop operator rfuel L.lHead fuel st L (L.store.next L.lHead)

/-- The nodes of the calls of the operator that did not remove their node. -/
def keptOf (tr : List (α × Bool × Bool)) : List α :=
  (tr.filter (fun e => !e.2.1)).map (fun e => e.1)

/-- An operator that removes the nodes of value 3 and never breaks the loop. -/
def dropThrees : Unit → TreeList ValNode → ValNode → Unit × Bool × Bool :=
  fun _ _ x => ((), decide (x.val = 3), false)

/-- The calls `prior(a, b)` made by `shift_up(li, prior, arr, i)`, in order:
the two arguments of each call (`none` is an undefined argument). -/
def shift_up_calls (prior : α → α → Bool) (li : α) :
    Nat → HeapMem α → Int → List (Option α × Option α)
  | 0, _, _ => []
  | fuel + 1, m, i =>
    let j := sar1 (i - 1)
    if j ≠ -1 then
      (some li, m.arr j) ::
        (match m.arr j with
        | none => []
        | some aj => if prior li aj then shift_up_calls prior li fuel (m.put i aj) j else [])
    else []

/-- The calls `prior(a, b)` made by `shift_down(li, prior, arr, i, ln)`, in
order: `prior(arr[k], arr[j])` when `k < ln`, then `prior(arr[j], li)`. -/
def shift_down_calls (prior : α → α → Bool) (li : α) (ln : Int) :
    Nat → HeapMem α → Int → List (Option α × Option α)
  | 0, _, _ => []
  | fuel + 1, m, i =>
    let j := shl1 i + 1
    if j < ln then
      (if j + 1 < ln then [(m.arr (j + 1), m.arr j)] else []) ++
        (match shift_down_pick prior ln m j with
        | none => []
        | some j =>
          (m.arr j, some li) ::
            (match m.arr j with
            | none => []
            | some aj =>
              if prior aj li then shift_down_calls prior li ln fuel (m.put i aj) j else []))
    else []

/-- The calls of the comparator made by the `while` loop of `heapify`. -/
def heapify_loop_calls (prior : α → α → Bool) (ln : Int) :
    Nat → HeapMem α → Int → List (Option α × Option α)
  | 0, _, _ => []
  | fuel + 1, m, q =>
    if q ≠ -1 then
      match m.arr q with
      | none => []
      | some x =>
        shift_down_calls prior x ln fuel m q ++
          (match shift_down prior x ln fuel m q with
          | none => []
          | some m1 => heapify_loop_calls prior ln fuel m1 (q - 1))
    else []

/-- The calls of the comparator made by `heapify(prior, arr, ln)`. -/
def heapify_calls (prior : α → α → Bool) (fuel : Nat) (m : HeapMem α) (ln : Int) :
    List (Option α × Option α) :=
  let q := sar1 ln - 1
  match heapify_mark ln fuel m (q + 1) with
  | none => []
  | some m1 => heapify_loop_calls prior ln fuel m1 q

/-- The calls of the comparator made by `enqueue(node, prior, arr, ln)`. -/
def enqueue_calls (prior : α → α → Bool) (fuel : Nat) (node : α) (m : HeapMem α) (ln : Int) :
    List (Option α × Option α) :=
  shift_up_calls prior node fuel m ln

/-- The calls of the comparator made by `dequeue(prior, arr, ln)`. -/
def dequeue_calls (prior : α → α → Bool) (fuel : Nat) (m : HeapMem α) (ln : Int) :
    List (Option α × Option α) :=
  let ln := ln - 1
  match m.arr 0, m.arr ln with
  | some _, some li => shift_down_calls prior li ln fuel m 0
  | _, _ => []

/-- The calls of the comparator made by `remove(node, prior, arr, ln)`:
`prior(node, li)` when `node !== li`, then those of the sift. -/
def remove_calls (prior : α → α → Bool) (fuel : Nat) (node : α) (m : HeapMem α) (ln : Int) :
    List (Option α × Option α) :=
  let ln := ln - 1
  let oi := m.idx node
  let m0 : HeapMem α := { m with idx := Function.update m.idx node (some (-1)) }
  let oli := m0.arr ln
  let m1 : HeapMem α := { m0 with arr := Function.update m0.arr ln none }
  if some node ≠ oli then
    (some node, oli) ::
      (match oli, oi with
      | some li, some i =>
        if prior node li then shift_down_calls prior li ln fuel m1 i
        else shift_up_calls prior li fuel m1 i
      | _, _ => [])
  else []

/-- The calls of the comparator made by the method `enqueue(node)`. -/
def HeapQueue.enqueue_calls (prior : α → α → Bool) (fuel : Nat) (q : HeapQueue α) (node : α) :
    List (Option α × Option α) :=
  Alg.enqueue_calls prior fuel node q.mem q.ln

/-- The calls of the comparator made by the method `dequeue()`. -/
def HeapQueue.dequeue_calls (prior : α → α → Bool) (fuel : Nat) (q : HeapQueue α) :
    List (Option α × Option α) :=
  Alg.dequeue_calls prior fuel q.mem q.ln

/-- The calls of the comparator made by the method `remove(node)`. -/
def HeapQueue.remove_calls (prior : α → α → Bool) (fuel : Nat) (q : HeapQueue α) (node : α) :
    List (Option α × Option α) :=
  Alg.remove_calls prior fuel node q.mem q.ln

/-- The calls of the comparator made by the descent loop of `add`. -/
def Tree.add_descend_calls (prior : α → α → Bool) (s : Store α) (node : α) :
    Nat → α → List (Option α × Option α)
  | 0, _ => []
  | fuel + 1, root =>
    (some node, some root) ::
      (match (if prior node root then s.lch root else s.rch root) with
      | some c => Tree.add_descend_calls prior s node fuel c
      | none => [])

/-- The calls of the comparator made by `rb_add(node, prior, root)`: those of
its call of `add`. -/
def Tree.rb_add_calls (prior : α → α → Bool) (fuel : Nat) (s : Store α) (node root : α) :
    List (Option α × Option α) :=
  Tree.add_descend_calls prior s node fuel root

/-- The calls of the comparator made by the method `add(node)` of `TreeList`. -/
def TreeList.add_calls (prior : α → α → Bool) (fuel : Nat) (L : TreeList α) (node : α) :
    List (Option α × Option α) :=
  match L.tRoot with
  | some root => Tree.rb_add_calls prior fuel L.store node root
  | none => []

/-- The calls of the comparator made by the tree descent of `has` and
`uniHas`. -/
def TreeList.descend_calls (prior : α → α → Bool) (s : Store α) (node : α) :
    Nat → Option α → List (Option α × Option α)
  | 0, _ => []
  | _ + 1, none => []
  | fuel + 1, some cur =>
    if cur = node then []
    else (some node, some cur) ::
      TreeList.descend_calls prior s node fuel (if prior node cur then s.lch cur else s.rch cur)

/-- The calls of the comparator made by the method `has(node)`. -/
def TreeList.has_calls (prior : α → α → Bool) (fuel : Nat) (L : TreeList α) (node : α) :
    List (Option α × Option α) :=
  if Link.not_in_list L.store node || Tree.not_in_tree L.store node then []
  else TreeList.descend_calls prior L.store node fuel L.tRoot

/-- The calls of the comparator made by the method `uniHas(node)`. -/
def TreeList.uniHas_calls (prior : α → α → Bool) (fuel : Nat) (L : TreeList α) (node : α) :
    List (Option α × Option α) :=
  if Link.not_in_list L.store node || Tree.not_in_tree L.store node then []
  else TreeList.descend_calls prior L.store node fuel L.tRoot

/-- Every call of the comparator in the list has two non-null arguments that
are distinct nodes. -/
def CallsOk (cs : List (Option α × Option α)) : Prop :=
  ∀ c, c ∈ cs → ∃ x y, c = (some x, some y) ∧ x ≠ y

/-- The slots below `N` other than the hole `i` hold distinct nodes, none of
them `li`. -/
structure Holed (m : HeapMem α) (N i : Int) (li : α) : Prop where
  nodes : ∀ k, 0 ≤ k → k < N → k ≠ i → ∃ n, m.arr k = some n ∧ n ≠ li
  inj : ∀ k k2 n, 0 ≤ k → k < N → 0 ≤ k2 → k2 < N → k ≠ i → k2 ≠ i →
    m.arr k = some n → m.arr k2 = some n → k = k2

/-- The getter `MAX_SAFE_SIZE`: `2 ** 30`. -/
def HeapQueue.MAX_SAFE_SIZE : Int := 2 ^ 30

/-- The sequence `xs` with `n` placed immediately before `a`, or at the end
when `a` is not in `xs`. -/
def placeBefore (n a : α) : List α → List α
  | [] => [n]
  | x :: xs => if x = a then n :: x :: xs else x :: placeBefore n a xs

/-- The sequence `xs` with `n` placed immediately after `a`. -/
def placeAfter (n a : α) : List α → List α
  | [] => []
  | x :: xs => if x = a then x :: n :: xs else x :: placeAfter n a xs

/-- Every node of the list is linked to its neighbours in both directions:
`x._l_next._l_prev` and `x._l_prev._l_next` are `x`. -/
def Linked (s : Store α) (members : List α) : Prop :=
  ∀ x, x ∈ members →
    (∃ y, s.next x = some y ∧ s.prev y = some x ∧ y ∈ members) ∧
    (∃ p, s.prev x = some p ∧ s.next p = some x ∧ p ∈ members)

/-- A store with the self-linked sentinel `0` alone; the other nodes are
unlinked. -/
def linkDemo0 : Store Nat :=
  Link.init ⟨fun _ => none, fun _ => none, fun _ => none, fun _ => none, fun _ => none,
    fun _ => 0⟩ 0

/-- Then after `insert_before(1, 0)`. -/
def linkDemo1 : Store Nat := (Link.insert_before linkDemo0 1 0).getD linkDemo0

/-- Then after `insert_before(2, 0)`: the cycle 0, 1, 2. -/
def linkDemo2 : Store Nat := (Link.insert_before linkDemo1 2 0).getD linkDemo0

/-- The sift that `remove(node, prior, arr, ln)` runs on `li = arr[ln - 1]`:
`none` when `node === li` (no sift), `some true` for
`shift_down(li, prior, arr, i, ln)` and `some false` for
`shift_up(li, prior, arr, i)`. -/
def remove_sift (prior : α → α → Bool) (node : α) (m : HeapMem α) (ln : Int) : Option Bool :=
  let ln := ln - 1
  let oli := m.arr ln
  if some node ≠ oli then
    match oli with
    | some li => some (prior node li)
    | none => none
  else none

/-- The queue `new HeapQueue(prior, arr)` on the nodes of values 1, 3, 3 under
"lower value is prior": the array is `[1, 3, 3]` in the order of the
identities 1, 2, 3. -/
def tieHeap : HeapQueue ValNode :=
  (HeapQueue.new valPrior 20 (fun _ => none) ([vn 1 1, vn 3 2, vn 3 3].map some)).getD
    ⟨⟨fun _ => none, fun _ => none⟩, 0⟩

/-- The fields `s'` differ from `s` at most in the `_lt_par`, `_lt_lch` and
`_lt_rch` fields of the nodes of `W`: no colour and no list field differs, and
every node outside `W` has its three tree links unchanged. -/
def FrameOutside (s s' : Store α) (W : List α) : Prop :=
  s'.color = s.color ∧ s'.prev = s.prev ∧ s'.next = s.next ∧
    ∀ y, y ∉ W → s'.par y = s.par y ∧ s'.lch y = s.lch y ∧ s'.rch y = s.rch y

/-- The nodes whose links `rotate_right(node)` writes: `node`, its left child
`ll`, the right child of `ll` and the parent of `node`. -/
def rotate_right_writes (s : Store α) (node : α) : List α :=
  match s.lch node with
  | none => []
  | some ll => [node, ll] ++ (s.rch ll).toList ++ (s.par node).toList

/-- The nodes whose links `rotate_left(node)` writes. -/
def rotate_left_writes (s : Store α) (node : α) : List α :=
  match s.rch node with
  | none => []
  | some lr => [node, lr] ++ (s.lch lr).toList ++ (s.par node).toList

/-- The nodes whose links `rotate_right_left(node)` writes: `node`, its left
child `ll`, its parent `lp`, both children of `ll` and the parent of `lp`. -/
def rotate_right_left_writes (s : Store α) (node : α) : List α :=
  match s.lch node, s.par node with
  | some ll, some lp =>
    [node, ll, lp] ++ (s.rch ll).toList ++ (s.lch ll).toList ++ (s.par lp).toList
  | _, _ => []

/-- The nodes whose links `rotate_left_right(node)` writes. -/
def rotate_left_right_writes (s : Store α) (node : α) : List α :=
  match s.rch node, s.par node with
  | some lr, some lp =>
    [node, lr, lp] ++ (s.lch lr).toList ++ (s.rch lr).toList ++ (s.par lp).toList
  | _, _ => []

/-- A store holding the tree with root 1, whose right child 2 has the right
child 3, whose left child 4 has the children 5 and 6; all nodes red. -/
def rotDemo : Store Nat :=
  ⟨fun _ => none, fun _ => none,
    fun x => if x = 2 then some 1 else if x = 3 then some 2 else if x = 4 then some 3
      else if x = 5 then some 4 else if x = 6 then some 4 else none,
    fun x => if x = 3 then some 4 else if x = 4 then some 5 else none,
    fun x => if x = 1 then some 2 else if x = 2 then some 3 else if x = 4 then some 6 else none,
    fun _ => 0⟩

/-- The tree held by `rotDemo`. -/
def rotDemoTree : RBT Nat :=
  .node false .nil 1 (.node false .nil 2
    (.node false (.node false (.node false .nil 5 .nil) 4 (.node false .nil 6 .nil)) 3 .nil))

/-- The list `tlDemo0` after `add` of the nodes of values 1 and 3. -/
def tlTwo : TreeList ValNode :=
  (TreeList.addAll valPrior 10 tlDemo0 [vn 1 1, vn 3 2]).getD tlDemo0

/-! # Theorems -/

/-! ## Lemmas: 32-bit operators and comparators -/

theorem shl1_exact (i : Int) (h0 : 0 ≤ i) (h1 : i < 1073741824) : shl1 i + 1 = 2 * i + 1 := by
  unfold shl1 toInt32; omega

theorem sar1_exact (i : Int) (h0 : -2147483648 ≤ i) (h1 : i < 2147483648) : sar1 i = i / 2 := by
  unfold sar1 toInt32; omega

theorem StrictWeak.asymm {prior : α → α → Bool} (sw : StrictWeak prior) {a b : α}
    (h : prior a b = true) : prior b a = false := by
  by_contra hc
  have hba : prior b a = true := by simpa using hc
  have := sw.trans a b a h hba
  rw [sw.irrefl a] at this
  exact Bool.noConfusion this

theorem StrictWeak.negtrans {prior : α → α → Bool} (sw : StrictWeak prior) {a b c : α}
    (h1 : prior a b = false) (h2 : prior b c = false) : prior a c = false := by
  by_contra hc
  have hac : prior a c = true := by simpa using hc
  have hba : prior b a = false := by
    by_contra hx
    have hx2 : prior b a = true := by simpa using hx
    have := sw.trans b a c hx2 hac
    rw [h2] at this; exact Bool.noConfusion this
  have hcb : prior c b = false := by
    by_contra hx
    have hx2 : prior c b = true := by simpa using hx
    have := sw.trans a c b hac hx2
    rw [h1] at this; exact Bool.noConfusion this
  have := (sw.incomp a b c h1 hba h2 hcb).1
  rw [hac] at this; exact Bool.noConfusion this

theorem strictWeak_priorLt : StrictWeak priorLt := by
  constructor
  · intro a; simp [priorLt]
  · intro a b c; simp only [priorLt, decide_eq_true_eq]; omega
  · intro a b c; simp only [priorLt, decide_eq_false_iff_not]; omega

theorem put_arr (m : HeapMem α) (i k : Int) (x : α) :
    (m.put i x).arr k = if k = i then some x else m.arr k := by
  simp [HeapMem.put, Function.update_apply]

theorem put_idx (m : HeapMem α) (i : Int) (x n : α) :
    (m.put i x).idx n = if n = x then some i else m.idx n := by
  simp [HeapMem.put, Function.update_apply]

/-- Filling the hole directly. -/
theorem fill_post (prior : α → α → Bool) (li : α) (N L i : Int) (m : HeapMem α)
    (hi0 : 0 ≤ i) (hiN : i < N) (hL0 : 0 ≤ L) (hL : L ≤ i)
    (hp : Partial prior m N L i)
    (hli : ∀ k, 0 ≤ k → k < N → k ≠ i → m.arr k ≠ some li)
    (hc : ∀ c y, c < N → (c = 2 * i + 1 ∨ c = 2 * i + 2) → m.arr c = some y → prior y li = false)
    (hpar : ∀ p x, L ≤ p → (i = 2 * p + 1 ∨ i = 2 * p + 2) → m.arr p = some x →
      prior li x = false) :
    SiftPost prior li N L i m (m.put i li) := by
  refine ⟨⟨?_, ?_, ?_, ?_⟩, ?_, ?_, ?_⟩
  · intro k h0 h1 _
    rw [put_arr]; split
    · exact ⟨_, rfl⟩
    · rename_i hk; exact hp.nodes k h0 h1 hk
  · intro k k2 n h0 h1 h2 h3 _ _
    rw [put_arr, put_arr]
    split <;> split
    · intros; omega
    · rename_i hk hk2; intro h h'; cases h; exact absurd h' (hli k2 h2 h3 hk2)
    · rename_i hk hk2; intro h h'; cases h'; exact absurd h (hli k h0 h1 hk)
    · rename_i hk hk2; exact hp.inj k k2 n h0 h1 h2 h3 hk hk2
  · intro k n h0 h1 _
    rw [put_arr, put_idx]
    split
    · rename_i hk; intro h; cases h; simp [hk]
    · rename_i hk; intro h
      have : n ≠ li := by rintro rfl; exact hli k (by omega) h1 hk h
      simp [this]; exact hp.idx k n h0 h1 hk h
  · intro p c x y h0 h1 hpc _ _
    rw [put_arr, put_arr]
    split <;> split
    · omega
    · rename_i hk hk2; intro h h'; cases h; subst hk
      exact hc c y h1 hpc h'
    · rename_i hk hk2; intro h h'; cases h'; subst hk2
      exact hpar p x h0 hpc h
    · rename_i hk hk2; exact hp.ord p c x y h0 h1 hpc hk hk2
  · intro n; constructor
    · rintro ⟨k, h0, h1, h⟩
      rw [put_arr] at h
      split at h
      · left; cases h; rfl
      · rename_i hk; right; exact ⟨k, h0, h1, hk, h⟩
    · rintro (rfl | ⟨k, h0, h1, hk, h⟩)
      · exact ⟨i, hi0, hiN, by simp [put_arr]⟩
      · exact ⟨k, h0, h1, by simp [put_arr, hk, h]⟩
  · intro k hk; rw [put_arr]; split
    · omega
    · rfl
  · intro n hn; rw [put_idx]; split
    · rename_i h; subst h; exact absurd ⟨i, hi0, hiN, by simp [put_arr]⟩ hn
    · rfl

/-- Moving the node of slot `j` into the hole `i` leaves a hole at `j`. -/
theorem move_part (prior : α → α → Bool) (N L i j : Int) (m : HeapMem α) (aj : α)
    (hi0 : 0 ≤ i) (hiN : i < N) (hj0 : 0 ≤ j) (hjN : j < N) (hji : j ≠ i) (hL0 : 0 ≤ L)
    (hp : Partial prior m N L i) (haj : m.arr j = some aj)
    (hc : ∀ c y, c < N → (c = 2 * i + 1 ∨ c = 2 * i + 2) → c ≠ j → m.arr c = some y →
      prior y aj = false)
    (hpar : ∀ p x, L ≤ p → (i = 2 * p + 1 ∨ i = 2 * p + 2) → p ≠ j → m.arr p = some x →
      prior aj x = false) :
    Partial prior (m.put i aj) N L j := by
  have hne : ∀ k n, 0 ≤ k → k < N → k ≠ i → k ≠ j → m.arr k = some n → n ≠ aj := by
    intro k n h0 h1 h2 h3 h hn
    rw [hn] at h
    exact h3 (hp.inj k j aj h0 h1 hj0 hjN h2 hji h haj)
  refine ⟨?_, ?_, ?_, ?_⟩
  · intro k h0 h1 hk
    rw [put_arr]; split
    · exact ⟨_, rfl⟩
    · rename_i hki; exact hp.nodes k h0 h1 hki
  · intro k k2 n h0 h1 h2 h3 hk hk2
    rw [put_arr, put_arr]
    split <;> split
    · intros; omega
    · rename_i hki hk2i; intro h h'
      exact absurd (Option.some.inj h).symm (hne k2 n h2 h3 hk2i hk2 h')
    · rename_i hki hk2i; intro h h'
      exact absurd (Option.some.inj h').symm (hne k n h0 h1 hki hk h)
    · rename_i hki hk2i; exact hp.inj k k2 n h0 h1 h2 h3 hki hk2i
  · intro k n h0 h1 hk
    rw [put_arr, put_idx]
    split
    · rename_i hki; intro h; cases h; simp [hki]
    · rename_i hki; intro h
      have : n ≠ aj := hne k n (by omega) h1 hki hk h
      simp [this]; exact hp.idx k n h0 h1 hki h
  · intro p c x y h0 h1 hpc hp' hc'
    rw [put_arr, put_arr]
    split <;> split
    · omega
    · rename_i hk hk2; intro h h'; cases h; subst hk
      exact hc c y h1 hpc hc' h'
    · rename_i hk hk2; intro h h'; cases h'; subst hk2
      exact hpar p x h0 hpc hp' h
    · rename_i hk hk2; exact hp.ord p c x y h0 h1 hpc hk hk2

/-- A sift that continues from the hole `j` after the node of `j` was moved to
the hole `i` is a sift from the hole `i`. -/
theorem siftPost_move (prior : α → α → Bool) (li : α) (N L i j : Int) (m m' : HeapMem α) (aj : α)
    (hi0 : 0 ≤ i) (hiN : i < N) (hj0 : 0 ≤ j) (hjN : j < N) (hji : j ≠ i)
    (haj : m.arr j = some aj)
    (h : SiftPost prior li N L j (m.put i aj) m') : SiftPost prior li N L i m m' := by
  have hmem : ∀ n, (∃ k, 0 ≤ k ∧ k < N ∧ k ≠ j ∧ (m.put i aj).arr k = some n) ↔
      (∃ k, 0 ≤ k ∧ k < N ∧ k ≠ i ∧ m.arr k = some n) := by
    intro n; constructor
    · rintro ⟨k, h0, h1, hk, hh⟩
      rw [put_arr] at hh
      split at hh
      · cases hh; exact ⟨j, hj0, hjN, hji, haj⟩
      · rename_i hki; exact ⟨k, h0, h1, hki, hh⟩
    · rintro ⟨k, h0, h1, hk, hh⟩
      by_cases hkj : k = j
      · subst hkj
        rw [haj] at hh; cases hh
        exact ⟨i, hi0, hiN, fun e => hji e.symm, by simp [put_arr]⟩
      · exact ⟨k, h0, h1, hkj, by simp [put_arr, hk, hh]⟩
  refine ⟨h.part, ?_, ?_, ?_⟩
  · intro n; rw [h.mem n, hmem n]
  · intro k hk; rw [h.out k hk, put_arr]; split
    · omega
    · rfl
  · intro n hn; rw [h.idxOut n hn, put_idx]; split
    · rename_i hnaj; subst hnaj
      exact absurd ((h.mem n).2 (Or.inr ⟨i, hi0, hiN, fun e => hji e.symm, by simp [put_arr]⟩)) hn
    · rfl

/-- `shift_up` from a hole `i` whose children are not prior to `li` nor to the
parent of `i` returns, with a full heap that holds `li`. -/
theorem shift_up_spec (prior : α → α → Bool) (sw : StrictWeak prior) (li : α) (N : Int)
    (hN : N ≤ 1073741824) :
    ∀ (fuel : Nat) (m : HeapMem α) (i : Int), 0 ≤ i → i < N → i < fuel →
      Partial prior m N 0 i →
      (∀ k, 0 ≤ k → k < N → k ≠ i → m.arr k ≠ some li) →
      (∀ c y, c < N → (c = 2 * i + 1 ∨ c = 2 * i + 2) → m.arr c = some y → prior y li = false) →
      (∀ c y p x, c < N → (c = 2 * i + 1 ∨ c = 2 * i + 2) → 0 ≤ p → (i = 2 * p + 1 ∨ i = 2 * p + 2) →
         m.arr c = some y → m.arr p = some x → prior y x = false) →
      ∃ m', shift_up prior li fuel m i = some m' ∧ SiftPost prior li N 0 i m m' := by
  intro fuel
  induction fuel with
  | zero => intro m i h0 _ hf; simp at hf; omega
  | succ f ih =>
    intro m i hi0 hiN hf hp hli hc hd
    have hj : sar1 (i - 1) = (i - 1) / 2 := sar1_exact _ (by omega) (by omega)
    rw [shift_up]
    simp only [hj]
    by_cases h0 : i = 0
    · subst h0
      refine ⟨m.put 0 li, by simp, ?_⟩
      exact fill_post prior li N 0 0 m hi0 hiN (le_refl _) (le_refl _) hp hli hc
        (by intro p x hp0 hpc; omega)
    · have hjne : (i - 1) / 2 ≠ -1 := by omega
      have hj0 : 0 ≤ (i - 1) / 2 := by omega
      have hjN : (i - 1) / 2 < N := by omega
      have hji : (i - 1) / 2 ≠ i := by omega
      have hpc : i = 2 * ((i - 1) / 2) + 1 ∨ i = 2 * ((i - 1) / 2) + 2 := by omega
      obtain ⟨aj, haj⟩ := hp.nodes _ hj0 hjN hji
      simp only [hjne, ne_eq, not_false_eq_true, if_true, haj]
      by_cases hpr : prior li aj = true
      · simp only [hpr, if_true]
        have hp2 : Partial prior (m.put i aj) N 0 ((i - 1) / 2) :=
          move_part prior N 0 i _ m aj hi0 hiN hj0 hjN hji (le_refl _) hp haj
            (by intro c y h1 h2 _ h3; exact hd c y _ aj h1 h2 hj0 hpc h3 haj)
            (by intro p x h1 h2 h3; omega)
        obtain ⟨m', hm', hpost⟩ := ih (m.put i aj) ((i - 1) / 2) hj0 hjN (by push_cast at hf; omega)
          hp2
          (by
            intro k h1 h2 h3
            rw [put_arr]; split
            · intro h; cases h; exact hli _ hj0 hjN hji haj
            · rename_i hki; exact hli k h1 h2 hki)
          (by
            intro c y h1 h2
            rw [put_arr]; split
            · intro h; cases h; exact sw.asymm hpr
            · rename_i hci; intro h
              have h4 := hp.ord _ c aj y hj0 h1 h2 hji hci haj h
              by_contra hx
              have hx2 : prior y li = true := by simpa using hx
              have := sw.trans _ _ _ hx2 hpr
              rw [h4] at this; exact Bool.noConfusion this)
          (by
            intro c y p x h1 h2 h3 h4
            have hpi : p ≠ i := by omega
            have hpj : p ≠ (i - 1) / 2 := by omega
            rw [put_arr, put_arr, if_neg hpi]; split
            · intro h h'; cases h
              exact hp.ord p _ x _ h3 hjN h4 hpi hji h' haj
            · rename_i hci; intro h h'
              have h5 := hp.ord _ c aj y hj0 h1 h2 hji hci haj h
              have h6 := hp.ord p _ x aj h3 hjN h4 hpi hji h' haj
              exact sw.negtrans h5 h6)
        exact ⟨m', hm', siftPost_move prior li N 0 i _ m m' aj hi0 hiN hj0 hjN hji haj hpost⟩
      · have hpr2 : prior li aj = false := by simpa using hpr
        refine ⟨m.put i li, by simp [hpr2], ?_⟩
        exact fill_post prior li N 0 i m hi0 hiN (le_refl _) hi0 hp hli hc
          (by
            intro p x hp0 hpc2 hx
            have : p = (i - 1) / 2 := by omega
            subst this
            rw [haj] at hx; cases hx; exact hpr2)

/-- `shift_down` from a hole `i` returns, with a heap ordered from `L` on that
holds `li`, when `li` and the children of `i` are not prior to the parent of `i`. -/
theorem shift_down_spec (prior : α → α → Bool) (sw : StrictWeak prior) (li : α) (N L : Int)
    (hN : N ≤ 1073741824) (hL0 : 0 ≤ L) :
    ∀ (fuel : Nat) (m : HeapMem α) (i : Int), L ≤ i → i < N → N - i < fuel →
      Partial prior m N L i →
      (∀ k, 0 ≤ k → k < N → k ≠ i → m.arr k ≠ some li) →
      (∀ p x, L ≤ p → (i = 2 * p + 1 ∨ i = 2 * p + 2) → m.arr p = some x → prior li x = false) →
      (∀ c y p x, c < N → (c = 2 * i + 1 ∨ c = 2 * i + 2) → L ≤ p → (i = 2 * p + 1 ∨ i = 2 * p + 2) →
         m.arr c = some y → m.arr p = some x → prior y x = false) →
      ∃ m', shift_down prior li N fuel m i = some m' ∧ SiftPost prior li N L i m m' := by
  intro fuel
  induction fuel with
  | zero => intro m i h0 h1 hf; simp at hf; omega
  | succ f ih =>
    intro m i hiL hiN hf hp hli hpar hd
    have hi0 : 0 ≤ i := by omega
    have hj : shl1 i + 1 = 2 * i + 1 := shl1_exact i hi0 (by omega)
    have key : ∀ jj ajj, (jj = 2 * i + 1 ∨ jj = 2 * i + 2) → jj < N → m.arr jj = some ajj →
        (∀ c y, c < N → (c = 2 * i + 1 ∨ c = 2 * i + 2) → c ≠ jj → m.arr c = some y →
          prior y ajj = false) →
        ∃ m', (match m.arr jj with
          | none => none
          | some aj => if prior aj li = true then shift_down prior li N f (m.put i aj) jj
              else some (m.put i li)) = some m' ∧ SiftPost prior li N L i m m' := by
      intro jj ajj hjj hjjN hajj hbest
      have hjj0 : 0 ≤ jj := by omega
      have hjji : jj ≠ i := by omega
      simp only [hajj]
      by_cases hpr : prior ajj li = true
      · simp only [hpr, if_true]
        have hp2 : Partial prior (m.put i ajj) N L jj :=
          move_part prior N L i jj m ajj hi0 hiN hjj0 hjjN hjji hL0 hp hajj hbest
            (by intro p x h1 h2 _ h3; exact hd jj ajj p x hjjN hjj h1 h2 hajj h3)
        obtain ⟨m', hm', hpost⟩ := ih (m.put i ajj) jj (by omega) hjjN (by push_cast at hf; omega)
          hp2
          (by
            intro k h1 h2 h3
            rw [put_arr]; split
            · intro h; cases h; exact hli _ hjj0 hjjN hjji hajj
            · rename_i hki; exact hli k h1 h2 hki)
          (by
            intro p x h1 h2
            have : p = i := by omega
            subst this
            rw [put_arr, if_pos rfl]
            intro h; cases h; exact sw.asymm hpr)
          (by
            intro c y p x h1 h2 h3 h4
            have : p = i := by omega
            subst this
            have hcp : c ≠ p := by omega
            rw [put_arr, put_arr, if_pos rfl, if_neg hcp]
            intro h h'; cases h'
            exact hp.ord jj c _ y (by omega) h1 h2 hjji hcp hajj h)
        exact ⟨m', hm', siftPost_move prior li N L i jj m m' ajj hi0 hiN hjj0 hjjN hjji hajj hpost⟩
      · have hpr2 : prior ajj li = false := by simpa using hpr
        refine ⟨m.put i li, by simp [hpr2], ?_⟩
        exact fill_post prior li N L i m hi0 hiN hL0 hiL hp hli
          (by
            intro c y h1 h2 h3
            by_cases hcj : c = jj
            · subst hcj; rw [hajj] at h3; cases h3; exact hpr2
            · exact sw.negtrans (hbest c y h1 h2 hcj h3) hpr2)
          hpar
    rw [shift_down]
    simp only [hj]
    by_cases hjN : 2 * i + 1 < N
    · simp only [hjN, if_true]
      obtain ⟨aj, haj⟩ := hp.nodes (2 * i + 1) (by omega) hjN (by omega)
      by_cases hkN : 2 * i + 1 + 1 < N
      · obtain ⟨ak, hak⟩ := hp.nodes (2 * i + 1 + 1) (by omega) hkN (by omega)
        simp only [shift_down_pick, hkN, if_true, hak, haj]
        by_cases hpr : prior ak aj = true
        · simp only [hpr, if_true]
          exact key (2 * i + 1 + 1) ak (by omega) hkN hak
            (by
              intro c y h1 h2 h3 h4
              have : c = 2 * i + 1 := by omega
              subst this
              rw [haj] at h4; cases h4; exact sw.asymm hpr)
        · have hpr2 : prior ak aj = false := by simpa using hpr
          simp only [hpr2, Bool.false_eq_true, if_false]
          exact key (2 * i + 1) aj (by omega) hjN haj
            (by
              intro c y h1 h2 h3 h4
              have : c = 2 * i + 1 + 1 := by omega
              subst this
              rw [hak] at h4; cases h4; exact hpr2)
      · simp only [shift_down_pick, hkN, if_false]
        exact key (2 * i + 1) aj (by omega) hjN haj
          (by intro c y h1 h2 h3 h4; omega)
    · refine ⟨m.put i li, by simp [hjN], ?_⟩
      exact fill_post prior li N L i m hi0 hiN hL0 hiL hp hli
        (by intro c y h1 h2; omega) hpar

/-- `Partial` depends on the slots below `N` other than the hole, and on the
`_lh_idx` of the nodes there. -/
theorem partial_weaken (prior : α → α → Bool) (m m2 : HeapMem α) (N L h N2 L2 h2 : Int)
    (hp : Partial prior m N L h) (hL : L ≤ L2) (hL0 : 0 ≤ L)
    (harr : ∀ k, 0 ≤ k → k < N2 → k ≠ h2 → k < N ∧ k ≠ h ∧ m2.arr k = m.arr k)
    (hidx : ∀ k n, L2 ≤ k → k < N2 → k ≠ h2 → m.arr k = some n → m2.idx n = m.idx n) :
    Partial prior m2 N2 L2 h2 := by
  refine ⟨?_, ?_, ?_, ?_⟩
  · intro k h0 h1 hk
    obtain ⟨hkN, hkh, e⟩ := harr k h0 h1 hk
    rw [e]; exact hp.nodes k h0 hkN hkh
  · intro k k2 n h0 h1 h2' h3 hk hk2
    obtain ⟨hkN, hkh, e⟩ := harr k h0 h1 hk
    obtain ⟨hkN2, hkh2, e2⟩ := harr k2 h2' h3 hk2
    rw [e, e2]; exact hp.inj k k2 n h0 hkN h2' hkN2 hkh hkh2
  · intro k n h0 h1 hk
    obtain ⟨hkN, hkh, e⟩ := harr k (by omega) h1 hk
    rw [e]; intro hh
    rw [hidx k n h0 h1 hk hh]; exact hp.idx k n (by omega) hkN hkh hh
  · intro p c x y h0 h1 hpc hph hch
    obtain ⟨hkN, hkh, e⟩ := harr p (by omega) (by omega) hph
    obtain ⟨hkN2, hkh2, e2⟩ := harr c (by omega) h1 hch
    rw [e, e2]; exact hp.ord p c x y (by omega) hkN2 hpc hkh hkh2

theorem hmem_congr (m m2 : HeapMem α) (N : Int) (x : α)
    (h : ∀ k, 0 ≤ k → k < N → m2.arr k = m.arr k) : HMem m2 N x ↔ HMem m N x := by
  constructor
  · rintro ⟨k, h2, h3, h4⟩; exact ⟨k, h2, h3, by rw [← h k h2 h3]; exact h4⟩
  · rintro ⟨k, h2, h3, h4⟩; exact ⟨k, h2, h3, by rw [h k h2 h3]; exact h4⟩

theorem enqueue_spec (prior : α → α → Bool) (sw : StrictWeak prior) (q : HeapQueue α) (n : α)
    (fuel : Nat) (hinv : HeapInv prior q) (hlt : q.ln < 1073741824)
    (hn : ¬ HMem q.mem q.ln n) (hf : q.ln < fuel) :
    ∃ q', q.enqueue prior fuel n = some q' ∧ EnqPost prior q q' n := by
  have h0 := hinv.lo
  have hp : Partial prior q.mem (q.ln + 1) 0 q.ln :=
    partial_weaken prior q.mem q.mem q.ln 0 (-1) (q.ln + 1) 0 q.ln hinv.part
      (le_refl _) (le_refl _) (by intro k h1 h2 h3; exact ⟨by omega, by omega, rfl⟩)
      (by intros; rfl)
  obtain ⟨m', hm', hpost⟩ := shift_up_spec prior sw n (q.ln + 1) (by omega) fuel q.mem q.ln h0
    (by omega) hf hp
    (by intro k h1 h2 h3 h4; exact hn ⟨k, h1, by omega, h4⟩)
    (by intro c y h1 h2; omega)
    (by intro c y p x h1 h2; omega)
  refine ⟨{ mem := m', ln := q.ln + 1 }, by simp [HeapQueue.enqueue, Alg.enqueue, hm'], ?_⟩
  refine ⟨⟨by simp; omega, by simp; omega, hpost.part⟩, rfl, ?_, hpost.idxOut⟩
  intro x
  simp only
  rw [hpost.mem x]
  constructor
  · rintro (h | ⟨k, h1, h2, h3, h4⟩)
    · exact Or.inl h
    · exact Or.inr ⟨k, h1, by omega, h4⟩
  · rintro (h | ⟨k, h1, h2, h4⟩)
    · exact Or.inl h
    · exact Or.inr ⟨k, h1, by omega, by omega, h4⟩

theorem dequeue_spec (prior : α → α → Bool) (sw : StrictWeak prior) (q : HeapQueue α)
    (fuel : Nat) (hinv : HeapInv prior q) (hpos : 0 < q.ln) (hf : q.ln < fuel) :
    ∃ q' r, q.dequeue prior fuel = some (q', some r) ∧ q.mem.arr 0 = some r ∧
      DelPost prior q q' r := by
  have hhi := hinv.hi
  obtain ⟨node, hnode⟩ := hinv.part.nodes 0 (le_refl _) hpos (by omega)
  obtain ⟨li, hli⟩ := hinv.part.nodes (q.ln - 1) (by omega) (by omega) (by omega)
  by_cases h1 : q.ln - 1 = 0
  · -- the only node
    have hnl : node = li := by rw [h1] at hli; rw [hnode] at hli; exact Option.some.inj hli
    subst hnl
    obtain ⟨f, rfl⟩ : ∃ f, fuel = f + 1 := ⟨fuel - 1, by omega⟩
    have hs : shl1 0 + 1 = 1 := by decide
    refine ⟨_, node, by
      simp only [HeapQueue.dequeue, Alg.dequeue, hnode, hli, h1, shift_down, hs]
      simp
      rfl, hnode, ?_⟩
    refine ⟨⟨le_refl _, by simp, ⟨?_, ?_, ?_, ?_⟩⟩, by simp; omega, ?_, ?_, by simp, by simp⟩
    · intro k h2 h3; simp at h3; omega
    · intro k k2 n h2 h3; simp at h3; omega
    · intro k n h2 h3; simp at h3; omega
    · intro p c x y h2 h3 h4; simp at h3; omega
    · intro x; constructor
      · rintro ⟨k, h2, h3, _⟩; simp at h3; omega
      · rintro ⟨hx, k, h2, h3, h4⟩
        have : k = 0 := by omega
        subst this; rw [hnode] at h4; exact absurd (Option.some.inj h4).symm hx
    · intro x _ hx; simp [Function.update_apply, hx, put_idx]
  · have hp : Partial prior q.mem (q.ln - 1) 0 0 :=
      partial_weaken prior q.mem q.mem q.ln 0 (-1) (q.ln - 1) 0 0 hinv.part
        (le_refl _) (le_refl _) (by intro k h1 h2 h3; exact ⟨by omega, by omega, rfl⟩)
        (by intros; rfl)
    obtain ⟨m', hm', hpost⟩ := shift_down_spec prior sw li (q.ln - 1) 0 (by omega) (le_refl _)
      fuel q.mem 0 (le_refl _) (by omega) (by omega) hp
      (by
        intro k h2 h3 h4 h5
        have := hinv.part.inj k (q.ln - 1) li h2 (by omega) (by omega) (by omega) (by omega)
          (by omega) h5 hli
        omega)
      (by intro p x h2 h3; omega)
      (by intro c y p x h2 h3 h4 h5; omega)
    have hnm : ¬ HMem m' (q.ln - 1) node := by
      rw [hpost.mem]
      rintro (h | ⟨k, h2, h3, h4, h5⟩)
      · subst h
        have := hinv.part.inj 0 (q.ln - 1) node (le_refl _) (by omega) (by omega) (by omega)
          (by omega) (by omega) hnode hli
        omega
      · have := hinv.part.inj 0 k node (le_refl _) (by omega) h2 (by omega)
          (by omega) (by omega) hnode h5
        omega
    refine ⟨{ mem := { arr := Function.update m'.arr (q.ln - 1) none,
                       idx := Function.update m'.idx node (some (-1)) }, ln := q.ln - 1 }, node,
      by simp [HeapQueue.dequeue, Alg.dequeue, hnode, hli, hm'], hnode, ?_⟩
    have hmem : ∀ x, HMem (HeapMem.mk (Function.update m'.arr (q.ln - 1) none)
        (Function.update m'.idx node (some (-1)))) (q.ln - 1) x ↔ HMem m' (q.ln - 1) x := by
      intro x
      apply hmem_congr
      intro k h2 h3
      have : k ≠ q.ln - 1 := by omega
      simp [Function.update_apply, this]
    refine ⟨⟨by simp; omega, by simp; omega, ?_⟩, rfl, ?_, ?_, by simp, by simp⟩
    · refine partial_weaken prior m' _ (q.ln - 1) 0 (-1) (q.ln - 1) 0 (-1) hpost.part
        (le_refl _) (le_refl _) ?_ ?_
      · intro k h2 h3 h4
        have : k ≠ q.ln - 1 := by omega
        exact ⟨h3, h4, by simp [Function.update_apply, this]⟩
      · intro k n h2 h3 h4 h5
        have : n ≠ node := by
          intro e; subst e; exact hnm ⟨k, h2, h3, h5⟩
        simp [Function.update_apply, this]
    · intro x
      simp only
      rw [hmem x, hpost.mem x]
      constructor
      · rintro (h | ⟨k, h2, h3, h4, h5⟩)
        · subst h
          refine ⟨?_, q.ln - 1, by omega, by omega, hli⟩
          intro e; subst e
          have := hinv.part.inj 0 (q.ln - 1) x (le_refl _) (by omega) (by omega) (by omega)
            (by omega) (by omega) hnode hli
          omega
        · refine ⟨?_, k, h2, by omega, h5⟩
          intro e; subst e
          have := hinv.part.inj 0 k x (le_refl _) (by omega) h2 (by omega)
            (by omega) (by omega) hnode h5
          omega
      · rintro ⟨hx, k, h2, h3, h4⟩
        by_cases hk : k = q.ln - 1
        · subst hk; rw [hli] at h4; exact Or.inl (Option.some.inj h4).symm
        · by_cases hk0 : k = 0
          · subst hk0; rw [hnode] at h4; exact absurd (Option.some.inj h4).symm hx
          · exact Or.inr ⟨k, h2, by omega, hk0, h4⟩
    · intro x hx hxn
      simp only at hx ⊢
      rw [hmem x] at hx
      simp [Function.update_apply, hxn]
      exact hpost.idxOut x hx

theorem remove_spec (prior : α → α → Bool) (sw : StrictWeak prior) (q : HeapQueue α) (n : α)
    (fuel : Nat) (hinv : HeapInv prior q) (hmem : HMem q.mem q.ln n) (hf : q.ln < fuel) :
    ∃ q', q.remove prior fuel n = some q' ∧ DelPost prior q q' n := by
  have hhi := hinv.hi
  obtain ⟨i, hi0, hiN, hi⟩ := hmem
  have hidx : q.mem.idx n = some i := hinv.part.idx i n hi0 hiN (by omega) hi
  obtain ⟨li, hli⟩ := hinv.part.nodes (q.ln - 1) (by omega) (by omega) (by omega)
  have harr1 : ∀ k, k ≠ q.ln - 1 →
      Function.update q.mem.arr (q.ln - 1) none k = q.mem.arr k := by
    intro k hk; simp [Function.update_apply, hk]
  have hinj : ∀ k k2 x, 0 ≤ k → k < q.ln → 0 ≤ k2 → k2 < q.ln → q.mem.arr k = some x →
      q.mem.arr k2 = some x → k = k2 := by
    intro k k2 x h1 h2 h3 h4
    exact hinv.part.inj k k2 x h1 h2 h3 h4 (by omega) (by omega)
  by_cases hnl : n = li
  · subst hnl
    have hil : i = q.ln - 1 := hinj _ _ _ hi0 hiN (by omega) (by omega) hi hli
    refine ⟨{ mem := { arr := Function.update q.mem.arr (q.ln - 1) none,
                       idx := Function.update q.mem.idx n (some (-1)) }, ln := q.ln - 1 },
      by simp [HeapQueue.remove, Alg.remove, hli], ?_⟩
    refine ⟨⟨by simp; omega, by simp; omega, ?_⟩, rfl, ?_, ?_, by simp, by simp⟩
    · refine partial_weaken prior q.mem _ q.ln 0 (-1) (q.ln - 1) 0 (-1) hinv.part
        (le_refl _) (le_refl _) ?_ ?_
      · intro k h2 h3 h4
        exact ⟨by omega, h4, harr1 k (by omega)⟩
      · intro k x h2 h3 h4 h5
        have : x ≠ n := by
          intro e; subst e
          have := hinj _ _ _ h2 (by omega) (by omega) (by omega) h5 hli
          omega
        simp [Function.update_apply, this]
    · intro x
      simp only
      constructor
      · rintro ⟨k, h2, h3, h4⟩
        dsimp only at h4
        rw [harr1 k (by omega)] at h4
        refine ⟨?_, k, h2, by omega, h4⟩
        intro e; subst e
        have := hinj _ _ _ h2 (by omega) (by omega) (by omega) h4 hli
        omega
      · rintro ⟨hx, k, h2, h3, h4⟩
        have hk : k ≠ q.ln - 1 := by
          intro e; subst e; rw [hli] at h4; exact hx (Option.some.inj h4).symm
        exact ⟨k, h2, by omega, by dsimp only; rw [harr1 k hk]; exact h4⟩
    · intro x _ hx
      simp [Function.update_apply, hx]
  · have hil : i ≠ q.ln - 1 := by
      intro e; subst e; rw [hli] at hi; exact hnl (Option.some.inj hi).symm
    have hp : Partial prior (HeapMem.mk (Function.update q.mem.arr (q.ln - 1) none)
        (Function.update q.mem.idx n (some (-1)))) (q.ln - 1) 0 i := by
      refine partial_weaken prior q.mem _ q.ln 0 (-1) (q.ln - 1) 0 i hinv.part
        (le_refl _) (le_refl _) ?_ ?_
      · intro k h2 h3 h4
        exact ⟨by omega, by omega, harr1 k (by omega)⟩
      · intro k x h2 h3 h4 h5
        have : x ≠ n := by
          intro e; subst e
          exact h4 (hinj _ _ _ h2 (by omega) hi0 hiN h5 hi)
        simp [Function.update_apply, this]
    have hli1 : ∀ k, 0 ≤ k → k < q.ln - 1 → k ≠ i →
        Function.update q.mem.arr (q.ln - 1) none k ≠ some li := by
      intro k h2 h3 h4
      rw [harr1 k (by omega)]
      intro h5
      have := hinj _ _ _ h2 (by omega) (by omega) (by omega) h5 hli
      omega
    have hd : ∀ c y p x, c < q.ln - 1 → (c = 2 * i + 1 ∨ c = 2 * i + 2) → 0 ≤ p →
        (i = 2 * p + 1 ∨ i = 2 * p + 2) →
        Function.update q.mem.arr (q.ln - 1) none c = some y →
        Function.update q.mem.arr (q.ln - 1) none p = some x → prior y x = false := by
      intro c y p x h2 h3 h4 h5
      rw [harr1 c (by omega), harr1 p (by omega)]
      intro h6 h7
      have a1 := hinv.part.ord i c n y hi0 (by omega) h3 (by omega) (by omega) hi h6
      have a2 := hinv.part.ord p i x n h4 hiN h5 (by omega) (by omega) h7 hi
      exact sw.negtrans a1 a2
    have fin : ∀ m', SiftPost prior li (q.ln - 1) 0 i (HeapMem.mk
        (Function.update q.mem.arr (q.ln - 1) none)
        (Function.update q.mem.idx n (some (-1)))) m' →
        DelPost prior q { mem := m', ln := q.ln - 1 } n := by
      intro m' hpost
      have hmem' : ∀ x, HMem m' (q.ln - 1) x ↔ (x ≠ n ∧ HMem q.mem q.ln x) := by
        intro x
        rw [hpost.mem x]
        simp only
        constructor
        · rintro (h | ⟨k, h2, h3, h4, h5⟩)
          · subst h
            exact ⟨fun e => hnl e.symm, q.ln - 1, by omega, by omega, hli⟩
          · rw [harr1 k (by omega)] at h5
            refine ⟨?_, k, h2, by omega, h5⟩
            intro e; subst e
            exact h4 (hinj _ _ _ h2 (by omega) hi0 hiN h5 hi)
        · rintro ⟨hx, k, h2, h3, h4⟩
          by_cases hk : k = q.ln - 1
          · subst hk; rw [hli] at h4; exact Or.inl (Option.some.inj h4).symm
          · refine Or.inr ⟨k, h2, by omega, ?_, by rw [harr1 k hk]; exact h4⟩
            intro e; subst e; rw [hi] at h4; exact hx (Option.some.inj h4).symm
      refine ⟨⟨by simp; omega, by simp; omega, hpost.part⟩, rfl, hmem', ?_, ?_, ?_⟩
      · intro x hx hxn
        simp only at hx ⊢
        rw [hpost.idxOut x hx]
        simp [Function.update_apply, hxn]
      · simp only
        rw [hpost.idxOut n (by rw [hmem' n]; exact fun h => h.1 rfl)]
        simp
      · simp only
        rw [hpost.out _ (Or.inr (le_refl _))]
        simp
    by_cases hpr : prior n li = true
    · obtain ⟨m', hm', hpost⟩ := shift_down_spec prior sw li (q.ln - 1) 0 (by omega) (le_refl _)
        fuel _ i hi0 (by omega) (by omega) hp hli1
        (by
          intro p x h2 h3
          dsimp only
          rw [harr1 p (by omega)]
          intro h4
          have a2 := hinv.part.ord p i x n h2 hiN h3 (by omega) (by omega) h4 hi
          by_contra hx
          have hx2 : prior li x = true := by simpa using hx
          have := sw.trans _ _ _ hpr hx2
          rw [a2] at this; exact Bool.noConfusion this)
        hd
      exact ⟨{ mem := m', ln := q.ln - 1 },
        by simp [HeapQueue.remove, Alg.remove, hli, hnl, hidx, hpr, hm'], fin m' hpost⟩
    · have hpr2 : prior n li = false := by simpa using hpr
      obtain ⟨m', hm', hpost⟩ := shift_up_spec prior sw li (q.ln - 1) (by omega)
        fuel _ i hi0 (by omega) (by omega) hp hli1
        (by
          intro c y h2 h3
          dsimp only
          rw [harr1 c (by omega)]
          intro h4
          have a1 := hinv.part.ord i c n y hi0 (by omega) h3 (by omega) (by omega) hi h4
          exact sw.negtrans a1 hpr2)
        hd
      exact ⟨{ mem := m', ln := q.ln - 1 },
        by simp [HeapQueue.remove, Alg.remove, hli, hnl, hidx, hpr2, hm'], fin m' hpost⟩

theorem heapify_mark_spec (N i0 : Int) (hi0 : 0 ≤ i0) :
    ∀ (fuel : Nat) (m : HeapMem α) (i : Int), i0 ≤ i → i ≤ N → N - i < fuel →
      Loaded m N →
      (∀ k n, i0 ≤ k → k < i → m.arr k = some n → m.idx n = some k) →
      ∃ m', heapify_mark N fuel m i = some m' ∧ m'.arr = m.arr ∧
        (∀ k n, i0 ≤ k → k < N → m.arr k = some n → m'.idx n = some k) ∧
        (∀ n, ¬ HMem m N n → m'.idx n = m.idx n) := by
  intro fuel
  induction fuel with
  | zero => intro m i h0 h1 hf; simp at hf; omega
  | succ f ih =>
    intro m i h0 h1 hf hl hidx
    rw [heapify_mark]
    by_cases hiN : i < N
    · obtain ⟨x, hx⟩ := hl.nodes i (by omega) hiN
      simp only [hiN, if_true, hx]
      obtain ⟨m', hm', harr, hidx', hout⟩ := ih { m with idx := Function.update m.idx x (some i) }
        (i + 1) (by omega) (by omega) (by push_cast at hf; omega)
        ⟨hl.nodes, hl.inj⟩
        (by
          intro k n h2 h3 h4
          dsimp only at h4 ⊢
          by_cases hk : k = i
          · subst hk; rw [hx] at h4; cases h4; simp
          · have : n ≠ x := by
              intro e; subst e
              exact hk (hl.inj _ _ _ (by omega) (by omega) (by omega) hiN h4 hx)
            simp [Function.update_apply, this]
            exact hidx k n h2 (by omega) h4)
      refine ⟨m', hm', harr, hidx', ?_⟩
      intro n hn
      rw [hout n hn]
      have : n ≠ x := by
        intro e; subst e; exact hn ⟨i, by omega, hiN, hx⟩
      simp [Function.update_apply, this]
    · have : i = N := by omega
      subst this
      exact ⟨m, by simp, rfl, hidx, fun _ _ => rfl⟩

theorem heapify_loop_spec (prior : α → α → Bool) (sw : StrictWeak prior) (N : Int)
    (hN : N ≤ 1073741824) :
    ∀ (fuel : Nat) (m : HeapMem α) (q : Int), -1 ≤ q → q < N → N + q + 1 < fuel →
      Partial prior m N (q + 1) (-1) →
      ∃ m', heapify_loop prior N fuel m q = some m' ∧ Partial prior m' N 0 (-1) ∧
        (∀ x, HMem m' N x ↔ HMem m N x) ∧
        (∀ k, (k < 0 ∨ N ≤ k) → m'.arr k = m.arr k) ∧
        (∀ n, ¬ HMem m N n → m'.idx n = m.idx n) := by
  intro fuel
  induction fuel with
  | zero => intro m i h0 h1 hf; simp at hf; omega
  | succ f ih =>
    intro m q h0 h1 hf hp
    rw [heapify_loop]
    by_cases hq : q = -1
    · subst hq
      exact ⟨m, by simp, by simpa using hp, fun _ => Iff.rfl, fun _ _ => rfl, fun _ _ => rfl⟩
    · obtain ⟨x, hx⟩ := hp.nodes q (by omega) h1 (by omega)
      simp only [hq, ne_eq, not_false_eq_true, if_true, hx]
      have hp1 : Partial prior m N q q := by
        refine ⟨fun k a b _ => hp.nodes k a b (by omega),
          fun k k2 n a b c d _ _ => hp.inj k k2 n a b c d (by omega) (by omega),
          fun k n a b c => hp.idx k n (by omega) b (by omega),
          fun p c x y a b e f g => hp.ord p c x y (by omega) b e (by omega) (by omega)⟩
      obtain ⟨m1, hm1, hpost⟩ := shift_down_spec prior sw x N q hN (by omega) f m q (le_refl _) h1
        (by push_cast at hf; omega) hp1
        (by
          intro k h2 h3 h4 h5
          exact h4 (hp.inj _ _ _ h2 h3 (by omega) h1 (by omega) (by omega) h5 hx))
        (by intro p y h2 h3; omega)
        (by intro c y p z h2 h3 h4 h5; omega)
      simp only [hm1]
      have hmem1 : ∀ z, HMem m1 N z ↔ HMem m N z := by
        intro z; rw [hpost.mem z]
        constructor
        · rintro (h | ⟨k, h2, h3, h4, h5⟩)
          · subst h; exact ⟨q, by omega, h1, hx⟩
          · exact ⟨k, h2, h3, h5⟩
        · rintro ⟨k, h2, h3, h5⟩
          by_cases hk : k = q
          · subst hk; rw [hx] at h5; exact Or.inl (Option.some.inj h5).symm
          · exact Or.inr ⟨k, h2, h3, hk, h5⟩
      obtain ⟨m', hm', hp', hmem', hout', hidx'⟩ := ih m1 (q - 1) (by omega) (by omega)
        (by push_cast at hf; omega) (by simpa using hpost.part)
      refine ⟨m', hm', hp', ?_, ?_, ?_⟩
      · intro z; rw [hmem' z, hmem1 z]
      · intro k hk; rw [hout' k hk, hpost.out k hk]
      · intro n hn
        rw [hidx' n (by rw [hmem1 n]; exact hn), hpost.idxOut n (by rw [hmem1 n]; exact hn)]

theorem heapify_spec (prior : α → α → Bool) (sw : StrictWeak prior) (N : Int)
    (hN0 : 0 ≤ N) (hN : N ≤ 1073741824) (fuel : Nat) (m : HeapMem α)
    (hf : 2 * N + 1 < fuel) (hl : Loaded m N) :
    ∃ m', heapify prior fuel m N = some m' ∧ Partial prior m' N 0 (-1) ∧
        (∀ x, HMem m' N x ↔ HMem m N x) ∧
        (∀ k, (k < 0 ∨ N ≤ k) → m'.arr k = m.arr k) ∧
        (∀ n, ¬ HMem m N n → m'.idx n = m.idx n) := by
  have hq : sar1 N = N / 2 := sar1_exact N (by omega) (by omega)
  rw [heapify]
  simp only [hq]
  obtain ⟨m1, hm1, harr, hidx, hout⟩ := heapify_mark_spec N (N / 2 - 1 + 1) (by omega) fuel m
    (N / 2 - 1 + 1) (le_refl _) (by omega) (by omega) hl (by intro k n h1 h2; omega)
  simp only [hm1]
  have hp1 : Partial prior m1 N (N / 2 - 1 + 1) (-1) := by
    refine ⟨?_, ?_, ?_, ?_⟩
    · intro k h1 h2 _; rw [harr]; exact hl.nodes k h1 h2
    · intro k k2 n h1 h2 h3 h4 _ _; rw [harr]; exact hl.inj k k2 n h1 h2 h3 h4
    · intro k n h1 h2 _; rw [harr]; exact hidx k n h1 h2
    · intro p c x y h1 h2 h3; omega
  obtain ⟨m', hm', hp', hmem', hout', hidx'⟩ := heapify_loop_spec prior sw N hN fuel m1
    (N / 2 - 1) (by omega) (by omega) (by omega) hp1
  have hmem1 : ∀ z, HMem m1 N z ↔ HMem m N z := by
    intro z; exact hmem_congr m m1 N z (by intro k _ _; rw [harr])
  refine ⟨m', hm', hp', ?_, ?_, ?_⟩
  · intro z; rw [hmem' z, hmem1 z]
  · intro k hk; rw [hout' k hk, harr]
  · intro n hn
    rw [hidx' n (by rw [hmem1 n]; exact hn), hout n hn]

theorem shift_up_mono (prior : α → α → Bool) (li : α) :
    ∀ (fuel : Nat) (m : HeapMem α) (i : Int) (r : HeapMem α),
      shift_up prior li fuel m i = some r →
      ∀ fuel', fuel ≤ fuel' → shift_up prior li fuel' m i = some r := by
  intro fuel
  induction fuel with
  | zero => intro m i r h; simp [shift_up] at h
  | succ f ih =>
    intro m i r h fuel' hle
    obtain ⟨f', rfl⟩ : ∃ f', fuel' = f' + 1 := ⟨fuel' - 1, by omega⟩
    rw [shift_up] at h ⊢
    split
    · rename_i hj
      rw [if_pos hj] at h
      split
      · rename_i hn; rw [hn] at h; simp at h
      · rename_i aj hn; rw [hn] at h; (try dsimp only at h)
        split
        · rename_i hp; rw [if_pos hp] at h; exact ih _ _ _ h f' (by omega)
        · rename_i hp; rw [if_neg hp] at h; exact h
    · rename_i hj; rw [if_neg hj] at h; exact h

theorem shift_down_mono (prior : α → α → Bool) (li : α) (ln : Int) :
    ∀ (fuel : Nat) (m : HeapMem α) (i : Int) (r : HeapMem α),
      shift_down prior li ln fuel m i = some r →
      ∀ fuel', fuel ≤ fuel' → shift_down prior li ln fuel' m i = some r := by
  intro fuel
  induction fuel with
  | zero => intro m i r h; simp [shift_down] at h
  | succ f ih =>
    intro m i r h fuel' hle
    obtain ⟨f', rfl⟩ : ∃ f', fuel' = f' + 1 := ⟨fuel' - 1, by omega⟩
    rw [shift_down] at h ⊢
    split
    · rename_i hj
      rw [if_pos hj] at h
      (try dsimp only at h ⊢)
      revert h
      generalize shift_down_pick prior ln m (shl1 i + 1) = pick
      intro h
      cases pick with
      | none => simp at h
      | some jj =>
        (try dsimp only at h ⊢)
        cases hn2 : m.arr jj with
        | none => rw [hn2] at h; simp at h
        | some aj =>
          rw [hn2] at h; (try dsimp only at h ⊢)
          split
          · rename_i hp; rw [if_pos hp] at h; exact ih _ _ _ h f' (by omega)
          · rename_i hp; rw [if_neg hp] at h; exact h
    · rename_i hj; rw [if_neg hj] at h; exact h

theorem heapify_mark_mono (ln : Int) :
    ∀ (fuel : Nat) (m : HeapMem α) (i : Int) (r : HeapMem α),
      heapify_mark ln fuel m i = some r →
      ∀ fuel', fuel ≤ fuel' → heapify_mark ln fuel' m i = some r := by
  intro fuel
  induction fuel with
  | zero => intro m i r h; simp [heapify_mark] at h
  | succ f ih =>
    intro m i r h fuel' hle
    obtain ⟨f', rfl⟩ : ∃ f', fuel' = f' + 1 := ⟨fuel' - 1, by omega⟩
    rw [heapify_mark] at h ⊢
    split
    · rename_i hj
      rw [if_pos hj] at h
      cases hn : m.arr i with
      | none => rw [hn] at h; simp at h
      | some x => rw [hn] at h; (try dsimp only at h ⊢); exact ih _ _ _ h f' (by omega)
    · rename_i hj; rw [if_neg hj] at h; exact h

theorem heapify_loop_mono (prior : α → α → Bool) (ln : Int) :
    ∀ (fuel : Nat) (m : HeapMem α) (q : Int) (r : HeapMem α),
      heapify_loop prior ln fuel m q = some r →
      ∀ fuel', fuel ≤ fuel' → heapify_loop prior ln fuel' m q = some r := by
  intro fuel
  induction fuel with
  | zero => intro m i r h; simp [heapify_loop] at h
  | succ f ih =>
    intro m q r h fuel' hle
    obtain ⟨f', rfl⟩ : ∃ f', fuel' = f' + 1 := ⟨fuel' - 1, by omega⟩
    rw [heapify_loop] at h ⊢
    split
    · rename_i hj
      rw [if_pos hj] at h
      cases hn : m.arr q with
      | none => rw [hn] at h; simp at h
      | some x =>
        rw [hn] at h; (try dsimp only at h ⊢)
        cases hs : shift_down prior x ln f m q with
        | none => rw [hs] at h; simp at h
        | some m1 =>
          rw [hs] at h; (try dsimp only at h)
          rw [shift_down_mono prior x ln f m q m1 hs f' (by omega)]
          exact ih _ _ _ h f' (by omega)
    · rename_i hj; rw [if_neg hj] at h; exact h

theorem heapify_mono (prior : α → α → Bool) (fuel fuel' : Nat) (m r : HeapMem α) (ln : Int)
    (h : heapify prior fuel m ln = some r) (hle : fuel ≤ fuel') :
    heapify prior fuel' m ln = some r := by
  rw [heapify] at h ⊢
  cases hs : heapify_mark ln fuel m (sar1 ln - 1 + 1) with
  | none => rw [hs] at h; simp at h
  | some m1 =>
    rw [hs] at h; (try dsimp only at h)
    rw [heapify_mark_mono ln fuel m _ m1 hs fuel' hle]
    exact heapify_loop_mono prior ln fuel m1 _ r h fuel' hle

theorem HeapQueue.new_mono (prior : α → α → Bool) (fuel fuel' : Nat) (idx : α → Option Int)
    (arr : List (Option α)) (q : HeapQueue α)
    (h : HeapQueue.new prior fuel idx arr = some q) (hle : fuel ≤ fuel') :
    HeapQueue.new prior fuel' idx arr = some q := by
  rw [HeapQueue.new] at h ⊢
  split
  · rename_i hj
    rw [if_pos hj] at h
    cases hs : heapify prior fuel (HeapMem.mk (arrOfList arr) idx) arr.length with
    | none => rw [hs] at h; simp at h
    | some m1 =>
      rw [hs] at h
      rw [heapify_mono prior fuel fuel' _ m1 _ hs hle]
      exact h
  · rename_i hj; rw [if_neg hj] at h; exact h

theorem HeapQueue.enqueue_mono (prior : α → α → Bool) (fuel fuel' : Nat) (q q' : HeapQueue α)
    (n : α) (h : q.enqueue prior fuel n = some q') (hle : fuel ≤ fuel') :
    q.enqueue prior fuel' n = some q' := by
  rw [HeapQueue.enqueue, Alg.enqueue] at h ⊢
  cases hs : shift_up prior n fuel q.mem q.ln with
  | none => rw [hs] at h; simp at h
  | some m1 =>
    rw [hs] at h
    rw [shift_up_mono prior n fuel _ _ m1 hs fuel' hle]
    exact h

theorem HeapQueue.dequeue_mono (prior : α → α → Bool) (fuel fuel' : Nat) (q : HeapQueue α)
    (r : HeapQueue α × Option α) (h : q.dequeue prior fuel = some r) (hle : fuel ≤ fuel') :
    q.dequeue prior fuel' = some r := by
  rw [HeapQueue.dequeue, Alg.dequeue] at h ⊢
  cases h0 : q.mem.arr 0 with
  | none => rw [h0] at h; simp at h
  | some node =>
    cases h1 : q.mem.arr (q.ln - 1) with
    | none => rw [h0, h1] at h; simp at h
    | some li =>
      rw [h0, h1] at h; (try dsimp only at h ⊢)
      cases hs : shift_down prior li (q.ln - 1) fuel q.mem 0 with
      | none => rw [hs] at h; simp at h
      | some m1 =>
        rw [hs] at h
        rw [shift_down_mono prior li _ fuel _ _ m1 hs fuel' hle]
        exact h

theorem HeapQueue.remove_mono (prior : α → α → Bool) (fuel fuel' : Nat) (q q' : HeapQueue α)
    (n : α) (h : q.remove prior fuel n = some q') (hle : fuel ≤ fuel') :
    q.remove prior fuel' n = some q' := by
  rw [HeapQueue.remove, Alg.remove] at h ⊢
  (try dsimp only at h ⊢)
  split
  · rename_i hj
    rw [if_pos hj] at h
    cases h1 : q.mem.arr (q.ln - 1) with
    | none => rw [h1] at h; simp at h
    | some li =>
      cases h2 : q.mem.idx n with
      | none => rw [h1, h2] at h; simp at h
      | some i =>
        rw [h1, h2] at h; (try dsimp only at h ⊢)
        split
        · rename_i hp
          rw [if_pos hp] at h
          cases hs : shift_down prior li (q.ln - 1) fuel
              (HeapMem.mk (Function.update q.mem.arr (q.ln - 1) none)
                (Function.update q.mem.idx n (some (-1)))) i with
          | none => rw [hs] at h; simp at h
          | some m1 =>
            rw [hs] at h
            rw [shift_down_mono prior li _ fuel _ _ m1 hs fuel' hle]
            exact h
        · rename_i hp
          rw [if_neg hp] at h
          cases hs : shift_up prior li fuel
              (HeapMem.mk (Function.update q.mem.arr (q.ln - 1) none)
                (Function.update q.mem.idx n (some (-1)))) i with
          | none => rw [hs] at h; simp at h
          | some m1 =>
            rw [hs] at h
            rw [shift_up_mono prior li fuel _ _ m1 hs fuel' hle]
            exact h
  · rename_i hj; rw [if_neg hj] at h; exact h

theorem arrOfList_some (nodes : List α) (k : Int) (hk : 0 ≤ k) :
    arrOfList (nodes.map some) k = nodes[k.toNat]? := by
  simp only [arrOfList, hk, if_true, List.getElem?_map]
  cases nodes[k.toNat]? <;> rfl

theorem loaded_ofList (nodes : List α) (hnd : nodes.Nodup) (idx : α → Option Int) :
    Loaded (HeapMem.mk (arrOfList (nodes.map some)) idx) nodes.length := by
  constructor
  · intro k h0 h1
    dsimp only
    rw [arrOfList_some nodes k h0]
    have : k.toNat < nodes.length := by omega
    exact ⟨nodes[k.toNat], List.getElem?_eq_getElem this⟩
  · intro k k2 n h0 h1 h2 h3
    dsimp only
    rw [arrOfList_some nodes k h0, arrOfList_some nodes k2 h2]
    intro a b
    have hk : k.toNat < nodes.length := by omega
    have hk2 : k2.toNat < nodes.length := by omega
    rw [List.getElem?_eq_getElem hk] at a
    rw [List.getElem?_eq_getElem hk2] at b
    have e : nodes[k.toNat] = nodes[k2.toNat] := by
      rw [Option.some.inj a, Option.some.inj b]
    have := (List.Nodup.getElem_inj_iff hnd).1 e
    omega

theorem hmem_ofList (nodes : List α) (idx : α → Option Int) (x : α) :
    HMem (HeapMem.mk (arrOfList (nodes.map some)) idx) nodes.length x ↔ x ∈ nodes := by
  constructor
  · rintro ⟨k, h0, h1, h⟩
    dsimp only at h
    rw [arrOfList_some nodes k h0] at h
    exact List.getElem?_mem h
  · intro h
    obtain ⟨n, hn, e⟩ := List.getElem_of_mem h
    refine ⟨n, by omega, by omega, ?_⟩
    dsimp only
    rw [arrOfList_some nodes n (by omega)]
    simp [hn, e]

theorem HeapQueue.new_spec (prior : α → α → Bool) (sw : StrictWeak prior) (fuel : Nat)
    (idx : α → Option Int) (nodes : List α) (hnd : nodes.Nodup)
    (hlen : (nodes.length : Int) ≤ 1073741824) (hf : 2 * (nodes.length : Int) + 1 < fuel) :
    ∃ q, HeapQueue.new prior fuel idx (nodes.map some) = some q ∧ NewPost prior nodes idx q := by
  rw [HeapQueue.new]
  by_cases h0 : (nodes.map some).length ≠ 0
  · rw [if_pos h0]
    have hl : (List.map some nodes).length = nodes.length := by simp
    rw [hl]
    obtain ⟨m', hm', hp, hmem, hout, hidx⟩ := heapify_spec prior sw nodes.length (by omega) hlen
      fuel (HeapMem.mk (arrOfList (nodes.map some)) idx) hf (loaded_ofList nodes hnd idx)
    rw [hm']
    refine ⟨_, rfl, ⟨by simp, hlen, hp⟩, rfl, ?_, ?_⟩
    · intro x; dsimp only; rw [hmem x]; exact hmem_ofList nodes idx x
    · intro x hx; dsimp only
      rw [hidx x (by rw [hmem_ofList nodes idx x]; exact hx)]
  · rw [if_neg h0]
    have hnil : nodes = [] := by
      cases nodes with
      | nil => rfl
      | cons a t => simp at h0
    subst hnil
    refine ⟨_, rfl, ⟨le_refl _, by simp, ⟨?_, ?_, ?_, ?_⟩⟩, rfl, ?_, fun _ _ => rfl⟩
    · intro k h1 h2; simp at h2; omega
    · intro k k2 n h1 h2; simp at h2; omega
    · intro k n h1 h2; simp at h2; omega
    · intro p c x y h1 h2 h3; simp at h2; omega
    · intro x; constructor
      · rintro ⟨k, h1, h2, _⟩; simp at h2; omega
      · intro h; simp at h

theorem HeapQueue.new_inv (prior : α → α → Bool) (sw : StrictWeak prior) (fuel : Nat)
    (idx : α → Option Int) (nodes : List α) (q : HeapQueue α) (hnd : nodes.Nodup)
    (hlen : (nodes.length : Int) ≤ 1073741824)
    (h : HeapQueue.new prior fuel idx (nodes.map some) = some q) : NewPost prior nodes idx q := by
  obtain ⟨q2, h2, hp⟩ := HeapQueue.new_spec prior sw (max fuel (2 * nodes.length + 2)) idx nodes hnd
    hlen (by have := le_max_right fuel (2 * nodes.length + 2); push_cast; omega)
  have := HeapQueue.new_mono prior fuel (max fuel (2 * nodes.length + 2)) idx _ q h (le_max_left _ _)
  rw [this] at h2; cases h2; exact hp

theorem HeapQueue.enqueue_inv (prior : α → α → Bool) (sw : StrictWeak prior) (fuel : Nat)
    (q q' : HeapQueue α) (n : α) (hinv : HeapInv prior q) (hlt : q.ln < 1073741824)
    (hn : ¬ HMem q.mem q.ln n) (h : q.enqueue prior fuel n = some q') : EnqPost prior q q' n := by
  have h0 := hinv.lo
  obtain ⟨q2, h2, hp⟩ := enqueue_spec prior sw q n (max fuel (q.ln.toNat + 1)) hinv hlt hn
    (by have := le_max_right fuel (q.ln.toNat + 1); omega)
  have := HeapQueue.enqueue_mono prior fuel (max fuel (q.ln.toNat + 1)) q q' n h (le_max_left _ _)
  rw [this] at h2; cases h2; exact hp

theorem HeapQueue.dequeue_inv (prior : α → α → Bool) (sw : StrictWeak prior) (fuel : Nat)
    (q q' : HeapQueue α) (r : Option α) (hinv : HeapInv prior q) (hpos : 0 < q.ln)
    (h : q.dequeue prior fuel = some (q', r)) :
    ∃ n, r = some n ∧ q.mem.arr 0 = some n ∧ DelPost prior q q' n := by
  obtain ⟨q2, n, h2, h3, hp⟩ := dequeue_spec prior sw q (max fuel (q.ln.toNat + 1)) hinv hpos
    (by have := le_max_right fuel (q.ln.toNat + 1); omega)
  have := HeapQueue.dequeue_mono prior fuel (max fuel (q.ln.toNat + 1)) q _ h (le_max_left _ _)
  rw [this] at h2; cases h2; exact ⟨n, rfl, h3, hp⟩

theorem HeapQueue.remove_inv (prior : α → α → Bool) (sw : StrictWeak prior) (fuel : Nat)
    (q q' : HeapQueue α) (n : α) (hinv : HeapInv prior q) (hmem : HMem q.mem q.ln n)
    (h : q.remove prior fuel n = some q') : DelPost prior q q' n := by
  have h0 := hinv.lo
  obtain ⟨q2, h2, hp⟩ := remove_spec prior sw q n (max fuel (q.ln.toNat + 1)) hinv hmem
    (by have := le_max_right fuel (q.ln.toNat + 1); omega)
  have := HeapQueue.remove_mono prior fuel (max fuel (q.ln.toNat + 1)) q q' n h (le_max_left _ _)
  rw [this] at h2; cases h2; exact hp

/-- Every reached queue satisfies the invariant. -/
theorem HeapQueue.Reach.inv (prior : α → α → Bool) (sw : StrictWeak prior) (q : HeapQueue α)
    (hr : HeapQueue.Reach prior q) : HeapInv prior q := by
  induction hr with
  | new fuel idx nodes q hnd hlen h => exact (HeapQueue.new_inv prior sw fuel idx nodes q hnd hlen h).inv
  | enqueue fuel q q' n _ hn hlt h ih => exact (HeapQueue.enqueue_inv prior sw fuel q q' n ih hlt hn h).inv
  | dequeue fuel q q' r _ hpos h ih =>
    obtain ⟨n, _, _, hp⟩ := HeapQueue.dequeue_inv prior sw fuel q q' r ih hpos h
    exact hp.inv
  | remove fuel q q' n _ hm h ih => exact (HeapQueue.remove_inv prior sw fuel q q' n ih hm h).inv

theorem HeapInv.order (prior : α → α → Bool) (q : HeapQueue α) (hinv : HeapInv prior q) :
    HeapOrder prior q := by
  intro i c h0 h1 h2 h3
  obtain ⟨x, hx⟩ := hinv.part.nodes i h0 h1 (by omega)
  obtain ⟨y, hy⟩ := hinv.part.nodes c (by omega) h2 (by omega)
  exact ⟨x, y, hx, hy, hinv.part.ord i c x y h0 h2 h3 (by omega) (by omega) hx hy⟩

/-- The node of slot 0 is not preceded by any member. -/
theorem HeapInv.top_min (prior : α → α → Bool) (sw : StrictWeak prior) (q : HeapQueue α)
    (hinv : HeapInv prior q) (t : α) (ht : q.mem.arr 0 = some t) :
    ∀ x, HMem q.mem q.ln x → prior x t = false := by
  have key : ∀ (n : Nat) (k : Int) (x : α), k.toNat ≤ n → 0 ≤ k → k < q.ln →
      q.mem.arr k = some x → prior x t = false := by
    intro n
    induction n with
    | zero =>
      intro k x h1 h2 h3 h4
      have : k = 0 := by omega
      subst this; rw [ht] at h4; cases h4; exact sw.irrefl _
    | succ n ih =>
      intro k x h1 h2 h3 h4
      by_cases hk : k = 0
      · subst hk; rw [ht] at h4; cases h4; exact sw.irrefl _
      · obtain ⟨y, hy⟩ := hinv.part.nodes ((k - 1) / 2) (by omega) (by omega) (by omega)
        have a1 := hinv.part.ord ((k - 1) / 2) k y x (by omega) h3 (by omega) (by omega) (by omega)
          hy h4
        have a2 := ih ((k - 1) / 2) y (by omega) (by omega) (by omega) hy
        exact sw.negtrans a1 a2
  rintro x ⟨k, h0, h1, hx⟩
  exact key k.toNat k x (le_refl _) h0 h1 hx

theorem enqueueAll_spec (prior : α → α → Bool) (sw : StrictWeak prior) (fuel : Nat) :
    ∀ (nodes : List α) (q : HeapQueue α), HeapInv prior q → nodes.Nodup →
      (∀ n, n ∈ nodes → ¬ HMem q.mem q.ln n) → q.ln + nodes.length ≤ 1073741824 →
      q.ln + nodes.length < fuel →
      ∃ q', HeapQueue.enqueueAll prior fuel q nodes = some q' ∧ HeapInv prior q' ∧
        q'.ln = q.ln + nodes.length ∧ (∀ x, HMem q'.mem q'.ln x ↔ (HMem q.mem q.ln x ∨ x ∈ nodes)) := by
  intro nodes
  induction nodes with
  | nil => intro q hinv _ _ _ _; exact ⟨q, rfl, hinv, by simp, by simp⟩
  | cons n ns ih =>
    intro q hinv hnd hnm hlen hf
    simp only [List.length_cons, Nat.cast_add, Nat.cast_one] at hlen hf
    obtain ⟨q1, h1, hp⟩ := enqueue_spec prior sw q n fuel hinv (by omega)
      (hnm n (List.mem_cons_self _ _)) (by omega)
    have hnd' := List.nodup_cons.1 hnd
    obtain ⟨q', h', hinv', hln', hmem'⟩ := ih q1 hp.inv hnd'.2
      (by
        intro x hx
        rw [hp.mem x]
        rintro (e | hm)
        · subst e; exact hnd'.1 hx
        · exact hnm x (List.mem_cons_of_mem _ hx) hm)
      (by rw [hp.size]; omega) (by rw [hp.size]; omega)
    refine ⟨q', by simp [HeapQueue.enqueueAll, h1, h'], hinv', ?_, ?_⟩
    · rw [hln', hp.size]; simp; omega
    · intro x; rw [hmem' x, hp.mem x]; simp only [List.mem_cons]; tauto

theorem dequeueN_spec (prior : α → α → Bool) (sw : StrictWeak prior) (fuel : Nat) :
    ∀ (k : Nat) (q : HeapQueue α), HeapInv prior q → q.ln = k → q.ln < fuel →
      ∃ (q' : HeapQueue α) (out : List α),
        HeapQueue.dequeueN prior fuel k q = some (q', out.map some) ∧ q'.ln = 0 ∧
        out.Nodup ∧ (∀ x, x ∈ out ↔ HMem q.mem q.ln x) ∧
        out.Pairwise (fun a b => prior b a = false) := by
  intro k
  induction k with
  | zero =>
    intro q hinv hk _
    refine ⟨q, [], rfl, by simpa using hk, List.nodup_nil, ?_, List.Pairwise.nil⟩
    intro x; constructor
    · intro h; simp at h
    · rintro ⟨j, h0, h1, _⟩; simp at hk; omega
  | succ k ih =>
    intro q hinv hk hf
    obtain ⟨q1, r, h1, hr, hp⟩ := dequeue_spec prior sw q fuel hinv (by omega) hf
    obtain ⟨q', out, h', hln', hnd', hmem', hpw'⟩ := ih q1 hp.inv
      (by rw [hp.size, hk]; push_cast; omega) (by rw [hp.size]; omega)
    refine ⟨q', r :: out, by simp [HeapQueue.dequeueN, h1, h'], hln', ?_, ?_, ?_⟩
    · refine List.nodup_cons.2 ⟨?_, hnd'⟩
      intro hx
      exact ((hp.mem r).1 ((hmem' r).1 hx)).1 rfl
    · intro x
      simp only [List.mem_cons]
      rw [hmem' x, hp.mem x]
      constructor
      · rintro (e | ⟨_, hm⟩)
        · subst e; exact ⟨0, le_refl _, by omega, hr⟩
        · exact hm
      · intro hm
        by_cases e : x = r
        · exact Or.inl e
        · exact Or.inr ⟨e, hm⟩
    · refine List.pairwise_cons.2 ⟨?_, hpw'⟩
      intro b hb
      exact HeapInv.top_min prior sw q hinv r hr b ((hp.mem b).1 ((hmem' b).1 hb)).2

theorem sortedDrain_of_loaded (prior : α → α → Bool) (sw : StrictWeak prior) (fuel : Nat)
    (nodes : List α) (hnd : nodes.Nodup) (q : HeapQueue α) (hinv : HeapInv prior q)
    (hln : q.ln = nodes.length) (hmem : ∀ x, HMem q.mem q.ln x ↔ x ∈ nodes)
    (hf : (nodes.length : Int) < fuel) :
    SortedDrain prior nodes (HeapQueue.dequeueN prior fuel nodes.length q) := by
  obtain ⟨q', out, h', hln', hnd', hmem', hpw'⟩ := dequeueN_spec prior sw fuel nodes.length q hinv
    hln (by omega)
  refine ⟨q', out, h', ?_, hpw', hln'⟩
  exact (List.perm_ext_iff_of_nodup hnd' hnd).2 (fun x => by rw [hmem' x, hmem x])

theorem heapDemo_eq :
    HeapQueue.new priorLt 20 (fun _ => none) ([5, 3, 8, 1].map some) = some heapDemo := rfl

theorem heapDemo1_eq : heapDemo.enqueue priorLt 20 4 = some heapDemo1 := rfl

theorem heapDemo2_eq : heapDemo1.remove priorLt 20 3 = some heapDemo2 := rfl

theorem heapDemo_post : NewPost priorLt [5, 3, 8, 1] (fun _ => none) heapDemo :=
  HeapQueue.new_inv priorLt strictWeak_priorLt 20 _ [5, 3, 8, 1] heapDemo (by decide) (by decide)
    heapDemo_eq

theorem heapDemo1_post : EnqPost priorLt heapDemo heapDemo1 4 :=
  HeapQueue.enqueue_inv priorLt strictWeak_priorLt 20 heapDemo heapDemo1 4 heapDemo_post.inv
    (by rw [heapDemo_post.size]; decide) (by rw [heapDemo_post.mem]; decide) heapDemo1_eq

theorem heapDemo2_reach : HeapQueue.Reach priorLt heapDemo2 := by
  have r0 : HeapQueue.Reach priorLt heapDemo :=
    HeapQueue.Reach.new 20 _ [5, 3, 8, 1] heapDemo (by decide) (by decide) heapDemo_eq
  have r1 : HeapQueue.Reach priorLt heapDemo1 :=
    HeapQueue.Reach.enqueue 20 heapDemo heapDemo1 4 r0 (by rw [heapDemo_post.mem]; decide)
      (by rw [heapDemo_post.size]; decide) heapDemo1_eq
  exact HeapQueue.Reach.remove 20 heapDemo1 heapDemo2 3 r1
    (by rw [heapDemo1_post.mem, heapDemo_post.mem]; decide) heapDemo2_eq

/-- C1 (heap order invariant).  For a strict weak order `prior`, every queue
reached from the constructor by `enqueue` of a non-member (below the documented
size bound `2^30`), `dequeue` on a non-empty queue and `remove` of a member
satisfies the heap order: for every `i < ln` and child index
`c ∈ {2i+1, 2i+2}` with `c < ln`, `prior(arr[c], arr[i])` is false.  From such
a queue each of the three methods returns, given fuel above `ln`, again with
the heap order. -/
theorem heap_order_invariant (prior : α → α → Bool) (sw : StrictWeak prior) (q : HeapQueue α)
    (hr : HeapQueue.Reach prior q) :
    HeapOrder prior q ∧
    (∀ (n : α) (fuel : Nat), ¬ HMem q.mem q.ln n → q.ln < 1073741824 → q.ln < fuel →
      ∃ q', q.enqueue prior fuel n = some q' ∧ HeapOrder prior q') ∧
    (∀ (fuel : Nat), 0 < q.ln → q.ln < fuel →
      ∃ q' r, q.dequeue prior fuel = some (q', r) ∧ HeapOrder prior q') ∧
    (∀ (n : α) (fuel : Nat), HMem q.mem q.ln n → q.ln < fuel →
      ∃ q', q.remove prior fuel n = some q' ∧ HeapOrder prior q') := by
  have hinv := HeapQueue.Reach.inv prior sw q hr
  refine ⟨HeapInv.order prior q hinv, ?_, ?_, ?_⟩
  · intro n fuel hn hlt hf
    obtain ⟨q', h, hp⟩ := enqueue_spec prior sw q n fuel hinv hlt hn hf
    exact ⟨q', h, HeapInv.order prior q' hp.inv⟩
  · intro fuel hpos hf
    obtain ⟨q', r, h, _, hp⟩ := dequeue_spec prior sw q fuel hinv hpos hf
    exact ⟨q', some r, h, HeapInv.order prior q' hp.inv⟩
  · intro n fuel hm hf
    obtain ⟨q', h, hp⟩ := remove_spec prior sw q n fuel hinv hm hf
    exact ⟨q', h, HeapInv.order prior q' hp.inv⟩

/-- Instance of C1 at the queue built from `[5, 3, 8, 1]` by `enqueue(4)` and
`remove(3)`, under "lower value is prior". -/
theorem heap_order_invariant_witness :
    HeapOrder priorLt heapDemo2 ∧
    (∀ (n : Nat) (fuel : Nat), ¬ HMem heapDemo2.mem heapDemo2.ln n → heapDemo2.ln < 1073741824 →
      heapDemo2.ln < fuel →
      ∃ q', heapDemo2.enqueue priorLt fuel n = some q' ∧ HeapOrder priorLt q') ∧
    (∀ (fuel : Nat), 0 < heapDemo2.ln → heapDemo2.ln < fuel →
      ∃ q' r, heapDemo2.dequeue priorLt fuel = some (q', r) ∧ HeapOrder priorLt q') ∧
    (∀ (n : Nat) (fuel : Nat), HMem heapDemo2.mem heapDemo2.ln n → heapDemo2.ln < fuel →
      ∃ q', heapDemo2.remove priorLt fuel n = some q' ∧ HeapOrder priorLt q') :=
  heap_order_invariant priorLt strictWeak_priorLt heapDemo2 heapDemo2_reach

/-- C2 (heap extraction order).  For a strict weak order `prior` and a list
of `N ≤ 2^30` distinct nodes, loading the nodes by `N` calls of `enqueue` on a
new queue, or through the constructor array, and calling `dequeue` `N` times
returns a permutation of the nodes in which no later-returned node is strictly
prior to an earlier-returned one, and leaves size 0. -/
theorem heap_extraction_order (prior : α → α → Bool) (sw : StrictWeak prior)
    (idx : α → Option Int) (nodes : List α) (fuel : Nat) (hnd : nodes.Nodup)
    (hlen : (nodes.length : Int) ≤ 1073741824) (hf : 2 * (nodes.length : Int) + 1 < fuel) :
    SortedDrain prior nodes
      ((HeapQueue.loadByEnqueue prior fuel idx nodes).bind
        (fun q => q.dequeueN prior fuel nodes.length)) ∧
    SortedDrain prior nodes
      ((HeapQueue.new prior fuel idx (nodes.map some)).bind
        (fun q => q.dequeueN prior fuel nodes.length)) := by
  constructor
  · obtain ⟨q0, h0, hp0⟩ := HeapQueue.new_spec prior sw fuel idx [] List.nodup_nil (by simp)
      (by simp; omega)
    obtain ⟨q1, h1, hinv1, hln1, hmem1⟩ := enqueueAll_spec prior sw fuel nodes q0 hp0.inv hnd
      (by intro n _; rw [hp0.mem]; simp) (by rw [hp0.size]; simpa using hlen)
      (by rw [hp0.size]; simp; omega)
    have hl : HeapQueue.loadByEnqueue prior fuel idx nodes = some q1 := by
      simp only [List.map_nil] at h0
      simp only [HeapQueue.loadByEnqueue, h0, h1]
    rw [hl, Option.some_bind]
    exact sortedDrain_of_loaded prior sw fuel nodes hnd q1 hinv1 (by rw [hln1, hp0.size]; simp)
      (by intro x; rw [hmem1 x, hp0.mem x]; simp) (by omega)
  · obtain ⟨q0, h0, hp0⟩ := HeapQueue.new_spec prior sw fuel idx nodes hnd hlen hf
    rw [h0, Option.some_bind]
    exact sortedDrain_of_loaded prior sw fuel nodes hnd q0 hp0.inv hp0.size hp0.mem (by omega)

/-- Instance of C2 at the nodes 5, 3, 8, 1 under "lower value is prior",
with the returned sequence: four calls of `dequeue` return 1, 3, 5, 8. -/
theorem heap_extraction_order_witness :
    (SortedDrain priorLt [5, 3, 8, 1]
      ((HeapQueue.loadByEnqueue priorLt 20 (fun _ => none) [5, 3, 8, 1]).bind
        (fun q => q.dequeueN priorLt 20 4)) ∧
    SortedDrain priorLt [5, 3, 8, 1]
      ((HeapQueue.new priorLt 20 (fun _ => none) ([5, 3, 8, 1].map some)).bind
        (fun q => q.dequeueN priorLt 20 4))) ∧
    ((HeapQueue.loadByEnqueue priorLt 20 (fun _ => none) [5, 3, 8, 1]).bind
        (fun q => q.dequeueN priorLt 20 4)).map (fun r => r.2) =
      some [some 1, some 3, some 5, some 8] :=
  ⟨heap_extraction_order priorLt strictWeak_priorLt (fun _ => none) [5, 3, 8, 1] 20
    (by decide) (by decide) (by decide), by decide⟩

/-- C3 (top of heap).  For a non-empty queue satisfying the queue invariant
under a strict weak order, `first()` returns a member `m` with `prior(x, m)`
false for every member `x`, leaves the queue unchanged, and `dequeue()`
returns (and, given fuel above `ln`, does return) exactly `m`. -/
theorem first_is_top (prior : α → α → Bool) (sw : StrictWeak prior) (q : HeapQueue α)
    (hinv : HeapInv prior q) (hpos : 0 < q.ln) :
    ∃ m, q.first.2 = some m ∧ HMem q.mem q.ln m ∧
      (∀ x, HMem q.mem q.ln x → prior x m = false) ∧
      q.first.1 = q ∧
      (∀ (fuel : Nat) (q' : HeapQueue α) (r : Option α),
        q.dequeue prior fuel = some (q', r) → r = q.first.2) ∧
      (∀ (fuel : Nat), q.ln < fuel → ∃ q', q.dequeue prior fuel = some (q', some m)) := by
  obtain ⟨m, hm⟩ := hinv.part.nodes 0 (le_refl _) hpos (by omega)
  refine ⟨m, hm, ⟨0, le_refl _, hpos, hm⟩, HeapInv.top_min prior sw q hinv m hm, rfl, ?_, ?_⟩
  · intro fuel q' r h
    obtain ⟨n, hn, hn0, _⟩ := HeapQueue.dequeue_inv prior sw fuel q q' r hinv hpos h
    rw [hn, HeapQueue.first, hn0]
  · intro fuel hf
    obtain ⟨q', r, h, hr, _⟩ := dequeue_spec prior sw q fuel hinv hpos hf
    rw [hm] at hr; cases hr
    exact ⟨q', h⟩

/-- Instance of C3 at the queue built from `[5, 3, 8, 1]`. -/
theorem first_is_top_witness :
    ∃ m, heapDemo.first.2 = some m ∧ HMem heapDemo.mem heapDemo.ln m ∧
      (∀ x, HMem heapDemo.mem heapDemo.ln x → priorLt x m = false) ∧
      heapDemo.first.1 = heapDemo ∧
      (∀ (fuel : Nat) (q' : HeapQueue Nat) (r : Option Nat),
        heapDemo.dequeue priorLt fuel = some (q', r) → r = heapDemo.first.2) ∧
      (∀ (fuel : Nat), heapDemo.ln < fuel →
        ∃ q', heapDemo.dequeue priorLt fuel = some (q', some m)) :=
  first_is_top priorLt strictWeak_priorLt heapDemo heapDemo_post.inv
    (by rw [heapDemo_post.size]; decide)

theorem RBT.root_mem (t : RBT α) (x : α) (h : t.root = some x) : x ∈ t.toList := by
  cases t with
  | nil => simp [RBT.root] at h
  | node c l y r => simp [RBT.root] at h; subst h; simp [RBT.toList]

theorem RBT.root_none (t : RBT α) (h : t.root = none) : t = .nil := by
  cases t with
  | nil => rfl
  | node c l y r => simp [RBT.root] at h

/-- The descent of `has` walks the tree: it returns within fuel above the
number of nodes, finds only nodes of the tree, and finds every node of a
sorted tree that is comparable with all other nodes. -/
theorem descend_spec (prior : α → α → Bool) (s : Store α) (n : α) :
    ∀ (t : RBT α) (p : Option α) (fuel : Nat), Repr s t p → t.toList.length < fuel →
      ∃ b, TreeList.descend prior s n fuel t.root = some b ∧ (b = true → n ∈ t.toList) ∧
        (t.toList.Pairwise (fun a b => prior b a = false) →
          (∀ a, a ∈ t.toList → a ≠ n → prior a n = true ∨ prior n a = true) →
          n ∈ t.toList → b = true) := by
  intro t
  induction t with
  | nil =>
    intro p fuel _ hf
    obtain ⟨f, rfl⟩ : ∃ f, fuel = f + 1 := ⟨fuel - 1, by omega⟩
    exact ⟨false, rfl, fun h => Bool.noConfusion h, by intro _ _ h; simp [RBT.toList] at h⟩
  | node c l x r ihl ihr =>
    intro p fuel hr hf
    obtain ⟨f, rfl⟩ : ∃ f, fuel = f + 1 := ⟨fuel - 1, by omega⟩
    obtain ⟨_, hl, hrc, _, hrl, hrr⟩ := hr
    simp only [RBT.toList, List.length_append, List.length_cons] at hf
    simp only [RBT.root, TreeList.descend]
    by_cases hx : x = n
    · subst hx
      exact ⟨true, by simp, by simp [RBT.toList], fun _ _ _ => rfl⟩
    · rw [if_neg hx]
      by_cases hp : prior n x = true
      · rw [if_pos hp, hl]
        obtain ⟨b, hb, h1, h2⟩ := ihl (some x) f hrl (by omega)
        refine ⟨b, hb, ?_, ?_⟩
        · intro e; simp [RBT.toList, h1 e]
        · intro hs hc hm
          simp only [RBT.toList, List.mem_append, List.mem_cons] at hm
          rw [RBT.toList, List.pairwise_append] at hs
          rcases hm with hm | hm | hm
          · exact h2 hs.1 (fun a ha => hc a (by simp [RBT.toList, ha])) hm
          · exact absurd hm.symm hx
          · have := (List.pairwise_cons.1 hs.2.1).1 n hm
            rw [hp] at this; exact Bool.noConfusion this
      · rw [if_neg hp, hrc]
        obtain ⟨b, hb, h1, h2⟩ := ihr (some x) f hrr (by omega)
        refine ⟨b, hb, ?_, ?_⟩
        · intro e; simp [RBT.toList, h1 e]
        · intro hs hc hm
          simp only [RBT.toList, List.mem_append, List.mem_cons] at hm
          rw [RBT.toList, List.pairwise_append] at hs
          rcases hm with hm | hm | hm
          · have h3 := hs.2.2 n hm x (List.mem_cons_self _ _)
            rcases hc x (by simp [RBT.toList]) hx with h4 | h4
            · rw [h3] at h4; exact Bool.noConfusion h4
            · exact absurd h4 hp
          · exact absurd hm.symm hx
          · exact h2 (List.pairwise_cons.1 hs.2.1).2 (fun a ha => hc a (by simp [RBT.toList, ha])) hm

/-- The nodes of a chain have non-null `_l_prev`. -/
theorem Chain.prev_some (s : Store α) :
    ∀ (xs : List α) (a b : α), Chain s a xs b → ∀ x, x ∈ xs → (s.prev x).isSome = true := by
  intro xs
  induction xs with
  | nil => intro a b _ x hx; simp at hx
  | cons y ys ih =>
    intro a b hc x hx
    obtain ⟨_, h2, h3⟩ := hc
    rcases List.mem_cons.1 hx with e | e
    · subst e; simp [h2]
    · exact ih y b h3 x e

/-- The scan of `has` walks the chain up to the sentinel. -/
theorem scan_spec (s : Store α) (head n : α) :
    ∀ (xs : List α) (a : α) (fuel : Nat), Chain s a xs head → head ∉ xs → xs.length < fuel →
      TreeList.scan s head n fuel (s.next a) = some (decide (n ∈ xs)) := by
  intro xs
  induction xs with
  | nil =>
    intro a fuel hc _ hf
    obtain ⟨f, rfl⟩ : ∃ f, fuel = f + 1 := ⟨fuel - 1, by simp at hf; omega⟩
    simp [TreeList.scan, hc.1]
  | cons y ys ih =>
    intro a fuel hc hh hf
    obtain ⟨f, rfl⟩ : ∃ f, fuel = f + 1 := ⟨fuel - 1, by omega⟩
    obtain ⟨h1, h2, h3⟩ := hc
    simp only [List.length_cons] at hf
    have hy : y ≠ head := fun e => hh (by simp [e])
    simp only [TreeList.scan, h1, ne_eq, Option.some.injEq, hy, not_false_eq_true, if_true]
    by_cases hyn : y = n
    · subst hyn; simp
    · rw [if_neg hyn]
      rw [ih y f h3 (fun e => hh (List.mem_cons_of_mem _ e)) (by omega)]
      have hny : ¬ n = y := fun e => hyn e.symm
      simp [hny]

/-- The walk of the list returns its nodes. -/
theorem walk_spec (s : Store α) (head : α) :
    ∀ (xs : List α) (a : α) (fuel : Nat), Chain s a xs head → head ∉ xs → xs.length < fuel →
      TreeList.walk s head fuel (s.next a) = some xs := by
  intro xs
  induction xs with
  | nil =>
    intro a fuel hc _ hf
    obtain ⟨f, rfl⟩ : ∃ f, fuel = f + 1 := ⟨fuel - 1, by simp at hf; omega⟩
    simp [TreeList.walk, hc.1]
  | cons y ys ih =>
    intro a fuel hc hh hf
    obtain ⟨f, rfl⟩ : ∃ f, fuel = f + 1 := ⟨fuel - 1, by omega⟩
    obtain ⟨h1, h2, h3⟩ := hc
    simp only [List.length_cons] at hf
    have hy : y ≠ head := fun e => hh (by simp [e])
    simp only [TreeList.walk, h1, ne_eq, Option.some.injEq, hy, not_false_eq_true, if_true]
    rw [ih y f h3 (fun e => hh (List.mem_cons_of_mem _ e)) (by omega)]
    rfl

/-- A node of a tree held in the fields has a parent, or is the root. -/
theorem Repr.par_or_root (s : Store α) :
    ∀ (t : RBT α) (p : Option α) (n : α), Repr s t p → n ∈ t.toList →
      (s.par n).isSome = true ∨ t.root = some n := by
  intro t
  induction t with
  | nil => intro p n _ hn; simp [RBT.toList] at hn
  | node c l x r ihl ihr =>
    intro p n hr hn
    obtain ⟨_, hl, hrc, _, hrl, hrr⟩ := hr
    simp only [RBT.toList, List.mem_append, List.mem_cons] at hn
    rcases hn with hn | hn | hn
    · rcases ihl (some x) n hrl hn with h | h
      · exact Or.inl h
      · left
        cases l with
        | nil => simp [RBT.root] at h
        | node c2 l2 y r2 =>
          simp only [RBT.root, Option.some.injEq] at h
          subst h
          rw [hrl.1]; rfl
    · subst hn; exact Or.inr rfl
    · rcases ihr (some x) n hrr hn with h | h
      · exact Or.inl h
      · left
        cases r with
        | nil => simp [RBT.root] at h
        | node c2 l2 y r2 =>
          simp only [RBT.root, Option.some.injEq] at h
          subst h
          rw [hrr.1]; rfl

/-- A member of a valid list is neither `not_in_list` nor `not_in_tree`. -/
theorem TreeList.Models.member_attached (prior : α → α → Bool) (L : TreeList α) (t : RBT α)
    (hm : L.Models prior t) (n : α) (hn : n ∈ t.toList) :
    (Link.not_in_list L.store n || Tree.not_in_tree L.store n) = false := by
  have h1 := Chain.prev_some L.store t.toList L.lHead L.lHead hm.chain n hn
  have h2 : Tree.not_in_tree L.store n = false := by
    rcases Repr.par_or_root L.store t none n hm.repr hn with h | h
    · cases hp : L.store.par n with
      | none => rw [hp] at h; simp at h
      | some q => simp [Tree.not_in_tree, hp]
    · cases t with
      | nil => simp [RBT.root] at h
      | node c l x r =>
        simp only [RBT.root, Option.some.injEq] at h
        subst h
        have hb := hm.rb.black
        simp only [RBT.blackRoot] at hb
        subst hb
        obtain ⟨hp, _, _, hc, _⟩ := hm.repr
        simp only [Tree.not_in_tree, hp]
        simpa using hc
  simp only [Link.not_in_list, h2, Bool.or_false]
  cases hp : L.store.prev n with
  | none => rw [hp] at h1; simp at h1
  | some q => rfl

/-- The traversal of a valid list is the in-order traversal of its tree. -/
theorem TreeList.Models.toList_eq (prior : α → α → Bool) (L : TreeList α) (t : RBT α)
    (hm : L.Models prior t) (fuel : Nat) (hf : L.ln < fuel) :
    L.toList fuel = some t.toList := by
  have := hm.size
  exact walk_spec L.store L.lHead t.toList L.lHead fuel hm.chain hm.head (by omega)

theorem TreeList.Models.has_eq (prior : α → α → Bool) (L : TreeList α) (t : RBT α)
    (hm : L.Models prior t) (n : α) (fuel : Nat) (hf : L.ln < fuel) :
    L.has prior fuel n = some (decide (n ∈ t.toList)) := by
  have hsz := hm.size
  obtain ⟨b, hb, h1, _⟩ := descend_spec prior L.store n t none fuel hm.repr (by omega)
  have hscan := scan_spec L.store L.lHead n t.toList L.lHead fuel hm.chain hm.head (by omega)
  rw [hm.root] at hb
  rw [TreeList.has]
  by_cases hn : n ∈ t.toList
  · rw [hm.member_attached prior L t n hn]
    simp only [Bool.false_eq_true, if_false, hb]
    cases b with
    | true => simp [hn]
    | false => simp only [hscan]
  · split
    · simp [hn]
    · rw [hb]
      cases b with
      | true => exact absurd (h1 rfl) hn
      | false => simp only [hscan]

theorem TreeList.Models.uniHas_eq (prior : α → α → Bool) (L : TreeList α) (t : RBT α)
    (hm : L.Models prior t) (n : α) (fuel : Nat) (hf : L.ln < fuel)
    (hd : ∀ a, a ∈ t.toList → ∀ b, b ∈ t.toList → a ≠ b →
      (prior a b = true ∧ prior b a = false) ∨ (prior a b = false ∧ prior b a = true)) :
    L.uniHas prior fuel n = some (decide (n ∈ t.toList)) := by
  have hsz := hm.size
  obtain ⟨b, hb, h1, h2⟩ := descend_spec prior L.store n t none fuel hm.repr (by omega)
  rw [hm.root] at hb
  rw [TreeList.uniHas]
  by_cases hn : n ∈ t.toList
  · rw [hm.member_attached prior L t n hn]
    simp only [Bool.false_eq_true, if_false, hb]
    have := h2 hm.sorted (fun a ha hne => by
      rcases hd a ha n hn hne with h | h
      · exact Or.inl h.1
      · exact Or.inr h.2) hn
    simp [this, hn]
  · split
    · simp [hn]
    · rw [hb]
      cases b with
      | true => exact absurd (h1 rfl) hn
      | false => simp [hn]

/-- C9 (`has` is exact, also with tied priorities).  For every valid
`TreeList` and every node `n`, `has(n)` returns, given fuel above `ln`, and
returns true if and only if `n` occurs in the list traversal. -/
theorem has_exact (prior : α → α → Bool) (L : TreeList α) (n : α) (fuel : Nat)
    (hv : L.Valid prior) (hf : L.ln < fuel) :
    ∃ xs, L.toList fuel = some xs ∧ L.has prior fuel n = some (decide (n ∈ xs)) := by
  obtain ⟨t, hm⟩ := hv
  exact ⟨t.toList, hm.toList_eq prior L t fuel hf, hm.has_eq prior L t n fuel hf⟩

/-- C10 (`uniHas` is exact under distinct priorities).  For every valid
`TreeList` in which any two distinct members satisfy exactly one of
`prior(a, b)`, `prior(b, a)`, and every node `n`, `uniHas(n)` returns, given
fuel above `ln`, true if and only if `n` occurs in the list traversal, and
equals `has(n)`. -/
theorem uniHas_exact (prior : α → α → Bool) (L : TreeList α) (n : α) (fuel : Nat)
    (hv : L.Valid prior) (hf : L.ln < fuel)
    (hd : ∀ xs, L.toList fuel = some xs → ∀ a, a ∈ xs → ∀ b, b ∈ xs → a ≠ b →
      (prior a b = true ∧ prior b a = false) ∨ (prior a b = false ∧ prior b a = true)) :
    ∃ xs, L.toList fuel = some xs ∧ L.uniHas prior fuel n = some (decide (n ∈ xs)) ∧
      L.uniHas prior fuel n = L.has prior fuel n := by
  obtain ⟨t, hm⟩ := hv
  have h1 := hm.toList_eq prior L t fuel hf
  have h2 := hm.uniHas_eq prior L t n fuel hf (hd t.toList h1)
  exact ⟨t.toList, h1, h2, by rw [h2, hm.has_eq prior L t n fuel hf]⟩

@[simp] theorem Store.setPar_par (s : Store α) (x y : α) (v : Option α) :
    (s.setPar x v).par y = if y = x then v else s.par y := by
  simp [Store.setPar, Function.update_apply]

@[simp] theorem Store.setPar_lch (s : Store α) (x : α) (v : Option α) :
    (s.setPar x v).lch = s.lch := rfl

@[simp] theorem Store.setPar_rch (s : Store α) (x : α) (v : Option α) :
    (s.setPar x v).rch = s.rch := rfl

@[simp] theorem Store.setPar_color (s : Store α) (x : α) (v : Option α) :
    (s.setPar x v).color = s.color := rfl

@[simp] theorem Store.setPar_prev (s : Store α) (x : α) (v : Option α) :
    (s.setPar x v).prev = s.prev := rfl

@[simp] theorem Store.setPar_next (s : Store α) (x : α) (v : Option α) :
    (s.setPar x v).next = s.next := rfl

@[simp] theorem Store.setLch_lch (s : Store α) (x y : α) (v : Option α) :
    (s.setLch x v).lch y = if y = x then v else s.lch y := by
  simp [Store.setLch, Function.update_apply]

@[simp] theorem Store.setLch_par (s : Store α) (x : α) (v : Option α) :
    (s.setLch x v).par = s.par := rfl

@[simp] theorem Store.setLch_rch (s : Store α) (x : α) (v : Option α) :
    (s.setLch x v).rch = s.rch := rfl

@[simp] theorem Store.setLch_color (s : Store α) (x : α) (v : Option α) :
    (s.setLch x v).color = s.color := rfl

@[simp] theorem Store.setLch_prev (s : Store α) (x : α) (v : Option α) :
    (s.setLch x v).prev = s.prev := rfl

@[simp] theorem Store.setLch_next (s : Store α) (x : α) (v : Option α) :
    (s.setLch x v).next = s.next := rfl

@[simp] theorem Store.setRch_rch (s : Store α) (x y : α) (v : Option α) :
    (s.setRch x v).rch y = if y = x then v else s.rch y := by
  simp [Store.setRch, Function.update_apply]

@[simp] theorem Store.setRch_par (s : Store α) (x : α) (v : Option α) :
    (s.setRch x v).par = s.par := rfl

@[simp] theorem Store.setRch_lch (s : Store α) (x : α) (v : Option α) :
    (s.setRch x v).lch = s.lch := rfl

@[simp] theorem Store.setRch_color (s : Store α) (x : α) (v : Option α) :
    (s.setRch x v).color = s.color := rfl

@[simp] theorem Store.setRch_prev (s : Store α) (x : α) (v : Option α) :
    (s.setRch x v).prev = s.prev := rfl

@[simp] theorem Store.setRch_next (s : Store α) (x : α) (v : Option α) :
    (s.setRch x v).next = s.next := rfl

@[simp] theorem Store.setColor_color (s : Store α) (x y : α) (v : Nat) :
    (s.setColor x v).color y = if y = x then v else s.color y := by
  simp [Store.setColor, Function.update_apply]

@[simp] theorem Store.setColor_par (s : Store α) (x : α) (v : Nat) :
    (s.setColor x v).par = s.par := rfl

@[simp] theorem Store.setColor_lch (s : Store α) (x : α) (v : Nat) :
    (s.setColor x v).lch = s.lch := rfl

@[simp] theorem Store.setColor_rch (s : Store α) (x : α) (v : Nat) :
    (s.setColor x v).rch = s.rch := rfl

@[simp] theorem Store.setColor_prev (s : Store α) (x : α) (v : Nat) :
    (s.setColor x v).prev = s.prev := rfl

@[simp] theorem Store.setColor_next (s : Store α) (x : α) (v : Nat) :
    (s.setColor x v).next = s.next := rfl

@[simp] theorem Store.setPrev_prev (s : Store α) (x y : α) (v : Option α) :
    (s.setPrev x v).prev y = if y = x then v else s.prev y := by
  simp [Store.setPrev, Function.update_apply]

@[simp] theorem Store.setPrev_next (s : Store α) (x : α) (v : Option α) :
    (s.setPrev x v).next = s.next := rfl

@[simp] theorem Store.setPrev_par (s : Store α) (x : α) (v : Option α) :
    (s.setPrev x v).par = s.par := rfl

@[simp] theorem Store.setPrev_lch (s : Store α) (x : α) (v : Option α) :
    (s.setPrev x v).lch = s.lch := rfl

@[simp] theorem Store.setPrev_rch (s : Store α) (x : α) (v : Option α) :
    (s.setPrev x v).rch = s.rch := rfl

@[simp] theorem Store.setPrev_color (s : Store α) (x : α) (v : Option α) :
    (s.setPrev x v).color = s.color := rfl

@[simp] theorem Store.setNext_next (s : Store α) (x y : α) (v : Option α) :
    (s.setNext x v).next y = if y = x then v else s.next y := by
  simp [Store.setNext, Function.update_apply]

@[simp] theorem Store.setNext_prev (s : Store α) (x : α) (v : Option α) :
    (s.setNext x v).prev = s.prev := rfl

@[simp] theorem Store.setNext_par (s : Store α) (x : α) (v : Option α) :
    (s.setNext x v).par = s.par := rfl

@[simp] theorem Store.setNext_lch (s : Store α) (x : α) (v : Option α) :
    (s.setNext x v).lch = s.lch := rfl

@[simp] theorem Store.setNext_rch (s : Store α) (x : α) (v : Option α) :
    (s.setNext x v).rch = s.rch := rfl

@[simp] theorem Store.setNext_color (s : Store α) (x : α) (v : Option α) :
    (s.setNext x v).color = s.color := rfl

/-- A tree stays held when the fields of its nodes are kept, but for the
parent link of its root. -/
theorem Repr.move (s s' : Store α) :
    ∀ (t : RBT α) (p p' : Option α), Repr s t p → t.toList.Nodup →
      (∀ x, x ∈ t.toList → s'.lch x = s.lch x ∧ s'.rch x = s.rch x ∧ s'.color x = s.color x) →
      (∀ x, x ∈ t.toList → t.root ≠ some x → s'.par x = s.par x) →
      (∀ x, t.root = some x → s'.par x = p') → Repr s' t p' := by
  intro t
  induction t with
  | nil => intros; trivial
  | node c l x r ihl ihr =>
    intro p p' hr hnd hf hpar hroot
    obtain ⟨h1, h2, h3, h4, h5, h6⟩ := hr
    simp only [RBT.toList] at hnd hf hpar
    have hnd' := List.nodup_append.1 hnd
    have hnd2 := List.nodup_cons.1 hnd'.2.1
    have hxl : x ∉ l.toList := fun h => hnd'.2.2 h (List.mem_cons_self _ _)
    have hx := hf x (by simp)
    refine ⟨hroot x rfl, by rw [hx.1, h2], by rw [hx.2.1, h3], by rw [hx.2.2, h4], ?_, ?_⟩
    · refine ihl (some x) (some x) h5 hnd'.1 (fun y hy => hf y (by simp [hy]))
        (fun y hy _ => hpar y (by simp [hy]) ?_) ?_
      · simp only [RBT.root, ne_eq, Option.some.injEq]
        intro e; subst e; exact hxl hy
      · intro y hy
        have hyl := RBT.root_mem l y hy
        rw [hpar y (by simp [hyl]) ?_]
        · cases l with
          | nil => simp [RBT.root] at hy
          | node c2 l2 z r2 => simp only [RBT.root, Option.some.injEq] at hy; subst hy; exact h5.1
        · simp only [RBT.root, ne_eq, Option.some.injEq]
          intro e; subst e; exact hxl hyl
    · refine ihr (some x) (some x) h6 hnd2.2 (fun y hy => hf y (by simp [hy]))
        (fun y hy _ => hpar y (by simp [hy]) ?_) ?_
      · simp only [RBT.root, ne_eq, Option.some.injEq]
        intro e; subst e; exact hnd2.1 hy
      · intro y hy
        have hyl := RBT.root_mem r y hy
        rw [hpar y (by simp [hyl]) ?_]
        · cases r with
          | nil => simp [RBT.root] at hy
          | node c2 l2 z r2 => simp only [RBT.root, Option.some.injEq] at hy; subst hy; exact h6.1
        · simp only [RBT.root, ne_eq, Option.some.injEq]
          intro e; subst e; exact hnd2.1 hyl

/-- A tree stays held when all fields of its nodes are kept. -/
theorem Repr.congr (s s' : Store α) (t : RBT α) (p : Option α) (h : Repr s t p)
    (hnd : t.toList.Nodup)
    (hf : ∀ x, x ∈ t.toList → s'.lch x = s.lch x ∧ s'.rch x = s.rch x ∧
      s'.color x = s.color x ∧ s'.par x = s.par x) : Repr s' t p := by
  refine Repr.move s s' t p p h hnd (fun x hx => ⟨(hf x hx).1, (hf x hx).2.1, (hf x hx).2.2.1⟩)
    (fun x hx _ => (hf x hx).2.2.2) ?_
  intro x hx
  rw [(hf x (RBT.root_mem t x hx)).2.2.2]
  cases t with
  | nil => simp [RBT.root] at hx
  | node c l y r => simp only [RBT.root, Option.some.injEq] at hx; subst hx; exact h.1

theorem toList_plug : ∀ (ctx : List (Frame α)) (u : RBT α),
    (plug u ctx).toList = ctxLeft ctx ++ u.toList ++ ctxRight ctx := by
  intro ctx
  induction ctx with
  | nil => intro u; simp [plug, ctxLeft, ctxRight]
  | cons f rest ih =>
    intro u
    cases f with
    | L c x r => simp [plug, ctxLeft, ctxRight, ih, RBT.toList]
    | R c l x => simp [plug, ctxLeft, ctxRight, ih, RBT.toList]

theorem root_plug : ∀ (ctx : List (Frame α)) (u : RBT α),
    (plug u ctx).root = ctxRoot ctx u.root := by
  intro ctx
  induction ctx with
  | nil => intro u; rfl
  | cons f rest ih =>
    intro u
    cases f with
    | L c x r => simp only [plug, ctxRoot, Frame.node]; rw [ih]; rfl
    | R c l x => simp only [plug, ctxRoot, Frame.node]; rw [ih]; rfl

theorem repr_plug_iff (s : Store α) : ∀ (ctx : List (Frame α)) (u : RBT α),
    Repr s (plug u ctx) none ↔ Repr s u (ctxPar ctx) ∧ ReprCtx s ctx u.root := by
  intro ctx
  induction ctx with
  | nil => intro u; simp [plug, ctxPar, ReprCtx]
  | cons f rest ih =>
    intro u
    cases f with
    | L c x r =>
      simp only [plug, ih, Repr, RBT.root, ctxPar, Frame.node, ReprCtx]
      tauto
    | R c l x =>
      simp only [plug, ih, Repr, RBT.root, ctxPar, Frame.node, ReprCtx]
      tauto

/-- The frames stay held when all fields of their nodes are kept. -/
theorem ReprCtx.congrCtx (s s' : Store α) :
    ∀ (ctx : List (Frame α)) (h : Option α), ReprCtx s ctx h →
      (ctxLeft ctx ++ ctxRight ctx).Nodup →
      (∀ x, x ∈ ctxLeft ctx ++ ctxRight ctx → s'.lch x = s.lch x ∧ s'.rch x = s.rch x ∧
        s'.color x = s.color x ∧ s'.par x = s.par x) → ReprCtx s' ctx h := by
  intro ctx
  induction ctx with
  | nil => intros; trivial
  | cons f rest ih =>
    intro h hr hnd hf
    cases f with
    | L c x r =>
      obtain ⟨h1, h2, h3, h4, h5, h6⟩ := hr
      simp only [ctxLeft, ctxRight] at hnd hf
      have hx := hf x (by simp)
      have hnd1 : (ctxLeft rest ++ ctxRight rest).Nodup := by
        refine List.Nodup.sublist ?_ hnd
        refine List.Sublist.append (List.Sublist.refl _) ?_
        exact (List.sublist_append_right _ _).trans (List.sublist_cons_self _ _)
      have hnd2 : r.toList.Nodup := by
        refine List.Nodup.sublist ?_ hnd
        refine (List.Sublist.trans ?_ (List.sublist_append_right _ _))
        exact (List.sublist_append_left _ _).trans (List.sublist_cons_self _ _)
      refine ⟨by rw [hx.2.2.2, h1], by rw [hx.1, h2], by rw [hx.2.1, h3], by rw [hx.2.2.1, h4],
        ?_, ?_⟩
      · exact Repr.congr s s' r (some x) h5 hnd2 (fun y hy => hf y (by simp [hy]))
      · exact ih (some x) h6 hnd1 (fun y hy => hf y (by
          simp only [List.mem_append] at hy ⊢
          rcases hy with hy | hy
          · exact Or.inl hy
          · exact Or.inr (by simp [hy])))
    | R c l x =>
      obtain ⟨h1, h2, h3, h4, h5, h6⟩ := hr
      simp only [ctxLeft, ctxRight] at hnd hf
      have hx := hf x (by simp)
      have hnd1 : (ctxLeft rest ++ ctxRight rest).Nodup := by
        refine List.Nodup.sublist ?_ hnd
        refine List.Sublist.append ?_ (List.Sublist.refl _)
        exact List.sublist_append_left _ _
      have hnd2 : l.toList.Nodup := by
        refine List.Nodup.sublist ?_ hnd
        refine (List.Sublist.trans ?_ (List.sublist_append_left _ _))
        exact (List.sublist_append_left _ _).trans (List.sublist_append_right _ _)
      refine ⟨by rw [hx.2.2.2, h1], by rw [hx.1, h2], by rw [hx.2.1, h3], by rw [hx.2.2.1, h4],
        ?_, ?_⟩
      · exact Repr.congr s s' l (some x) h5 hnd2 (fun y hy => hf y (by simp [hy]))
      · exact ih (some x) h6 hnd1 (fun y hy => hf y (by
          simp only [List.mem_append] at hy ⊢
          rcases hy with hy | hy
          · exact Or.inl (Or.inl hy)
          · exact Or.inr hy))

@[simp] theorem bind_left_par (s : Store α) (o : Option α) (p y : α) :
    (Tree.bind_left s o (some p)).par y = if some y = o then some p else s.par y := by
  cases o with
  | none => simp [Tree.bind_left]
  | some n => simp [Tree.bind_left]

@[simp] theorem bind_left_lch (s : Store α) (o : Option α) (p y : α) :
    (Tree.bind_left s o (some p)).lch y = if y = p then o else s.lch y := by
  cases o with
  | none => simp [Tree.bind_left]
  | some n => simp [Tree.bind_left]

@[simp] theorem bind_left_rch (s : Store α) (o : Option α) (p : α) :
    (Tree.bind_left s o (some p)).rch = s.rch := by
  cases o <;> simp [Tree.bind_left]

@[simp] theorem bind_left_color (s : Store α) (o : Option α) (p : α) :
    (Tree.bind_left s o (some p)).color = s.color := by
  cases o <;> simp [Tree.bind_left]

@[simp] theorem bind_left_prev (s : Store α) (o : Option α) (p : α) :
    (Tree.bind_left s o (some p)).prev = s.prev := by
  cases o <;> simp [Tree.bind_left]

@[simp] theorem bind_left_next (s : Store α) (o : Option α) (p : α) :
    (Tree.bind_left s o (some p)).next = s.next := by
  cases o <;> simp [Tree.bind_left]

@[simp] theorem bind_right_par (s : Store α) (o : Option α) (p y : α) :
    (Tree.bind_right s o (some p)).par y = if some y = o then some p else s.par y := by
  cases o with
  | none => simp [Tree.bind_right]
  | some n => simp [Tree.bind_right]

@[simp] theorem bind_right_rch (s : Store α) (o : Option α) (p y : α) :
    (Tree.bind_right s o (some p)).rch y = if y = p then o else s.rch y := by
  cases o with
  | none => simp [Tree.bind_right]
  | some n => simp [Tree.bind_right]

@[simp] theorem bind_right_lch (s : Store α) (o : Option α) (p : α) :
    (Tree.bind_right s o (some p)).lch = s.lch := by
  cases o <;> simp [Tree.bind_right]

@[simp] theorem bind_right_color (s : Store α) (o : Option α) (p : α) :
    (Tree.bind_right s o (some p)).color = s.color := by
  cases o <;> simp [Tree.bind_right]

@[simp] theorem bind_right_prev (s : Store α) (o : Option α) (p : α) :
    (Tree.bind_right s o (some p)).prev = s.prev := by
  cases o <;> simp [Tree.bind_right]

@[simp] theorem bind_right_next (s : Store α) (o : Option α) (p : α) :
    (Tree.bind_right s o (some p)).next = s.next := by
  cases o <;> simp [Tree.bind_right]

@[simp] theorem bind_replace_par (s : Store α) (o : Option α) (t : α) (tp : Option α) (y : α) :
    (Tree.bind_replace s o t tp).par y = if some y = o then tp else s.par y := by
  cases o <;> cases tp <;> simp [Tree.bind_replace] <;> split <;> simp

@[simp] theorem bind_replace_color (s : Store α) (o : Option α) (t : α) (tp : Option α) :
    (Tree.bind_replace s o t tp).color = s.color := by
  cases o <;> cases tp <;> simp [Tree.bind_replace] <;> split <;> simp

@[simp] theorem bind_replace_prev (s : Store α) (o : Option α) (t : α) (tp : Option α) :
    (Tree.bind_replace s o t tp).prev = s.prev := by
  cases o <;> cases tp <;> simp [Tree.bind_replace] <;> split <;> simp

@[simp] theorem bind_replace_next (s : Store α) (o : Option α) (t : α) (tp : Option α) :
    (Tree.bind_replace s o t tp).next = s.next := by
  cases o <;> cases tp <;> simp [Tree.bind_replace] <;> split <;> simp

theorem bind_replace_lch (s : Store α) (o : Option α) (t : α) (tp : Option α) (y : α) :
    (Tree.bind_replace s o t tp).lch y =
      if tp = some y ∧ s.lch y = some t then o else s.lch y := by
  cases tp with
  | none => cases o <;> simp [Tree.bind_replace]
  | some p =>
    cases o with
    | none =>
      simp only [Tree.bind_replace]
      split
      · rename_i h
        by_cases hy : y = p
        · subst hy; simp [h]
        · have : ¬ p = y := fun e => hy e.symm
          simp [hy, this]
      · rename_i h
        by_cases hy : y = p
        · subst hy; simp [h]
        · have : ¬ p = y := fun e => hy e.symm
          simp [hy, this]
    | some n =>
      simp only [Tree.bind_replace, Store.setPar_lch]
      split
      · rename_i h
        by_cases hy : y = p
        · subst hy; simp [h]
        · have : ¬ p = y := fun e => hy e.symm
          simp [hy, this]
      · rename_i h
        by_cases hy : y = p
        · subst hy; simp [h]
        · have : ¬ p = y := fun e => hy e.symm
          simp [hy, this]

theorem bind_replace_rch (s : Store α) (o : Option α) (t : α) (tp : Option α) (y : α) :
    (Tree.bind_replace s o t tp).rch y =
      if tp = some y ∧ s.lch y ≠ some t then o else s.rch y := by
  cases tp with
  | none => cases o <;> simp [Tree.bind_replace]
  | some p =>
    cases o with
    | none =>
      simp only [Tree.bind_replace]
      split
      · rename_i h
        by_cases hy : y = p
        · subst hy; simp [h]
        · have : ¬ p = y := fun e => hy e.symm
          simp [hy, this]
      · rename_i h
        by_cases hy : y = p
        · subst hy; simp [h]
        · have : ¬ p = y := fun e => hy e.symm
          simp [hy, this]
    | some n =>
      simp only [Tree.bind_replace, Store.setPar_lch, Store.setPar_rch]
      split
      · rename_i h
        by_cases hy : y = p
        · subst hy; simp [h]
        · have : ¬ p = y := fun e => hy e.symm
          simp [hy, this]
      · rename_i h
        by_cases hy : y = p
        · subst hy; simp [h]
        · have : ¬ p = y := fun e => hy e.symm
          simp [hy, this]

/-- Fields that `bind_replace` keeps at a node that is neither the new child
nor the parent. -/
theorem bind_replace_other (s : Store α) (o : Option α) (t : α) (tp : Option α) (y : α)
    (h1 : o ≠ some y) (h2 : tp ≠ some y) :
    (Tree.bind_replace s o t tp).lch y = s.lch y ∧ (Tree.bind_replace s o t tp).rch y = s.rch y ∧
      (Tree.bind_replace s o t tp).color y = s.color y ∧
      (Tree.bind_replace s o t tp).par y = s.par y := by
  have h3 : ¬ some y = o := fun e => h1 e.symm
  simp [bind_replace_lch, bind_replace_rch, h2, h3]

/-- `bind_replace` redirects the child link of the innermost frame. -/
theorem ReprCtx.replace (s : Store α) (ctx : List (Frame α)) (x : α) (o : Option α)
    (hr : ReprCtx s ctx (some x)) (hnd : (ctxLeft ctx ++ ctxRight ctx).Nodup)
    (hx : x ∉ ctxLeft ctx ++ ctxRight ctx)
    (ho : ∀ y, o = some y → y ∉ ctxLeft ctx ++ ctxRight ctx) :
    ReprCtx (Tree.bind_replace s o x (ctxPar ctx)) ctx o := by
  cases ctx with
  | nil => trivial
  | cons f rest =>
    cases f with
    | L c p r =>
      obtain ⟨h1, h2, h3, h4, h5, h6⟩ := hr
      simp only [ctxLeft, ctxRight] at hnd hx ho
      have hnd' := List.nodup_append.1 hnd
      have hnd2 := List.nodup_cons.1 hnd'.2.1
      have hnd3 := List.nodup_append.1 hnd2.2
      have hop : o ≠ some p := fun e => ho p e (by simp)
      have hop' : ¬ some p = o := fun e => hop e.symm
      have hpr : p ∉ r.toList := fun h => hnd2.1 (by simp [h])
      have hprest : p ∉ ctxLeft rest ++ ctxRight rest := by
        intro h
        rcases List.mem_append.1 h with h | h
        · exact hnd'.2.2 h (by simp)
        · exact hnd2.1 (by simp [h])
      refine ⟨?_, ?_, ?_, ?_, ?_, ?_⟩
      · simp [ctxPar, Frame.node, hop', h1]
      · simp [bind_replace_lch, ctxPar, Frame.node, h2]
      · simp [bind_replace_rch, ctxPar, Frame.node, h2, h3]
      · simp [h4]
      · refine Repr.congr s _ r (some p) h5 hnd3.1 (fun y hy => ?_)
        exact bind_replace_other s o x _ y (fun e => ho y e (by simp [hy]))
          (by simp only [ctxPar, Frame.node, ne_eq, Option.some.injEq]; intro e; subst e; exact hpr hy)
      · refine ReprCtx.congrCtx s _ rest (some p) h6 ?_ (fun y hy => ?_)
        · refine List.Nodup.sublist ?_ hnd
          refine List.Sublist.append (List.Sublist.refl _) ?_
          exact (List.sublist_append_right _ _).trans (List.sublist_cons_self _ _)
        · refine bind_replace_other s o x _ y (fun e => ho y e ?_) ?_
          · simp only [List.mem_append, List.mem_cons] at hy ⊢
            tauto
          · simp only [ctxPar, Frame.node, ne_eq, Option.some.injEq]
            intro e; subst e; exact hprest hy
    | R c l p =>
      obtain ⟨h1, h2, h3, h4, h5, h6⟩ := hr
      simp only [ctxLeft, ctxRight] at hnd hx ho
      have hnd' := List.nodup_append.1 hnd
      have hnd2 := List.nodup_append.1 hnd'.1
      have hnd3 := List.nodup_append.1 hnd2.2.1
      have hop : o ≠ some p := fun e => ho p e (by simp)
      have hop' : ¬ some p = o := fun e => hop e.symm
      have hpl : p ∉ l.toList := fun h => hnd3.2.2 h (by simp)
      have hxl : l.root ≠ some x := fun e => hx (by simp [RBT.root_mem l x e])
      have hprest : p ∉ ctxLeft rest ++ ctxRight rest := by
        intro h
        rcases List.mem_append.1 h with h | h
        · exact hnd2.2.2 h (by simp)
        · exact hnd'.2.2 (by simp) h
      refine ⟨?_, ?_, ?_, ?_, ?_, ?_⟩
      · simp [ctxPar, Frame.node, hop', h1]
      · simp [bind_replace_lch, ctxPar, Frame.node, h2, hxl]
      · simp [bind_replace_rch, ctxPar, Frame.node, h2, hxl]
      · simp [h4]
      · refine Repr.congr s _ l (some p) h5 hnd3.1 (fun y hy => ?_)
        exact bind_replace_other s o x _ y (fun e => ho y e (by simp [hy]))
          (by simp only [ctxPar, Frame.node, ne_eq, Option.some.injEq]; intro e; subst e; exact hpl hy)
      · refine ReprCtx.congrCtx s _ rest (some p) h6 ?_ (fun y hy => ?_)
        · refine List.Nodup.sublist ?_ hnd
          refine List.Sublist.append ?_ (List.Sublist.refl _)
          exact List.sublist_append_left _ _
        · refine bind_replace_other s o x _ y (fun e => ho y e ?_) ?_
          · simp only [List.mem_append, List.mem_cons] at hy ⊢
            tauto
          · simp only [ctxPar, Frame.node, ne_eq, Option.some.injEq]
            intro e; subst e; exact hprest hy

theorem plug_sep (ctx : List (Frame α)) (c : Bool) (l : RBT α) (x : α) (r : RBT α)
    (hnd : (plug (.node c l x r) ctx).toList.Nodup) : Sep ctx l x r := by
  rw [toList_plug] at hnd
  simp only [RBT.toList, List.nodup_append, List.nodup_cons, List.mem_append, List.mem_cons,
    List.disjoint_left, not_or, List.append_assoc] at hnd
  obtain ⟨h1, ⟨h2, ⟨h3, h4, h5⟩, h6⟩, h7⟩ := hnd
  refine ⟨h2, h3.2, ?_, ?_, h3.1, ?_, ?_, ?_, ?_⟩
  · rw [List.nodup_append]
    refine ⟨h1, h4, ?_⟩
    intro y hy hy'
    exact (h7 hy).2.2 hy'
  · intro h; exact (h6 h).1.1 rfl
  · simp only [List.mem_append, not_or]
    exact ⟨fun h => (h7 h).2.1.1 rfl, h5 (Or.inl rfl)⟩
  · intro y hy; exact (h6 hy).1.2
  · intro y hy
    simp only [List.mem_append, not_or]
    exact ⟨fun h => (h7 h).1 hy, (h6 hy).2⟩
  · intro y hy
    simp only [List.mem_append, not_or]
    exact ⟨fun h => (h7 h).2.1.2 hy, h5 (Or.inr hy)⟩

theorem ctxPar_mem (ctx : List (Frame α)) (y : α) (h : ctxPar ctx = some y) :
    y ∈ ctxLeft ctx ++ ctxRight ctx := by
  cases ctx with
  | nil => simp [ctxPar] at h
  | cons f rest =>
    cases f with
    | L c p r =>
      simp only [ctxPar, Frame.node, Option.some.injEq] at h
      subst h; simp [ctxLeft, ctxRight]
    | R c l p =>
      simp only [ctxPar, Frame.node, Option.some.injEq] at h
      subst h; simp [ctxLeft, ctxRight]

theorem rotate_right_sim (s : Store α) (ctx : List (Frame α)) (c cl : Bool) (a b r : RBT α)
    (x ll : α)
    (hr : Repr s (plug (.node c (.node cl a ll b) x r) ctx) none)
    (hnd : (plug (.node c (.node cl a ll b) x r) ctx).toList.Nodup) :
    ∃ s', Tree.rotate_right s x = some s' ∧
      Repr s' (plug (.node cl a ll (.node c b x r)) ctx) none ∧
      s'.color = s.color ∧ s'.prev = s.prev ∧ s'.next = s.next := by
  have sx := plug_sep ctx c _ x r hnd
  have sl := plug_sep (.L c x r :: ctx) cl a ll b hnd
  rw [repr_plug_iff] at hr
  obtain ⟨⟨hx1, hx2, hx3, hx4, ⟨hl1, hl2, hl3, hl4, ha, hb⟩, hrr⟩, hc⟩ := hr
  have hxl := sx.x_l
  have hlc := sl.x_c
  have hac := sl.l_c
  have hbc := sl.r_c
  have hxc := sx.x_c
  have hrc := sx.r_c
  simp only [RBT.toList, List.mem_append, List.mem_cons, not_or, ctxLeft, ctxRight] at hxl hlc hac hbc hxc hrc
  simp only [RBT.root] at hx2
  have hxll : ¬ x = ll := hxl.2.1
  have hllx : ¬ ll = x := fun e => hxll e.symm
  have hbx : ¬ some x = b.root := fun e => hxl.2.2 (RBT.root_mem b x e.symm)
  have hbl : ¬ some ll = b.root := fun e => sl.x_r (RBT.root_mem b ll e.symm)
  have hpx : ¬ ctxPar ctx = some x := fun e => sx.x_c (ctxPar_mem ctx x e)
  have hpl : ¬ ctxPar ctx = some ll := fun e => by
    have := ctxPar_mem ctx ll e
    simp only [List.mem_append] at this
    tauto
  refine ⟨_, by simp only [Tree.rotate_right, hx2, RBT.root]; rfl, ?_, by simp, by simp, by simp⟩
  rw [repr_plug_iff]
  refine ⟨⟨?_, ?_, ?_, ?_, ?_, ?_, ?_, ?_, ?_, ?_, ?_⟩, ?_⟩
  · simp [hx1]
  · simp [bind_replace_lch, hllx, hl2, hx1, hpl]
  · simp [bind_replace_rch, hllx, hx1, hpl, RBT.root]
  · simp [hl4]
  · refine Repr.congr s _ a (some ll) ha sl.l_nd (fun y hy => ?_)
    have h1 := hac y hy
    have h2 : ¬ y = ll := fun e => sl.x_l (e ▸ hy)
    have h3 : ¬ y = x := by tauto
    have h4 : ¬ some y = b.root := fun e => sl.l_r y hy (RBT.root_mem b y e.symm)
    have h5 : ¬ ctxPar ctx = some y := fun e => by
      have := ctxPar_mem ctx y e
      simp only [List.mem_append] at this
      tauto
    simp [bind_replace_lch, bind_replace_rch, hx1, hl3, h2, h3, h4, h5]
  · simp [hllx, hxll]
  · simp [bind_replace_lch, hx1, hpx, hl3]
  · simp [bind_replace_rch, hx1, hpx, hxll, hx3]
  · simp [hx4]
  · refine Repr.move s _ b (some ll) (some x) hb sl.r_nd (fun y hy => ?_) (fun y hy hroot => ?_)
      (fun y hy => ?_)
    · have h1 := hbc y hy
      have h2 : ¬ y = ll := fun e => sl.x_r (e ▸ hy)
      have h3 : ¬ y = x := by tauto
      have h5 : ¬ ctxPar ctx = some y := fun e => by
        have := ctxPar_mem ctx y e
        simp only [List.mem_append] at this
        tauto
      simp [bind_replace_lch, bind_replace_rch, hx1, h2, h3, h5]
    · have h1 := hbc y hy
      have h2 : ¬ y = ll := fun e => sl.x_r (e ▸ hy)
      have h3 : ¬ y = x := by tauto
      have h4 : ¬ some y = b.root := fun e => hroot e.symm
      simp [hl3, h2, h3, h4]
    · have h2 : ¬ y = ll := fun e => sl.x_r (e ▸ RBT.root_mem b y hy)
      have h3 : ¬ y = x := fun e => hxl.2.2 (e ▸ RBT.root_mem b y hy)
      simp [hl3, h2, h3, hy]
  · refine Repr.congr s _ r (some x) hrr sx.r_nd (fun y hy => ?_)
    have h1 := hrc y hy
    have h2 : ¬ y = ll := by rintro rfl; tauto
    have h3 : ¬ y = x := fun e => sx.x_r (e ▸ hy)
    have h4 : ¬ some y = b.root := fun e => by
      have := hbc y (RBT.root_mem b y e.symm)
      tauto
    have h5 : ¬ ctxPar ctx = some y := fun e => by
      have := ctxPar_mem ctx y e
      simp only [List.mem_append] at this
      tauto
    simp [bind_replace_lch, bind_replace_rch, hx1, hl3, h2, h3, h4, h5]
  · simp only [RBT.root]
    rw [hx1]
    refine ReprCtx.replace _ ctx x (some ll) ?_ sx.c_nd sx.x_c ?_
    · refine ReprCtx.congrCtx s _ ctx (some x) hc sx.c_nd (fun y hy => ?_)
      have h2 : ¬ y = ll := fun e => sl.x_c (by
        subst e; simp only [ctxLeft, ctxRight, List.mem_append, List.mem_cons] at hy ⊢; tauto)
      have h3 : ¬ y = x := fun e => sx.x_c (e ▸ hy)
      have h4 : ¬ some y = b.root := fun e => sl.r_c y (RBT.root_mem b y e.symm) (by
        simp only [ctxLeft, ctxRight, List.mem_append, List.mem_cons] at hy ⊢; tauto)
      simp [hl3, h2, h3, h4]
    · intro y hy
      simp only [Option.some.injEq] at hy
      subst hy
      intro h
      exact sl.x_c (by
        simp only [ctxLeft, ctxRight, List.mem_append, List.mem_cons] at h ⊢; tauto)

theorem rotate_left_sim (s : Store α) (ctx : List (Frame α)) (c cr : Bool) (l a b : RBT α)
    (x lr : α)
    (hr : Repr s (plug (.node c l x (.node cr a lr b)) ctx) none)
    (hnd : (plug (.node c l x (.node cr a lr b)) ctx).toList.Nodup) :
    ∃ s', Tree.rotate_left s x = some s' ∧
      Repr s' (plug (.node cr (.node c l x a) lr b) ctx) none ∧
      s'.color = s.color ∧ s'.prev = s.prev ∧ s'.next = s.next := by
  have sx := plug_sep ctx c l x _ hnd
  have sl := plug_sep (.R c l x :: ctx) cr a lr b hnd
  rw [repr_plug_iff] at hr
  obtain ⟨⟨hx1, hx2, hx3, hx4, hll, ⟨hl1, hl2, hl3, hl4, ha, hb⟩⟩, hc⟩ := hr
  have hxl := sx.x_r
  have hlc := sl.x_c
  have hac := sl.l_c
  have hbc := sl.r_c
  have hxc := sx.x_c
  have hrc := sx.l_c
  have hlr := sx.l_r
  simp only [RBT.toList, List.mem_append, List.mem_cons, not_or, ctxLeft, ctxRight,
    List.mem_singleton] at hxl hlc hac hbc hxc hrc hlr
  simp only [RBT.root] at hx3
  have hxll : ¬ x = lr := by tauto
  have hllx : ¬ lr = x := fun e => hxll e.symm
  have hbx : ¬ some x = a.root := fun e => by
    have := RBT.root_mem a x e.symm
    tauto
  have hbl : ¬ some lr = a.root := fun e => sl.x_l (RBT.root_mem a lr e.symm)
  have hpx : ¬ ctxPar ctx = some x := fun e => sx.x_c (ctxPar_mem ctx x e)
  have hpl : ¬ ctxPar ctx = some lr := fun e => by
    have := ctxPar_mem ctx lr e
    simp only [List.mem_append] at this
    tauto
  have hxa : ¬ l.root = some lr := fun e => by
    have := hlr lr (RBT.root_mem l lr e)
    tauto
  have hxa' : ¬ l.root = some x := fun e => sx.x_l (RBT.root_mem l x e)
  refine ⟨_, by simp only [Tree.rotate_left, hx3, RBT.root]; rfl, ?_, by simp, by simp, by simp⟩
  rw [repr_plug_iff]
  refine ⟨⟨?_, ?_, ?_, ?_, ⟨?_, ?_, ?_, ?_, ?_, ?_⟩, ?_⟩, ?_⟩
  · simp [hx1]
  · simp [bind_replace_lch, hllx, hx1, hpl, RBT.root]
  · simp [bind_replace_rch, hllx, hl3, hx1, hpl]
  · simp [hl4]
  · simp [hllx, hxll]
  · simp [bind_replace_lch, hx1, hpx, hxll, hx2]
  · simp [bind_replace_rch, hx1, hpx, hl2]
  · simp [hx4]
  · refine Repr.congr s _ l (some x) hll sx.l_nd (fun y hy => ?_)
    have h1 := hrc y hy
    have h0 := hlr y hy
    have h2 : ¬ y = lr := by tauto
    have h3 : ¬ y = x := fun e => sx.x_l (e ▸ hy)
    have h4 : ¬ some y = a.root := fun e => by
      have := RBT.root_mem a y e.symm
      tauto
    have h5 : ¬ ctxPar ctx = some y := fun e => by
      have := ctxPar_mem ctx y e
      simp only [List.mem_append] at this
      tauto
    simp [bind_replace_lch, bind_replace_rch, hx1, hl2, h2, h3, h4, h5]
  · refine Repr.move s _ a (some lr) (some x) ha sl.l_nd (fun y hy => ?_) (fun y hy hroot => ?_)
      (fun y hy => ?_)
    · have h1 := hac y hy
      have h2 : ¬ y = lr := fun e => sl.x_l (e ▸ hy)
      have h3 : ¬ y = x := by tauto
      have h5 : ¬ ctxPar ctx = some y := fun e => by
        have := ctxPar_mem ctx y e
        simp only [List.mem_append] at this
        tauto
      simp [bind_replace_lch, bind_replace_rch, hx1, h2, h3, h5]
    · have h1 := hac y hy
      have h2 : ¬ y = lr := fun e => sl.x_l (e ▸ hy)
      have h3 : ¬ y = x := by tauto
      have h4 : ¬ some y = a.root := fun e => hroot e.symm
      simp [hl2, h2, h3, h4]
    · have h2 : ¬ y = lr := fun e => sl.x_l (e ▸ RBT.root_mem a y hy)
      have h3 : ¬ y = x := fun e => by
        have := RBT.root_mem a y hy
        subst e
        tauto
      simp [hl2, h2, h3, hy]
  · refine Repr.congr s _ b (some lr) hb sl.r_nd (fun y hy => ?_)
    have h1 := hbc y hy
    have h2 : ¬ y = lr := fun e => sl.x_r (e ▸ hy)
    have h3 : ¬ y = x := by tauto
    have h4 : ¬ some y = a.root := fun e => sl.l_r y (RBT.root_mem a y e.symm) hy
    have h5 : ¬ ctxPar ctx = some y := fun e => by
      have := ctxPar_mem ctx y e
      simp only [List.mem_append] at this
      tauto
    simp [bind_replace_lch, bind_replace_rch, hx1, hl2, h2, h3, h4, h5]
  · simp only [RBT.root]
    rw [hx1]
    refine ReprCtx.replace _ ctx x (some lr) ?_ sx.c_nd sx.x_c ?_
    · refine ReprCtx.congrCtx s _ ctx (some x) hc sx.c_nd (fun y hy => ?_)
      have h2 : ¬ y = lr := fun e => sl.x_c (by
        subst e; simp only [ctxLeft, ctxRight, List.mem_append, List.mem_cons] at hy ⊢; tauto)
      have h3 : ¬ y = x := fun e => sx.x_c (e ▸ hy)
      have h4 : ¬ some y = a.root := fun e => sl.l_c y (RBT.root_mem a y e.symm) (by
        simp only [ctxLeft, ctxRight, List.mem_append, List.mem_cons] at hy ⊢; tauto)
      simp [hl2, h2, h3, h4]
    · intro y hy
      simp only [Option.some.injEq] at hy
      subst hy
      intro h
      exact sl.x_c (by
        simp only [ctxLeft, ctxRight, List.mem_append, List.mem_cons] at h ⊢; tauto)

theorem RBT.root_ne (t : RBT α) (y : α) (h : y ∉ t.toList) : ¬ some y = t.root :=
  fun e => h (RBT.root_mem t y e.symm)

theorem ctxPar_ne (ctx : List (Frame α)) (y : α) (h1 : y ∉ ctxLeft ctx) (h2 : y ∉ ctxRight ctx) :
    ¬ ctxPar ctx = some y := fun e => by
  have := ctxPar_mem ctx y e
  simp only [List.mem_append] at this
  tauto

set_option maxHeartbeats 3200000 in
theorem rotate_right_left_sim (s : Store α) (ctx : List (Frame α)) (cpp cp cn : Bool)
    (sib ul ur b : RBT α) (lpp lp n : α)
    (hr : Repr s (plug (.node cpp sib lpp (.node cp (.node cn ul n ur) lp b)) ctx) none)
    (hnd : (plug (.node cpp sib lpp (.node cp (.node cn ul n ur) lp b)) ctx).toList.Nodup) :
    ∃ s', Tree.rotate_right_left s lp = some s' ∧
      Repr s' (plug (.node cn (.node cpp sib lpp ul) n (.node cp ur lp b)) ctx) none ∧
      s'.color = s.color ∧ s'.prev = s.prev ∧ s'.next = s.next := by
  have S1 := plug_sep ctx cpp sib lpp _ hnd
  have S2 := plug_sep (.R cpp sib lpp :: ctx) cp _ lp b hnd
  have S3 := plug_sep (.L cp lp b :: .R cpp sib lpp :: ctx) cn ul n ur hnd
  rw [repr_plug_iff] at hr
  obtain ⟨⟨hpp1, hpp2, hpp3, hpp4, hsib, ⟨hp1, hp2, hp3, hp4, ⟨hn1, hn2, hn3, hn4, hul, hur⟩, hb⟩⟩,
    hc⟩ := hr
  simp only [RBT.root] at hpp3 hp2
  have a1 := S1.x_l
  have a2 := S1.x_r
  have a3 := S1.x_c
  have a4 := S1.l_r
  have a5 := S1.l_c
  have a6 := S1.r_c
  have b1 := S2.x_l
  have b2 := S2.x_r
  have b3 := S2.x_c
  have b4 := S2.l_r
  have b5 := S2.l_c
  have b6 := S2.r_c
  have c1 := S3.x_l
  have c2 := S3.x_r
  have c3 := S3.x_c
  have c4 := S3.l_r
  have c5 := S3.l_c
  have c6 := S3.r_c
  simp only [RBT.toList, List.mem_append, List.mem_cons, not_or, ctxLeft, ctxRight,
    List.mem_singleton] at a1 a2 a3 a4 a5 a6 b1 b2 b3 b4 b5 b6 c1 c2 c3 c4 c5 c6
  have hne : ¬ lpp = lp ∧ ¬ lpp = n ∧ ¬ lp = n ∧ ¬ lp = lpp ∧ ¬ n = lpp ∧ ¬ n = lp := by
    refine ⟨?_, ?_, ?_, ?_, ?_, ?_⟩ <;> intro e <;> tauto
  have fsib : ∀ y, y ∈ sib.toList → ¬ y = lpp ∧ ¬ y = lp ∧ ¬ y = n ∧ y ∉ ul.toList ∧
      y ∉ ur.toList ∧ y ∉ b.toList ∧ y ∉ ctxLeft ctx ∧ y ∉ ctxRight ctx := by
    intro y hy
    have h1 := a4 y hy
    have h2 := a5 y hy
    have h3 : ¬ y = lpp := fun e => a1 (e ▸ hy)
    tauto
  have ful : ∀ y, y ∈ ul.toList → ¬ y = lpp ∧ ¬ y = lp ∧ ¬ y = n ∧ y ∉ sib.toList ∧
      y ∉ ur.toList ∧ y ∉ b.toList ∧ y ∉ ctxLeft ctx ∧ y ∉ ctxRight ctx := by
    intro y hy
    have h1 := c4 y hy
    have h2 := c5 y hy
    have h3 : ¬ y = n := fun e => c1 (e ▸ hy)
    tauto
  have fur : ∀ y, y ∈ ur.toList → ¬ y = lpp ∧ ¬ y = lp ∧ ¬ y = n ∧ y ∉ sib.toList ∧
      y ∉ ul.toList ∧ y ∉ b.toList ∧ y ∉ ctxLeft ctx ∧ y ∉ ctxRight ctx := by
    intro y hy
    have h2 := c6 y hy
    have h3 : ¬ y = n := fun e => c2 (e ▸ hy)
    have h4 : y ∉ ul.toList := fun h => c4 y h hy
    tauto
  have fb : ∀ y, y ∈ b.toList → ¬ y = lpp ∧ ¬ y = lp ∧ ¬ y = n ∧ y ∉ sib.toList ∧
      y ∉ ul.toList ∧ y ∉ ur.toList ∧ y ∉ ctxLeft ctx ∧ y ∉ ctxRight ctx := by
    intro y hy
    have h2 := b6 y hy
    have h3 : ¬ y = lp := fun e => b2 (e ▸ hy)
    have h4 : y ∉ ul.toList := fun h => (b4 y (Or.inl h)) hy
    have h5 : y ∉ ur.toList := fun h => (b4 y (Or.inr (Or.inr h))) hy
    have h6 : ¬ y = n := fun e => (b4 y (Or.inr (Or.inl e))) hy
    tauto
  have fc : ∀ y, y ∈ ctxLeft ctx ++ ctxRight ctx → ¬ y = lpp ∧ ¬ y = lp ∧ ¬ y = n ∧
      y ∉ sib.toList ∧ y ∉ ul.toList ∧ y ∉ ur.toList ∧ y ∉ b.toList := by
    intro y hy
    simp only [List.mem_append] at hy
    have h1 : y ∉ sib.toList := fun h => by have := a5 y h; tauto
    have h2 : y ∉ ul.toList := fun h => by have := c5 y h; tauto
    have h3 : y ∉ ur.toList := fun h => by have := c6 y h; tauto
    have h4 : y ∉ b.toList := fun h => by have := b6 y h; tauto
    refine ⟨?_, ?_, ?_, h1, h2, h3, h4⟩ <;> intro e <;> subst e <;> tauto
  have hcpp : ¬ ctxPar ctx = some lpp := ctxPar_ne ctx lpp (by tauto) (by tauto)
  have hcp : ¬ ctxPar ctx = some lp := ctxPar_ne ctx lp (by tauto) (by tauto)
  have hcn : ¬ ctxPar ctx = some n := ctxPar_ne ctx n (by tauto) (by tauto)
  obtain ⟨e1, e2, e3, e4, e5, e6⟩ := hne
  have rul : ∀ y, ¬ y = lpp → ¬ y = lp → ¬ y = n → y ∉ ul.toList → ¬ some y = ul.root :=
    fun y _ _ _ h => RBT.root_ne ul y h
  have rur : ∀ y, y ∉ ur.toList → ¬ some y = ur.root := fun y h => RBT.root_ne ur y h
  have rul' : ∀ y, y ∉ ul.toList → ¬ some y = ul.root := fun y h => RBT.root_ne ul y h
  refine ⟨_, by simp only [Tree.rotate_right_left, hp2, hp1]; rfl, ?_, by simp, by simp, by simp⟩
  rw [repr_plug_iff]
  have hs2 : (Tree.bind_right (Tree.bind_left s (s.rch n) (some lp)) (some lp) (some n)).lch n
      = ul.root := by simp [e6, hn2]
  rw [hs2, hn3, hpp1]
  refine ⟨⟨?_, ?_, ?_, ?_, ⟨?_, ?_, ?_, ?_, ?_, ?_⟩, ⟨?_, ?_, ?_, ?_, ?_, ?_⟩⟩, ?_⟩
  · simp
  · simp [bind_replace_lch, hcn, RBT.root]
  · simp [bind_replace_rch, hcn, e5, RBT.root]
  · simp [hn4]
  · simp [e1, e2, e4, rul' lpp (by tauto)]
  · simp [bind_replace_lch, hcpp, e4, e2, e1, hpp2]
  · simp [bind_replace_rch, hcpp, e4, e2, e1]
  · simp [hpp4]
  · refine Repr.congr s _ sib (some lpp) hsib S1.l_nd (fun y hy => ?_)
    obtain ⟨h1, h2, h3, h4, h5, h6, h7, h8⟩ := fsib y hy
    simp [bind_replace_lch, bind_replace_rch, h1, h2, h3, rul' y h4, rur y h5,
      ctxPar_ne ctx y h7 h8]
  · refine Repr.move s _ ul (some n) (some lpp) hul S3.l_nd (fun y hy => ?_)
      (fun y hy hroot => ?_) (fun y hy => ?_)
    · obtain ⟨h1, h2, h3, h4, h5, h6, h7, h8⟩ := ful y hy
      simp [bind_replace_lch, bind_replace_rch, h1, h2, h3, ctxPar_ne ctx y h7 h8]
    · obtain ⟨h1, h2, h3, h4, h5, h6, h7, h8⟩ := ful y hy
      have h9 : ¬ some y = ul.root := fun e => hroot e.symm
      simp [h1, h2, h3, h9, rur y h5]
    · obtain ⟨h1, h2, h3, h4, h5, h6, h7, h8⟩ := ful y (RBT.root_mem ul y hy)
      simp [h1, h2, h3, hy]
  · simp [e3, e4, e6, rul' lp (by tauto)]
  · simp [bind_replace_lch, hcp, e3, e4, e6]
  · simp [bind_replace_rch, hcp, e3, e4, e6, hp3]
  · simp [hp4]
  · refine Repr.move s _ ur (some n) (some lp) hur S3.r_nd (fun y hy => ?_)
      (fun y hy hroot => ?_) (fun y hy => ?_)
    · obtain ⟨h1, h2, h3, h4, h5, h6, h7, h8⟩ := fur y hy
      simp [bind_replace_lch, bind_replace_rch, h1, h2, h3, ctxPar_ne ctx y h7 h8]
    · obtain ⟨h1, h2, h3, h4, h5, h6, h7, h8⟩ := fur y hy
      have h9 : ¬ some y = ur.root := fun e => hroot e.symm
      simp [h1, h2, h3, h9, rul' y h5]
    · obtain ⟨h1, h2, h3, h4, h5, h6, h7, h8⟩ := fur y (RBT.root_mem ur y hy)
      simp [h1, h2, h3, hy, rul' y h5]
  · refine Repr.congr s _ b (some lp) hb S2.r_nd (fun y hy => ?_)
    obtain ⟨h1, h2, h3, h4, h5, h6, h7, h8⟩ := fb y hy
    simp [bind_replace_lch, bind_replace_rch, h1, h2, h3, rul' y h5, rur y h6,
      ctxPar_ne ctx y h7 h8]
  · refine ReprCtx.replace _ ctx lpp (some n) ?_ S1.c_nd S1.x_c ?_
    · refine ReprCtx.congrCtx s _ ctx (some lpp) hc S1.c_nd (fun y hy => ?_)
      obtain ⟨h1, h2, h3, h4, h5, h6, h7⟩ := fc y hy
      simp [h1, h2, h3, rul' y h5, rur y h6]
    · intro y hy
      simp only [Option.some.injEq] at hy
      subst hy
      intro h
      exact (fc _ h).2.2.1 rfl

set_option maxHeartbeats 3200000 in
theorem rotate_left_right_sim (s : Store α) (ctx : List (Frame α)) (cpp cp cn : Bool)
    (sib ul ur a : RBT α) (lpp lp n : α)
    (hr : Repr s (plug (.node cpp (.node cp a lp (.node cn ul n ur)) lpp sib) ctx) none)
    (hnd : (plug (.node cpp (.node cp a lp (.node cn ul n ur)) lpp sib) ctx).toList.Nodup) :
    ∃ s', Tree.rotate_left_right s lp = some s' ∧
      Repr s' (plug (.node cn (.node cp a lp ul) n (.node cpp ur lpp sib)) ctx) none ∧
      s'.color = s.color ∧ s'.prev = s.prev ∧ s'.next = s.next := by
  have S1 := plug_sep ctx cpp _ lpp sib hnd
  have S2 := plug_sep (.L cpp lpp sib :: ctx) cp a lp _ hnd
  have S3 := plug_sep (.R cp a lp :: .L cpp lpp sib :: ctx) cn ul n ur hnd
  rw [repr_plug_iff] at hr
  obtain ⟨⟨hpp1, hpp2, hpp3, hpp4, ⟨hp1, hp2, hp3, hp4, ha, ⟨hn1, hn2, hn3, hn4, hul, hur⟩⟩, hsib⟩,
    hc⟩ := hr
  simp only [RBT.root] at hpp2 hp3
  have a1 := S1.x_l
  have a2 := S1.x_r
  have a3 := S1.x_c
  have a4 := S1.l_r
  have a5 := S1.l_c
  have a6 := S1.r_c
  have b1 := S2.x_l
  have b2 := S2.x_r
  have b3 := S2.x_c
  have b4 := S2.l_r
  have b5 := S2.l_c
  have b6 := S2.r_c
  have c1 := S3.x_l
  have c2 := S3.x_r
  have c3 := S3.x_c
  have c4 := S3.l_r
  have c5 := S3.l_c
  have c6 := S3.r_c
  simp only [RBT.toList, List.mem_append, List.mem_cons, not_or, ctxLeft, ctxRight,
    List.mem_singleton] at a1 a2 a3 a4 a5 a6 b1 b2 b3 b4 b5 b6 c1 c2 c3 c4 c5 c6
  have hne : ¬ lpp = lp ∧ ¬ lpp = n ∧ ¬ lp = n ∧ ¬ lp = lpp ∧ ¬ n = lpp ∧ ¬ n = lp := by
    refine ⟨?_, ?_, ?_, ?_, ?_, ?_⟩ <;> intro e <;> tauto
  have fsib : ∀ y, y ∈ sib.toList → ¬ y = lpp ∧ ¬ y = lp ∧ ¬ y = n ∧ y ∉ ul.toList ∧
      y ∉ ur.toList ∧ y ∉ a.toList ∧ y ∉ ctxLeft ctx ∧ y ∉ ctxRight ctx := by
    intro y hy
    have h2 := a6 y hy
    have h3 : ¬ y = lpp := fun e => a2 (e ▸ hy)
    have h4 : y ∉ a.toList := fun h => a4 y (Or.inl h) hy
    have h5 : ¬ y = lp := fun e => a4 y (Or.inr (Or.inl e)) hy
    have h6 : y ∉ ul.toList := fun h => a4 y (Or.inr (Or.inr (Or.inl h))) hy
    have h7 : ¬ y = n := fun e => a4 y (Or.inr (Or.inr (Or.inr (Or.inl e)))) hy
    have h8 : y ∉ ur.toList := fun h => a4 y (Or.inr (Or.inr (Or.inr (Or.inr h)))) hy
    tauto
  have ful : ∀ y, y ∈ ul.toList → ¬ y = lpp ∧ ¬ y = lp ∧ ¬ y = n ∧ y ∉ sib.toList ∧
      y ∉ ur.toList ∧ y ∉ a.toList ∧ y ∉ ctxLeft ctx ∧ y ∉ ctxRight ctx := by
    intro y hy
    have h1 := c4 y hy
    have h2 := c5 y hy
    have h3 : ¬ y = n := fun e => c1 (e ▸ hy)
    tauto
  have fur : ∀ y, y ∈ ur.toList → ¬ y = lpp ∧ ¬ y = lp ∧ ¬ y = n ∧ y ∉ sib.toList ∧
      y ∉ ul.toList ∧ y ∉ a.toList ∧ y ∉ ctxLeft ctx ∧ y ∉ ctxRight ctx := by
    intro y hy
    have h2 := c6 y hy
    have h3 : ¬ y = n := fun e => c2 (e ▸ hy)
    have h4 : y ∉ ul.toList := fun h => c4 y h hy
    tauto
  have fa : ∀ y, y ∈ a.toList → ¬ y = lpp ∧ ¬ y = lp ∧ ¬ y = n ∧ y ∉ sib.toList ∧
      y ∉ ul.toList ∧ y ∉ ur.toList ∧ y ∉ ctxLeft ctx ∧ y ∉ ctxRight ctx := by
    intro y hy
    have h1 := b4 y hy
    have h2 := b5 y hy
    have h3 : ¬ y = lp := fun e => b1 (e ▸ hy)
    tauto
  have fc : ∀ y, y ∈ ctxLeft ctx ++ ctxRight ctx → ¬ y = lpp ∧ ¬ y = lp ∧ ¬ y = n ∧
      y ∉ sib.toList ∧ y ∉ ul.toList ∧ y ∉ ur.toList ∧ y ∉ a.toList := by
    intro y hy
    simp only [List.mem_append] at hy
    have h1 : y ∉ sib.toList := fun h => by have := a6 y h; tauto
    have h2 : y ∉ ul.toList := fun h => by have := c5 y h; tauto
    have h3 : y ∉ ur.toList := fun h => by have := c6 y h; tauto
    have h4 : y ∉ a.toList := fun h => by have := b5 y h; tauto
    refine ⟨?_, ?_, ?_, h1, h2, h3, h4⟩ <;> intro e <;> subst e <;> tauto
  have hcpp : ¬ ctxPar ctx = some lpp := ctxPar_ne ctx lpp (by tauto) (by tauto)
  have hcp : ¬ ctxPar ctx = some lp := ctxPar_ne ctx lp (by tauto) (by tauto)
  have hcn : ¬ ctxPar ctx = some n := ctxPar_ne ctx n (by tauto) (by tauto)
  obtain ⟨e1, e2, e3, e4, e5, e6⟩ := hne
  have rur : ∀ y, y ∉ ur.toList → ¬ some y = ur.root := fun y h => RBT.root_ne ur y h
  have rul' : ∀ y, y ∉ ul.toList → ¬ some y = ul.root := fun y h => RBT.root_ne ul y h
  refine ⟨_, by simp only [Tree.rotate_left_right, hp3, hp1]; rfl, ?_, by simp, by simp, by simp⟩
  rw [repr_plug_iff]
  have hs2 : (Tree.bind_left (Tree.bind_right s (s.lch n) (some lp)) (some lp) (some n)).rch n
      = ur.root := by simp [e6, hn3]
  rw [hs2, hn2, hpp1]
  refine ⟨⟨?_, ?_, ?_, ?_, ⟨?_, ?_, ?_, ?_, ?_, ?_⟩, ⟨?_, ?_, ?_, ?_, ?_, ?_⟩⟩, ?_⟩
  · simp
  · simp [bind_replace_lch, hcn, e5, RBT.root]
  · simp [bind_replace_rch, hcn, RBT.root]
  · simp [hn4]
  · simp [e3, e4, e6, rur lp (by tauto)]
  · simp [bind_replace_lch, hcp, e3, e4, e6, hp2]
  · simp [bind_replace_rch, hcp, e3, e4, e6]
  · simp [hp4]
  · refine Repr.congr s _ a (some lp) ha S2.l_nd (fun y hy => ?_)
    obtain ⟨h1, h2, h3, h4, h5, h6, h7, h8⟩ := fa y hy
    simp [bind_replace_lch, bind_replace_rch, h1, h2, h3, rul' y h5, rur y h6,
      ctxPar_ne ctx y h7 h8]
  · refine Repr.move s _ ul (some n) (some lp) hul S3.l_nd (fun y hy => ?_)
      (fun y hy hroot => ?_) (fun y hy => ?_)
    · obtain ⟨h1, h2, h3, h4, h5, h6, h7, h8⟩ := ful y hy
      simp [bind_replace_lch, bind_replace_rch, h1, h2, h3, ctxPar_ne ctx y h7 h8]
    · obtain ⟨h1, h2, h3, h4, h5, h6, h7, h8⟩ := ful y hy
      have h9 : ¬ some y = ul.root := fun e => hroot e.symm
      simp [h1, h2, h3, h9, rur y h5]
    · obtain ⟨h1, h2, h3, h4, h5, h6, h7, h8⟩ := ful y (RBT.root_mem ul y hy)
      simp [h1, h2, h3, hy, rur y h5]
  · simp [e1, e2, e4, rur lpp (by tauto)]
  · simp [bind_replace_lch, hcpp, e4, e2, e1]
  · simp [bind_replace_rch, hcpp, e4, e2, e1, hpp3]
  · simp [hpp4]
  · refine Repr.move s _ ur (some n) (some lpp) hur S3.r_nd (fun y hy => ?_)
      (fun y hy hroot => ?_) (fun y hy => ?_)
    · obtain ⟨h1, h2, h3, h4, h5, h6, h7, h8⟩ := fur y hy
      simp [bind_replace_lch, bind_replace_rch, h1, h2, h3, ctxPar_ne ctx y h7 h8]
    · obtain ⟨h1, h2, h3, h4, h5, h6, h7, h8⟩ := fur y hy
      have h9 : ¬ some y = ur.root := fun e => hroot e.symm
      simp [h1, h2, h3, h9, rul' y h5]
    · obtain ⟨h1, h2, h3, h4, h5, h6, h7, h8⟩ := fur y (RBT.root_mem ur y hy)
      simp [h1, h2, h3, hy]
  · refine Repr.congr s _ sib (some lpp) hsib S1.r_nd (fun y hy => ?_)
    obtain ⟨h1, h2, h3, h4, h5, h6, h7, h8⟩ := fsib y hy
    simp [bind_replace_lch, bind_replace_rch, h1, h2, h3, rul' y h4, rur y h5,
      ctxPar_ne ctx y h7 h8]
  · refine ReprCtx.replace _ ctx lpp (some n) ?_ S1.c_nd S1.x_c ?_
    · refine ReprCtx.congrCtx s _ ctx (some lpp) hc S1.c_nd (fun y hy => ?_)
      obtain ⟨h1, h2, h3, h4, h5, h6, h7⟩ := fc y hy
      simp [h1, h2, h3, rul' y h5, rur y h6]
    · intro y hy
      simp only [Option.some.injEq] at hy
      subst hy
      intro h
      exact (fc _ h).2.2.1 rfl

theorem insPath_plug (prior : α → α → Bool) (n : α) :
    ∀ (t : RBT α) (acc : List (Frame α)), plug .nil (RBT.insPath prior n t acc) = plug t acc := by
  intro t
  induction t with
  | nil => intro acc; rfl
  | node c l x r ihl ihr =>
    intro acc
    simp only [RBT.insPath]
    split
    · rw [ihl]; rfl
    · rw [ihr]; rfl

theorem setColor_sim (s : Store α) (ctx : List (Frame α)) (c : Bool) (l r : RBT α) (x : α)
    (v : Nat)
    (hr : Repr s (plug (.node c l x r) ctx) none)
    (hnd : (plug (.node c l x r) ctx).toList.Nodup) :
    Repr (s.setColor x v) (plug (.node (decide (v ≠ 0)) l x r) ctx) none := by
  have S := plug_sep ctx c l x r hnd
  rw [repr_plug_iff] at hr ⊢
  obtain ⟨⟨h1, h2, h3, h4, h5, h6⟩, hc⟩ := hr
  refine ⟨⟨by simp [h1], by simp [h2], by simp [h3], by simp, ?_, ?_⟩, ?_⟩
  · refine Repr.congr s _ l (some x) h5 S.l_nd (fun y hy => ?_)
    have : ¬ y = x := fun e => S.x_l (e ▸ hy)
    simp [this]
  · refine Repr.congr s _ r (some x) h6 S.r_nd (fun y hy => ?_)
    have : ¬ y = x := fun e => S.x_r (e ▸ hy)
    simp [this]
  · refine ReprCtx.congrCtx s _ ctx _ hc S.c_nd (fun y hy => ?_)
    have : ¬ y = x := fun e => S.x_c (e ▸ hy)
    simp [this]

/-- The descent of `add` follows `insPath`. -/
theorem add_descend_spec (prior : α → α → Bool) (s : Store α) (n : α) :
    ∀ (t : RBT α) (acc : List (Frame α)) (p : Option α) (root : α) (fuel : Nat),
      t.root = some root → Repr s t p → t.toList.length ≤ fuel →
      ∃ f rest, RBT.insPath prior n t acc = f :: rest ∧
        Tree.add_descend prior s n fuel root = some (f.node, f.isL) := by
  intro t
  induction t with
  | nil => intro acc p root fuel h; simp [RBT.root] at h
  | node c l x r ihl ihr =>
    intro acc p root fuel hroot hr hf
    simp only [RBT.root, Option.some.injEq] at hroot
    subst hroot
    obtain ⟨_, h2, h3, _, h5, h6⟩ := hr
    simp only [RBT.toList, List.length_append, List.length_cons] at hf
    obtain ⟨f, rfl⟩ : ∃ f, fuel = f + 1 := ⟨fuel - 1, by omega⟩
    simp only [RBT.insPath, Tree.add_descend]
    by_cases hp : prior n x = true
    · simp only [hp, if_true, h2]
      cases l with
      | nil => exact ⟨_, _, rfl, rfl⟩
      | node c2 l2 y r2 =>
        simp only [RBT.root]
        exact ihl _ (some x) y f rfl h5 (by omega)
    · simp only [hp, if_false, h3, Bool.false_eq_true]
      cases r with
      | nil => exact ⟨_, _, rfl, rfl⟩
      | node c2 l2 y r2 =>
        simp only [RBT.root]
        exact ihr _ (some x) y f rfl h6 (by omega)

/-- `add` attaches `n` as a red leaf at the end of `insPath`. -/
theorem add_sim (prior : α → α → Bool) (s : Store α) (n root : α) (t : RBT α) (fuel : Nat)
    (hr : Repr s t none) (hroot : t.root = some root) (hnd : t.toList.Nodup)
    (hn : n ∉ t.toList) (hl : s.lch n = none) (hrc : s.rch n = none) (hcol : s.color n = 0)
    (hf : t.toList.length ≤ fuel) :
    ∃ s', Tree.add prior fuel s n root = some s' ∧
      Repr s' (plug (.node false .nil n .nil) (RBT.insPath prior n t [])) none ∧
      s'.prev = s.prev ∧ s'.next = s.next := by
  obtain ⟨f, rest, hp, hd⟩ := add_descend_spec prior s n t [] none root fuel hroot hr hf
  have hplug := insPath_plug prior n t []
  rw [hp] at hplug ⊢
  simp only [plug] at hplug
  have hr' : Repr s (plug .nil (f :: rest)) none := by rw [hplug]; exact hr
  have hnd' : (plug .nil (f :: rest)).toList.Nodup := by rw [hplug]; exact hnd
  have hn' : n ∉ (plug .nil (f :: rest)).toList := by rw [hplug]; exact hn
  rw [repr_plug_iff] at hr'
  rw [toList_plug] at hnd' hn'
  simp only [RBT.toList, List.append_nil] at hnd' hn'
  simp only [Tree.add, hd]
  cases f with
  | L c lp r =>
    simp only [Frame.isL, if_true, Frame.node]
    refine ⟨_, rfl, ?_, by simp, by simp⟩
    rw [repr_plug_iff]
    obtain ⟨_, h1, h2, h3, h4, h5, h6⟩ := hr'
    have hlp : ¬ n = lp := fun e => hn' (by simp [ctxLeft, ctxRight, e])
    have hlp' : ¬ lp = n := fun e => hlp e.symm
    simp only [ctxLeft, ctxRight] at hnd' hn'
    have hnd2 := List.nodup_append.1 hnd'
    have hnd3 := List.nodup_cons.1 hnd2.2.1
    have hnd4 := List.nodup_append.1 hnd3.2
    refine ⟨⟨by simp [ctxPar, Frame.node], by simp [hlp, hl, RBT.root],
      by simp [hrc, RBT.root], by simp [hlp, hcol], trivial, trivial⟩,
      ⟨by simp [hlp', h1], by simp [RBT.root], by simp [h3], by simp [h4], ?_, ?_⟩⟩
    · refine Repr.congr s _ r (some lp) h5 hnd4.1 (fun y hy => ?_)
      have e1 : ¬ y = n := fun e => hn' (by subst e; simp [hy])
      have e2 : ¬ y = lp := fun e => hnd3.1 (by subst e; simp [hy])
      simp [e1, e2]
    · refine ReprCtx.congrCtx s _ rest (some lp) h6 ?_ (fun y hy => ?_)
      · refine List.Nodup.sublist ?_ hnd'
        refine List.Sublist.append (List.Sublist.refl _) ?_
        exact (List.sublist_append_right _ _).trans (List.sublist_cons_self _ _)
      · have e1 : ¬ y = n := fun e => hn' (by
          subst e; simp only [List.mem_append, List.mem_cons] at hy ⊢; tauto)
        have e2 : ¬ y = lp := fun e => by
          subst e
          simp only [List.mem_append] at hy
          rcases hy with hy | hy
          · exact hnd2.2.2 hy (by simp)
          · exact hnd3.1 (by simp [hy])
        simp [e1, e2]
  | R c l lp =>
    simp only [Frame.isL, Bool.false_eq_true, if_false, Frame.node]
    refine ⟨_, rfl, ?_, by simp, by simp⟩
    rw [repr_plug_iff]
    obtain ⟨_, h1, h2, h3, h4, h5, h6⟩ := hr'
    have hlp : ¬ n = lp := fun e => hn' (by simp [ctxLeft, ctxRight, e])
    have hlp' : ¬ lp = n := fun e => hlp e.symm
    simp only [ctxLeft, ctxRight] at hnd' hn'
    have hnd2 := List.nodup_append.1 hnd'
    have hnd3 := List.nodup_append.1 hnd2.1
    have hnd4 := List.nodup_append.1 hnd3.2.1
    refine ⟨⟨by simp [ctxPar, Frame.node], by simp [hl, RBT.root],
      by simp [hlp, hrc, RBT.root], by simp [hlp, hcol], trivial, trivial⟩,
      ⟨by simp [hlp', h1], by simp [h2], by simp [RBT.root], by simp [h4], ?_, ?_⟩⟩
    · refine Repr.congr s _ l (some lp) h5 hnd4.1 (fun y hy => ?_)
      have e1 : ¬ y = n := fun e => hn' (by subst e; simp [hy])
      have e2 : ¬ y = lp := fun e => hnd4.2.2 hy (by subst e; simp)
      simp [e1, e2]
    · refine ReprCtx.congrCtx s _ rest (some lp) h6 ?_ (fun y hy => ?_)
      · refine List.Nodup.sublist ?_ hnd'
        refine List.Sublist.append ?_ (List.Sublist.refl _)
        exact List.sublist_append_left _ _
      · have e1 : ¬ y = n := fun e => hn' (by
          subst e; simp only [List.mem_append, List.mem_cons] at hy ⊢; tauto)
        have e2 : ¬ y = lp := fun e => by
          subst e
          simp only [List.mem_append] at hy
          rcases hy with hy | hy
          · exact hnd3.2.2 hy (by simp)
          · exact hnd2.2.2 (by simp) hy
        simp [e1, e2]

theorem plug_fill (u : RBT α) (f : Frame α) (rest : List (Frame α)) :
    plug u (f :: rest) = plug (f.fill f.color u) rest := by
  cases f <;> rfl

@[simp] theorem RBT.blackRoot_nil : (RBT.nil : RBT α).blackRoot = true := rfl

@[simp] theorem RBT.blackRoot_node (c : Bool) (l : RBT α) (x : α) (r : RBT α) :
    (RBT.node c l x r).blackRoot = c := rfl

@[simp] theorem RBT.root_nil : (RBT.nil : RBT α).root = none := rfl

@[simp] theorem RBT.root_node (c : Bool) (l : RBT α) (x : α) (r : RBT α) :
    (RBT.node c l x r).root = some x := rfl

theorem valid_plug_iff : ∀ (ctx : List (Frame α)) (u : RBT α),
    (plug u ctx).Valid ↔ u.Bal ∧ u.NRR ∧ CtxInv ctx u.bh u.blackRoot := by
  intro ctx
  induction ctx with
  | nil =>
    intro u
    simp only [plug, CtxInv]
    constructor
    · intro h; exact ⟨h.bal, h.nrr, h.black⟩
    · intro h; exact ⟨h.2.2, h.2.1, h.1⟩
  | cons f rest ih =>
    intro u
    cases f with
    | L c x r =>
      simp only [plug, ih, CtxInv, RBT.Bal, RBT.NRR, RBT.bh, RBT.blackRoot, Frame.sib, Frame.color]
      constructor
      · rintro ⟨⟨h1, h2, h3⟩, ⟨h4, h5, h6⟩, h7⟩
        exact ⟨h2, h5, h3, h6, h1.symm, fun e => h4 e, h7⟩
      · rintro ⟨h2, h5, h3, h6, h1, h4, h7⟩
        exact ⟨⟨h1.symm, h2, h3⟩, ⟨fun e => h4 e, h5, h6⟩, h7⟩
    | R c l x =>
      simp only [plug, ih, CtxInv, RBT.Bal, RBT.NRR, RBT.bh, RBT.blackRoot, Frame.sib, Frame.color]
      constructor
      · rintro ⟨⟨h1, h2, h3⟩, ⟨h4, h5, h6⟩, h7⟩
        exact ⟨h3, h6, h2, h5, h1, fun e => ⟨(h4 e).2, (h4 e).1⟩, by rw [← h1]; exact h7⟩
      · rintro ⟨h3, h6, h2, h5, h1, h4, h7⟩
        exact ⟨⟨h1, h2, h3⟩, ⟨fun e => ⟨(h4 e).2, (h4 e).1⟩, h5, h6⟩, by rw [h1]; exact h7⟩

/-- Frames that accept a red root accept any root. -/
theorem CtxInv.of_false : ∀ (ctx : List (Frame α)) (k : Nat) (hb : Bool),
    CtxInv ctx k false → CtxInv ctx k hb := by
  intro ctx k hb h
  cases ctx with
  | nil => simp [CtxInv] at h
  | cons f rest =>
    obtain ⟨h1, h2, h3, h4, h5⟩ := h
    refine ⟨h1, h2, h3, ?_, h5⟩
    intro e
    have := (h4 e).1
    simp at this

theorem insRot_toList (u : RBT α) (f1 f2 : Frame α) (v : RBT α) (h : insRot u f1 f2 = some v)
    (rest : List (Frame α)) : (plug v rest).toList = (plug u (f1 :: f2 :: rest)).toList := by
  cases f2 <;> cases f1 <;> cases u <;> simp only [insRot, Option.some.injEq] at h <;>
    first
    | exact absurd h (by simp)
    | (subst h; simp [plug, toList_plug, RBT.toList])

/-- The loop and rotation of `rb_add` keep the in-order traversal. -/
theorem insFix_toList : ∀ (k : Nat) (ctx : List (Frame α)) (u t' : RBT α), ctx.length ≤ k →
    insFix u ctx = some t' → t'.toList = (plug u ctx).toList := by
  intro k
  induction k with
  | zero =>
    intro ctx u t' hk h
    cases ctx with
    | nil => simp [insFix] at h
    | cons f rest => simp at hk
  | succ k ih =>
    intro ctx u t' hk h
    match ctx, hk, h with
    | [], _, h => simp [insFix] at h
    | [f1], _, h =>
      simp only [insFix] at h
      split at h
      · cases h; rfl
      · exact absurd h (by simp)
    | f1 :: f2 :: rest2, hk, h =>
      simp only [insFix] at h
      split at h
      · cases h; rfl
      · split at h
        · rename_i a la b hsib
          split at h
          · cases h
            cases f1 <;> cases f2 <;> simp only [Frame.sib] at hsib <;> subst hsib <;>
              simp [plug, Frame.fill, Frame.fillSib, Frame.sib, RBT.toList, toList_plug, List.isEmpty_iff.1 ‹_›]
          · rw [ih rest2 _ t' (by simp at hk; omega) h]
            cases f1 <;> cases f2 <;> simp only [Frame.sib] at hsib <;> subst hsib <;>
              simp [plug, Frame.fill, Frame.fillSib, Frame.sib, RBT.toList, toList_plug]
        · cases hrot : insRot u f1 f2 with
          | none => rw [hrot] at h; simp at h
          | some v =>
            rw [hrot] at h
            simp only [Option.map_some', Option.some.injEq] at h
            subst h
            exact insRot_toList u f1 f2 v hrot rest2

set_option maxHeartbeats 1600000 in
/-- On the frames of a valid tree, around a balanced subtree with red root and
black children, the loop and rotation of `rb_add` return a valid tree. -/
theorem insFix_valid : ∀ (k : Nat) (ctx : List (Frame α)) (ul ur : RBT α) (n : α),
    ctx.length ≤ k → ctx ≠ [] → (RBT.node false ul n ur).Bal → (RBT.node false ul n ur).NRR →
    CtxInv ctx (RBT.node false ul n ur).bh true →
    ∃ t', insFix (RBT.node false ul n ur) ctx = some t' ∧ t'.Valid := by
  intro k
  induction k with
  | zero =>
    intro ctx ul ur n hk hne
    cases ctx with
    | nil => exact absurd rfl hne
    | cons f rest => simp at hk
  | succ k ih =>
    intro ctx ul ur n hk hne hbal hnrr hinv
    match ctx, hk, hne, hinv with
    | [f1], _, _, hinv =>
      obtain ⟨h1, h2, h3, h4, h5⟩ := hinv
      simp only [CtxInv] at h5
      simp only [insFix, h5, if_true]
      refine ⟨_, rfl, ?_⟩
      rw [valid_plug_iff]
      exact ⟨hbal, hnrr, h1, h2, h3, fun e => by rw [h5] at e; exact Bool.noConfusion e,
        by simp [CtxInv, h5]⟩
    | f1 :: f2 :: rest2, hk, _, hinv =>
      obtain ⟨h1, h2, h3, h4, h5⟩ := hinv
      simp only [insFix]
      by_cases hc1 : f1.color = true
      · simp only [hc1, if_true]
        refine ⟨_, rfl, ?_⟩
        rw [valid_plug_iff]
        refine ⟨hbal, hnrr, h1, h2, h3, fun e => by rw [hc1] at e; exact Bool.noConfusion e, h5⟩
      · have hc1' : f1.color = false := by simpa using hc1
        simp only [hc1', Bool.false_eq_true, if_false]
        rw [hc1'] at h5
        obtain ⟨g1, g2, g3, g4, g5⟩ := h5
        have hc2 : f2.color = true := by
          by_contra hx
          have hx' : f2.color = false := by simpa using hx
          have := (g4 hx').1
          exact Bool.noConfusion this
        have hb1 := (h4 hc1').2
        simp only [RBT.Bal] at hbal
        simp only [RBT.NRR] at hnrr
        have hch := hnrr.1 (by simp)
        simp only [RBT.bh, Bool.false_eq_true, if_false, Nat.add_zero] at h3 g3 g5
        rw [hc2] at g5
        simp only [if_true] at g5
        obtain ⟨hbal1, hbal2, hbal3⟩ := hbal
        obtain ⟨-, hnrr2, hnrr3⟩ := hnrr
        obtain ⟨hch1, hch2⟩ := hch
        clear h4 g4 hinv hne
        cases f1 with
        | L c1 lp b1 =>
          simp only [Frame.color] at hc1'
          subst hc1'
          simp only [Frame.sib] at h1 h2 h3 hb1
          cases f2 with
          | L c2 lpp sib =>
            simp only [Frame.color] at hc2
            subst hc2
            simp only [Frame.sib, RBT.Bal, RBT.NRR, RBT.bh, RBT.blackRoot_node, RBT.blackRoot_nil] at g1 g2 g3 ⊢
            cases sib with
            | nil =>
              clear ih
              simp only [RBT.Bal, RBT.NRR, RBT.bh] at g1 g2 g3
              refine ⟨_, rfl, ?_⟩
              rw [valid_plug_iff]
              simp only [RBT.Bal, RBT.NRR, RBT.bh, RBT.blackRoot_node, RBT.blackRoot_nil, if_true,
                Bool.false_eq_true, if_false, Nat.add_zero, Frame.fillSib, Frame.fill, Frame.sib, Frame.color,
                eq_self_iff_true, true_implies, false_implies, Bool.true_eq_false, forall_const, true_and,
                and_true]
              refine ⟨?_, ?_, ?_⟩
              · repeat' constructor
                all_goals first | assumption | omega | trivial
              · repeat' constructor
                all_goals first | assumption | omega | trivial
              · first | assumption | (convert g5 using 2 <;> omega)
            | node cs a la b =>
              simp only [RBT.Bal, RBT.NRR, RBT.bh, RBT.blackRoot_node] at g1 g2 g3
              obtain ⟨g11, g12, g13⟩ := g1
              cases cs with
              | true =>
                clear ih
                simp only [if_true, Bool.true_eq_false, false_implies, true_and] at g2 g3
                obtain ⟨g22, g23⟩ := g2
                refine ⟨_, rfl, ?_⟩
                rw [valid_plug_iff]
                simp only [RBT.Bal, RBT.NRR, RBT.bh, RBT.blackRoot_node, RBT.blackRoot_nil, if_true,
                  Bool.false_eq_true, if_false, Nat.add_zero, Frame.fillSib, Frame.fill, Frame.sib, Frame.color,
                  eq_self_iff_true, true_implies, false_implies, Bool.true_eq_false, forall_const, true_and,
                  and_true]
                refine ⟨?_, ?_, ?_⟩
                · repeat' constructor
                  all_goals first | assumption | omega | trivial
                · repeat' constructor
                  all_goals first | assumption | omega | trivial
                · first | assumption | (convert g5 using 2 <;> omega)
              | false =>
                simp only [Bool.false_eq_true, if_false, Nat.add_zero, true_implies, eq_self_iff_true] at g2 g3
                obtain ⟨⟨g24, g25⟩, g2⟩ := g2
                obtain ⟨g22, g23⟩ := g2
                by_cases hemp : rest2.isEmpty = true
                · simp only [hemp, if_true]
                  refine ⟨_, rfl, ?_⟩
                  refine ⟨rfl, ?_, ?_⟩
                  · simp only [RBT.Bal, RBT.NRR, RBT.bh, RBT.blackRoot_node, RBT.blackRoot_nil, if_true,
                      Bool.false_eq_true, if_false, Nat.add_zero, Frame.fillSib, Frame.fill, Frame.sib, Frame.color,
                      eq_self_iff_true, true_implies, false_implies, Bool.true_eq_false, forall_const, true_and,
                      and_true]
                    repeat' constructor
                    all_goals first | assumption | omega | trivial
                  · simp only [RBT.Bal, RBT.NRR, RBT.bh, RBT.blackRoot_node, RBT.blackRoot_nil, if_true,
                      Bool.false_eq_true, if_false, Nat.add_zero, Frame.fillSib, Frame.fill, Frame.sib, Frame.color,
                      eq_self_iff_true, true_implies, false_implies, Bool.true_eq_false, forall_const, true_and,
                      and_true]
                    repeat' constructor
                    all_goals first | assumption | omega | trivial
                · simp only [hemp, Bool.false_eq_true, if_false]
                  have hne2 : rest2 ≠ [] := fun e => hemp (by simp [e])
                  simp only [Frame.fillSib, Frame.fill, Frame.sib]
                  refine ih rest2 _ _ _ (by simp at hk; omega) hne2 ?_ ?_ ?_
                  · clear ih
                    simp only [RBT.Bal, RBT.NRR, RBT.bh, RBT.blackRoot_node, RBT.blackRoot_nil, if_true,
                      Bool.false_eq_true, if_false, Nat.add_zero, Frame.fillSib, Frame.fill, Frame.sib, Frame.color,
                      eq_self_iff_true, true_implies, false_implies, Bool.true_eq_false, forall_const, true_and,
                      and_true]
                    repeat' constructor
                    all_goals first | assumption | omega | trivial
                  · clear ih
                    simp only [RBT.Bal, RBT.NRR, RBT.bh, RBT.blackRoot_node, RBT.blackRoot_nil, if_true,
                      Bool.false_eq_true, if_false, Nat.add_zero, Frame.fillSib, Frame.fill, Frame.sib, Frame.color,
                      eq_self_iff_true, true_implies, false_implies, Bool.true_eq_false, forall_const, true_and,
                      and_true]
                    repeat' constructor
                    all_goals first | assumption | omega | trivial
                  · clear ih
                    simp only [RBT.Bal, RBT.NRR, RBT.bh, RBT.blackRoot_node, RBT.blackRoot_nil, if_true,
                      Bool.false_eq_true, if_false, Nat.add_zero, Frame.fillSib, Frame.fill, Frame.sib, Frame.color,
                      eq_self_iff_true, true_implies, false_implies, Bool.true_eq_false, forall_const, true_and,
                      and_true]
                    first | assumption | (convert g5 using 2 <;> omega)
          | R c2 sib lpp =>
            simp only [Frame.color] at hc2
            subst hc2
            simp only [Frame.sib, RBT.Bal, RBT.NRR, RBT.bh, RBT.blackRoot_node, RBT.blackRoot_nil] at g1 g2 g3 ⊢
            cases sib with
            | nil =>
              clear ih
              simp only [RBT.Bal, RBT.NRR, RBT.bh] at g1 g2 g3
              refine ⟨_, rfl, ?_⟩
              rw [valid_plug_iff]
              simp only [RBT.Bal, RBT.NRR, RBT.bh, RBT.blackRoot_node, RBT.blackRoot_nil, if_true,
                Bool.false_eq_true, if_false, Nat.add_zero, Frame.fillSib, Frame.fill, Frame.sib, Frame.color,
                eq_self_iff_true, true_implies, false_implies, Bool.true_eq_false, forall_const, true_and,
                and_true]
              refine ⟨?_, ?_, ?_⟩
              · repeat' constructor
                all_goals first | assumption | omega | trivial
              · repeat' constructor
                all_goals first | assumption | omega | trivial
              · first | assumption | (convert g5 using 2 <;> omega)
            | node cs a la b =>
              simp only [RBT.Bal, RBT.NRR, RBT.bh, RBT.blackRoot_node] at g1 g2 g3
              obtain ⟨g11, g12, g13⟩ := g1
              cases cs with
              | true =>
                clear ih
                simp only [if_true, Bool.true_eq_false, false_implies, true_and] at g2 g3
                obtain ⟨g22, g23⟩ := g2
                refine ⟨_, rfl, ?_⟩
                rw [valid_plug_iff]
                simp only [RBT.Bal, RBT.NRR, RBT.bh, RBT.blackRoot_node, RBT.blackRoot_nil, if_true,
                  Bool.false_eq_true, if_false, Nat.add_zero, Frame.fillSib, Frame.fill, Frame.sib, Frame.color,
                  eq_self_iff_true, true_implies, false_implies, Bool.true_eq_false, forall_const, true_and,
                  and_true]
                refine ⟨?_, ?_, ?_⟩
                · repeat' constructor
                  all_goals first | assumption | omega | trivial
                · repeat' constructor
                  all_goals first | assumption | omega | trivial
                · first | assumption | (convert g5 using 2 <;> omega)
              | false =>
                simp only [Bool.false_eq_true, if_false, Nat.add_zero, true_implies, eq_self_iff_true] at g2 g3
                obtain ⟨⟨g24, g25⟩, g2⟩ := g2
                obtain ⟨g22, g23⟩ := g2
                by_cases hemp : rest2.isEmpty = true
                · simp only [hemp, if_true]
                  refine ⟨_, rfl, ?_⟩
                  refine ⟨rfl, ?_, ?_⟩
                  · simp only [RBT.Bal, RBT.NRR, RBT.bh, RBT.blackRoot_node, RBT.blackRoot_nil, if_true,
                      Bool.false_eq_true, if_false, Nat.add_zero, Frame.fillSib, Frame.fill, Frame.sib, Frame.color,
                      eq_self_iff_true, true_implies, false_implies, Bool.true_eq_false, forall_const, true_and,
                      and_true]
                    repeat' constructor
                    all_goals first | assumption | omega | trivial
                  · simp only [RBT.Bal, RBT.NRR, RBT.bh, RBT.blackRoot_node, RBT.blackRoot_nil, if_true,
                      Bool.false_eq_true, if_false, Nat.add_zero, Frame.fillSib, Frame.fill, Frame.sib, Frame.color,
                      eq_self_iff_true, true_implies, false_implies, Bool.true_eq_false, forall_const, true_and,
                      and_true]
                    repeat' constructor
                    all_goals first | assumption | omega | trivial
                · simp only [hemp, Bool.false_eq_true, if_false]
                  have hne2 : rest2 ≠ [] := fun e => hemp (by simp [e])
                  simp only [Frame.fillSib, Frame.fill, Frame.sib]
                  refine ih rest2 _ _ _ (by simp at hk; omega) hne2 ?_ ?_ ?_
                  · clear ih
                    simp only [RBT.Bal, RBT.NRR, RBT.bh, RBT.blackRoot_node, RBT.blackRoot_nil, if_true,
                      Bool.false_eq_true, if_false, Nat.add_zero, Frame.fillSib, Frame.fill, Frame.sib, Frame.color,
                      eq_self_iff_true, true_implies, false_implies, Bool.true_eq_false, forall_const, true_and,
                      and_true]
                    repeat' constructor
                    all_goals first | assumption | omega | trivial
                  · clear ih
                    simp only [RBT.Bal, RBT.NRR, RBT.bh, RBT.blackRoot_node, RBT.blackRoot_nil, if_true,
                      Bool.false_eq_true, if_false, Nat.add_zero, Frame.fillSib, Frame.fill, Frame.sib, Frame.color,
                      eq_self_iff_true, true_implies, false_implies, Bool.true_eq_false, forall_const, true_and,
                      and_true]
                    repeat' constructor
                    all_goals first | assumption | omega | trivial
                  · clear ih
                    simp only [RBT.Bal, RBT.NRR, RBT.bh, RBT.blackRoot_node, RBT.blackRoot_nil, if_true,
                      Bool.false_eq_true, if_false, Nat.add_zero, Frame.fillSib, Frame.fill, Frame.sib, Frame.color,
                      eq_self_iff_true, true_implies, false_implies, Bool.true_eq_false, forall_const, true_and,
                      and_true]
                    first | assumption | (convert g5 using 2 <;> omega)
        | R c1 a1 lp =>
          simp only [Frame.color] at hc1'
          subst hc1'
          simp only [Frame.sib] at h1 h2 h3 hb1
          cases f2 with
          | L c2 lpp sib =>
            simp only [Frame.color] at hc2
            subst hc2
            simp only [Frame.sib, RBT.Bal, RBT.NRR, RBT.bh, RBT.blackRoot_node, RBT.blackRoot_nil] at g1 g2 g3 ⊢
            cases sib with
            | nil =>
              clear ih
              simp only [RBT.Bal, RBT.NRR, RBT.bh] at g1 g2 g3
              refine ⟨_, rfl, ?_⟩
              rw [valid_plug_iff]
              simp only [RBT.Bal, RBT.NRR, RBT.bh, RBT.blackRoot_node, RBT.blackRoot_nil, if_true,
                Bool.false_eq_true, if_false, Nat.add_zero, Frame.fillSib, Frame.fill, Frame.sib, Frame.color,
                eq_self_iff_true, true_implies, false_implies, Bool.true_eq_false, forall_const, true_and,
                and_true]
              refine ⟨?_, ?_, ?_⟩
              · repeat' constructor
                all_goals first | assumption | omega | trivial
              · repeat' constructor
                all_goals first | assumption | omega | trivial
              · first | assumption | (convert g5 using 2 <;> omega)
            | node cs a la b =>
              simp only [RBT.Bal, RBT.NRR, RBT.bh, RBT.blackRoot_node] at g1 g2 g3
              obtain ⟨g11, g12, g13⟩ := g1
              cases cs with
              | true =>
                clear ih
                simp only [if_true, Bool.true_eq_false, false_implies, true_and] at g2 g3
                obtain ⟨g22, g23⟩ := g2
                refine ⟨_, rfl, ?_⟩
                rw [valid_plug_iff]
                simp only [RBT.Bal, RBT.NRR, RBT.bh, RBT.blackRoot_node, RBT.blackRoot_nil, if_true,
                  Bool.false_eq_true, if_false, Nat.add_zero, Frame.fillSib, Frame.fill, Frame.sib, Frame.color,
                  eq_self_iff_true, true_implies, false_implies, Bool.true_eq_false, forall_const, true_and,
                  and_true]
                refine ⟨?_, ?_, ?_⟩
                · repeat' constructor
                  all_goals first | assumption | omega | trivial
                · repeat' constructor
                  all_goals first | assumption | omega | trivial
                · first | assumption | (convert g5 using 2 <;> omega)
              | false =>
                simp only [Bool.false_eq_true, if_false, Nat.add_zero, true_implies, eq_self_iff_true] at g2 g3
                obtain ⟨⟨g24, g25⟩, g2⟩ := g2
                obtain ⟨g22, g23⟩ := g2
                by_cases hemp : rest2.isEmpty = true
                · simp only [hemp, if_true]
                  refine ⟨_, rfl, ?_⟩
                  refine ⟨rfl, ?_, ?_⟩
                  · simp only [RBT.Bal, RBT.NRR, RBT.bh, RBT.blackRoot_node, RBT.blackRoot_nil, if_true,
                      Bool.false_eq_true, if_false, Nat.add_zero, Frame.fillSib, Frame.fill, Frame.sib, Frame.color,
                      eq_self_iff_true, true_implies, false_implies, Bool.true_eq_false, forall_const, true_and,
                      and_true]
                    repeat' constructor
                    all_goals first | assumption | omega | trivial
                  · simp only [RBT.Bal, RBT.NRR, RBT.bh, RBT.blackRoot_node, RBT.blackRoot_nil, if_true,
                      Bool.false_eq_true, if_false, Nat.add_zero, Frame.fillSib, Frame.fill, Frame.sib, Frame.color,
                      eq_self_iff_true, true_implies, false_implies, Bool.true_eq_false, forall_const, true_and,
                      and_true]
                    repeat' constructor
                    all_goals first | assumption | omega | trivial
                · simp only [hemp, Bool.false_eq_true, if_false]
                  have hne2 : rest2 ≠ [] := fun e => hemp (by simp [e])
                  simp only [Frame.fillSib, Frame.fill, Frame.sib]
                  refine ih rest2 _ _ _ (by simp at hk; omega) hne2 ?_ ?_ ?_
                  · clear ih
                    simp only [RBT.Bal, RBT.NRR, RBT.bh, RBT.blackRoot_node, RBT.blackRoot_nil, if_true,
                      Bool.false_eq_true, if_false, Nat.add_zero, Frame.fillSib, Frame.fill, Frame.sib, Frame.color,
                      eq_self_iff_true, true_implies, false_implies, Bool.true_eq_false, forall_const, true_and,
                      and_true]
                    repeat' constructor
                    all_goals first | assumption | omega | trivial
                  · clear ih
                    simp only [RBT.Bal, RBT.NRR, RBT.bh, RBT.blackRoot_node, RBT.blackRoot_nil, if_true,
                      Bool.false_eq_true, if_false, Nat.add_zero, Frame.fillSib, Frame.fill, Frame.sib, Frame.color,
                      eq_self_iff_true, true_implies, false_implies, Bool.true_eq_false, forall_const, true_and,
                      and_true]
                    repeat' constructor
                    all_goals first | assumption | omega | trivial
                  · clear ih
                    simp only [RBT.Bal, RBT.NRR, RBT.bh, RBT.blackRoot_node, RBT.blackRoot_nil, if_true,
                      Bool.false_eq_true, if_false, Nat.add_zero, Frame.fillSib, Frame.fill, Frame.sib, Frame.color,
                      eq_self_iff_true, true_implies, false_implies, Bool.true_eq_false, forall_const, true_and,
                      and_true]
                    first | assumption | (convert g5 using 2 <;> omega)
          | R c2 sib lpp =>
            simp only [Frame.color] at hc2
            subst hc2
            simp only [Frame.sib, RBT.Bal, RBT.NRR, RBT.bh, RBT.blackRoot_node, RBT.blackRoot_nil] at g1 g2 g3 ⊢
            cases sib with
            | nil =>
              clear ih
              simp only [RBT.Bal, RBT.NRR, RBT.bh] at g1 g2 g3
              refine ⟨_, rfl, ?_⟩
              rw [valid_plug_iff]
              simp only [RBT.Bal, RBT.NRR, RBT.bh, RBT.blackRoot_node, RBT.blackRoot_nil, if_true,
                Bool.false_eq_true, if_false, Nat.add_zero, Frame.fillSib, Frame.fill, Frame.sib, Frame.color,
                eq_self_iff_true, true_implies, false_implies, Bool.true_eq_false, forall_const, true_and,
                and_true]
              refine ⟨?_, ?_, ?_⟩
              · repeat' constructor
                all_goals first | assumption | omega | trivial
              · repeat' constructor
                all_goals first | assumption | omega | trivial
              · first | assumption | (convert g5 using 2 <;> omega)
            | node cs a la b =>
              simp only [RBT.Bal, RBT.NRR, RBT.bh, RBT.blackRoot_node] at g1 g2 g3
              obtain ⟨g11, g12, g13⟩ := g1
              cases cs with
              | true =>
                clear ih
                simp only [if_true, Bool.true_eq_false, false_implies, true_and] at g2 g3
                obtain ⟨g22, g23⟩ := g2
                refine ⟨_, rfl, ?_⟩
                rw [valid_plug_iff]
                simp only [RBT.Bal, RBT.NRR, RBT.bh, RBT.blackRoot_node, RBT.blackRoot_nil, if_true,
                  Bool.false_eq_true, if_false, Nat.add_zero, Frame.fillSib, Frame.fill, Frame.sib, Frame.color,
                  eq_self_iff_true, true_implies, false_implies, Bool.true_eq_false, forall_const, true_and,
                  and_true]
                refine ⟨?_, ?_, ?_⟩
                · repeat' constructor
                  all_goals first | assumption | omega | trivial
                · repeat' constructor
                  all_goals first | assumption | omega | trivial
                · first | assumption | (convert g5 using 2 <;> omega)
              | false =>
                simp only [Bool.false_eq_true, if_false, Nat.add_zero, true_implies, eq_self_iff_true] at g2 g3
                obtain ⟨⟨g24, g25⟩, g2⟩ := g2
                obtain ⟨g22, g23⟩ := g2
                by_cases hemp : rest2.isEmpty = true
                · simp only [hemp, if_true]
                  refine ⟨_, rfl, ?_⟩
                  refine ⟨rfl, ?_, ?_⟩
                  · simp only [RBT.Bal, RBT.NRR, RBT.bh, RBT.blackRoot_node, RBT.blackRoot_nil, if_true,
                      Bool.false_eq_true, if_false, Nat.add_zero, Frame.fillSib, Frame.fill, Frame.sib, Frame.color,
                      eq_self_iff_true, true_implies, false_implies, Bool.true_eq_false, forall_const, true_and,
                      and_true]
                    repeat' constructor
                    all_goals first | assumption | omega | trivial
                  · simp only [RBT.Bal, RBT.NRR, RBT.bh, RBT.blackRoot_node, RBT.blackRoot_nil, if_true,
                      Bool.false_eq_true, if_false, Nat.add_zero, Frame.fillSib, Frame.fill, Frame.sib, Frame.color,
                      eq_self_iff_true, true_implies, false_implies, Bool.true_eq_false, forall_const, true_and,
                      and_true]
                    repeat' constructor
                    all_goals first | assumption | omega | trivial
                · simp only [hemp, Bool.false_eq_true, if_false]
                  have hne2 : rest2 ≠ [] := fun e => hemp (by simp [e])
                  simp only [Frame.fillSib, Frame.fill, Frame.sib]
                  refine ih rest2 _ _ _ (by simp at hk; omega) hne2 ?_ ?_ ?_
                  · clear ih
                    simp only [RBT.Bal, RBT.NRR, RBT.bh, RBT.blackRoot_node, RBT.blackRoot_nil, if_true,
                      Bool.false_eq_true, if_false, Nat.add_zero, Frame.fillSib, Frame.fill, Frame.sib, Frame.color,
                      eq_self_iff_true, true_implies, false_implies, Bool.true_eq_false, forall_const, true_and,
                      and_true]
                    repeat' constructor
                    all_goals first | assumption | omega | trivial
                  · clear ih
                    simp only [RBT.Bal, RBT.NRR, RBT.bh, RBT.blackRoot_node, RBT.blackRoot_nil, if_true,
                      Bool.false_eq_true, if_false, Nat.add_zero, Frame.fillSib, Frame.fill, Frame.sib, Frame.color,
                      eq_self_iff_true, true_implies, false_implies, Bool.true_eq_false, forall_const, true_and,
                      and_true]
                    repeat' constructor
                    all_goals first | assumption | omega | trivial
                  · clear ih
                    simp only [RBT.Bal, RBT.NRR, RBT.bh, RBT.blackRoot_node, RBT.blackRoot_nil, if_true,
                      Bool.false_eq_true, if_false, Nat.add_zero, Frame.fillSib, Frame.fill, Frame.sib, Frame.color,
                      eq_self_iff_true, true_implies, false_implies, Bool.true_eq_false, forall_const, true_and,
                      and_true]
                    first | assumption | (convert g5 using 2 <;> omega)

theorem ctxRoot_mem : ∀ (ctx : List (Frame α)) (h : Option α) (r : α), ctx ≠ [] →
    ctxRoot ctx h = some r → r ∈ ctxLeft ctx ++ ctxRight ctx := by
  intro ctx
  induction ctx with
  | nil => intro h r hne; exact absurd rfl hne
  | cons f rest ih =>
    intro h r _ hr
    simp only [ctxRoot] at hr
    by_cases hrest : rest = []
    · subst hrest
      simp only [ctxRoot, Option.some.injEq] at hr
      subst hr
      cases f <;> simp [ctxLeft, ctxRight, Frame.node]
    · have := ih (some f.node) r hrest hr
      cases f <;> simp only [ctxLeft, ctxRight, List.mem_append, List.mem_cons] at this ⊢ <;> tauto

/-- The node of a subtree is the root of the whole tree exactly when there is
no frame above it. -/
theorem root_eq_iff (ctx : List (Frame α)) (c : Bool) (l r : RBT α) (x root : α)
    (hnd : (plug (.node c l x r) ctx).toList.Nodup)
    (hroot : (plug (.node c l x r) ctx).root = some root) :
    x = root ↔ ctx.isEmpty = true := by
  rw [root_plug] at hroot
  constructor
  · intro e
    subst e
    by_contra hne
    have hne' : ctx ≠ [] := fun h => hne (by simp [h])
    have := ctxRoot_mem ctx _ x hne' hroot
    exact (plug_sep ctx c l x r hnd).x_c this
  · intro h
    have : ctx = [] := List.isEmpty_iff.1 h
    subst this
    simpa [ctxRoot] using hroot

theorem ctxRoot_irrel (ctx : List (Frame α)) (h h' : Option α) (hne : ctx ≠ []) :
    ctxRoot ctx h = ctxRoot ctx h' := by
  cases ctx with
  | nil => exact absurd rfl hne
  | cons f rest => rfl

/-- The root after the top of a subtree changed from `x` to `y`. -/
theorem root_after (ctx : List (Frame α)) (c : Bool) (l r : RBT α) (x y root : α) (v : RBT α)
    (hnd : (plug (.node c l x r) ctx).toList.Nodup)
    (hroot : (plug (.node c l x r) ctx).root = some root) (hv : v.root = some y) :
    (plug v ctx).root = some (if x ≠ root then root else y) := by
  have hiff := root_eq_iff ctx c l r x root hnd hroot
  rw [root_plug] at hroot ⊢
  by_cases hx : x = root
  · have : ctx = [] := List.isEmpty_iff.1 (hiff.1 hx)
    subst this
    simp [ctxRoot, hv, hx]
  · have hne : ctx ≠ [] := fun e => hx (hiff.2 (by simp [e]))
    rw [ctxRoot_irrel ctx v.root (RBT.node c l x r).root hne, hroot]
    simp [hx]

/-- The rotation at the end of `rb_add` acts on trees as `insRot`. -/
theorem rb_add_rotate_sim (s : Store α) (root : α) (rest2 : List (Frame α)) (f1 f2 : Frame α)
    (cu : Bool) (ul ur : RBT α) (n : α) (v : RBT α)
    (hr : Repr s (plug (.node cu ul n ur) (f1 :: f2 :: rest2)) none)
    (hnd : (plug (.node cu ul n ur) (f1 :: f2 :: rest2)).toList.Nodup)
    (hroot : (plug (.node cu ul n ur) (f1 :: f2 :: rest2)).root = some root)
    (hv : insRot (.node cu ul n ur) f1 f2 = some v) :
    ∃ s' r, Tree.rb_add_rotate s root n f1.node f2.node = some (s', r) ∧
      Repr s' (plug v rest2) none ∧ (plug v rest2).root = some r ∧
      s'.prev = s.prev ∧ s'.next = s.next := by
  cases f2 with
  | L c2 lpp sib =>
    cases f1 with
    | L c1 lp b =>
      simp only [insRot, Option.some.injEq] at hv
      subst hv
      simp only [plug, Frame.node] at hr hnd hroot ⊢
      have S1 := plug_sep rest2 c2 _ lpp sib hnd
      have S2 := plug_sep (.L c2 lpp sib :: rest2) c1 _ lp b hnd
      have h1 := setColor_sim s rest2 c2 _ sib lpp 0 hr hnd
      simp only [ne_eq, not_true_eq_false, decide_False] at h1
      have hnd1 : (plug (.node false (.node c1 (.node cu ul n ur) lp b) lpp sib) rest2).toList.Nodup := by
        simpa [toList_plug, RBT.toList] using hnd
      obtain ⟨s2, hs2, h2, hc2, hp2, hn2⟩ := rotate_right_sim _ rest2 false c1 _ b sib lpp lp h1 hnd1
      have hnd2 : (plug (.node c1 (.node cu ul n ur) lp (.node false b lpp sib)) rest2).toList.Nodup := by
        simpa [toList_plug, RBT.toList] using hnd
      have h3 := setColor_sim s2 rest2 c1 _ _ lp 1 h2 hnd2
      simp only [ne_eq, one_ne_zero, not_false_eq_true, decide_True] at h3
      rw [repr_plug_iff] at hr
      obtain ⟨⟨q1, q2, q3, q4, ⟨p1, p2, p3, p4, _, _⟩, _⟩, _⟩ := hr
      have e1 : ¬ sib.root = some lp := fun e => by
        have := S1.l_r lp (by simp [RBT.toList]) 
        exact this (RBT.root_mem sib lp e)
      have e2 : ¬ b.root = some n := fun e => by
        have := S2.l_r n (by simp [RBT.toList])
        exact this (RBT.root_mem b n e)
      refine ⟨_, _, by
        simp only [Tree.rb_add_rotate, Store.setColor_rch, q3, p3, e1, e2, if_false, hs2,
          Option.map_some']
        rfl, h3, ?_, by simp [hp2], by simp [hn2]⟩
      exact root_after rest2 c2 _ sib lpp lp root _ hnd hroot rfl
    | R c1 a lp =>
      simp only [insRot, Option.some.injEq] at hv
      subst hv
      simp only [plug, Frame.node] at hr hnd hroot ⊢
      have S1 := plug_sep rest2 c2 _ lpp sib hnd
      have h1 := setColor_sim s rest2 c2 _ sib lpp 0 hr hnd
      simp only [ne_eq, not_true_eq_false, decide_False] at h1
      have hnd1 : (plug (.node false (.node c1 a lp (.node cu ul n ur)) lpp sib) rest2).toList.Nodup := by
        simpa [toList_plug, RBT.toList] using hnd
      obtain ⟨s2, hs2, h2, hc2, hp2, hn2⟩ :=
        rotate_left_right_sim _ rest2 false c1 cu sib ul ur a lpp lp n h1 hnd1
      have hnd2 : (plug (.node cu (.node c1 a lp ul) n (.node false ur lpp sib)) rest2).toList.Nodup := by
        simp only [toList_plug, RBT.toList] at hnd ⊢
        simpa [List.append_assoc] using hnd
      have h3 := setColor_sim s2 rest2 cu _ _ n 1 h2 hnd2
      simp only [ne_eq, one_ne_zero, not_false_eq_true, decide_True] at h3
      rw [repr_plug_iff] at hr
      obtain ⟨⟨q1, q2, q3, q4, ⟨p1, p2, p3, p4, _, _⟩, _⟩, _⟩ := hr
      have e1 : ¬ sib.root = some lp := fun e => by
        have := S1.l_r lp (by simp [RBT.toList])
        exact this (RBT.root_mem sib lp e)
      refine ⟨_, _, by
        simp only [Tree.rb_add_rotate, Store.setColor_rch, q3, p3, e1, RBT.root_node, if_false,
          if_true, hs2, Option.map_some']
        rfl, h3, ?_, by simp [hp2], by simp [hn2]⟩
      exact root_after rest2 c2 _ sib lpp n root _ hnd hroot rfl
  | R c2 sib lpp =>
    cases f1 with
    | R c1 a lp =>
      simp only [insRot, Option.some.injEq] at hv
      subst hv
      simp only [plug, Frame.node] at hr hnd hroot ⊢
      have h1 := setColor_sim s rest2 c2 sib _ lpp 0 hr hnd
      simp only [ne_eq, not_true_eq_false, decide_False] at h1
      have hnd1 : (plug (.node false sib lpp (.node c1 a lp (.node cu ul n ur))) rest2).toList.Nodup := by
        simpa [toList_plug, RBT.toList] using hnd
      obtain ⟨s2, hs2, h2, hc2, hp2, hn2⟩ := rotate_left_sim _ rest2 false c1 sib a _ lpp lp h1 hnd1
      have hnd2 : (plug (.node c1 (.node false sib lpp a) lp (.node cu ul n ur)) rest2).toList.Nodup := by
        simp only [toList_plug, RBT.toList] at hnd ⊢
        simpa [List.append_assoc] using hnd
      have h3 := setColor_sim s2 rest2 c1 _ _ lp 1 h2 hnd2
      simp only [ne_eq, one_ne_zero, not_false_eq_true, decide_True] at h3
      rw [repr_plug_iff] at hr
      obtain ⟨⟨q1, q2, q3, q4, _, ⟨p1, p2, p3, p4, _, _⟩⟩, _⟩ := hr
      refine ⟨_, _, by
        simp only [Tree.rb_add_rotate, Store.setColor_rch, q3, p3, RBT.root_node, if_true, hs2,
          Option.map_some']
        rfl, h3, ?_, by simp [hp2], by simp [hn2]⟩
      exact root_after rest2 c2 sib _ lpp lp root _ hnd hroot rfl
    | L c1 lp b =>
      simp only [insRot, Option.some.injEq] at hv
      subst hv
      simp only [plug, Frame.node] at hr hnd hroot ⊢
      have S2 := plug_sep (.R c2 sib lpp :: rest2) c1 _ lp b hnd
      have h1 := setColor_sim s rest2 c2 sib _ lpp 0 hr hnd
      simp only [ne_eq, not_true_eq_false, decide_False] at h1
      have hnd1 : (plug (.node false sib lpp (.node c1 (.node cu ul n ur) lp b)) rest2).toList.Nodup := by
        simpa [toList_plug, RBT.toList] using hnd
      obtain ⟨s2, hs2, h2, hc2, hp2, hn2⟩ :=
        rotate_right_left_sim _ rest2 false c1 cu sib ul ur b lpp lp n h1 hnd1
      have hnd2 : (plug (.node cu (.node false sib lpp ul) n (.node c1 ur lp b)) rest2).toList.Nodup := by
        simp only [toList_plug, RBT.toList] at hnd ⊢
        simpa [List.append_assoc] using hnd
      have h3 := setColor_sim s2 rest2 cu _ _ n 1 h2 hnd2
      simp only [ne_eq, one_ne_zero, not_false_eq_true, decide_True] at h3
      rw [repr_plug_iff] at hr
      obtain ⟨⟨q1, q2, q3, q4, _, ⟨p1, p2, p3, p4, _, _⟩⟩, _⟩ := hr
      have e2 : ¬ b.root = some n := fun e => by
        have := S2.l_r n (by simp [RBT.toList])
        exact this (RBT.root_mem b n e)
      refine ⟨_, _, by
        simp only [Tree.rb_add_rotate, Store.setColor_rch, q3, p3, e2, RBT.root_node, if_false,
          if_true, hs2, Option.map_some']
        rfl, h3, ?_, by simp [hp2], by simp [hn2]⟩
      exact root_after rest2 c2 sib _ lpp n root _ hnd hroot rfl

/-- The recolouring step of the loop of `rb_add`: the red uncle and the red
parent turn black, and the grandparent turns red unless it is the root. -/
theorem recolor_sim (s : Store α) (rest2 : List (Frame α)) (f1 f2 : Frame α) (u a b : RBT α)
    (la : α) (hsib : f2.sib = .node false a la b)
    (hr : Repr s (plug u (f1 :: f2 :: rest2)) none)
    (hnd : (plug u (f1 :: f2 :: rest2)).toList.Nodup) :
    Repr ((s.setColor la 1).setColor f1.node 1)
        (plug (f2.fillSib f2.color (f1.fill true u) (.node true a la b)) rest2) none ∧
      Repr (((s.setColor la 1).setColor f1.node 1).setColor f2.node 0)
        (plug (f2.fillSib false (f1.fill true u) (.node true a la b)) rest2) none := by
  cases f2 with
  | L c2 lpp sib =>
    cases f1 with
    | L c1 lp b1 =>
      simp only [Frame.sib] at hsib
      subst hsib
      simp only [Frame.fillSib, Frame.fill, Frame.sib, Frame.color, Frame.node]
      have g1 : Repr (s.setColor la 1) (plug (.node true a la b) (.R c2 (.node c1 u lp b1) lpp :: rest2)) none :=
        setColor_sim s (.R c2 (.node c1 u lp b1) lpp :: rest2) false a b la 1 hr hnd
      have n1 : (plug u (.L c1 lp b1 :: (.L c2 lpp (.node true a la b) :: rest2))).toList.Nodup := by
        simpa [plug, toList_plug, RBT.toList] using hnd
      have g2 : Repr ((s.setColor la 1).setColor lp 1) (plug (.node true u lp b1) (.L c2 lpp (.node true a la b) :: rest2)) none :=
        setColor_sim _ (.L c2 lpp (.node true a la b) :: rest2) c1 u b1 lp 1 g1 n1
      have n2 : (plug (.node c2 (.node true u lp b1) lpp (.node true a la b)) rest2).toList.Nodup := by
        simpa [plug, toList_plug, RBT.toList] using hnd
      exact ⟨g2, setColor_sim _ rest2 c2 (.node true u lp b1) (.node true a la b) lpp 0 g2 n2⟩
    | R c1 a1 lp =>
      simp only [Frame.sib] at hsib
      subst hsib
      simp only [Frame.fillSib, Frame.fill, Frame.sib, Frame.color, Frame.node]
      have g1 : Repr (s.setColor la 1) (plug (.node true a la b) (.R c2 (.node c1 a1 lp u) lpp :: rest2)) none :=
        setColor_sim s (.R c2 (.node c1 a1 lp u) lpp :: rest2) false a b la 1 hr hnd
      have n1 : (plug u (.R c1 a1 lp :: (.L c2 lpp (.node true a la b) :: rest2))).toList.Nodup := by
        simpa [plug, toList_plug, RBT.toList] using hnd
      have g2 : Repr ((s.setColor la 1).setColor lp 1) (plug (.node true a1 lp u) (.L c2 lpp (.node true a la b) :: rest2)) none :=
        setColor_sim _ (.L c2 lpp (.node true a la b) :: rest2) c1 a1 u lp 1 g1 n1
      have n2 : (plug (.node c2 (.node true a1 lp u) lpp (.node true a la b)) rest2).toList.Nodup := by
        simpa [plug, toList_plug, RBT.toList] using hnd
      exact ⟨g2, setColor_sim _ rest2 c2 (.node true a1 lp u) (.node true a la b) lpp 0 g2 n2⟩
  | R c2 sib lpp =>
    cases f1 with
    | L c1 lp b1 =>
      simp only [Frame.sib] at hsib
      subst hsib
      simp only [Frame.fillSib, Frame.fill, Frame.sib, Frame.color, Frame.node]
      have g1 : Repr (s.setColor la 1) (plug (.node true a la b) (.L c2 lpp (.node c1 u lp b1) :: rest2)) none :=
        setColor_sim s (.L c2 lpp (.node c1 u lp b1) :: rest2) false a b la 1 hr hnd
      have n1 : (plug u (.L c1 lp b1 :: (.R c2 (.node true a la b) lpp :: rest2))).toList.Nodup := by
        simpa [plug, toList_plug, RBT.toList] using hnd
      have g2 : Repr ((s.setColor la 1).setColor lp 1) (plug (.node true u lp b1) (.R c2 (.node true a la b) lpp :: rest2)) none :=
        setColor_sim _ (.R c2 (.node true a la b) lpp :: rest2) c1 u b1 lp 1 g1 n1
      have n2 : (plug (.node c2 (.node true a la b) lpp (.node true u lp b1)) rest2).toList.Nodup := by
        simpa [plug, toList_plug, RBT.toList] using hnd
      exact ⟨g2, setColor_sim _ rest2 c2 (.node true a la b) (.node true u lp b1) lpp 0 g2 n2⟩
    | R c1 a1 lp =>
      simp only [Frame.sib] at hsib
      subst hsib
      simp only [Frame.fillSib, Frame.fill, Frame.sib, Frame.color, Frame.node]
      have g1 : Repr (s.setColor la 1) (plug (.node true a la b) (.L c2 lpp (.node c1 a1 lp u) :: rest2)) none :=
        setColor_sim s (.L c2 lpp (.node c1 a1 lp u) :: rest2) false a b la 1 hr hnd
      have n1 : (plug u (.R c1 a1 lp :: (.R c2 (.node true a la b) lpp :: rest2))).toList.Nodup := by
        simpa [plug, toList_plug, RBT.toList] using hnd
      have g2 : Repr ((s.setColor la 1).setColor lp 1) (plug (.node true a1 lp u) (.R c2 (.node true a la b) lpp :: rest2)) none :=
        setColor_sim _ (.R c2 (.node true a la b) lpp :: rest2) c1 a1 u lp 1 g1 n1
      have n2 : (plug (.node c2 (.node true a la b) lpp (.node true a1 lp u)) rest2).toList.Nodup := by
        simpa [plug, toList_plug, RBT.toList] using hnd
      exact ⟨g2, setColor_sim _ rest2 c2 (.node true a la b) (.node true a1 lp u) lpp 0 g2 n2⟩

/-- The pointers read by one round of the loop of `rb_add`. -/
theorem loop_reads (s : Store α) (rest2 : List (Frame α)) (f1 f2 : Frame α)
    (cu : Bool) (ul ur : RBT α) (n : α)
    (hr : Repr s (plug (.node cu ul n ur) (f1 :: f2 :: rest2)) none)
    (hnd : (plug (.node cu ul n ur) (f1 :: f2 :: rest2)).toList.Nodup) :
    s.par n = some f1.node ∧ decide (s.color f1.node ≠ 0) = f1.color ∧
      s.par f1.node = some f2.node ∧
      (if s.rch f2.node ≠ some f1.node then s.rch f2.node else s.lch f2.node) = f2.sib.root ∧
      Repr s f2.sib (some f2.node) := by
  cases f2 with
  | L c2 lpp sib =>
    have S1 : Sep rest2 (f1.fill f1.color (.node cu ul n ur)) lpp sib := by
      cases f1 <;> exact plug_sep rest2 c2 _ lpp sib hnd
    have hlp : f1.node ∈ (f1.fill f1.color (.node cu ul n ur)).toList := by
      cases f1 <;> simp [Frame.fill, Frame.fillSib, Frame.node, RBT.toList]
    have e1 : ¬ sib.root = some f1.node := fun e =>
      S1.l_r _ hlp (RBT.root_mem sib _ e)
    rw [repr_plug_iff] at hr
    cases f1 with
    | L c1 lp b1 =>
      obtain ⟨⟨q1, _⟩, p1, p2, p3, p4, p5, r1, r2, r3, r4, r5, _⟩ := hr
      simp only [Frame.node, Frame.color, Frame.sib, ctxPar] at q1 p1 e1 ⊢
      refine ⟨q1, p4, p1, ?_, r5⟩
      rw [r3, if_pos (by simpa using e1)]
    | R c1 a1 lp =>
      obtain ⟨⟨q1, _⟩, p1, p2, p3, p4, p5, r1, r2, r3, r4, r5, _⟩ := hr
      simp only [Frame.node, Frame.color, Frame.sib, ctxPar] at q1 p1 e1 ⊢
      refine ⟨q1, p4, p1, ?_, r5⟩
      rw [r3, if_pos (by simpa using e1)]
  | R c2 sib lpp =>
    rw [repr_plug_iff] at hr
    cases f1 with
    | L c1 lp b1 =>
      obtain ⟨⟨q1, _⟩, p1, p2, p3, p4, p5, r1, r2, r3, r4, r5, _⟩ := hr
      simp only [Frame.node, Frame.color, Frame.sib, ctxPar] at q1 p1 ⊢
      refine ⟨q1, p4, p1, ?_, r5⟩
      rw [r3, r2]
      simp
    | R c1 a1 lp =>
      obtain ⟨⟨q1, _⟩, p1, p2, p3, p4, p5, r1, r2, r3, r4, r5, _⟩ := hr
      simp only [Frame.node, Frame.color, Frame.sib, ctxPar] at q1 p1 ⊢
      refine ⟨q1, p4, p1, ?_, r5⟩
      rw [r3, r2]
      simp

theorem fillSib_root (f : Frame α) (c : Bool) (u sib : RBT α) :
    ∃ l r, f.fillSib c u sib = .node c l f.node r := by
  cases f <;> exact ⟨_, _, rfl⟩

theorem plug_fillSib (f : Frame α) (u : RBT α) (rest : List (Frame α)) :
    plug u (f :: rest) = plug (f.fillSib f.color u f.sib) rest := by
  cases f <;> rfl

/-- The loop of `rb_add` followed by its rotation acts on trees as `insFix`. -/
theorem rb_add_fix_sim (root : α) : ∀ (fuel : Nat) (ctx : List (Frame α)) (s : Store α)
    (cu : Bool) (ul ur : RBT α) (n : α) (t' : RBT α), ctx.length ≤ fuel →
    Repr s (plug (.node cu ul n ur) ctx) none →
    (plug (.node cu ul n ur) ctx).toList.Nodup →
    (plug (.node cu ul n ur) ctx).root = some root →
    insFix (.node cu ul n ur) ctx = some t' →
    ∃ o s' r, Tree.rb_add_loop root fuel s n = some o ∧ o.finish root = some (s', r) ∧
      Repr s' t' none ∧ t'.root = some r ∧ s'.prev = s.prev ∧ s'.next = s.next := by
  intro fuel
  induction fuel using Nat.strong_induction_on with
  | _ fuel ih =>
  intro ctx s cu ul ur n t' hlen hr hnd hroot hfix
  match ctx, hlen, hr, hnd, hroot, hfix with
  | [], _, _, _, _, hfix => simp [insFix] at hfix
  | [f1], hlen, hr, hnd, hroot, hfix =>
    obtain ⟨fuel, rfl⟩ : ∃ k, fuel = k + 1 := ⟨fuel - 1, by simp at hlen; omega⟩
    simp only [insFix] at hfix
    split at hfix
    · rename_i hc
      simp only [Option.some.injEq] at hfix
      subst hfix
      have hr2 := hr
      rw [repr_plug_iff] at hr2
      have q1 : s.par n = some f1.node := hr2.1.1
      have h4 : decide (s.color f1.node ≠ 0) = f1.color := by
        cases f1 <;> exact hr2.2.2.2.2.1
      have q2 : s.color f1.node ≠ 0 := by
        intro h0
        simp [h0, hc] at h4
      refine ⟨.ret s, s, root, by simp [Tree.rb_add_loop, q1, q2], rfl, hr, hroot, rfl, rfl⟩
    · simp at hfix
  | f1 :: f2 :: rest2, hlen, hr, hnd, hroot, hfix =>
    obtain ⟨fuel, rfl⟩ : ∃ k, fuel = k + 1 := ⟨fuel - 1, by simp at hlen; omega⟩
    obtain ⟨q1, q2, q3, q4, q5⟩ := loop_reads s rest2 f1 f2 cu ul ur n hr hnd
    simp only [insFix] at hfix
    split at hfix
    · rename_i hc
      simp only [Option.some.injEq] at hfix
      subst hfix
      have q2' : s.color f1.node ≠ 0 := by simpa [hc] using q2
      refine ⟨.ret s, s, root, by simp [Tree.rb_add_loop, q1, q2'], rfl, hr, hroot, rfl, rfl⟩
    · rename_i hc
      have q2' : s.color f1.node = 0 := by
        by_contra h
        exact hc (by rw [← q2]; simpa using h)
      have hloop : Tree.rb_add_loop root (fuel + 1) s n =
          match f2.sib.root with
          | some a =>
            if s.color a = 0 then
              if f2.node ≠ root then
                Tree.rb_add_loop root fuel
                  (((s.setColor a 1).setColor f1.node 1).setColor f2.node 0) f2.node
              else some (.ret ((s.setColor a 1).setColor f1.node 1))
            else some (.brk s n f1.node f2.node)
          | none => some (.brk s n f1.node f2.node) := by
        rw [Tree.rb_add_loop]
        simp only [q1, q2', q3, ne_eq, not_true_eq_false, if_false]
        simp only [← ne_eq, q4]
        try (cases f2.sib.root <;> rfl)
      have hroot2 : (plug (f2.fillSib f2.color (f1.fill f1.color (.node cu ul n ur)) f2.sib)
          rest2).root = some root := by
        rw [← hroot]
        cases f1 <;> cases f2 <;> rfl
      have hnd2 : (plug (f2.fillSib f2.color (f1.fill f1.color (.node cu ul n ur)) f2.sib)
          rest2).toList.Nodup := by
        have : plug (f2.fillSib f2.color (f1.fill f1.color (.node cu ul n ur)) f2.sib) rest2 =
            plug (.node cu ul n ur) (f1 :: f2 :: rest2) := by
          cases f1 <;> cases f2 <;> rfl
        rw [this]
        exact hnd
      obtain ⟨l0, r0, hform⟩ := fillSib_root f2 f2.color (f1.fill f1.color (.node cu ul n ur)) f2.sib
      rw [hform] at hroot2 hnd2
      have hrootiff := root_eq_iff rest2 _ _ _ _ root hnd2 hroot2
      split at hfix
      · rename_i a la b hsib
        have hla : s.color la = 0 := by
          rw [hsib] at q5
          have := q5.2.2.2.1
          simpa using this
        obtain ⟨g1, g2⟩ := recolor_sim s rest2 f1 f2 _ a b la hsib hr hnd
        rw [hsib] at hloop
        simp only [RBT.root_node, hla, if_true] at hloop
        split at hfix
        · rename_i hemp
          have hemp2 : rest2 = [] := List.isEmpty_iff.1 hemp
          simp only [Option.some.injEq] at hfix
          subst hfix
          subst hemp2
          have hx : f2.node = root := hrootiff.2 rfl
          rw [if_neg (by simpa using hx)] at hloop
          refine ⟨_, _, root, hloop, rfl, g1, ?_, by simp, by simp⟩
          obtain ⟨l1, r1, hf1⟩ := fillSib_root f2 f2.color (f1.fill true (.node cu ul n ur))
            (.node true a la b)
          rw [hf1, hx]
          rfl
        · rename_i hemp
          have hx : f2.node ≠ root := fun e => hemp (hrootiff.1 e)
          rw [if_pos hx] at hloop
          obtain ⟨l1, r1, hf1⟩ := fillSib_root f2 false (f1.fill true (.node cu ul n ur))
            (.node true a la b)
          rw [hf1] at g2 hfix
          have hnd3 : (plug (.node false l1 f2.node r1) rest2).toList.Nodup := by
            rw [← hf1]
            have : (plug (f2.fillSib false (f1.fill true (.node cu ul n ur))
                (.node true a la b)) rest2).toList =
                (plug (.node cu ul n ur) (f1 :: f2 :: rest2)).toList := by
              cases f1 <;> cases f2 <;> simp only [Frame.sib] at hsib <;> subst hsib <;>
                simp [plug, toList_plug, RBT.toList, Frame.fillSib, Frame.fill, Frame.sib]
            rw [this]
            exact hnd
          have hroot3 : (plug (.node false l1 f2.node r1) rest2).root = some root := by
            rw [root_plug] at hroot2 ⊢
            exact hroot2
          obtain ⟨o, s', r, e1, e2, e3, e4, e5, e6⟩ :=
            ih fuel (Nat.lt_succ_self _) rest2 _ false l1 r1 f2.node t'
              (by simp at hlen; omega) g2 hnd3 hroot3 hfix
          refine ⟨o, s', r, by rw [hloop]; exact e1, e2, e3, e4, ?_, ?_⟩
          · rw [e5]; simp
          · rw [e6]; simp
      · rename_i hnot
        have hbrk : Tree.rb_add_loop root (fuel + 1) s n = some (.brk s n f1.node f2.node) := by
          rw [hloop]
          cases hsib : f2.sib with
          | nil => rfl
          | node c a la b =>
            cases c with
            | false => exact absurd hsib (hnot a la b)
            | true =>
              rw [hsib] at q5
              have : s.color la ≠ 0 := by simpa using q5.2.2.2.1
              simp [this]
        cases hv : insRot (.node cu ul n ur) f1 f2 with
        | none => rw [hv] at hfix; simp at hfix
        | some v =>
          rw [hv] at hfix
          simp only [Option.map_some', Option.some.injEq] at hfix
          subst hfix
          obtain ⟨s', r, e1, e2, e3, e4, e5⟩ :=
            rb_add_rotate_sim s root rest2 f1 f2 cu ul ur n v hr hnd hroot hv
          exact ⟨_, s', r, hbrk, e1, e2, e3, e4, e5⟩

theorem insPath_length (prior : α → α → Bool) (n : α) :
    ∀ (t : RBT α) (acc : List (Frame α)),
      (RBT.insPath prior n t acc).length ≤ t.toList.length + acc.length := by
  intro t
  induction t with
  | nil => intro acc; simp [RBT.insPath]
  | node c l x r ihl ihr =>
    intro acc
    simp only [RBT.insPath, RBT.toList, List.length_append, List.length_cons]
    split
    · have := ihl (.L c x r :: acc)
      simp only [List.length_cons] at this
      omega
    · have := ihr (.R c l x :: acc)
      simp only [List.length_cons] at this
      omega

/-- The tree after `rb_add`: `insFix` applied to the new red leaf at the end
of the search path. -/
theorem rb_add_sim (prior : α → α → Bool) (s : Store α) (n root : α) (t : RBT α) (fuel : Nat)
    (hr : Repr s t none) (hroot : t.root = some root) (hnd : t.toList.Nodup) (hv : t.Valid)
    (hn : n ∉ t.toList) (hl : s.lch n = none) (hrc : s.rch n = none) (hcol : s.color n = 0)
    (hf : t.toList.length ≤ fuel) :
    ∃ s' r t', Tree.rb_add prior fuel s n root = some (s', r) ∧
      insFix (.node false .nil n .nil) (RBT.insPath prior n t []) = some t' ∧
      Repr s' t' none ∧ t'.root = some r ∧ t'.Valid ∧
      t'.toList = (plug (.node false .nil n .nil) (RBT.insPath prior n t [])).toList ∧
      (plug (.node false .nil n .nil) (RBT.insPath prior n t [])).toList.Nodup ∧
      s'.prev = s.prev ∧ s'.next = s.next := by
  obtain ⟨s1, hadd, hr1, hp1, hn1⟩ := add_sim prior s n root t fuel hr hroot hnd hn hl hrc hcol hf
  have hplug := insPath_plug prior n t []
  have hlen := insPath_length prior n t []
  simp only [plug, List.length_nil, Nat.add_zero] at hplug hlen
  have hne : RBT.insPath prior n t [] ≠ [] := by
    obtain ⟨f, rest, hp, _⟩ := add_descend_spec prior s n t [] none root fuel hroot hr hf
    rw [hp]
    simp
  have hinv : CtxInv (RBT.insPath prior n t []) 0 true := by
    have := (valid_plug_iff (RBT.insPath prior n t []) .nil).1 (by rw [hplug]; exact hv)
    exact this.2.2
  obtain ⟨t', hfix, hval⟩ := insFix_valid _ (RBT.insPath prior n t []) .nil .nil n (le_refl _) hne
    ⟨rfl, trivial, trivial⟩ ⟨fun _ => ⟨rfl, rfl⟩, trivial, trivial⟩ hinv
  have htl := insFix_toList _ _ _ _ (le_refl _) hfix
  have hnd1 : (plug (.node false .nil n .nil) (RBT.insPath prior n t [])).toList.Nodup := by
    have e : (plug .nil (RBT.insPath prior n t [])).toList = t.toList := by rw [hplug]
    rw [toList_plug] at e ⊢
    simp only [RBT.toList, List.append_nil, List.nil_append] at e ⊢
    rw [← e] at hnd hn
    simp only [List.mem_append, not_or] at hn
    have h3 := List.nodup_append.1 hnd
    simp only [List.append_assoc, List.singleton_append]
    rw [List.nodup_append]
    refine ⟨h3.1, ?_, ?_⟩
    · rw [List.nodup_cons]
      exact ⟨hn.2, h3.2.1⟩
    · intro a ha hb
      rcases List.mem_cons.1 hb with e1 | e1
      · exact hn.1 (e1 ▸ ha)
      · exact h3.2.2 ha e1
  have hroot1 : (plug (.node false .nil n .nil) (RBT.insPath prior n t [])).root = some root := by
    rw [root_plug, ctxRoot_irrel _ _ (RBT.nil : RBT α).root hne, ← root_plug, hplug, hroot]
  obtain ⟨o, s', r, e1, e2, e3, e4, e5, e6⟩ := rb_add_fix_sim root fuel _ s1 false .nil .nil n t'
    (le_trans hlen hf) hr1 hnd1 hroot1 hfix
  refine ⟨s', r, t', ?_, hfix, e3, e4, hval, htl, hnd1, by rw [e5, hp1], by rw [e6, hn1]⟩
  simp only [Tree.rb_add, hadd, e1]
  exact e2

/-- C6. `rb_add` preserves the red-black invariants. The fields `s` hold a
valid red-black tree `t` with root `root` (parent and child links consistent,
root black with null parent, no red node with a red child, equal black height
on all paths, no node twice), and `n` is a red node with null child links that
is not in the tree. Then, for every comparator, `rb_add(n, prior, root)`
returns a node `r` with null parent, and the fields then hold a valid
red-black tree with root `r` whose nodes are those of `t` and `n`. -/
theorem rb_add_preserves (prior : α → α → Bool) (s : Store α) (n root : α) (t : RBT α)
    (fuel : Nat) (hr : Repr s t none) (hroot : t.root = some root) (hnd : t.toList.Nodup)
    (hv : t.Valid) (hn : n ∉ t.toList) (hl : s.lch n = none) (hrc : s.rch n = none)
    (hcol : s.color n = 0) (hf : t.toList.length ≤ fuel) :
    ∃ s' r t', Tree.rb_add prior fuel s n root = some (s', r) ∧ s'.par r = none ∧
      Repr s' t' none ∧ t'.root = some r ∧ t'.toList.Nodup ∧ t'.Valid ∧
      ∀ x, x ∈ t'.toList ↔ (x ∈ t.toList ∨ x = n) := by
  obtain ⟨s', r, t', h1, h2, h3, h4, h5, h6, h7, _, _⟩ :=
    rb_add_sim prior s n root t fuel hr hroot hnd hv hn hl hrc hcol hf
  refine ⟨s', r, t', h1, ?_, h3, h4, by rw [h6]; exact h7, h5, ?_⟩
  · cases t' with
    | nil => simp at h4
    | node c l x rr =>
      simp only [RBT.root_node, Option.some.injEq] at h4
      subst h4
      exact h3.1
  · intro x
    have e : (plug .nil (RBT.insPath prior n t [])).toList = t.toList := by
      rw [insPath_plug]
      rfl
    rw [h6, ← e, toList_plug, toList_plug]
    simp only [RBT.toList, List.mem_append, List.mem_cons, List.append_nil, List.nil_append,
      List.not_mem_nil, or_false]
    constructor
    · rintro ((h | h) | h)
      · exact Or.inl (Or.inl h)
      · exact Or.inr h
      · exact Or.inl (Or.inr h)
    · rintro ((h | h) | h)
      · exact Or.inl (Or.inl h)
      · exact Or.inr h
      · exact Or.inl (Or.inr h)

theorem rb_add_preserves_witness :
    ∃ s' r t', Tree.rb_add (fun a b => decide (a < b)) 1 rbDemoStore 2 1 = some (s', r) ∧
      s'.par r = none ∧ Repr s' t' none ∧ t'.root = some r ∧ t'.toList.Nodup ∧ t'.Valid ∧
      ∀ x, x ∈ t'.toList ↔ (x ∈ (RBT.node true .nil 1 .nil).toList ∨ x = 2) :=
  rb_add_preserves (fun a b => decide (a < b)) rbDemoStore 2 1 (.node true .nil 1 .nil) 1
    ⟨rfl, rfl, rfl, rfl, trivial, trivial⟩ rfl (by decide)
    ⟨rfl, ⟨fun h => by simp at h, trivial, trivial⟩, ⟨rfl, trivial, trivial⟩⟩ (by decide) rfl rfl rfl
    (by decide)

theorem plug_append : ∀ (c1 c2 : List (Frame α)) (u : RBT α),
    plug u (c1 ++ c2) = plug (plug u c1) c2 := by
  intro c1
  induction c1 with
  | nil => intro c2 u; rfl
  | cons f rest ih =>
    intro c2 u
    cases f <;> exact ih c2 _

theorem insShape_plug (n : α) (t : RBT α) (ctx : List (Frame α)) (h : InsShape n t) :
    InsShape n (plug t ctx) := by
  obtain ⟨ctx1, c, l, r, e, h2⟩ := h
  exact ⟨ctx1 ++ ctx, c, l, r, by rw [plug_append, e], h2⟩

theorem insShape_leaf (n : α) (cn : Bool) (ctx : List (Frame α)) :
    InsShape n (plug (.node cn .nil n .nil) ctx) :=
  ⟨ctx, cn, .nil, .nil, rfl, Or.inl ⟨rfl, rfl⟩⟩

theorem plug_top (w : RBT α) (ctx : List (Frame α)) (c : Bool) (ul ur : RBT α) (x : α)
    (hne : ctx ≠ []) (h : plug w ctx = .node c ul x ur) :
    ∃ ctx2, (ul = plug w ctx2 ∧ ctx = ctx2 ++ [.L c x ur]) ∨
      (ur = plug w ctx2 ∧ ctx = ctx2 ++ [.R c ul x]) := by
  rcases List.eq_nil_or_concat ctx with e | ⟨ctx2, g, e⟩
  · exact absurd e hne
  · subst e
    rw [List.concat_eq_append, plug_append] at h
    refine ⟨ctx2, ?_⟩
    cases g with
    | L c1 x1 r1 =>
      simp only [plug, RBT.node.injEq] at h
      obtain ⟨e1, e2, e3, e4⟩ := h
      subst e1 e3 e4
      exact Or.inl ⟨e2.symm, by simp⟩
    | R c1 l1 x1 =>
      simp only [plug, RBT.node.injEq] at h
      obtain ⟨e1, e2, e3, e4⟩ := h
      subst e1 e2 e3
      exact Or.inr ⟨e4.symm, by simp⟩

theorem insRot_shape (n : α) (cn : Bool) (ctx1 : List (Frame α)) (f1 f2 : Frame α) (v : RBT α)
    (h : insRot (plug (.node cn .nil n .nil) ctx1) f1 f2 = some v) : InsShape n v := by
  cases f2 with
  | L c2 lpp sib =>
    cases f1 with
    | L c1 lp b =>
      simp only [insRot, Option.some.injEq] at h
      subst h
      exact ⟨ctx1 ++ [.L true lp (.node false b lpp sib)], cn, .nil, .nil,
        by rw [plug_append]; rfl, Or.inl ⟨rfl, rfl⟩⟩
    | R c1 a lp =>
      cases hu : plug (.node cn .nil n .nil) ctx1 with
      | nil => rw [hu] at h; simp [insRot] at h
      | node cu ul x ur =>
        rw [hu] at h
        simp only [insRot, Option.some.injEq] at h
        subst h
        by_cases hne : ctx1 = []
        · subst hne
          simp only [plug, RBT.node.injEq] at hu
          obtain ⟨e1, e2, e3, e4⟩ := hu
          subst e1 e2 e3 e4
          exact ⟨[], true, _, _, rfl, Or.inr ⟨_, _, _, rfl⟩⟩
        · obtain ⟨ctx2, ⟨e1, e2⟩ | ⟨e1, e2⟩⟩ := plug_top _ ctx1 cu ul ur x hne hu
          · subst e1
            exact ⟨ctx2 ++ [.R c1 a lp, .L true x (.node false ur lpp sib)], cn, .nil, .nil,
              by rw [plug_append]; rfl, Or.inl ⟨rfl, rfl⟩⟩
          · subst e1
            exact ⟨ctx2 ++ [.L false lpp sib, .R true (.node c1 a lp ul) x], cn, .nil, .nil,
              by rw [plug_append]; rfl, Or.inl ⟨rfl, rfl⟩⟩
  | R c2 sib lpp =>
    cases f1 with
    | R c1 a lp =>
      simp only [insRot, Option.some.injEq] at h
      subst h
      exact ⟨ctx1 ++ [.R true (.node false sib lpp a) lp], cn, .nil, .nil,
        by rw [plug_append]; rfl, Or.inl ⟨rfl, rfl⟩⟩
    | L c1 lp b =>
      cases hu : plug (.node cn .nil n .nil) ctx1 with
      | nil => rw [hu] at h; simp [insRot] at h
      | node cu ul x ur =>
        rw [hu] at h
        simp only [insRot, Option.some.injEq] at h
        subst h
        by_cases hne : ctx1 = []
        · subst hne
          simp only [plug, RBT.node.injEq] at hu
          obtain ⟨e1, e2, e3, e4⟩ := hu
          subst e1 e2 e3 e4
          exact ⟨[], true, _, _, rfl, Or.inr ⟨_, _, _, rfl⟩⟩
        · obtain ⟨ctx2, ⟨e1, e2⟩ | ⟨e1, e2⟩⟩ := plug_top _ ctx1 cu ul ur x hne hu
          · subst e1
            exact ⟨ctx2 ++ [.R false sib lpp, .L true x (.node c1 ur lp b)], cn, .nil, .nil,
              by rw [plug_append]; rfl, Or.inl ⟨rfl, rfl⟩⟩
          · subst e1
            exact ⟨ctx2 ++ [.L c1 lp b, .R true (.node false sib lpp ul) x], cn, .nil, .nil,
              by rw [plug_append]; rfl, Or.inl ⟨rfl, rfl⟩⟩

theorem fillSib_eq_plug (f : Frame α) (c : Bool) (sib : RBT α) :
    ∃ g, ∀ u, f.fillSib c u sib = plug u [g] := by
  cases f with
  | L c1 x r => exact ⟨.L c x sib, fun _ => rfl⟩
  | R c1 l x => exact ⟨.R c sib x, fun _ => rfl⟩

/-- After the loop and rotation of `rb_add` the added node is a leaf, or its
right child has no left child. -/
theorem insFix_shape (n : α) (cn : Bool) : ∀ (k : Nat) (ctx ctx1 : List (Frame α)) (t' : RBT α),
    ctx.length ≤ k → insFix (plug (.node cn .nil n .nil) ctx1) ctx = some t' →
    InsShape n t' := by
  intro k
  induction k using Nat.strong_induction_on with
  | _ k ih =>
  intro ctx ctx1 t' hk h
  match ctx, hk, h with
  | [], _, h => simp [insFix] at h
  | [f1], _, h =>
    simp only [insFix] at h
    split at h
    · simp only [Option.some.injEq] at h
      subst h
      rw [← plug_append]
      exact insShape_leaf n cn _
    · simp at h
  | f1 :: f2 :: rest2, hk, h =>
    simp only [insFix] at h
    split at h
    · simp only [Option.some.injEq] at h
      subst h
      rw [← plug_append]
      exact insShape_leaf n cn _
    · split at h
      · rename_i a la b hsib
        split at h
        · simp only [Option.some.injEq] at h
          subst h
          obtain ⟨g2, hg2⟩ := fillSib_eq_plug f2 f2.color (.node true a la b)
          obtain ⟨g1, hg1⟩ := fillSib_eq_plug f1 true f1.sib
          rw [hg2, Frame.fill, hg1, ← plug_append, ← plug_append]
          exact insShape_leaf n cn _
        · obtain ⟨g2, hg2⟩ := fillSib_eq_plug f2 false (.node true a la b)
          obtain ⟨g1, hg1⟩ := fillSib_eq_plug f1 true f1.sib
          rw [hg2, Frame.fill, hg1, ← plug_append, ← plug_append] at h
          simp only [List.length_cons] at hk
          exact ih (k - 2) (by omega) rest2 _ t' (by omega) h
      · cases hv : insRot (plug (.node cn .nil n .nil) ctx1) f1 f2 with
        | none => rw [hv] at h; simp at h
        | some v =>
          rw [hv] at h
          simp only [Option.map_some', Option.some.injEq] at h
          subst h
          exact insShape_plug n v rest2 (insRot_shape n cn ctx1 f1 f2 v hv)

theorem Chain.congrLinks (s s' : Store α) : ∀ (xs : List α) (a b : α), Chain s a xs b →
    (∀ y, y ∈ a :: xs → s'.next y = s.next y) → (∀ y, y ∈ xs ++ [b] → s'.prev y = s.prev y) →
    Chain s' a xs b := by
  intro xs
  induction xs with
  | nil =>
    intro a b h hn hp
    exact ⟨by rw [hn a (by simp)]; exact h.1, by rw [hp b (by simp)]; exact h.2⟩
  | cons x xs ih =>
    intro a b h hn hp
    refine ⟨by rw [hn a (by simp)]; exact h.1, by rw [hp x (by simp)]; exact h.2.1, ?_⟩
    exact ih x b h.2.2 (fun y hy => hn y (List.mem_cons_of_mem _ hy))
      (fun y hy => hp y (by simp only [List.cons_append, List.mem_cons]; exact Or.inr hy))

theorem Chain.next_head (s : Store α) (xs : List α) (a b : α) (h : Chain s a xs b) :
    ∃ q, s.next a = some q ∧ (xs ++ [b]).head? = some q := by
  cases xs with
  | nil => exact ⟨b, h.1, rfl⟩
  | cons x xs => exact ⟨x, h.1, rfl⟩

theorem Chain.prev_mid (s : Store α) : ∀ (Z1 : List α) (a b n : α) (Z2 : List α),
    Chain s a (Z1 ++ n :: Z2) b → ∃ p, s.prev n = some p ∧ p ∈ a :: Z1 := by
  intro Z1
  induction Z1 with
  | nil => intro a b n Z2 h; exact ⟨a, h.2.1, by simp⟩
  | cons z Z1 ih =>
    intro a b n Z2 h
    obtain ⟨p, h1, h2⟩ := ih z b n Z2 h.2.2
    exact ⟨p, h1, List.mem_cons_of_mem _ h2⟩

theorem Chain.next_mid (s : Store α) : ∀ (Z1 : List α) (a b n : α) (Z2 : List α),
    Chain s a (Z1 ++ n :: Z2) b → ∃ q, s.next n = some q ∧ (Z2 ++ [b]).head? = some q := by
  intro Z1
  induction Z1 with
  | nil => intro a b n Z2 h; exact Chain.next_head s Z2 n b h.2.2
  | cons z Z1 ih => intro a b n Z2 h; exact ih z b n Z2 h.2.2

theorem head?_mem (xs : List α) (q : α) (h : xs.head? = some q) : q ∈ xs := by
  cases xs with
  | nil => simp at h
  | cons x xs => simp only [List.head?_cons, Option.some.injEq] at h; simp [h]

/-- The fields after `insert_after(n, p)` when `p._l_next` is `q`. -/
theorem insert_after_eq (s : Store α) (n p q : α) (h : s.next p = some q) :
    Link.insert_after s n p =
      some ((((s.setPrev n (some p)).setNext n (some q)).setPrev q (some n)).setNext p (some n)) := by
  simp [Link.insert_after, h]

/-- The fields after `insert_before(n, x)` when `x._l_prev` is `p`. -/
theorem insert_before_eq (s : Store α) (n x p : α) (h : s.prev x = some p) :
    Link.insert_before s n x =
      some ((((s.setNext n (some x)).setPrev n (some p)).setNext p (some n)).setPrev x (some n)) := by
  simp [Link.insert_before, h]

/-- A node spliced in right after the first node of a chain. -/
theorem chain_splice_head (s s' : Store α) (p n q b : α) (Z : List α)
    (h : Chain s p Z b) (hq : (Z ++ [b]).head? = some q)
    (hnp : n ≠ p) (hnZ : n ∉ Z) (hnb : n ≠ b) (hpZ : p ∉ Z) (hnd : (Z ++ [b]).Nodup)
    (e1 : s'.next p = some n) (e2 : s'.prev n = some p) (e3 : s'.next n = some q)
    (e4 : s'.prev q = some n)
    (fn : ∀ y, y ≠ n → y ≠ p → s'.next y = s.next y)
    (fp : ∀ y, y ≠ n → y ≠ q → s'.prev y = s.prev y) :
    Chain s' p (n :: Z) b := by
  refine ⟨e1, e2, ?_⟩
  cases Z with
  | nil =>
    simp only [List.nil_append, List.head?_cons, Option.some.injEq] at hq
    subst hq
    exact ⟨e3, e4⟩
  | cons z Z =>
    simp only [List.cons_append, List.head?_cons, Option.some.injEq] at hq
    subst hq
    simp only [List.cons_append, List.nodup_cons, List.mem_cons, not_or] at hnd hnZ hpZ
    refine ⟨e3, e4, ?_⟩
    refine Chain.congrLinks s s' Z z b h.2.2 ?_ ?_
    · intro y hy
      refine fn y ?_ ?_
      · rintro rfl
        rcases List.mem_cons.1 hy with e | e
        · exact hnZ.1 e
        · exact hnZ.2 e
      · rintro rfl
        rcases List.mem_cons.1 hy with e | e
        · exact hpZ.1 e
        · exact hpZ.2 e
    · intro y hy
      refine fp y ?_ ?_
      · rintro rfl
        rcases List.mem_append.1 hy with e | e
        · exact hnZ.2 e
        · exact hnb (by simpa using e)
      · rintro rfl
        exact hnd.1 hy

theorem getLast?_mem (xs : List α) (p : α) (h : xs.getLast? = some p) : p ∈ xs :=
  List.mem_of_mem_getLast? h

/-- A node `n` spliced into a chain between `Z1` and `Z2`. -/
theorem chain_insert (s s' : Store α) (p n q b : α) (Z2 : List α) :
    ∀ (Z1 : List α) (a : α), Chain s a (Z1 ++ Z2) b →
    (a :: Z1).getLast? = some p → (Z2 ++ [b]).head? = some q →
    (a :: (Z1 ++ Z2)).Nodup → b ∉ Z1 ++ Z2 →
    n ∉ a :: (Z1 ++ Z2) → n ≠ b →
    s'.next p = some n → s'.prev n = some p → s'.next n = some q → s'.prev q = some n →
    (∀ y, y ≠ n → y ≠ p → s'.next y = s.next y) →
    (∀ y, y ≠ n → y ≠ q → s'.prev y = s.prev y) →
    Chain s' a (Z1 ++ n :: Z2) b := by
  intro Z1
  induction Z1 with
  | nil =>
    intro a h hl hq hnd hb hn hnb e1 e2 e3 e4 fn fp
    simp only [List.nil_append, List.nodup_cons, List.mem_cons, not_or, List.getLast?_singleton,
      Option.some.injEq] at h hl hnd hb hn ⊢
    subst hl
    refine chain_splice_head s s' a n q b Z2 h hq hn.1 hn.2 hnb hnd.1 ?_ e1 e2 e3 e4 fn fp
    rw [List.nodup_append]
    refine ⟨hnd.2, by simp, ?_⟩
    intro y hy hy2
    simp only [List.mem_singleton] at hy2
    subst hy2
    exact hb hy
  | cons z Z1 ih =>
    intro a h hl hq hnd hb hn hnb e1 e2 e3 e4 fn fp
    rw [List.getLast?_cons_cons] at hl
    have hpm := getLast?_mem _ _ hl
    simp only [List.cons_append, List.nodup_cons, List.mem_cons, not_or] at h hnd hb hn ⊢
    have hqm := head?_mem _ _ hq
    refine ⟨?_, ?_, ?_⟩
    · rw [fn a (fun e => hn.1 e.symm) ?_]
      · exact h.1
      · rintro rfl
        rcases List.mem_cons.1 hpm with e | e
        · exact hnd.1.1 e
        · exact hnd.1.2 (List.mem_append_left _ e)
    · rw [fp z (fun e => hn.2.1 e.symm) ?_]
      · exact h.2.1
      · rintro rfl
        rcases List.mem_append.1 hqm with e | e
        · exact hnd.2.1 (List.mem_append_right _ e)
        · exact hb.1 (List.mem_singleton.1 e).symm
    · refine ih z h.2.2 hl hq ?_ hb.2 ?_ hnb e1 e2 e3 e4 fn fp
      · rw [List.nodup_cons]; exact hnd.2
      · simp only [List.mem_cons, not_or]; exact hn.2

theorem Chain.prev_last (s : Store α) : ∀ (Z1 : List α) (a b x : α) (Z2 : List α),
    Chain s a (Z1 ++ x :: Z2) b → ∃ p, s.prev x = some p ∧ (a :: Z1).getLast? = some p := by
  intro Z1
  induction Z1 with
  | nil => intro a b x Z2 h; exact ⟨a, h.2.1, rfl⟩
  | cons z Z1 ih =>
    intro a b x Z2 h
    obtain ⟨p, h1, h2⟩ := ih z b x Z2 h.2.2
    exact ⟨p, h1, by rw [List.getLast?_cons_cons]; exact h2⟩

theorem Chain.next_first (s : Store α) : ∀ (Z1 : List α) (a b p : α) (Z2 : List α),
    Chain s a (Z1 ++ Z2) b → (a :: Z1).getLast? = some p →
    ∃ q, s.next p = some q ∧ (Z2 ++ [b]).head? = some q := by
  intro Z1
  induction Z1 with
  | nil =>
    intro a b p Z2 h hl
    simp only [List.getLast?_singleton, Option.some.injEq] at hl
    subst hl
    exact Chain.next_head s Z2 a b h
  | cons z Z1 ih =>
    intro a b p Z2 h hl
    rw [List.getLast?_cons_cons] at hl
    exact ih z b p Z2 h.2.2 hl

/-- A node `n` taken out of a chain. -/
theorem chain_unsplice (s s' : Store α) (p n q b : α) (Z2 : List α) :
    ∀ (Z1 : List α) (a : α), Chain s a (Z1 ++ n :: Z2) b →
    s.prev n = some p → (Z2 ++ [b]).head? = some q →
    (a :: (Z1 ++ n :: Z2)).Nodup → b ∉ Z1 ++ n :: Z2 →
    s'.next p = some q → s'.prev q = some p →
    (∀ y, y ≠ n → y ≠ p → s'.next y = s.next y) →
    (∀ y, y ≠ n → y ≠ q → s'.prev y = s.prev y) →
    Chain s' a (Z1 ++ Z2) b := by
  intro Z1
  induction Z1 with
  | nil =>
    intro a h hp hq hnd hb e1 e2 fn fp
    simp only [List.nil_append, List.nodup_cons, List.mem_cons, not_or] at h hnd hb ⊢
    have hpa : p = a := by
      have := h.2.1
      rw [hp] at this
      exact Option.some.inj this
    subst hpa
    cases Z2 with
    | nil =>
      simp only [List.nil_append, List.head?_cons, Option.some.injEq] at hq
      subst hq
      exact ⟨e1, e2⟩
    | cons z Z2 =>
      simp only [List.cons_append, List.head?_cons, Option.some.injEq] at hq
      subst hq
      simp only [List.nodup_cons, List.mem_cons, not_or] at hnd hb
      refine ⟨e1, e2, ?_⟩
      refine Chain.congrLinks s s' Z2 z b h.2.2.2.2 ?_ ?_
      · intro y hy
        refine fn y ?_ ?_
        · rintro rfl
          rcases List.mem_cons.1 hy with e | e
          · exact hnd.2.1.1 e
          · exact hnd.2.1.2 e
        · rintro rfl
          rcases List.mem_cons.1 hy with e | e
          · exact hnd.1.2.1 e
          · exact hnd.1.2.2 e
      · intro y hy
        refine fp y ?_ ?_
        · rintro rfl
          rcases List.mem_append.1 hy with e | e
          · exact hnd.2.1.2 e
          · exact hb.1 (List.mem_singleton.1 e).symm
        · rintro rfl
          rcases List.mem_append.1 hy with e | e
          · exact hnd.2.2.1 e
          · exact hb.2.1 (List.mem_singleton.1 e).symm
  | cons z Z1 ih =>
    intro a h hp hq hnd hb e1 e2 fn fp
    simp only [List.cons_append, List.nodup_cons, List.mem_cons, not_or] at h hnd hb ⊢
    have hqm := head?_mem _ _ hq
    obtain ⟨p', hp1, hp2⟩ := Chain.prev_mid s Z1 z b n Z2 h.2.2
    rw [hp] at hp1
    have hpe : p = p' := Option.some.inj hp1
    subst hpe
    have hnm : n ∈ Z1 ++ n :: Z2 := by simp
    refine ⟨?_, ?_, ?_⟩
    · rw [fn a ?_ ?_]
      · exact h.1
      · rintro rfl
        exact hnd.1.2 hnm
      · rintro rfl
        rcases List.mem_cons.1 hp2 with e | e
        · exact hnd.1.1 e
        · exact hnd.1.2 (by simp [e])
    · rw [fp z ?_ ?_]
      · exact h.2.1
      · rintro rfl
        exact hnd.2.1 hnm
      · rintro rfl
        rcases List.mem_append.1 hqm with e | e
        · exact hnd.2.1 (by simp [e])
        · exact hb.1 (List.mem_singleton.1 e).symm
    · refine ih z h.2.2 hp hq ?_ hb.2 e1 e2 fn fp
      rw [List.nodup_cons]; exact hnd.2

/-- The list after `insert_before(n, x)`, for `x` the first node of `Z2`. -/
theorem insert_before_chain (s : Store α) (n h x : α) (Z1 Z2 : List α)
    (hc : Chain s h (Z1 ++ Z2) h) (hnd : (h :: (Z1 ++ Z2)).Nodup) (hn : n ∉ h :: (Z1 ++ Z2))
    (hx : Z2.head? = some x) :
    ∃ s', Link.insert_before s n x = some s' ∧ Chain s' h (Z1 ++ n :: Z2) h ∧
      s'.par = s.par ∧ s'.lch = s.lch ∧ s'.rch = s.rch ∧ s'.color = s.color := by
  cases Z2 with
  | nil => simp at hx
  | cons x' Z2 =>
    simp only [List.head?_cons, Option.some.injEq] at hx
    subst hx
    obtain ⟨p, hp, hl⟩ := Chain.prev_last s Z1 h h x' Z2 hc
    rw [insert_before_eq s n x' p hp]
    have hnx : n ≠ x' := fun e => hn (by simp [e])
    have hnp : n ≠ p := fun e => by
      have := getLast?_mem _ _ hl
      apply hn
      rw [e]
      rcases List.mem_cons.1 this with e1 | e1
      · simp [e1]
      · simp [e1]
    refine ⟨_, rfl, ?_, rfl, rfl, rfl, rfl⟩
    refine chain_insert s _ p n x' h (x' :: Z2) Z1 h hc hl rfl hnd (List.nodup_cons.1 hnd).1 hn
      (fun e => hn (by simp [e])) ?_ ?_ ?_ ?_ ?_ ?_
    · simp
    · simp [hnx]
    · simp [hnp]
    · simp
    · intro y h1 h2; simp [h1, h2]
    · intro y h1 h2; simp [h1, h2]

/-- The list after `insert_after(n, p)`, for `p` the sentinel or the last
node of `Z1`. -/
theorem insert_after_chain (s : Store α) (n h p : α) (Z1 Z2 : List α)
    (hc : Chain s h (Z1 ++ Z2) h) (hnd : (h :: (Z1 ++ Z2)).Nodup) (hn : n ∉ h :: (Z1 ++ Z2))
    (hl : (h :: Z1).getLast? = some p) :
    ∃ s', Link.insert_after s n p = some s' ∧ Chain s' h (Z1 ++ n :: Z2) h ∧
      s'.par = s.par ∧ s'.lch = s.lch ∧ s'.rch = s.rch ∧ s'.color = s.color := by
  obtain ⟨q, hq, hq2⟩ := Chain.next_first s Z1 h h p Z2 hc hl
  rw [insert_after_eq s n p q hq]
  have hnp : n ≠ p := fun e => by
    have := getLast?_mem _ _ hl
    apply hn
    rw [e]
    rcases List.mem_cons.1 this with e1 | e1
    · simp [e1]
    · simp [e1]
  have hnq : n ≠ q := fun e => by
    have := head?_mem _ _ hq2
    apply hn
    rw [e]
    rcases List.mem_append.1 this with e1 | e1
    · simp [e1]
    · simp [List.mem_singleton.1 e1]
  refine ⟨_, rfl, ?_, rfl, rfl, rfl, rfl⟩
  refine chain_insert s _ p n q h Z2 Z1 h hc hl hq2 hnd (List.nodup_cons.1 hnd).1 hn
    (fun e => hn (by simp [e])) ?_ ?_ ?_ ?_ ?_ ?_
  · simp
  · simp [hnq]
  · simp [hnp]
  · simp
  · intro y h1 h2; simp [h1, h2]
  · intro y h1 h2; simp [h1, h2]

/-- The list and the fields of `n` after `remove(n)` of `link.js`. -/
theorem remove_chain (s : Store α) (n h : α) (Z1 Z2 : List α)
    (hc : Chain s h (Z1 ++ n :: Z2) h) (hnd : (h :: (Z1 ++ n :: Z2)).Nodup) :
    ∃ s', Link.remove s n = some s' ∧ Chain s' h (Z1 ++ Z2) h ∧
      s'.prev n = none ∧ s'.next n = none ∧
      s'.par = s.par ∧ s'.lch = s.lch ∧ s'.rch = s.rch ∧ s'.color = s.color := by
  obtain ⟨p, hp, hpm⟩ := Chain.prev_mid s Z1 h h n Z2 hc
  obtain ⟨q, hq, hq2⟩ := Chain.next_mid s Z1 h h n Z2 hc
  have hnm : n ∈ Z1 ++ n :: Z2 := by simp
  have hnh : n ≠ h := fun e => (List.nodup_cons.1 hnd).1 (e ▸ hnm)
  have hnq : n ≠ q := fun e => by
    have := head?_mem _ _ hq2
    rw [← e] at this
    rcases List.mem_append.1 this with e1 | e1
    · have := (List.nodup_cons.1 hnd).2
      rw [List.nodup_append] at this
      exact (List.nodup_cons.1 this.2.1).1 e1
    · exact hnh (List.mem_singleton.1 e1)
  have hnp : n ≠ p := fun e => by
    rw [← e] at hpm
    rcases List.mem_cons.1 hpm with e1 | e1
    · exact hnh e1
    · have := (List.nodup_cons.1 hnd).2
      rw [List.nodup_append] at this
      exact this.2.2 e1 (by simp) 
  refine ⟨(((s.setNext p (some q)).setPrev q (some p)).setNext n none).setPrev n none, ?_, ?_,
    by simp, by simp, rfl, rfl, rfl, rfl⟩
  · simp [Link.remove, hp, hq]
  · refine chain_unsplice s _ p n q h Z2 Z1 h hc hp hq2 hnd (List.nodup_cons.1 hnd).1 ?_ ?_ ?_ ?_
    · simp [hnp.symm]
    · simp [hnq.symm]
    · intro y h1 h2; simp [h1, h2]
    · intro y h1 h2; simp [h1, h2]

theorem split_unique (n : α) : ∀ (A A' B B' : List α), (A ++ n :: B).Nodup →
    A ++ n :: B = A' ++ n :: B' → A = A' ∧ B = B' := by
  intro A
  induction A with
  | nil =>
    intro A' B B' hnd h
    cases A' with
    | nil => simpa using h
    | cons a A' =>
      simp only [List.nil_append, List.cons_append, List.cons.injEq] at h
      obtain ⟨rfl, h2⟩ := h
      simp only [List.nil_append, List.nodup_cons] at hnd
      exact absurd (by rw [h2]; simp) hnd.1
  | cons a A ih =>
    intro A' B B' hnd h
    cases A' with
    | nil =>
      simp only [List.nil_append, List.cons_append, List.cons.injEq] at h
      obtain ⟨rfl, h2⟩ := h
      simp only [List.cons_append, List.nodup_cons] at hnd
      exact absurd (by simp) hnd.1
    | cons a' A' =>
      simp only [List.cons_append, List.cons.injEq] at h
      obtain ⟨rfl, h2⟩ := h
      simp only [List.cons_append, List.nodup_cons] at hnd
      obtain ⟨e1, e2⟩ := ih A' B B' hnd.2 h2
      exact ⟨by rw [e1], e2⟩

/-- The search path of `add` keeps to the left the nodes that `n` is not
prior to, and to the right the nodes that `n` is prior to. -/
theorem insPath_sides (prior : α → α → Bool) (sw : StrictWeak prior) (n : α) :
    ∀ (t : RBT α) (acc : List (Frame α)),
      t.toList.Pairwise (fun a b => prior b a = false) →
      (∀ e, e ∈ ctxLeft acc → prior n e = false) → (∀ e, e ∈ ctxRight acc → prior n e = true) →
      (∀ e, e ∈ ctxLeft (RBT.insPath prior n t acc) → prior n e = false) ∧
        (∀ e, e ∈ ctxRight (RBT.insPath prior n t acc) → prior n e = true) := by
  intro t
  induction t with
  | nil => intro acc _ h1 h2; exact ⟨h1, h2⟩
  | node c l x r ihl ihr =>
    intro acc hs h1 h2
    simp only [RBT.toList, List.pairwise_append, List.pairwise_cons, List.mem_cons] at hs
    obtain ⟨hsl, ⟨hxr, hsr⟩, hlr⟩ := hs
    simp only [RBT.insPath]
    split
    · rename_i hp
      refine ihl _ hsl h1 ?_
      intro e he
      simp only [ctxRight, List.cons_append, List.mem_cons, List.mem_append] at he
      rcases he with rfl | he | he
      · exact hp
      · by_contra hc
        have hc2 : prior n e = false := by simpa using hc
        have := sw.negtrans hc2 (hxr e he)
        rw [hp] at this
        exact Bool.noConfusion this
      · exact h2 e he
    · rename_i hp
      have hp2 : prior n x = false := by simpa using hp
      refine ihr _ hsr ?_ h2
      intro e he
      simp only [ctxLeft, List.mem_append, List.mem_singleton] at he
      rcases he with he | he | rfl
      · exact h1 e he
      · exact sw.negtrans hp2 (hlr e he x (Or.inl rfl))
      · exact hp2

theorem getLast?_append_singleton (xs : List α) (a p : α) :
    (a :: (xs ++ [p])).getLast? = some p := by
  rw [← List.cons_append, List.getLast?_append]
  simp

/-- The list splice of `add` puts the added node at its in-order place. -/
theorem add_link_sim (s : Store α) (n h : α) (t' : RBT α) (A B : List α)
    (hr : Repr s t' none) (hsh : InsShape n t') (hnd : t'.toList.Nodup)
    (hl : t'.toList = A ++ n :: B) (hne : A ++ B ≠ []) (hc : Chain s h (A ++ B) h)
    (hh : h ∉ t'.toList) :
    ∃ s', TreeList.add_link s n = some s' ∧ Chain s' h (A ++ n :: B) h ∧
      s'.par = s.par ∧ s'.lch = s.lch ∧ s'.rch = s.rch ∧ s'.color = s.color := by
  obtain ⟨ctx, c, l, r, e, hshape⟩ := hsh
  subst e
  have S := plug_sep ctx c l n r hnd
  have hl2 : (plug (.node c l n r) ctx).toList = (ctxLeft ctx ++ l.toList) ++ n ::
      (r.toList ++ ctxRight ctx) := by
    simp [toList_plug, RBT.toList]
  have hnd2 := hnd
  rw [hl2] at hnd2
  obtain ⟨eA, eB⟩ := split_unique n _ _ _ _ hnd2 (hl2.symm.trans hl)
  subst eA eB
  have hndAB : (h :: ((ctxLeft ctx ++ l.toList) ++ (r.toList ++ ctxRight ctx))).Nodup := by
    rw [hl2] at hh
    rw [List.nodup_cons]
    refine ⟨fun hm => hh ?_, ?_⟩
    · rcases List.mem_append.1 hm with e | e
      · exact List.mem_append_left _ e
      · exact List.mem_append_right _ (List.mem_cons_of_mem _ e)
    · exact (List.nodup_cons.1 (List.nodup_middle.1 hnd2)).2
  have hnAB : n ∉ h :: ((ctxLeft ctx ++ l.toList) ++ (r.toList ++ ctxRight ctx)) := by
    rw [hl2] at hh
    intro hm
    rcases List.mem_cons.1 hm with e | e
    · exact hh (by rw [← e]; simp)
    · exact (List.nodup_cons.1 (List.nodup_middle.1 hnd2)).1 e
  rw [repr_plug_iff] at hr
  obtain ⟨⟨q1, q2, q3, q4, q5, q6⟩, hctx⟩ := hr
  rcases hshape with ⟨rfl, rfl⟩ | ⟨c2, x, r2, rfl⟩
  · simp only [RBT.root_nil] at q2 q3
    cases ctx with
    | nil => simp [ctxLeft, ctxRight, RBT.toList] at hne
    | cons f rest =>
      cases f with
      | L c0 lp r0 =>
        obtain ⟨p1, p2, p3, p4, p5, p6⟩ := hctx
        have e1 : ¬ s.rch lp = some n := by
          rw [p3]
          intro e
          have := RBT.root_mem r0 n e
          exact S.x_c (by simp [ctxRight, this])
        simp only [ctxPar, Frame.node] at q1
        simp only [TreeList.add_link, q3, q1, e1, if_false]
        exact insert_before_chain s n h lp _ _ hc hndAB hnAB (by simp [ctxRight, RBT.toList])
      | R c0 l0 lp =>
        obtain ⟨p1, p2, p3, p4, p5, p6⟩ := hctx
        simp only [RBT.root_node] at p3
        simp only [ctxPar, Frame.node] at q1
        simp only [TreeList.add_link, q3, q1, p3, if_true]
        refine insert_after_chain s n h lp _ _ hc hndAB hnAB ?_
        simp only [ctxLeft, RBT.toList, List.append_nil]
        rw [← List.append_assoc]
        exact getLast?_append_singleton _ h lp
  · simp only [RBT.root_node] at q3
    simp only [TreeList.add_link, q3]
    exact insert_before_chain s n h x _ _ hc hndAB hnAB (by simp [RBT.toList])

theorem Chain.prev_end (s : Store α) : ∀ (xs : List α) (a b : α), Chain s a xs b →
    (s.prev b).isSome = true := by
  intro xs
  induction xs with
  | nil => intro a b h; simp [h.2]
  | cons x xs ih => intro a b h; exact ih x b h.2.2

theorem Chain.ofLinksEq (s s' : Store α) (xs : List α) (a b : α) (h : Chain s a xs b)
    (h1 : s'.next = s.next) (h2 : s'.prev = s.prev) : Chain s' a xs b :=
  Chain.congrLinks s s' xs a b h (fun y _ => by rw [h1]) (fun y _ => by rw [h2])

theorem Repr.of_eq (s s' : Store α) : ∀ (t : RBT α) (p : Option α), Repr s t p →
    s'.par = s.par → s'.lch = s.lch → s'.rch = s.rch → s'.color = s.color → Repr s' t p := by
  intro t
  induction t with
  | nil => intro p _ _ _ _ _; trivial
  | node c l x r ihl ihr =>
    intro p h h1 h2 h3 h4
    obtain ⟨q1, q2, q3, q4, q5, q6⟩ := h
    exact ⟨by rw [h1]; exact q1, by rw [h2]; exact q2, by rw [h3]; exact q3, by rw [h4]; exact q4,
      ihl _ q5 h1 h2 h3 h4, ihr _ q6 h1 h2 h3 h4⟩

theorem Store.Free.not_mem (prior : α → α → Bool) (L : TreeList α) (t : RBT α) (n : α)
    (hm : L.Models prior t) (hfree : L.store.Free n) : n ∉ t.toList ∧ n ≠ L.lHead := by
  constructor
  · intro hn
    have := Chain.prev_some L.store t.toList L.lHead L.lHead hm.chain n hn
    rw [hfree.1] at this
    exact Bool.noConfusion this
  · intro e
    have := Chain.prev_end L.store t.toList L.lHead L.lHead hm.chain
    rw [← e, hfree.1] at this
    exact Bool.noConfusion this

/-- The method `add(n)` on a valid list and a node in no structure: the new
list holds `n` after the nodes that `n` is not prior to and before the nodes
that `n` is prior to. -/
theorem TreeList.add_models (prior : α → α → Bool) (sw : StrictWeak prior) (L : TreeList α)
    (t : RBT α) (n : α) (fuel : Nat) (hm : L.Models prior t) (hfree : L.store.Free n)
    (hf : t.toList.length ≤ fuel) :
    ∃ L' t' A B, L.add prior fuel n = some L' ∧ L'.Models prior t' ∧ L'.lHead = L.lHead ∧
      t.toList = A ++ B ∧ t'.toList = A ++ n :: B ∧
      (∀ e, e ∈ A → prior n e = false) ∧ (∀ e, e ∈ B → prior n e = true) := by
  obtain ⟨hn, hnh⟩ := Store.Free.not_mem prior L t n hm hfree
  obtain ⟨f1, f2, f3, f4, f5, f6⟩ := hfree
  cases hroot : L.tRoot with
  | none =>
    have ht : t = .nil := by
      have := hm.root
      rw [hroot] at this
      cases t with
      | nil => rfl
      | node c l x r => simp at this
    subst ht
    have hc : Chain (Tree.init L.store n) L.lHead ([] ++ []) L.lHead :=
      Chain.ofLinksEq _ _ _ _ _ hm.chain rfl rfl
    obtain ⟨s', h1, h2, h3, h4, h5, h6⟩ := insert_after_chain (Tree.init L.store n) n L.lHead
      L.lHead [] [] hc (by simp) (by simpa using hnh) rfl
    refine ⟨{ L with store := s', tRoot := some n, ln := L.ln + 1 }, .node true .nil n .nil, [], [],
      ?_, ?_, rfl, rfl, rfl, by simp, by simp⟩
    · simp only [TreeList.add, hroot, h1, Option.map_some']
    · refine ⟨?_, rfl, by simp [RBT.toList], ⟨rfl, ⟨fun _ => ⟨rfl, rfl⟩, trivial, trivial⟩,
        ⟨rfl, trivial, trivial⟩⟩, h2, ?_, ?_, by simp [RBT.toList]⟩
      · refine ⟨?_, ?_, ?_, ?_, trivial, trivial⟩
        · show s'.par n = none
          rw [h3]; exact f3
        · show s'.lch n = none
          rw [h4]; exact f4
        · show s'.rch n = none
          rw [h5]; exact f5
        · show decide (s'.color n ≠ 0) = true
          rw [h6]; simp [Tree.init]
      · simp only [RBT.toList, List.nil_append, List.mem_singleton]
        exact fun e => hnh e.symm
      · show L.ln + 1 = _
        rw [hm.size]
        simp [RBT.toList]
  | some root =>
    have hroot2 : t.root = some root := by rw [hm.root, hroot]
    obtain ⟨s1, r, t', e1, e2, e3, e4, e5, e6, e7, e8, e9⟩ :=
      rb_add_sim prior L.store n root t fuel hm.repr hroot2 hm.nodup hm.rb hn f4 f5 f6 hf
    have hsh : InsShape n t' :=
      insFix_shape n false _ (RBT.insPath prior n t []) [] t' (le_refl _) e2
    have hplug : (plug .nil (RBT.insPath prior n t [])).toList = t.toList := by
      rw [insPath_plug]; rfl
    rw [toList_plug] at hplug e6
    simp only [RBT.toList, List.append_nil, List.nil_append, List.append_assoc,
      List.singleton_append] at hplug e6
    have hne : ctxLeft (RBT.insPath prior n t []) ++ ctxRight (RBT.insPath prior n t []) ≠ [] := by
      rw [hplug]
      intro e
      have := RBT.root_mem t root hroot2
      rw [e] at this
      simp at this
    have hnd' : t'.toList.Nodup := by
      rw [toList_plug] at e7
      simp only [RBT.toList, List.append_nil, List.nil_append, List.append_assoc,
        List.singleton_append] at e7
      rw [e6]; exact e7
    have hh' : L.lHead ∉ t'.toList := by
      rw [e6]
      intro hmem
      rcases List.mem_append.1 hmem with e | e
      · exact hm.head (by rw [← hplug]; exact List.mem_append_left _ e)
      · rcases List.mem_cons.1 e with e | e
        · exact hnh e.symm
        · exact hm.head (by rw [← hplug]; exact List.mem_append_right _ e)
    have hc1 : Chain s1 L.lHead
        (ctxLeft (RBT.insPath prior n t []) ++ ctxRight (RBT.insPath prior n t [])) L.lHead := by
      rw [hplug]
      exact Chain.ofLinksEq _ _ _ _ _ hm.chain e9 e8
    obtain ⟨s2, g1, g2, g3, g4, g5, g6⟩ := add_link_sim s1 n L.lHead t' _ _ e3 hsh hnd' e6 hne hc1 hh'
    obtain ⟨hsl, hsr⟩ := insPath_sides prior sw n t [] hm.sorted (by simp [ctxLeft])
      (by simp [ctxRight])
    refine ⟨{ L with store := s2, tRoot := some r, ln := L.ln + 1 }, t', _, _, ?_, ?_, rfl,
      hplug.symm, e6, hsl, hsr⟩
    · simp only [TreeList.add, hroot, e1, g1, Option.map_some']
    · refine ⟨Repr.of_eq s1 s2 t' none e3 g3 g4 g5 g6, e4, hnd', e5, ?_, hh', ?_, ?_⟩
      · rw [e6]; exact g2
      · show L.ln + 1 = _
        rw [hm.size, e6, ← hplug]
        simp only [List.length_append, List.length_cons]
        push_cast
        omega
      · rw [e6]
        have hs := hm.sorted
        rw [← hplug] at hs
        rw [List.pairwise_append] at hs ⊢
        refine ⟨hs.1, ?_, ?_⟩
        · rw [List.pairwise_cons]
          exact ⟨fun b hb => sw.asymm (hsr b hb), hs.2.1⟩
        · intro a ha b hb
          rcases List.mem_cons.1 hb with rfl | hb
          · exact hsl a ha
          · exact hs.2.2 a ha b hb

theorem blackRoot_cases (t : RBT α) :
    t.blackRoot = true ∨ ∃ l x r, t = .node false l x r := by
  cases t with
  | nil => exact Or.inl rfl
  | node c l x r =>
    cases c with
    | true => exact Or.inl rfl
    | false => exact Or.inr ⟨l, x, r, rfl⟩

theorem remRot_valid (f : Frame α) (rest : List (Frame α)) (k : Nat)
    (hinv : CtxInv (f :: rest) (k + 1) true) (hb : f.sib.blackRoot = true)
    (hc : f.color = true → ∃ cb bl b br, f.sib = .node cb bl b br ∧
      ¬ (bl.blackRoot = true ∧ br.blackRoot = true)) :
    ∃ out, remRot f rest = some out ∧ CtxInv out k true := by
  obtain ⟨h1, h2, h3, h4, h5⟩ := hinv
  cases f with
  | L cp lp sib =>
    simp only [Frame.sib, Frame.color] at h1 h2 h3 h4 h5 hb hc
    cases sib with
    | nil => simp [RBT.bh] at h3
    | node cb bl b br =>
      simp only [RBT.blackRoot_node] at hb
      subst hb
      simp only [RBT.bh, if_true, Nat.add_right_cancel_iff] at h3
      obtain ⟨b1, b2, b3⟩ := h1
      obtain ⟨n1, n2, n3⟩ := h2
      rcases blackRoot_cases br with hbr | ⟨brl, x, brr, rfl⟩
      · rcases blackRoot_cases bl with hbl | ⟨bll, y, blr, rfl⟩
        · have hcp : cp = false := by
            cases cp with
            | false => rfl
            | true =>
              obtain ⟨_, _, _, _, e, hn⟩ := hc rfl
              simp only [RBT.node.injEq] at e
              obtain ⟨_, rfl, _, rfl⟩ := e
              exact absurd ⟨hbl, hbr⟩ hn
          subst hcp
          refine ⟨.L true lp (.node false bl b br) :: rest, ?_, ?_⟩
          · cases br with
            | nil => cases bl with
              | nil => rfl
              | node c1 _ _ _ => simp only [RBT.blackRoot_node] at hbl; subst hbl; rfl
            | node c2 _ _ _ =>
              simp only [RBT.blackRoot_node] at hbr
              subst hbr
              cases bl with
              | nil => rfl
              | node c1 _ _ _ => simp only [RBT.blackRoot_node] at hbl; subst hbl; rfl
          · refine ⟨⟨b1, b2, b3⟩, ⟨fun _ => ⟨hbl, hbr⟩, n2, n3⟩, ?_, fun h => by simp [Frame.color] at h, ?_⟩
            · simp [Frame.sib, RBT.bh, h3]
            · simp only [Frame.color, if_true]
              simp only [Bool.false_eq_true, if_false, Nat.add_zero] at h5
              exact CtxInv.of_false rest (k + 1) true h5
        · refine ⟨.L true lp bll :: .L cp y (.node true blr b br) :: rest, ?_, ?_⟩
          · cases br with
            | nil => rfl
            | node c2 _ _ _ => simp only [RBT.blackRoot_node] at hbr; subst hbr; rfl
          · obtain ⟨d1, d2, d3⟩ := b2
            obtain ⟨m1, m2, m3⟩ := n2
            simp only [RBT.bh, Bool.false_eq_true, if_false, Nat.add_zero] at h3 b1
            refine ⟨d2, m2, h3, fun h => by simp [Frame.color] at h, ?_⟩
            refine ⟨⟨by omega, d3, b3⟩, ⟨fun h => by simp [Frame.color] at h, m3, n3⟩, ?_, fun _ => ⟨rfl, rfl⟩, h5⟩
            simp [Frame.sib, Frame.color, RBT.bh]
            omega
      · refine ⟨.L true lp bl :: .L cp b (.node true brl x brr) :: rest, rfl, ?_⟩
        obtain ⟨d1, d2, d3⟩ := b3
        obtain ⟨m1, m2, m3⟩ := n3
        simp only [RBT.bh, Bool.false_eq_true, if_false, Nat.add_zero] at b1
        refine ⟨b2, n2, h3, fun h => by simp [Frame.color] at h, ?_⟩
        refine ⟨⟨d1, d2, d3⟩, ⟨fun h => by simp [Frame.color] at h, m2, m3⟩, ?_, fun _ => ⟨rfl, rfl⟩, h5⟩
        simp [Frame.sib, Frame.color, RBT.bh]
        omega
  | R cp sib lp =>
    simp only [Frame.sib, Frame.color] at h1 h2 h3 h4 h5 hb hc
    cases sib with
    | nil => simp [RBT.bh] at h3
    | node cb bl b br =>
      simp only [RBT.blackRoot_node] at hb
      subst hb
      simp only [RBT.bh, if_true, Nat.add_right_cancel_iff] at h3
      obtain ⟨b1, b2, b3⟩ := h1
      obtain ⟨n1, n2, n3⟩ := h2
      rcases blackRoot_cases bl with hbl | ⟨bll, x, blr, rfl⟩
      · rcases blackRoot_cases br with hbr | ⟨brl, y, brr, rfl⟩
        · have hcp : cp = false := by
            cases cp with
            | false => rfl
            | true =>
              obtain ⟨_, _, _, _, e, hn⟩ := hc rfl
              simp only [RBT.node.injEq] at e
              obtain ⟨_, rfl, _, rfl⟩ := e
              exact absurd ⟨hbl, hbr⟩ hn
          subst hcp
          refine ⟨.R true (.node false bl b br) lp :: rest, ?_, ?_⟩
          · cases bl with
            | nil => cases br with
              | nil => rfl
              | node c1 _ _ _ => simp only [RBT.blackRoot_node] at hbr; subst hbr; rfl
            | node c2 _ _ _ =>
              simp only [RBT.blackRoot_node] at hbl
              subst hbl
              cases br with
              | nil => rfl
              | node c1 _ _ _ => simp only [RBT.blackRoot_node] at hbr; subst hbr; rfl
          · refine ⟨⟨b1, b2, b3⟩, ⟨fun _ => ⟨hbl, hbr⟩, n2, n3⟩, ?_, fun h => by simp [Frame.color] at h, ?_⟩
            · simp [Frame.sib, RBT.bh, h3]
            · simp only [Frame.color, if_true]
              simp only [Bool.false_eq_true, if_false, Nat.add_zero] at h5
              exact CtxInv.of_false rest (k + 1) true h5
        · refine ⟨.R true brr lp :: .R cp (.node true bl b brl) y :: rest, ?_, ?_⟩
          · cases bl with
            | nil => rfl
            | node c2 _ _ _ => simp only [RBT.blackRoot_node] at hbl; subst hbl; rfl
          · obtain ⟨d1, d2, d3⟩ := b3
            obtain ⟨m1, m2, m3⟩ := n3
            simp only [RBT.bh, Bool.false_eq_true, if_false, Nat.add_zero] at h3 b1
            refine ⟨d3, m3, (by simp only [Frame.sib]; omega), fun h => by simp [Frame.color] at h, ?_⟩
            refine ⟨⟨by omega, b2, d2⟩, ⟨fun h => by simp [Frame.color] at h, n2, m2⟩, ?_, fun _ => ⟨rfl, rfl⟩, h5⟩
            simp [Frame.sib, Frame.color, RBT.bh]
            omega
      · refine ⟨.R true br lp :: .R cp (.node true bll x blr) b :: rest, rfl, ?_⟩
        obtain ⟨d1, d2, d3⟩ := b2
        obtain ⟨m1, m2, m3⟩ := n2
        simp only [RBT.bh, Bool.false_eq_true, if_false, Nat.add_zero] at b1 h3
        refine ⟨b3, n3, (by simp only [Frame.sib]; omega), fun h => by simp [Frame.color] at h, ?_⟩
        refine ⟨⟨d1, d2, d3⟩, ⟨fun h => by simp [Frame.color] at h, m2, m3⟩, ?_, fun _ => ⟨rfl, rfl⟩, h5⟩
        simp [Frame.sib, Frame.color, RBT.bh]
        omega

/-- The loop and rotations of `rb_remove` restore the red-black invariants
around a subtree that lacks one black node. -/
theorem remFix_valid : ∀ (ctx : List (Frame α)) (k : Nat), CtxInv ctx (k + 1) true →
    ∃ out, remFix ctx = some out ∧ CtxInv out k true := by
  intro ctx
  induction ctx with
  | nil => intro k _; exact ⟨[], rfl, rfl⟩
  | cons f rest ih =>
    intro k hinv
    have hinv0 := hinv
    obtain ⟨h1, h2, h3, h4, h5⟩ := hinv
    cases f with
    | L cp lp sib =>
      simp only [Frame.sib, Frame.color] at h1 h2 h3 h4 h5
      cases sib with
      | nil => simp [RBT.bh] at h3
      | node ca al a ar =>
        simp only [remFix]
        split
        · rename_i hc
          simp only [Bool.and_eq_true] at hc
          obtain ⟨⟨⟨rfl, rfl⟩, hal⟩, har⟩ := hc
          simp only [RBT.bh, if_true, Nat.add_right_cancel_iff] at h3
          simp only [if_true] at h5
          obtain ⟨out, ho, hv⟩ := ih (k + 1) h5
          refine ⟨_, by rw [ho]; rfl, ?_⟩
          refine ⟨h1, ⟨fun _ => ⟨hal, har⟩, h2.2⟩, ?_, fun h => by simp [Frame.color] at h, hv⟩
          simp [Frame.sib, RBT.bh, h3]
        · rename_i hc
          split
          · rename_i hca
            subst hca
            refine remRot_valid _ rest k hinv0 rfl ?_
            intro hcp
            simp only [Frame.color] at hcp
            subst hcp
            refine ⟨_, _, _, _, rfl, ?_⟩
            intro hh
            exact hc (by simp [hh.1, hh.2])
          · rename_i hca
            have hca2 : ca = false := by simpa using hca
            subst hca2
            have hcp : cp = true := by
              cases cp with
              | true => rfl
              | false => have := (h4 rfl).2; simp at this
            subst hcp
            simp only [RBT.bh, Bool.false_eq_true, if_false, Nat.add_zero] at h3
            simp only [if_true] at h5
            obtain ⟨b1, b2, b3⟩ := h1
            obtain ⟨n1, n2, n3⟩ := h2
            refine remRot_valid _ _ k ?_ (n1 rfl).1 (fun h => by simp [Frame.color] at h)
            refine ⟨b2, n2, h3, fun _ => ⟨rfl, (n1 rfl).1⟩, b3, n3, ?_,
              fun h => by simp [Frame.color] at h, ?_⟩
            · simp only [Frame.color, Frame.sib, Bool.false_eq_true, if_false, Nat.add_zero]
              omega
            · simpa [Frame.color] using h5
    | R cp sib lp =>
      simp only [Frame.sib, Frame.color] at h1 h2 h3 h4 h5
      cases sib with
      | nil => simp [RBT.bh] at h3
      | node ca al a ar =>
        simp only [remFix]
        split
        · rename_i hc
          simp only [Bool.and_eq_true] at hc
          obtain ⟨⟨⟨rfl, rfl⟩, hal⟩, har⟩ := hc
          simp only [RBT.bh, if_true, Nat.add_right_cancel_iff] at h3
          simp only [if_true] at h5
          obtain ⟨out, ho, hv⟩ := ih (k + 1) h5
          refine ⟨_, by rw [ho]; rfl, ?_⟩
          refine ⟨h1, ⟨fun _ => ⟨hal, har⟩, h2.2⟩, ?_, fun h => by simp [Frame.color] at h, hv⟩
          simp [Frame.sib, RBT.bh, h3]
        · rename_i hc
          split
          · rename_i hca
            subst hca
            refine remRot_valid _ rest k hinv0 rfl ?_
            intro hcp
            simp only [Frame.color] at hcp
            subst hcp
            refine ⟨_, _, _, _, rfl, ?_⟩
            intro hh
            exact hc (by simp [hh.1, hh.2])
          · rename_i hca
            have hca2 : ca = false := by simpa using hca
            subst hca2
            have hcp : cp = true := by
              cases cp with
              | true => rfl
              | false => have := (h4 rfl).2; simp at this
            subst hcp
            simp only [RBT.bh, Bool.false_eq_true, if_false, Nat.add_zero] at h3
            simp only [if_true] at h5
            obtain ⟨b1, b2, b3⟩ := h1
            obtain ⟨n1, n2, n3⟩ := h2
            refine remRot_valid _ _ k ?_ (n1 rfl).2 (fun h => by simp [Frame.color] at h)
            refine ⟨b3, n3, by simp only [Frame.sib]; omega, fun _ => ⟨rfl, (n1 rfl).2⟩, b2, n2, ?_,
              fun h => by simp [Frame.color] at h, ?_⟩
            · simp only [Frame.color, Frame.sib, Bool.false_eq_true, if_false, Nat.add_zero]
              omega
            · simpa [Frame.color] using h5

theorem remRot_lists (f : Frame α) (rest out : List (Frame α)) (h : remRot f rest = some out) :
    ctxLeft out = ctxLeft (f :: rest) ∧ ctxRight out = ctxRight (f :: rest) ∧ out ≠ [] := by
  cases f with
  | L cp lp sib =>
    cases sib with
    | nil => simp [remRot] at h
    | node cb bl b br =>
      simp only [remRot] at h
      split at h
      · simp only [Option.some.injEq] at h
        subst h
        simp [ctxLeft, ctxRight, RBT.toList]
      · split at h
        · simp only [Option.some.injEq] at h
          subst h
          simp [ctxLeft, ctxRight, RBT.toList]
        · simp only [Option.some.injEq] at h
          subst h
          simp [ctxLeft, ctxRight, RBT.toList]
  | R cp sib lp =>
    cases sib with
    | nil => simp [remRot] at h
    | node cb bl b br =>
      simp only [remRot] at h
      split at h
      · simp only [Option.some.injEq] at h
        subst h
        simp [ctxLeft, ctxRight, RBT.toList]
      · split at h
        · simp only [Option.some.injEq] at h
          subst h
          simp [ctxLeft, ctxRight, RBT.toList]
        · simp only [Option.some.injEq] at h
          subst h
          simp [ctxLeft, ctxRight, RBT.toList]

/-- The loop and rotations of `rb_remove` keep the in-order traversal. -/
theorem remFix_lists : ∀ (ctx out : List (Frame α)), remFix ctx = some out →
    ctxLeft out = ctxLeft ctx ∧ ctxRight out = ctxRight ctx ∧ (ctx ≠ [] → out ≠ []) := by
  intro ctx
  induction ctx with
  | nil =>
    intro out h
    simp only [remFix, Option.some.injEq] at h
    subst h
    exact ⟨rfl, rfl, fun h => h⟩
  | cons f rest ih =>
    intro out h
    cases f with
    | L cp lp sib =>
      cases sib with
      | nil => simp [remFix] at h
      | node ca al a ar =>
        simp only [remFix] at h
        split at h
        · cases ho : remFix rest with
          | none => rw [ho] at h; simp at h
          | some out2 =>
            rw [ho] at h
            simp only [Option.map_some', Option.some.injEq] at h
            subst h
            obtain ⟨e1, e2, _⟩ := ih out2 ho
            simp [ctxLeft, ctxRight, RBT.toList, e1, e2]
        · split at h
          · obtain ⟨e1, e2, e3⟩ := remRot_lists _ _ _ h
            exact ⟨e1, e2, fun _ => e3⟩
          · obtain ⟨e1, e2, e3⟩ := remRot_lists _ _ _ h
            refine ⟨?_, ?_, fun _ => e3⟩
            · rw [e1]; simp [ctxLeft]
            · rw [e2]; simp [ctxRight, RBT.toList]
    | R cp sib lp =>
      cases sib with
      | nil => simp [remFix] at h
      | node ca al a ar =>
        simp only [remFix] at h
        split at h
        · cases ho : remFix rest with
          | none => rw [ho] at h; simp at h
          | some out2 =>
            rw [ho] at h
            simp only [Option.map_some', Option.some.injEq] at h
            subst h
            obtain ⟨e1, e2, _⟩ := ih out2 ho
            simp [ctxLeft, ctxRight, RBT.toList, e1, e2]
        · split at h
          · obtain ⟨e1, e2, e3⟩ := remRot_lists _ _ _ h
            exact ⟨e1, e2, fun _ => e3⟩
          · obtain ⟨e1, e2, e3⟩ := remRot_lists _ _ _ h
            refine ⟨?_, ?_, fun _ => e3⟩
            · rw [e1]; simp [ctxLeft, RBT.toList]
            · rw [e2]; simp [ctxRight]

theorem color_of_false (v : Nat) (h : decide (v ≠ 0) = false) : v = 0 := by
  simpa using h

theorem color_of_true (v : Nat) (h : decide (v ≠ 0) = true) : v ≠ 0 := by
  simpa using h

theorem isRed_root (s : Store α) (t : RBT α) (p : Option α) (h : Repr s t p) :
    Tree.isRed s t.root = !t.blackRoot := by
  cases t with
  | nil => rfl
  | node c l x r =>
    have := h.2.2.2.1
    simp only [RBT.root_node, Tree.isRed, RBT.blackRoot_node]
    rw [← this]
    simp

theorem nullOrBlack_root (s : Store α) (t : RBT α) (p : Option α) (h : Repr s t p) :
    Tree.nullOrBlack s t.root = t.blackRoot := by
  cases t with
  | nil => rfl
  | node c l x r =>
    have := h.2.2.2.1
    simp only [RBT.root_node, Tree.nullOrBlack, RBT.blackRoot_node]
    exact this

theorem remRot_L_far (cp cb : Bool) (lp b x : α) (bl brl brr : RBT α) (rest : List (Frame α)) :
    remRot (.L cp lp (.node cb bl b (.node false brl x brr))) rest =
      some (.L true lp bl :: .L cp b (.node true brl x brr) :: rest) := rfl

theorem remRot_L_near (cp cb : Bool) (lp b y : α) (bll blr br : RBT α) (rest : List (Frame α))
    (h : br.blackRoot = true) :
    remRot (.L cp lp (.node cb (.node false bll y blr) b br)) rest =
      some (.L true lp bll :: .L cp y (.node cb blr b br) :: rest) := by
  cases br with
  | nil => rfl
  | node c _ _ _ => simp only [RBT.blackRoot_node] at h; subst h; rfl

theorem remRot_L_none (cp cb : Bool) (lp b : α) (bl br : RBT α) (rest : List (Frame α))
    (h : br.blackRoot = true) (h2 : bl.blackRoot = true) :
    remRot (.L cp lp (.node cb bl b br)) rest =
      some (.L true lp (.node false bl b br) :: rest) := by
  cases br with
  | nil =>
    cases bl with
    | nil => rfl
    | node c _ _ _ => simp only [RBT.blackRoot_node] at h2; subst h2; rfl
  | node c _ _ _ =>
    simp only [RBT.blackRoot_node] at h
    subst h
    cases bl with
    | nil => rfl
    | node c _ _ _ => simp only [RBT.blackRoot_node] at h2; subst h2; rfl

theorem remRot_R_far (cp cb : Bool) (lp b x : α) (bll blr br : RBT α) (rest : List (Frame α)) :
    remRot (.R cp (.node cb (.node false bll x blr) b br) lp) rest =
      some (.R true br lp :: .R cp (.node true bll x blr) b :: rest) := rfl

theorem remRot_R_near (cp cb : Bool) (lp b y : α) (bl brl brr : RBT α) (rest : List (Frame α))
    (h : bl.blackRoot = true) :
    remRot (.R cp (.node cb bl b (.node false brl y brr)) lp) rest =
      some (.R true brr lp :: .R cp (.node cb bl b brl) y :: rest) := by
  cases bl with
  | nil => rfl
  | node c _ _ _ => simp only [RBT.blackRoot_node] at h; subst h; rfl

theorem remRot_R_none (cp cb : Bool) (lp b : α) (bl br : RBT α) (rest : List (Frame α))
    (h : bl.blackRoot = true) (h2 : br.blackRoot = true) :
    remRot (.R cp (.node cb bl b br) lp) rest =
      some (.R true (.node false bl b br) lp :: rest) := by
  cases bl with
  | nil =>
    cases br with
    | nil => rfl
    | node c _ _ _ => simp only [RBT.blackRoot_node] at h2; subst h2; rfl
  | node c _ _ _ =>
    simp only [RBT.blackRoot_node] at h
    subst h
    cases br with
    | nil => rfl
    | node c _ _ _ => simp only [RBT.blackRoot_node] at h2; subst h2; rfl

/-- The root after the top of a subtree changed from `x` to `y`, as `rb_remove`
tracks it. -/
theorem root_after_opt (ctx : List (Frame α)) (c : Bool) (l r : RBT α) (x y : α)
    (root : Option α) (v : RBT α)
    (hnd : (plug (.node c l x r) ctx).toList.Nodup)
    (hroot : (plug (.node c l x r) ctx).root = root) (hv : v.root = some y) :
    (plug v ctx).root = if some x = root then some y else root := by
  cases hr0 : (plug (.node c l x r) ctx).root with
  | none =>
    rw [root_plug] at hr0
    cases ctx with
    | nil => simp [ctxRoot] at hr0
    | cons f rest =>
      exfalso
      have : ∀ (cx : List (Frame α)) (z : α), ctxRoot cx (some z) ≠ none := by
        intro cx
        induction cx with
        | nil => intro z; simp [ctxRoot]
        | cons g rest2 ih => intro z; exact ih g.node
      exact this rest f.node hr0
  | some r0 =>
    rw [hr0] at hroot
    subst hroot
    rw [root_after ctx c l r x y r0 v hnd hr0 hv]
    by_cases e : x = r0
    · simp [e]
    · simp [e]

/-- The rotations of `rb_remove` for a black sibling act on the frames as
`remRot`. -/
theorem rb_remove_fix2_sim (s : Store α) (root : Option α) (f : Frame α) (rest : List (Frame α))
    (u : RBT α) (la : α) (out : List (Frame α))
    (hr : Repr s (plug u (f :: rest)) none) (hnd : (plug u (f :: rest)).toList.Nodup)
    (hroot : (plug u (f :: rest)).root = root) (hla : f.sib.root = some la)
    (hout : remRot f rest = some out) :
    ∃ s' root', Tree.rb_remove_fix2 s root f.node la = some (s', root') ∧
      Repr s' (plug u out) none ∧ (plug u out).root = root' ∧
      s'.prev = s.prev ∧ s'.next = s.next := by
  cases f with
  | L cp lp sib =>
    cases sib with
    | nil => simp [Frame.sib] at hla
    | node cb bl b br =>
      simp only [Frame.sib, RBT.root_node, Option.some.injEq] at hla
      subst hla
      simp only [Frame.node]
      have hr0 := hr
      rw [repr_plug_iff] at hr0
      obtain ⟨hu, p1, p2, p3, p4, ⟨q1, q2, q3, q4, q5, q6⟩, _⟩ := hr0
      simp only [RBT.root_node] at p3
      have hrl := isRed_root s bl _ q5
      have hrr := isRed_root s br _ q6
      rw [← q2] at hrl
      rw [← q3] at hrr
      have S1 := plug_sep rest cp u lp (.node cb bl b br) hnd
      rcases blackRoot_cases br with hbr | ⟨brl, x, brr, rfl⟩
      · rcases blackRoot_cases bl with hbl | ⟨bll, y, blr, rfl⟩
        · rw [remRot_L_none cp cb lp b bl br rest hbr hbl] at hout
          simp only [Option.some.injEq] at hout
          subst hout
          have g1 : Repr (s.setColor b 0) (plug (.node false bl b br) (.R cp u lp :: rest)) none := by
            have := setColor_sim s (.R cp u lp :: rest) cb bl br b 0 hr hnd
            simpa using this
          have nd1 : (plug (.node cp u lp (.node false bl b br)) rest).toList.Nodup := by
            simpa [plug, toList_plug, RBT.toList] using hnd
          have g2 := setColor_sim _ rest cp u (.node false bl b br) lp 1 g1 nd1
          simp only [ne_eq, one_ne_zero, not_false_eq_true, decide_True] at g2
          refine ⟨_, _, by
            simp only [Tree.rb_remove_fix2, p3, if_true, hrl, hrr, hbl, hbr, Bool.not_true,
              Bool.false_eq_true, if_false]
            rfl, g2, ?_, rfl, rfl⟩
          rw [← hroot, root_plug, root_plug]
          rfl
        · rw [remRot_L_near cp cb lp b y bll blr br rest hbr] at hout
          simp only [Option.some.injEq] at hout
          subst hout
          obtain ⟨s3, hs3, g1, hc3, hp3, hn3⟩ :=
            rotate_right_left_sim s rest cp cb false u bll blr br lp b y hr hnd
          have nd1 : (plug (.node false (.node cp u lp bll) y (.node cb blr b br)) rest).toList.Nodup := by
            simp only [plug, toList_plug, RBT.toList] at hnd ⊢
            simpa [List.append_assoc] using hnd
          have g2 := setColor_sim s3 rest false _ _ y (s3.color lp) g1 nd1
          have hcl : decide (s3.color lp ≠ 0) = cp := by rw [hc3]; exact p4
          rw [hcl] at g2
          have nd2 : (plug (.node cp u lp bll) (.L cp y (.node cb blr b br) :: rest)).toList.Nodup := by
            simp only [plug, toList_plug, RBT.toList] at hnd ⊢
            simpa [List.append_assoc] using hnd
          have g3 := setColor_sim _ (.L cp y (.node cb blr b br) :: rest) cp u bll lp 1 g2 nd2
          simp only [ne_eq, one_ne_zero, not_false_eq_true, decide_True] at g3
          have hq2 : s.lch b = some y := q2
          have hredl : Tree.isRed s (some y) = true := by rw [← hq2, hrl]; rfl
          have hredr : Tree.isRed s (s.rch b) = false := by rw [hrr, hbr]; rfl
          refine ⟨_, _, by
            simp only [Tree.rb_remove_fix2, p3, if_true, hredr, Bool.false_eq_true, if_false,
              hq2, hredl, hs3, Option.map_some']
            rfl, g3, ?_, by simp [hp3], by simp [hn3]⟩
          exact root_after_opt rest cp u (.node cb (.node false bll y blr) b br) lp y root _ hnd
            hroot rfl
      · rw [remRot_L_far] at hout
        simp only [Option.some.injEq] at hout
        subst hout
        have g1 : Repr (s.setColor x 1) (plug (.node true brl x brr)
            (.R cb bl b :: .R cp u lp :: rest)) none := by
          have := setColor_sim s (.R cb bl b :: .R cp u lp :: rest) false brl brr x 1 hr hnd
          simpa using this
        have nd1 : (plug (.node cp u lp (.node cb bl b (.node true brl x brr))) rest).toList.Nodup := by
          simpa [plug, toList_plug, RBT.toList] using hnd
        obtain ⟨s3, hs3, g2, hc3, hp3, hn3⟩ :=
          rotate_left_sim _ rest cp cb u bl (.node true brl x brr) lp b g1 nd1
        have nd2 : (plug (.node cb (.node cp u lp bl) b (.node true brl x brr)) rest).toList.Nodup := by
          simp only [plug, toList_plug, RBT.toList] at hnd ⊢
          simpa [List.append_assoc] using hnd
        have g3 := setColor_sim s3 rest cb _ _ b (s3.color lp) g2 nd2
        have hxlp : lp ≠ x := fun e => S1.x_r (by rw [e]; simp [RBT.toList])
        have hcl : decide (s3.color lp ≠ 0) = cp := by
          rw [hc3]
          simp only [Store.setColor_color, hxlp, if_false]
          exact p4
        rw [hcl] at g3
        have nd3 : (plug (.node cp u lp bl) (.L cp b (.node true brl x brr) :: rest)).toList.Nodup := by
          simp only [plug, toList_plug, RBT.toList] at hnd ⊢
          simpa [List.append_assoc] using hnd
        have g4 := setColor_sim _ (.L cp b (.node true brl x brr) :: rest) cp u bl lp 1 g3 nd3
        simp only [ne_eq, one_ne_zero, not_false_eq_true, decide_True] at g4
        have hq3 : s.rch b = some x := q3
        have hredr : Tree.isRed s (some x) = true := by rw [← hq3, hrr]; rfl
        refine ⟨_, _, by
          simp only [Tree.rb_remove_fix2, p3, if_true, hq3, hredr, hs3, Option.map_some']
          rfl, g4, ?_, by simp [hp3], by simp [hn3]⟩
        exact root_after_opt rest cp u (.node cb bl b (.node false brl x brr)) lp b root _ hnd
          hroot rfl
  | R cp sib lp =>
    cases sib with
    | nil => simp [Frame.sib] at hla
    | node cb bl b br =>
      simp only [Frame.sib, RBT.root_node, Option.some.injEq] at hla
      subst hla
      simp only [Frame.node]
      have hr0 := hr
      rw [repr_plug_iff] at hr0
      obtain ⟨hu, p1, p2, p3, p4, ⟨q1, q2, q3, q4, q5, q6⟩, _⟩ := hr0
      simp only [RBT.root_node] at p2
      have hrl := isRed_root s bl _ q5
      have hrr := isRed_root s br _ q6
      rw [← q2] at hrl
      rw [← q3] at hrr
      have S1 := plug_sep rest cp (.node cb bl b br) lp u hnd
      have hne : ¬ s.rch lp = some b := by
        rw [p3]
        intro e
        exact S1.l_r b (by simp [RBT.toList]) (RBT.root_mem u b e)
      rcases blackRoot_cases bl with hbl | ⟨bll, x, blr, rfl⟩
      · rcases blackRoot_cases br with hbr | ⟨brl, y, brr, rfl⟩
        · rw [remRot_R_none cp cb lp b bl br rest hbl hbr] at hout
          simp only [Option.some.injEq] at hout
          subst hout
          have g1 : Repr (s.setColor b 0) (plug (.node false bl b br) (.L cp lp u :: rest)) none := by
            have := setColor_sim s (.L cp lp u :: rest) cb bl br b 0 hr hnd
            simpa using this
          have nd1 : (plug (.node cp (.node false bl b br) lp u) rest).toList.Nodup := by
            simpa [plug, toList_plug, RBT.toList] using hnd
          have g2 := setColor_sim _ rest cp (.node false bl b br) u lp 1 g1 nd1
          simp only [ne_eq, one_ne_zero, not_false_eq_true, decide_True] at g2
          refine ⟨_, _, by
            simp only [Tree.rb_remove_fix2, hne, if_true, hrl, hrr, hbl, hbr, Bool.not_true,
              Bool.false_eq_true, if_false]
            rfl, g2, ?_, rfl, rfl⟩
          rw [← hroot, root_plug, root_plug]
          rfl
        · rw [remRot_R_near cp cb lp b y bl brl brr rest hbl] at hout
          simp only [Option.some.injEq] at hout
          subst hout
          obtain ⟨s3, hs3, g1, hc3, hp3, hn3⟩ :=
            rotate_left_right_sim s rest cp cb false u brl brr bl lp b y hr hnd
          have nd1 : (plug (.node false (.node cb bl b brl) y (.node cp brr lp u)) rest).toList.Nodup := by
            simp only [plug, toList_plug, RBT.toList] at hnd ⊢
            simpa [List.append_assoc] using hnd
          have g2 := setColor_sim s3 rest false _ _ y (s3.color lp) g1 nd1
          have hcl : decide (s3.color lp ≠ 0) = cp := by rw [hc3]; exact p4
          rw [hcl] at g2
          have nd2 : (plug (.node cp brr lp u) (.R cp (.node cb bl b brl) y :: rest)).toList.Nodup := by
            simp only [plug, toList_plug, RBT.toList] at hnd ⊢
            simpa [List.append_assoc] using hnd
          have g3 := setColor_sim _ (.R cp (.node cb bl b brl) y :: rest) cp brr u lp 1 g2 nd2
          simp only [ne_eq, one_ne_zero, not_false_eq_true, decide_True] at g3
          have hq3 : s.rch b = some y := q3
          have hredr : Tree.isRed s (some y) = true := by rw [← hq3, hrr]; rfl
          have hredl : Tree.isRed s (s.lch b) = false := by rw [hrl, hbl]; rfl
          refine ⟨_, _, by
            simp only [Tree.rb_remove_fix2, hne, if_true, hredl, Bool.false_eq_true, if_false,
              hq3, hredr, hs3, Option.map_some']
            rfl, g3, ?_, by simp [hp3], by simp [hn3]⟩
          exact root_after_opt rest cp (.node cb bl b (.node false brl y brr)) u lp y root _ hnd
            hroot rfl
      · rw [remRot_R_far] at hout
        simp only [Option.some.injEq] at hout
        subst hout
        have g1 : Repr (s.setColor x 1) (plug (.node true bll x blr)
            (.L cb b br :: .L cp lp u :: rest)) none := by
          have := setColor_sim s (.L cb b br :: .L cp lp u :: rest) false bll blr x 1 hr hnd
          simpa using this
        have nd1 : (plug (.node cp (.node cb (.node true bll x blr) b br) lp u) rest).toList.Nodup := by
          simpa [plug, toList_plug, RBT.toList] using hnd
        obtain ⟨s3, hs3, g2, hc3, hp3, hn3⟩ :=
          rotate_right_sim _ rest cp cb (.node true bll x blr) br u lp b g1 nd1
        have nd2 : (plug (.node cb (.node true bll x blr) b (.node cp br lp u)) rest).toList.Nodup := by
          simp only [plug, toList_plug, RBT.toList] at hnd ⊢
          simpa [List.append_assoc] using hnd
        have g3 := setColor_sim s3 rest cb _ _ b (s3.color lp) g2 nd2
        have hxlp : lp ≠ x := fun e => S1.x_l (by rw [e]; simp [RBT.toList])
        have hcl : decide (s3.color lp ≠ 0) = cp := by
          rw [hc3]
          simp only [Store.setColor_color, hxlp, if_false]
          exact p4
        rw [hcl] at g3
        have nd3 : (plug (.node cp br lp u) (.R cp (.node true bll x blr) b :: rest)).toList.Nodup := by
          simp only [plug, toList_plug, RBT.toList] at hnd ⊢
          simpa [List.append_assoc] using hnd
        have g4 := setColor_sim _ (.R cp (.node true bll x blr) b :: rest) cp br u lp 1 g3 nd3
        simp only [ne_eq, one_ne_zero, not_false_eq_true, decide_True] at g4
        have hq2 : s.lch b = some x := q2
        have hredl : Tree.isRed s (some x) = true := by rw [← hq2, hrl]; rfl
        refine ⟨_, _, by
          simp only [Tree.rb_remove_fix2, hne, if_false, hq2, hredl, if_true, hs3, Option.map_some']
          rfl, g4, ?_, by simp [hp3], by simp [hn3]⟩
        exact root_after_opt rest cp (.node cb (.node false bll x blr) b br) u lp b root _ hnd
          hroot rfl

/-- The code of `rb_remove` after `break`, with the sibling on the right. -/
theorem rb_remove_fix_sim_L (s : Store α) (root : Option α) (rest : List (Frame α)) (u : RBT α)
    (cp ca : Bool) (lp a : α) (al ar : RBT α) (out : List (Frame α))
    (hr : Repr s (plug u (.L cp lp (.node ca al a ar) :: rest)) none)
    (hnd : (plug u (.L cp lp (.node ca al a ar) :: rest)).toList.Nodup)
    (hroot : (plug u (.L cp lp (.node ca al a ar) :: rest)).root = root)
    (hout : (if ca then remRot (.L cp lp (.node ca al a ar)) rest
      else remRot (.L false lp al) (.L true a ar :: rest)) = some out) :
    ∃ s' root', Tree.rb_remove_fix s root lp a = some (s', root') ∧
      Repr s' (plug u out) none ∧ (plug u out).root = root' ∧
      s'.prev = s.prev ∧ s'.next = s.next := by
  have hr0 := hr
  rw [repr_plug_iff] at hr0
  obtain ⟨hu, p1, p2, p3, p4, ⟨q1, q2, q3, q4, q5, q6⟩, _⟩ := hr0
  simp only [RBT.root_node] at p3
  cases ca with
  | true =>
    simp only [if_true] at hout
    have hca : s.color a ≠ 0 := color_of_true _ q4
    obtain ⟨s', root', e1, e2, e3, e4, e5⟩ :=
      rb_remove_fix2_sim s root (.L cp lp (.node true al a ar)) rest u a out hr hnd hroot rfl hout
    refine ⟨s', root', ?_, e2, e3, e4, e5⟩
    simp only [Tree.rb_remove_fix, Tree.rb_remove_fix1, hca, if_false]
    exact e1
  | false =>
    simp only [Bool.false_eq_true, if_false] at hout
    have hca : s.color a = 0 := color_of_false _ q4
    cases al with
    | nil => simp [remRot] at hout
    | node cb bl b br =>
      have g1 : Repr (s.setColor a 1) (plug (.node true (.node cb bl b br) a ar)
          (.R cp u lp :: rest)) none := by
        have := setColor_sim s (.R cp u lp :: rest) false (.node cb bl b br) ar a 1 hr hnd
        simpa using this
      have nd1 : (plug (.node cp u lp (.node true (.node cb bl b br) a ar)) rest).toList.Nodup := by
        simpa [plug, toList_plug, RBT.toList] using hnd
      have g2 := setColor_sim _ rest cp u (.node true (.node cb bl b br) a ar) lp 0 g1 nd1
      simp only [ne_eq, not_true_eq_false, decide_False] at g2
      have nd2 : (plug (.node false u lp (.node true (.node cb bl b br) a ar)) rest).toList.Nodup := by
        simpa [plug, toList_plug, RBT.toList] using hnd
      obtain ⟨s2, hs2, g3, hc2, hp2, hn2⟩ :=
        rotate_left_sim _ rest false true u (.node cb bl b br) ar lp a g2 nd2
      have nd3 : (plug u (.L false lp (.node cb bl b br) :: .L true a ar :: rest)).toList.Nodup := by
        simp only [plug, toList_plug, RBT.toList] at hnd ⊢
        simpa [List.append_assoc] using hnd
      have hroot1 := root_after_opt rest cp u (.node false (.node cb bl b br) a ar) lp a root
        (.node true (.node false u lp (.node cb bl b br)) a ar) hnd hroot rfl
      obtain ⟨s', root', e1, e2, e3, e4, e5⟩ :=
        rb_remove_fix2_sim s2 _ (.L false lp (.node cb bl b br)) (.L true a ar :: rest) u b out
          g3 nd3 hroot1 rfl hout
      have g30 := g3
      rw [show plug (.node true (.node false u lp (.node cb bl b br)) a ar) rest =
        plug u (.L false lp (.node cb bl b br) :: .L true a ar :: rest) from rfl,
        repr_plug_iff] at g30
      have hla2 : s2.rch lp = some b := g30.2.2.2.1
      refine ⟨s', root', ?_, e2, e3, by rw [e4, hp2]; rfl, by rw [e5, hn2]; rfl⟩
      simp only [Tree.rb_remove_fix, Tree.rb_remove_fix1, hca, if_true, Store.setColor_rch, p3,
        hs2, Option.map_some', hla2]
      exact e1

/-- The code of `rb_remove` after `break`, with the sibling on the left. -/
theorem rb_remove_fix_sim_R (s : Store α) (root : Option α) (rest : List (Frame α)) (u : RBT α)
    (cp ca : Bool) (lp a : α) (al ar : RBT α) (out : List (Frame α))
    (hr : Repr s (plug u (.R cp (.node ca al a ar) lp :: rest)) none)
    (hnd : (plug u (.R cp (.node ca al a ar) lp :: rest)).toList.Nodup)
    (hroot : (plug u (.R cp (.node ca al a ar) lp :: rest)).root = root)
    (hout : (if ca then remRot (.R cp (.node ca al a ar) lp) rest
      else remRot (.R false ar lp) (.R true al a :: rest)) = some out) :
    ∃ s' root', Tree.rb_remove_fix s root lp a = some (s', root') ∧
      Repr s' (plug u out) none ∧ (plug u out).root = root' ∧
      s'.prev = s.prev ∧ s'.next = s.next := by
  have hr0 := hr
  rw [repr_plug_iff] at hr0
  obtain ⟨hu, p1, p2, p3, p4, ⟨q1, q2, q3, q4, q5, q6⟩, _⟩ := hr0
  simp only [RBT.root_node] at p2
  have S1 := plug_sep rest cp (.node ca al a ar) lp u hnd
  have hne : ¬ s.rch lp = some a := by
    rw [p3]
    intro e
    exact S1.l_r a (by simp [RBT.toList]) (RBT.root_mem u a e)
  cases ca with
  | true =>
    simp only [if_true] at hout
    have hca : s.color a ≠ 0 := color_of_true _ q4
    obtain ⟨s', root', e1, e2, e3, e4, e5⟩ :=
      rb_remove_fix2_sim s root (.R cp (.node true al a ar) lp) rest u a out hr hnd hroot rfl hout
    refine ⟨s', root', ?_, e2, e3, e4, e5⟩
    simp only [Tree.rb_remove_fix, Tree.rb_remove_fix1, hca, if_false]
    exact e1
  | false =>
    simp only [Bool.false_eq_true, if_false] at hout
    have hca : s.color a = 0 := color_of_false _ q4
    cases ar with
    | nil => simp [remRot] at hout
    | node cb bl b br =>
      have g1 : Repr (s.setColor a 1) (plug (.node true al a (.node cb bl b br))
          (.L cp lp u :: rest)) none := by
        have := setColor_sim s (.L cp lp u :: rest) false al (.node cb bl b br) a 1 hr hnd
        simpa using this
      have nd1 : (plug (.node cp (.node true al a (.node cb bl b br)) lp u) rest).toList.Nodup := by
        simpa [plug, toList_plug, RBT.toList] using hnd
      have g2 := setColor_sim _ rest cp (.node true al a (.node cb bl b br)) u lp 0 g1 nd1
      simp only [ne_eq, not_true_eq_false, decide_False] at g2
      have nd2 : (plug (.node false (.node true al a (.node cb bl b br)) lp u) rest).toList.Nodup := by
        simpa [plug, toList_plug, RBT.toList] using hnd
      obtain ⟨s2, hs2, g3, hc2, hp2, hn2⟩ :=
        rotate_right_sim _ rest false true al (.node cb bl b br) u lp a g2 nd2
      have nd3 : (plug u (.R false (.node cb bl b br) lp :: .R true al a :: rest)).toList.Nodup := by
        simp only [plug, toList_plug, RBT.toList] at hnd ⊢
        simpa [List.append_assoc] using hnd
      have hroot1 := root_after_opt rest cp (.node false al a (.node cb bl b br)) u lp a root
        (.node true al a (.node false (.node cb bl b br) lp u)) hnd hroot rfl
      obtain ⟨s', root', e1, e2, e3, e4, e5⟩ :=
        rb_remove_fix2_sim s2 _ (.R false (.node cb bl b br) lp) (.R true al a :: rest) u b out
          g3 nd3 hroot1 rfl hout
      have g30 := g3
      rw [show plug (.node true al a (.node false (.node cb bl b br) lp u)) rest =
        plug u (.R false (.node cb bl b br) lp :: .R true al a :: rest) from rfl,
        repr_plug_iff] at g30
      have hla2 : s2.lch lp = some b := g30.2.2.1
      refine ⟨s', root', ?_, e2, e3, by rw [e4, hp2]; rfl, by rw [e5, hn2]; rfl⟩
      simp only [Tree.rb_remove_fix, Tree.rb_remove_fix1, hca, if_true, Store.setColor_rch, hne,
        if_false, hs2, Option.map_some', hla2]
      exact e1

theorem rb_remove_loop_step (fuel : Nat) (s : Store α) (x lp a : α) (hp : s.par x = some lp)
    (hla : (if s.rch lp ≠ some x then s.rch lp else s.lch lp) = some a) :
    Tree.rb_remove_loop (fuel + 1) s x =
      if s.color lp ≠ 0 then
        if s.color a ≠ 0 ∧ Tree.nullOrBlack s (s.lch a) = true ∧
            Tree.nullOrBlack s (s.rch a) = true then
          Tree.rb_remove_loop fuel (s.setColor a 0) lp
        else some (.brk s lp a)
      else some (.brk s lp a) := by
  rw [Tree.rb_remove_loop]
  simp only [hp, hla]

/-- The loop of `rb_remove` and the code after it act on the frames around
the subtree of the current node as `remFix`. -/
theorem rb_remove_loop_sim (root : Option α) : ∀ (ctx : List (Frame α)) (fuel : Nat) (s : Store α)
    (cu : Bool) (ul ur : RBT α) (x : α) (out : List (Frame α)), ctx.length < fuel →
    Repr s (plug (.node cu ul x ur) ctx) none →
    (plug (.node cu ul x ur) ctx).toList.Nodup →
    (plug (.node cu ul x ur) ctx).root = root →
    remFix ctx = some out →
    ∃ o s' root', Tree.rb_remove_loop fuel s x = some o ∧ o.finish root = some (s', root') ∧
      Repr s' (plug (.node cu ul x ur) out) none ∧
      (plug (.node cu ul x ur) out).root = root' ∧ s'.prev = s.prev ∧ s'.next = s.next := by
  intro ctx
  induction ctx with
  | nil =>
    intro fuel s cu ul ur x out hf hr hnd hroot hout
    obtain ⟨fuel, rfl⟩ : ∃ k, fuel = k + 1 := ⟨fuel - 1, by simp at hf; omega⟩
    simp only [remFix, Option.some.injEq] at hout
    subst hout
    have hp : s.par x = none := hr.1
    exact ⟨.ret s, s, root, by simp [Tree.rb_remove_loop, hp], rfl, hr, hroot, rfl, rfl⟩
  | cons f rest ih =>
    intro fuel s cu ul ur x out hf hr hnd hroot hout
    obtain ⟨fuel, rfl⟩ : ∃ k, fuel = k + 1 := ⟨fuel - 1, by omega⟩
    simp only [List.length_cons, Nat.add_lt_add_iff_right] at hf
    have hr0 := hr
    rw [repr_plug_iff] at hr0
    cases f with
    | L cp lp sib =>
      cases sib with
      | nil => simp [remFix] at hout
      | node ca al a ar =>
        obtain ⟨hu, p1, p2, p3, p4, ⟨q1, q2, q3, q4, q5, q6⟩, _⟩ := hr0
        simp only [RBT.root_node] at p2 p3
        have hpx : s.par x = some lp := hu.1
        have S1 := plug_sep rest cp (.node cu ul x ur) lp (.node ca al a ar) hnd
        have hne : s.rch lp ≠ some x := by
          rw [p3]
          intro e
          simp only [Option.some.injEq] at e
          exact S1.l_r x (by simp [RBT.toList]) (by rw [← e]; simp [RBT.toList])
        have hla : (if s.rch lp ≠ some x then s.rch lp else s.lch lp) = some a := by
          rw [if_pos hne, p3]
        have hnl := nullOrBlack_root s al _ q5
        have hnr := nullOrBlack_root s ar _ q6
        rw [← q2] at hnl
        rw [← q3] at hnr
        simp only [remFix] at hout
        split at hout
        · rename_i hc
          simp only [Bool.and_eq_true] at hc
          obtain ⟨⟨⟨rfl, rfl⟩, hal⟩, har⟩ := hc
          have hcp : s.color lp ≠ 0 := color_of_true _ p4
          have hca : s.color a ≠ 0 := color_of_true _ q4
          cases ho : remFix rest with
          | none => rw [ho] at hout; simp at hout
          | some out2 =>
            rw [ho] at hout
            simp only [Option.map_some', Option.some.injEq] at hout
            subst hout
            have g1 : Repr (s.setColor a 0) (plug (.node false al a ar)
                (.R true (.node cu ul x ur) lp :: rest)) none := by
              have := setColor_sim s (.R true (.node cu ul x ur) lp :: rest) true al ar a 0 hr hnd
              simpa using this
            have nd1 : (plug (.node true (.node cu ul x ur) lp (.node false al a ar))
                rest).toList.Nodup := by
              simpa [plug, toList_plug, RBT.toList] using hnd
            have hroot1 : (plug (.node true (.node cu ul x ur) lp (.node false al a ar))
                rest).root = root := by
              rw [← hroot, root_plug, root_plug]
              rfl
            obtain ⟨o, s', root', e1, e2, e3, e4, e5, e6⟩ :=
              ih fuel (s.setColor a 0) true (.node cu ul x ur) (.node false al a ar) lp out2 hf
                g1 nd1 hroot1 ho
            refine ⟨o, s', root', ?_, e2, e3, e4, by rw [e5]; rfl, by rw [e6]; rfl⟩
            rw [rb_remove_loop_step fuel s x lp a hpx hla, if_pos hcp,
              if_pos ⟨hca, by rw [hnl]; exact hal, by rw [hnr]; exact har⟩]
            exact e1
        · rename_i hc
          obtain ⟨s', root', e1, e2, e3, e4, e5⟩ :=
            rb_remove_fix_sim_L s root rest (.node cu ul x ur) cp ca lp a al ar out hr hnd hroot
              (by
                cases ca with
                | true => simpa using hout
                | false => simpa using hout)
          refine ⟨.brk s lp a, s', root', ?_, e1, e2, e3, e4, e5⟩
          rw [rb_remove_loop_step fuel s x lp a hpx hla]
          by_cases hcp : s.color lp = 0
          · simp [hcp]
          · rw [if_pos hcp]
            have hcp2 : cp = true := by rw [← p4]; simpa using hcp
            subst hcp2
            have : ¬ (s.color a ≠ 0 ∧ Tree.nullOrBlack s (s.lch a) = true ∧
                Tree.nullOrBlack s (s.rch a) = true) := by
              rintro ⟨h1, h2, h3⟩
              apply hc
              have hca2 : ca = true := by rw [← q4]; simpa using h1
              rw [hnl] at h2
              rw [hnr] at h3
              simp [hca2, h2, h3]
            rw [if_neg this]
    | R cp sib lp =>
      cases sib with
      | nil => simp [remFix] at hout
      | node ca al a ar =>
        obtain ⟨hu, p1, p2, p3, p4, ⟨q1, q2, q3, q4, q5, q6⟩, _⟩ := hr0
        simp only [RBT.root_node] at p2 p3
        have hpx : s.par x = some lp := hu.1
        have hla : (if s.rch lp ≠ some x then s.rch lp else s.lch lp) = some a := by
          rw [if_neg (by rw [p3]; simp), p2]
        have hnl := nullOrBlack_root s al _ q5
        have hnr := nullOrBlack_root s ar _ q6
        rw [← q2] at hnl
        rw [← q3] at hnr
        simp only [remFix] at hout
        split at hout
        · rename_i hc
          simp only [Bool.and_eq_true] at hc
          obtain ⟨⟨⟨rfl, rfl⟩, hal⟩, har⟩ := hc
          have hcp : s.color lp ≠ 0 := color_of_true _ p4
          have hca : s.color a ≠ 0 := color_of_true _ q4
          cases ho : remFix rest with
          | none => rw [ho] at hout; simp at hout
          | some out2 =>
            rw [ho] at hout
            simp only [Option.map_some', Option.some.injEq] at hout
            subst hout
            have g1 : Repr (s.setColor a 0) (plug (.node false al a ar)
                (.L true lp (.node cu ul x ur) :: rest)) none := by
              have := setColor_sim s (.L true lp (.node cu ul x ur) :: rest) true al ar a 0 hr hnd
              simpa using this
            have nd1 : (plug (.node true (.node false al a ar) lp (.node cu ul x ur))
                rest).toList.Nodup := by
              simpa [plug, toList_plug, RBT.toList] using hnd
            have hroot1 : (plug (.node true (.node false al a ar) lp (.node cu ul x ur))
                rest).root = root := by
              rw [← hroot, root_plug, root_plug]
              rfl
            obtain ⟨o, s', root', e1, e2, e3, e4, e5, e6⟩ :=
              ih fuel (s.setColor a 0) true (.node false al a ar) (.node cu ul x ur) lp out2 hf
                g1 nd1 hroot1 ho
            refine ⟨o, s', root', ?_, e2, e3, e4, by rw [e5]; rfl, by rw [e6]; rfl⟩
            rw [rb_remove_loop_step fuel s x lp a hpx hla, if_pos hcp,
              if_pos ⟨hca, by rw [hnl]; exact hal, by rw [hnr]; exact har⟩]
            exact e1
        · rename_i hc
          obtain ⟨s', root', e1, e2, e3, e4, e5⟩ :=
            rb_remove_fix_sim_R s root rest (.node cu ul x ur) cp ca lp a al ar out hr hnd hroot
              (by
                cases ca with
                | true => simpa using hout
                | false => simpa using hout)
          refine ⟨.brk s lp a, s', root', ?_, e1, e2, e3, e4, e5⟩
          rw [rb_remove_loop_step fuel s x lp a hpx hla]
          by_cases hcp : s.color lp = 0
          · simp [hcp]
          · rw [if_pos hcp]
            have hcp2 : cp = true := by rw [← p4]; simpa using hcp
            subst hcp2
            have : ¬ (s.color a ≠ 0 ∧ Tree.nullOrBlack s (s.lch a) = true ∧
                Tree.nullOrBlack s (s.rch a) = true) := by
              rintro ⟨h1, h2, h3⟩
              apply hc
              have hca2 : ca = true := by rw [← q4]; simpa using h1
              rw [hnl] at h2
              rw [hnr] at h3
              simp [hca2, h2, h3]
            rw [if_neg this]

theorem ctxPar_not_mem (ctx : List (Frame α)) (y : α) (h : y ∉ ctxLeft ctx ++ ctxRight ctx) :
    ¬ ctxPar ctx = some y := fun e => h (ctxPar_mem ctx y e)

/-- The first step of `move_target`: the only child of `target`, or `null`,
takes the place of `target`. -/
theorem splice_sim (s : Store α) (ctx : List (Frame α)) (ct : Bool) (tl tr child : RBT α)
    (target : α)
    (hr : Repr s (plug (.node ct tl target tr) ctx) none)
    (hnd : (plug (.node ct tl target tr) ctx).toList.Nodup)
    (hch : (tl = .nil ∧ child = tr) ∨ (tr = .nil ∧ child = tl)) :
    (s.lch target).orElse (fun _ => s.rch target) = child.root ∧
      Repr (Tree.bind_replace s child.root target (s.par target)) (plug child ctx) none := by
  have S := plug_sep ctx ct tl target tr hnd
  rw [repr_plug_iff] at hr
  obtain ⟨⟨h1, h2, h3, h4, h5, h6⟩, hc⟩ := hr
  simp only [RBT.root_node] at hc
  have hcr : Repr s child (some target) := by
    rcases hch with ⟨_, rfl⟩ | ⟨_, rfl⟩
    · exact h6
    · exact h5
  have hcnd : child.toList.Nodup := by
    rcases hch with ⟨_, rfl⟩ | ⟨_, rfl⟩
    · exact S.r_nd
    · exact S.l_nd
  have hcm : ∀ y, y ∈ child.toList → y ∉ ctxLeft ctx ++ ctxRight ctx := by
    rcases hch with ⟨_, rfl⟩ | ⟨_, rfl⟩
    · exact S.r_c
    · exact S.l_c
  have hct : target ∉ child.toList := by
    rcases hch with ⟨_, rfl⟩ | ⟨_, rfl⟩
    · exact S.x_r
    · exact S.x_l
  constructor
  · rcases hch with ⟨rfl, rfl⟩ | ⟨rfl, rfl⟩
    · rw [h2, h3]; rfl
    · rw [h2, h3]
      cases child.root <;> rfl
  · rw [repr_plug_iff, h1]
    refine ⟨?_, ReprCtx.replace s ctx target child.root hc S.c_nd S.x_c
      (fun y hy => hcm y (RBT.root_mem child y hy))⟩
    refine Repr.move s _ child (some target) (ctxPar ctx) hcr hcnd (fun y hy => ?_)
      (fun y hy hroot => ?_) (fun y hy => ?_)
    · have hp := ctxPar_not_mem ctx y (hcm y hy)
      simp [bind_replace_lch, bind_replace_rch, hp]
    · have : ¬ some y = child.root := fun e => hroot e.symm
      simp [this]
    · simp [hy]

/-- Every node of a tree is the root of a subtree under some frames. -/
theorem exists_plug_of_mem : ∀ (t : RBT α) (x : α), x ∈ t.toList →
    ∃ c l r ctx, t = plug (.node c l x r) ctx := by
  intro t
  induction t with
  | nil => intro x hx; simp [RBT.toList] at hx
  | node c l y r ihl ihr =>
    intro x hx
    simp only [RBT.toList, List.mem_append, List.mem_cons] at hx
    rcases hx with hx | rfl | hx
    · obtain ⟨c1, l1, r1, ctx, e⟩ := ihl x hx
      exact ⟨c1, l1, r1, ctx ++ [.L c y r], by rw [plug_append, ← e]; rfl⟩
    · exact ⟨c, l, r, [], rfl⟩
    · obtain ⟨c1, l1, r1, ctx, e⟩ := ihr x hx
      exact ⟨c1, l1, r1, ctx ++ [.R c l y], by rw [plug_append, ← e]; rfl⟩

/-- The second step of `move_target`: `target` takes the place, the children
and the colour of `node`. -/
theorem relabel_sim (s : Store α) (ctx : List (Frame α)) (c : Bool) (l r : RBT α) (n target : α)
    (hr : Repr s (plug (.node c l n r) ctx) none)
    (hnd : (plug (.node c l n r) ctx).toList.Nodup)
    (ht : target ∉ (plug (.node c l n r) ctx).toList) :
    Repr ((Tree.bind_replace
        (Tree.bind_right (Tree.bind_left s (s.lch n) (some target))
          ((Tree.bind_left s (s.lch n) (some target)).rch n) (some target))
        (some target) n
        ((Tree.bind_right (Tree.bind_left s (s.lch n) (some target))
          ((Tree.bind_left s (s.lch n) (some target)).rch n) (some target)).par n)).setColor target
        ((Tree.bind_replace
        (Tree.bind_right (Tree.bind_left s (s.lch n) (some target))
          ((Tree.bind_left s (s.lch n) (some target)).rch n) (some target))
        (some target) n
        ((Tree.bind_right (Tree.bind_left s (s.lch n) (some target))
          ((Tree.bind_left s (s.lch n) (some target)).rch n) (some target)).par n)).color n))
      (plug (.node c l target r) ctx) none := by
  have S := plug_sep ctx c l n r hnd
  rw [toList_plug] at ht
  simp only [RBT.toList, List.mem_append, List.mem_cons, not_or] at ht
  obtain ⟨⟨htl, htn, htr⟩, htR⟩ := ht
  obtain ⟨htL, htl, htn, htr⟩ : target ∉ ctxLeft ctx ∧ target ∉ l.toList ∧ ¬ target = n ∧
      target ∉ r.toList := by
    refine ⟨?_, ?_, ?_, ?_⟩ <;> simp_all
  have htc : target ∉ ctxLeft ctx ++ ctxRight ctx := by
    simp only [List.mem_append, not_or]; exact ⟨htL, htR⟩
  have hr0 := hr
  rw [repr_plug_iff] at hr0
  obtain ⟨⟨h1, h2, h3, h4, h5, h6⟩, hc⟩ := hr0
  simp only [RBT.root_node] at hc
  have hln : ¬ some n = l.root := fun e => S.x_l (RBT.root_mem l n e.symm)
  have hrn : ¬ some n = r.root := fun e => S.x_r (RBT.root_mem r n e.symm)
  have hnt : ¬ n = target := fun e => htn e.symm
  have e_rch : (Tree.bind_left s (s.lch n) (some target)).rch n = r.root := by simp [h3]
  have e_par : (Tree.bind_right (Tree.bind_left s (s.lch n) (some target))
      ((Tree.bind_left s (s.lch n) (some target)).rch n) (some target)).par n = ctxPar ctx := by
    rw [e_rch]
    simp [h2, hln, hrn, h1]
  rw [e_par, e_rch, h2]
  have hpt := ctxPar_not_mem ctx target htc
  rw [repr_plug_iff]
  refine ⟨⟨?_, ?_, ?_, ?_, ?_, ?_⟩, ?_⟩
  · simp
  · simp [bind_replace_lch, hpt]
  · simp [bind_replace_rch, hpt]
  · simp [hnt, h4]
  · refine Repr.move s _ l (some n) (some target) h5 S.l_nd (fun y hy => ?_)
      (fun y hy hroot => ?_) (fun y hy => ?_)
    · have hp := ctxPar_not_mem ctx y (S.l_c y hy)
      have hyt : ¬ y = target := fun e => htl (e ▸ hy)
      simp [bind_replace_lch, bind_replace_rch, hp, hyt]
    · have hyt : ¬ y = target := fun e => htl (e ▸ hy)
      have h7 : ¬ some y = r.root := fun e => S.l_r y hy (RBT.root_mem r y e.symm)
      have h8 : ¬ some y = l.root := fun e => hroot e.symm
      simp [hyt, h7, h8]
    · have hyt : ¬ y = target := fun e => htl (e ▸ RBT.root_mem l y hy)
      have h7 : ¬ some y = r.root := fun e =>
        S.l_r y (RBT.root_mem l y hy) (RBT.root_mem r y e.symm)
      simp [hyt, h7, hy]
  · refine Repr.move s _ r (some n) (some target) h6 S.r_nd (fun y hy => ?_)
      (fun y hy hroot => ?_) (fun y hy => ?_)
    · have hp := ctxPar_not_mem ctx y (S.r_c y hy)
      have hyt : ¬ y = target := fun e => htr (e ▸ hy)
      simp [bind_replace_lch, bind_replace_rch, hp, hyt]
    · have hyt : ¬ y = target := fun e => htr (e ▸ hy)
      have h7 : ¬ some y = r.root := fun e => hroot e.symm
      have h8 : ¬ some y = l.root := fun e => S.l_r y (RBT.root_mem l y e.symm) hy
      simp [hyt, h7, h8]
    · have hyt : ¬ y = target := fun e => htr (e ▸ RBT.root_mem r y hy)
      simp [hyt, hy]
  · have hb : ReprCtx (Tree.bind_right (Tree.bind_left s l.root (some target)) r.root
        (some target)) ctx (some n) := by
      refine ReprCtx.congrCtx s _ ctx (some n) hc S.c_nd (fun y hy => ?_)
      have hyt : ¬ y = target := fun e => htc (e ▸ hy)
      have h7 : ¬ some y = r.root := fun e => S.r_c y (RBT.root_mem r y e.symm) hy
      have h8 : ¬ some y = l.root := fun e => S.l_c y (RBT.root_mem l y e.symm) hy
      simp [hyt, h7, h8]
    have hrep := ReprCtx.replace _ ctx n (some target) hb S.c_nd S.x_c
      (fun y hy => by
        simp only [Option.some.injEq] at hy
        subst hy
        exact htc)
    refine ReprCtx.congrCtx _ _ ctx (some target) hrep S.c_nd (fun y hy => ?_)
    have hyt : ¬ y = target := fun e => htc (e ▸ hy)
    simp [hyt]

theorem root_eq_iff_opt (ctx : List (Frame α)) (c : Bool) (l r : RBT α) (x : α)
    (hnd : (plug (.node c l x r) ctx).toList.Nodup) :
    (plug (.node c l x r) ctx).root = some x ↔ ctx = [] := by
  constructor
  · intro h
    exact List.isEmpty_iff.1 ((root_eq_iff ctx c l r x x hnd h).1 rfl)
  · intro h
    subst h
    rfl

theorem root_plug_irrel (ctx : List (Frame α)) (u v : RBT α) (hne : ctx ≠ []) :
    (plug u ctx).root = (plug v ctx).root := by
  rw [root_plug, root_plug]
  exact ctxRoot_irrel ctx _ _ hne

theorem valid_relabel (ctx : List (Frame α)) (c : Bool) (l r : RBT α) (x y : α)
    (h : (plug (.node c l x r) ctx).Valid) : (plug (.node c l y r) ctx).Valid := by
  rw [valid_plug_iff] at h ⊢
  exact h

theorem clean_up_fields (s : Store α) (n : α) :
    (Tree.clean_up s n).par n = none ∧ (Tree.clean_up s n).lch n = none ∧
      (Tree.clean_up s n).rch n = none ∧ (Tree.clean_up s n).color n = 0 ∧
      (Tree.clean_up s n).prev = s.prev ∧ (Tree.clean_up s n).next = s.next ∧
      ∀ y, y ≠ n → (Tree.clean_up s n).lch y = s.lch y ∧ (Tree.clean_up s n).rch y = s.rch y ∧
        (Tree.clean_up s n).color y = s.color y ∧ (Tree.clean_up s n).par y = s.par y := by
  refine ⟨by simp [Tree.clean_up, Tree.init_node], by simp [Tree.clean_up, Tree.init_node],
    by simp [Tree.clean_up, Tree.init_node], by simp [Tree.clean_up, Tree.init_node], rfl, rfl, ?_⟩
  intro y hy
  simp [Tree.clean_up, Tree.init_node, hy]

theorem Repr.clean_up (s : Store α) (t : RBT α) (n : α) (h : Repr s t none)
    (hnd : t.toList.Nodup) (hn : n ∉ t.toList) : Repr (Tree.clean_up s n) t none := by
  refine Repr.congr s _ t none h hnd (fun y hy => ?_)
  have hyn : y ≠ n := fun e => hn (e ▸ hy)
  exact (clean_up_fields s n).2.2.2.2.2.2 y hyn

/-- The call `move_target(target, node, root)` on a tree in which `target` has
at most one child: the child takes the place of `target`, and `target` the
place of `node`. -/
theorem move_target_sim (s : Store α) (tctx : List (Frame α)) (ct : Bool) (tl tr child : RBT α)
    (target n : α) (root : Option α)
    (hr : Repr s (plug (.node ct tl target tr) tctx) none)
    (hnd : (plug (.node ct tl target tr) tctx).toList.Nodup)
    (hch : (tl = .nil ∧ child = tr) ∨ (tr = .nil ∧ child = tl))
    (hroot : (plug (.node ct tl target tr) tctx).root = root)
    (hn : n ∈ (plug (.node ct tl target tr) tctx).toList)
    (hbk : tctx = [] → child.blackRoot = true) (htn : target ≠ n → tctx ≠ []) :
    ∃ t', Repr (Tree.move_target s target n root).1 t' none ∧
      t'.root = (Tree.move_target s target n root).2 ∧
      ((plug child tctx).Valid → t'.Valid) ∧
      (target = n → t'.toList = (plug child tctx).toList) ∧
      (target ≠ n → ∃ A B, (plug child tctx).toList = A ++ n :: B ∧ t'.toList = A ++ target :: B) ∧
      (Tree.move_target s target n root).1.par n = none ∧
      (Tree.move_target s target n root).1.lch n = none ∧
      (Tree.move_target s target n root).1.rch n = none ∧
      (Tree.move_target s target n root).1.color n = 0 ∧
      (Tree.move_target s target n root).1.prev = s.prev ∧
      (Tree.move_target s target n root).1.next = s.next := by
  obtain ⟨hlch, hs1⟩ := splice_sim s tctx ct tl tr child target hr hnd hch
  have S := plug_sep tctx ct tl target tr hnd
  have hsub : ∀ y, y ∈ (plug child tctx).toList → y ∈ (plug (.node ct tl target tr) tctx).toList := by
    intro y hy
    rw [toList_plug] at hy ⊢
    simp only [List.mem_append, RBT.toList, List.mem_cons] at hy ⊢
    rcases hch with ⟨_, rfl⟩ | ⟨_, rfl⟩
    · rcases hy with (hy | hy) | hy
      · exact Or.inl (Or.inl hy)
      · exact Or.inl (Or.inr (Or.inr (Or.inr hy)))
      · exact Or.inr hy
    · rcases hy with (hy | hy) | hy
      · exact Or.inl (Or.inl hy)
      · exact Or.inl (Or.inr (Or.inl hy))
      · exact Or.inr hy
  have hsnd : (plug child tctx).toList.Nodup := by
    rw [toList_plug] at hnd ⊢
    rcases hch with ⟨rfl, rfl⟩ | ⟨rfl, rfl⟩
    · simp only [RBT.toList, List.nil_append] at hnd
      have := List.nodup_middle.1 (by simpa [List.append_assoc] using hnd)
      simpa [List.append_assoc] using (List.nodup_cons.1 this).2
    · simp only [RBT.toList, List.append_nil] at hnd
      have : (ctxLeft tctx ++ child.toList ++ target :: ctxRight tctx).Nodup := by
        simpa [List.append_assoc] using hnd
      have := List.nodup_middle.1 this
      simpa [List.append_assoc] using (List.nodup_cons.1 this).2
  have hts : target ∉ (plug child tctx).toList := by
    rw [toList_plug]
    simp only [List.mem_append, not_or]
    have h1 := S.x_c
    simp only [List.mem_append, not_or] at h1
    rcases hch with ⟨_, rfl⟩ | ⟨_, rfl⟩
    · exact ⟨⟨h1.1, S.x_r⟩, h1.2⟩
    · exact ⟨⟨h1.1, S.x_l⟩, h1.2⟩
  have hrootx : root = some target ↔ tctx = [] := by
    rw [← hroot]
    exact root_eq_iff_opt tctx ct tl tr target hnd
  by_cases htn2 : target = n
  · subst htn2
    have hcl := clean_up_fields (Tree.bind_replace s child.root target (s.par target)) target
    obtain ⟨c1, c2, c3, c4, c5, c6, c7⟩ := hcl
    have hs3 := Repr.clean_up _ (plug child tctx) target hs1 hsnd hts
    by_cases hrt : some target = root
    · have hnil : tctx = [] := hrootx.1 hrt.symm
      subst hnil
      have hb := hbk rfl
      cases child with
      | nil =>
        simp only [RBT.root_nil] at hlch
        refine ⟨.nil, ?_, ?_, fun h => h, fun _ => rfl, fun h => absurd rfl h, ?_, ?_, ?_, ?_, ?_, ?_⟩
        · trivial
        · simp [Tree.move_target, hlch, hrt]
        all_goals simp only [Tree.move_target, hlch, hrt, ne_eq, not_true_eq_false, if_false]
        · exact c1
        · exact c2
        · exact c3
        · exact c4
        · exact c5.trans (bind_replace_prev _ _ _ _)
        · exact c6.trans (bind_replace_next _ _ _ _)
      | node cc cl x cr =>
        simp only [RBT.root_node] at hlch
        simp only [RBT.blackRoot_node] at hb
        subst hb
        have hxt : x ≠ target := fun e => hts (by rw [← e]; simp [plug, RBT.toList])
        have hxt2 : target ≠ x := fun e => hxt e.symm
        refine ⟨.node true cl x cr, ?_, ?_, fun h => h, fun _ => rfl, fun h => absurd rfl h,
          ?_, ?_, ?_, ?_, ?_, ?_⟩
        · simp only [Tree.move_target, hlch, hrt, ne_eq, not_true_eq_false, if_false]
          have := setColor_sim _ [] true cl cr x 1 hs3 hsnd
          simpa using this
        · simp [Tree.move_target, hlch, hrt]
        all_goals simp only [Tree.move_target, hlch, hrt, ne_eq, not_true_eq_false, if_false]
        · exact c1
        · exact c2
        · exact c3
        · rw [Store.setColor_color, if_neg hxt2]; exact c4
        · exact c5.trans (bind_replace_prev _ _ _ _)
        · exact c6.trans (bind_replace_next _ _ _ _)
    · have hne : tctx ≠ [] := fun e => hrt (hrootx.2 e).symm
      refine ⟨plug child tctx, ?_, ?_, fun h => h, fun _ => rfl, fun h => absurd rfl h,
        ?_, ?_, ?_, ?_, ?_, ?_⟩
      · simp only [Tree.move_target, hlch, hrt, ne_eq, not_true_eq_false, if_false,
          not_false_eq_true, if_true]
        exact hs3
      · simp only [Tree.move_target, hlch, hrt, ne_eq, not_true_eq_false, if_false,
          not_false_eq_true, if_true]
        rw [← hroot]
        exact root_plug_irrel tctx _ _ hne
      all_goals simp only [Tree.move_target, hlch, hrt, ne_eq, not_true_eq_false, if_false,
          not_false_eq_true, if_true]
      · exact c1
      · exact c2
      · exact c3
      · exact c4
      · exact c5.trans (bind_replace_prev _ _ _ _)
      · exact c6.trans (bind_replace_next _ _ _ _)
  · have hne := htn htn2
    have hns : n ∈ (plug child tctx).toList := by
      rw [toList_plug] at hn ⊢
      simp only [List.mem_append, RBT.toList, List.mem_cons] at hn ⊢
      have hnt : ¬ n = target := fun e => htn2 e.symm
      rcases hch with ⟨rfl, rfl⟩ | ⟨rfl, rfl⟩
      · simp only [RBT.toList, List.not_mem_nil, false_or] at hn
        rcases hn with (hn | hn | hn) | hn
        · exact Or.inl (Or.inl hn)
        · exact absurd hn hnt
        · exact Or.inl (Or.inr hn)
        · exact Or.inr hn
      · simp only [RBT.toList, List.not_mem_nil, or_false] at hn
        rcases hn with (hn | hn | hn) | hn
        · exact Or.inl (Or.inl hn)
        · exact Or.inl (Or.inr hn)
        · exact absurd hn hnt
        · exact Or.inr hn
    obtain ⟨c, l, r, ctx3, e3⟩ := exists_plug_of_mem _ n hns
    rw [e3] at hs1 hsnd hts
    have hs2 := relabel_sim _ ctx3 c l r n target hs1 hsnd hts
    have S3 := plug_sep ctx3 c l n r hsnd
    have hnd4 : (plug (.node c l target r) ctx3).toList.Nodup := by
      rw [toList_plug] at hsnd hts ⊢
      simp only [RBT.toList, List.append_assoc, List.cons_append] at hsnd hts ⊢
      have h1 : (ctxLeft ctx3 ++ l.toList ++ n :: (r.toList ++ ctxRight ctx3)).Nodup := by
        simpa [List.append_assoc] using hsnd
      have h2 := List.nodup_cons.1 (List.nodup_middle.1 h1)
      have h3 : (target :: (ctxLeft ctx3 ++ l.toList ++ (r.toList ++ ctxRight ctx3))).Nodup := by
        rw [List.nodup_cons]
        refine ⟨?_, h2.2⟩
        intro hm
        apply hts
        simp only [List.mem_append, List.mem_cons] at hm ⊢
        rcases hm with (hm | hm) | hm | hm
        · exact Or.inl hm
        · exact Or.inr (Or.inl hm)
        · exact Or.inr (Or.inr (Or.inr (Or.inl hm)))
        · exact Or.inr (Or.inr (Or.inr (Or.inr hm)))
      have := List.nodup_middle.2 h3
      simpa [List.append_assoc] using this
    have hn4 : n ∉ (plug (.node c l target r) ctx3).toList := by
      rw [toList_plug]
      simp only [RBT.toList, List.mem_append, List.mem_cons, not_or]
      have h1 := S3.x_c
      simp only [List.mem_append, not_or] at h1
      exact ⟨⟨h1.1, S3.x_l, fun e => htn2 e.symm, S3.x_r⟩, h1.2⟩
    have hs3 := Repr.clean_up _ _ n hs2 hnd4 hn4
    obtain ⟨c1, c2, c3, c4, c5, c6, c7⟩ := clean_up_fields ((Tree.bind_replace
        (Tree.bind_right (Tree.bind_left (Tree.bind_replace s child.root target (s.par target))
          ((Tree.bind_replace s child.root target (s.par target)).lch n) (some target))
          ((Tree.bind_left (Tree.bind_replace s child.root target (s.par target))
            ((Tree.bind_replace s child.root target (s.par target)).lch n) (some target)).rch n)
          (some target))
        (some target) n
        ((Tree.bind_right (Tree.bind_left (Tree.bind_replace s child.root target (s.par target))
          ((Tree.bind_replace s child.root target (s.par target)).lch n) (some target))
          ((Tree.bind_left (Tree.bind_replace s child.root target (s.par target))
            ((Tree.bind_replace s child.root target (s.par target)).lch n) (some target)).rch n)
          (some target)).par n)).setColor target
        ((Tree.bind_replace
        (Tree.bind_right (Tree.bind_left (Tree.bind_replace s child.root target (s.par target))
          ((Tree.bind_replace s child.root target (s.par target)).lch n) (some target))
          ((Tree.bind_left (Tree.bind_replace s child.root target (s.par target))
            ((Tree.bind_replace s child.root target (s.par target)).lch n) (some target)).rch n)
          (some target))
        (some target) n
        ((Tree.bind_right (Tree.bind_left (Tree.bind_replace s child.root target (s.par target))
          ((Tree.bind_replace s child.root target (s.par target)).lch n) (some target))
          ((Tree.bind_left (Tree.bind_replace s child.root target (s.par target))
            ((Tree.bind_replace s child.root target (s.par target)).lch n) (some target)).rch n)
          (some target)).par n)).color n)) n
    have hsroot : (plug (.node c l n r) ctx3).root = root := by
      rw [← e3, ← hroot]
      exact root_plug_irrel tctx _ _ hne
    have hrootn : root = some n ↔ ctx3 = [] := by
      rw [← hsroot]
      exact root_eq_iff_opt ctx3 c l r n hsnd
    refine ⟨plug (.node c l target r) ctx3, ?_, ?_, ?_, fun h => absurd h htn2, fun _ => ?_,
      ?_, ?_, ?_, ?_, ?_, ?_⟩
    · by_cases hrt : some n = root
      · simp only [Tree.move_target, hlch, hrt, ne_eq, htn2, not_false_eq_true, if_true,
          not_true_eq_false, if_false]
        exact hs3
      · simp only [Tree.move_target, hlch, hrt, ne_eq, htn2, not_false_eq_true, if_true]
        exact hs3
    · by_cases hrt : some n = root
      · simp only [Tree.move_target, hlch, hrt, ne_eq, htn2, not_false_eq_true, if_true,
          not_true_eq_false, if_false]
        have : ctx3 = [] := hrootn.1 hrt.symm
        subst this
        rfl
      · simp only [Tree.move_target, hlch, hrt, ne_eq, htn2, not_false_eq_true, if_true]
        have : ctx3 ≠ [] := fun e => hrt (hrootn.2 e).symm
        rw [← hsroot]
        exact root_plug_irrel ctx3 _ _ this
    · intro hv
      rw [e3] at hv
      exact valid_relabel ctx3 c l r n target hv
    · refine ⟨ctxLeft ctx3 ++ l.toList, r.toList ++ ctxRight ctx3, ?_, ?_⟩
      · rw [e3, toList_plug]; simp [RBT.toList]
      · rw [toList_plug]; simp [RBT.toList]
    all_goals
      by_cases hrt : some n = root <;>
      simp only [Tree.move_target, hlch, hrt, ne_eq, htn2, not_false_eq_true, if_true,
          not_true_eq_false, if_false]
    · exact c1
    · exact c1
    · exact c2
    · exact c2
    · exact c3
    · exact c3
    · exact c4
    · exact c4
    · exact c5.trans (by simp)
    · exact c5.trans (by simp)
    · exact c6.trans (by simp)
    · exact c6.trans (by simp)

theorem ctxRight_append : ∀ (a b : List (Frame α)), ctxRight (a ++ b) = ctxRight a ++ ctxRight b := by
  intro a
  induction a with
  | nil => intro b; rfl
  | cons f rest ih =>
    intro b
    cases f with
    | L c x r => simp [ctxRight, ih]
    | R c l x => simp [ctxRight, ih]

theorem ctxLeft_append : ∀ (a b : List (Frame α)), ctxLeft (a ++ b) = ctxLeft b ++ ctxLeft a := by
  intro a
  induction a with
  | nil => intro b; simp [ctxLeft]
  | cons f rest ih =>
    intro b
    cases f with
    | L c x r => simp [ctxLeft, ih]
    | R c l x => simp [ctxLeft, ih]

theorem ctx_length_le : ∀ (ctx : List (Frame α)),
    ctx.length ≤ (ctxLeft ctx ++ ctxRight ctx).length := by
  intro ctx
  induction ctx with
  | nil => simp
  | cons f rest ih =>
    cases f with
    | L c x r =>
      simp only [ctxLeft, ctxRight, List.length_append, List.length_cons] at ih ⊢
      omega
    | R c l x =>
      simp only [ctxLeft, ctxRight, List.length_append, List.length_cons, List.length_nil] at ih ⊢
      omega

/-- The loop of `get_lmax` finds the last node of the subtree, which is at the
end of its right spine. -/
theorem get_lmax_spec (s : Store α) : ∀ (t : RBT α) (p : Option α) (cur : α) (fuel : Nat),
    t.root = some cur → Repr s t p → t.toList.length ≤ fuel →
    ∃ ct tl x lctx, t = plug (.node ct tl x .nil) lctx ∧ ctxRight lctx = [] ∧
      Tree.get_lmax_loop s fuel cur = some x := by
  intro t
  induction t with
  | nil => intro p cur fuel h; simp at h
  | node c l y r ihl ihr =>
    intro p cur fuel hroot hr hf
    simp only [RBT.root_node, Option.some.injEq] at hroot
    subst hroot
    simp only [RBT.toList, List.length_append, List.length_cons] at hf
    obtain ⟨fuel, rfl⟩ : ∃ k, fuel = k + 1 := ⟨fuel - 1, by omega⟩
    obtain ⟨_, _, h3, _, _, h6⟩ := hr
    cases r with
    | nil =>
      refine ⟨c, l, y, [], rfl, rfl, ?_⟩
      simp only [RBT.root_nil] at h3
      simp [Tree.get_lmax_loop, h3]
    | node cr rl z rr =>
      simp only [RBT.root_node] at h3
      obtain ⟨ct, tl, x, lctx, e1, e2, e3⟩ := ihr (some y) z fuel rfl h6 (by
        simp only [RBT.toList, List.length_append, List.length_cons] at hf ⊢
        omega)
      refine ⟨ct, tl, x, lctx ++ [.R c l y], ?_, ?_, ?_⟩
      · rw [plug_append, ← e1]; rfl
      · rw [ctxRight_append, e2]; rfl
      · simp only [Tree.get_lmax_loop, h3]
        exact e3

/-- The node that `get_target` picks: `node` itself when it has at most one
child, else its in-order predecessor, which has no right child. -/
theorem get_target_sim (s : Store α) (ctx : List (Frame α)) (c : Bool) (l r : RBT α) (n : α)
    (lmax : Option α) (fuel : Nat)
    (hr : Repr s (plug (.node c l n r) ctx) none)
    (hnd : (plug (.node c l n r) ctx).toList.Nodup)
    (hf : (plug (.node c l n r) ctx).toList.length ≤ fuel)
    (hl : ∀ p, lmax = some p → (s.lch n).isSome = true → (s.rch n).isSome = true →
      ∃ A B, (plug (.node c l n r) ctx).toList = A ++ p :: n :: B) :
    ∃ target ct tl tr tctx, Tree.get_target fuel s n lmax = some target ∧
      plug (.node c l n r) ctx = plug (.node ct tl target tr) tctx ∧
      (tl = .nil ∨ tr = .nil) ∧
      (target ≠ n → tr = .nil ∧ tctx ≠ [] ∧ ∃ B, ctxRight tctx = n :: B) := by
  have hr0 := hr
  rw [repr_plug_iff] at hr0
  obtain ⟨⟨h1, h2, h3, h4, h5, h6⟩, hc⟩ := hr0
  cases l with
  | nil =>
    refine ⟨n, c, .nil, r, ctx, ?_, rfl, Or.inl rfl, fun h => absurd rfl h⟩
    simp only [RBT.root_nil] at h2
    simp [Tree.get_target, h2]
  | node cl ll x lr =>
    cases r with
    | nil =>
      refine ⟨n, c, _, .nil, ctx, ?_, rfl, Or.inr rfl, fun h => absurd rfl h⟩
      simp only [RBT.root_nil] at h3
      simp [Tree.get_target, h3]
    | node cr rl z rr =>
      simp only [RBT.root_node] at h2 h3
      have hlen : (RBT.node cl ll x lr).toList.length ≤ fuel := by
        rw [toList_plug] at hf
        simp only [RBT.toList, List.length_append, List.length_cons] at hf ⊢
        omega
      obtain ⟨ct, tl, y, lctx, e1, e2, e3⟩ := get_lmax_spec s (.node cl ll x lr) (some n) x fuel rfl h5 hlen
      have hplug : plug (.node c (.node cl ll x lr) n (.node cr rl z rr)) ctx =
          plug (.node ct tl y .nil) (lctx ++ .L c n (.node cr rl z rr) :: ctx) := by
        rw [plug_append, ← e1]; rfl
      have hyn : y ≠ n := by
        intro e
        have S := plug_sep ctx c _ n _ hnd
        apply S.x_l
        rw [e1, toList_plug, ← e]
        simp [RBT.toList]
      have hlist : (plug (.node c (.node cl ll x lr) n (.node cr rl z rr)) ctx).toList =
          (ctxLeft (lctx ++ .L c n (.node cr rl z rr) :: ctx) ++ tl.toList ++ [y]) ++
            n :: ((RBT.node cr rl z rr).toList ++ ctxRight ctx) := by
        rw [hplug, toList_plug, ctxRight_append, e2]
        simp [RBT.toList, ctxRight]
      have key : Tree.get_target fuel s n lmax = some y := by
        simp only [Tree.get_target, h2, h3, Option.isSome_some, Bool.and_self, if_true]
        cases lmax with
        | none => simp only [Tree.get_lmax, h2]; exact e3
        | some p =>
          obtain ⟨A, B, hAB⟩ := hl p rfl (by simp [h2]) (by simp [h3])
          have hnd2 := hnd
          rw [hlist] at hnd2
          have h7 : (A ++ [p]) ++ n :: B = (ctxLeft (lctx ++ .L c n (.node cr rl z rr) :: ctx) ++
              tl.toList ++ [y]) ++ n :: ((RBT.node cr rl z rr).toList ++ ctxRight ctx) := by
            rw [← hlist, hAB]; simp
          have h8 := (split_unique n _ _ _ _ (by rw [h7]; exact hnd2) h7).1
          have h9 := (List.append_inj' h8 rfl).2
          simp only [List.cons.injEq, and_true] at h9
          rw [h9]
      refine ⟨y, ct, tl, .nil, _, key, hplug, Or.inr rfl, fun _ => ⟨rfl, by simp, ?_⟩⟩
      rw [ctxRight_append, e2]
      exact ⟨_, rfl⟩

theorem black_bh_zero (t : RBT α) (hb : t.blackRoot = true) (h0 : t.bh = 0) : t = .nil := by
  cases t with
  | nil => rfl
  | node c l x r =>
    simp only [RBT.blackRoot_node] at hb
    subst hb
    simp [RBT.bh] at h0

/-- The part of `rb_remove` before the last call of `move_target`: the tree
is recoloured and rotated so that `target`, with its only child made black,
can be taken out. -/
theorem rb_remove_pre (s : Store α) (tctx : List (Frame α)) (ct : Bool) (tl tr : RBT α)
    (target n : α) (root : Option α) (lmax : Option α) (fuel : Nat)
    (hr : Repr s (plug (.node ct tl target tr) tctx) none)
    (hnd : (plug (.node ct tl target tr) tctx).toList.Nodup)
    (hv : (plug (.node ct tl target tr) tctx).Valid)
    (hroot : (plug (.node ct tl target tr) tctx).root = root)
    (hone : tl = .nil ∨ tr = .nil)
    (hf : (plug (.node ct tl target tr) tctx).toList.length ≤ fuel)
    (hget : Tree.get_target fuel s n lmax = some target) :
    ∃ s2 root2 tctx2 ct2 tl2 tr2 child2,
      Tree.rb_remove fuel s n root lmax = some (Tree.move_target s2 target n root2) ∧
      Repr s2 (plug (.node ct2 tl2 target tr2) tctx2) none ∧
      (plug (.node ct2 tl2 target tr2) tctx2).root = root2 ∧
      ((tl2 = .nil ∧ child2 = tr2) ∨ (tr2 = .nil ∧ child2 = tl2)) ∧
      (plug child2 tctx2).Valid ∧ (tctx2 = [] → child2.blackRoot = true) ∧
      ctxLeft tctx2 = ctxLeft tctx ∧ ctxRight tctx2 = ctxRight tctx ∧
      (tctx ≠ [] → tctx2 ≠ []) ∧ tl2.toList = tl.toList ∧ tr2.toList = tr.toList ∧
      s2.prev = s.prev ∧ s2.next = s.next := by
  have hr0 := hr
  rw [repr_plug_iff] at hr0
  obtain ⟨⟨h1, h2, h3, h4, h5, h6⟩, hc⟩ := hr0
  have hv0 := (valid_plug_iff tctx _).1 hv
  obtain ⟨⟨b1, b2, b3⟩, ⟨n1, n2, n3⟩, hinv⟩ := hv0
  cases ct with
  | false =>
    have hcol : s.color target = 0 := color_of_false _ h4
    have htl : tl = .nil := by
      rcases hone with e | e
      · exact e
      · subst e
        exact black_bh_zero tl (n1 rfl).1 b1
    subst htl
    have htr : tr = .nil := black_bh_zero tr (n1 rfl).2 b1.symm
    subst htr
    refine ⟨s, root, tctx, false, .nil, .nil, .nil, ?_, hr, hroot, Or.inl ⟨rfl, rfl⟩, ?_,
      fun _ => rfl, rfl, rfl, fun h => h, rfl, rfl, rfl, rfl⟩
    · simp [Tree.rb_remove, hget, hcol]
    · rw [valid_plug_iff]
      refine ⟨trivial, trivial, ?_⟩
      exact CtxInv.of_false tctx 0 true hinv
  | true =>
    have hcol : s.color target ≠ 0 := color_of_true _ h4
    simp only [RBT.bh, if_true, RBT.blackRoot_node] at hinv
    have key : ∀ (cc : Bool) (cl cr : RBT α) (ch : α) (ctx2 : List (Frame α)),
        tl.bh = 0 → (RBT.node cc cl ch cr).bh = 0 → (RBT.node cc cl ch cr).Bal →
        (RBT.node cc cl ch cr).NRR →
        (plug (.node cc cl ch cr) ctx2).toList.Nodup →
        Repr s (plug (.node cc cl ch cr) ctx2) none →
        (plug (.node true cl ch cr) tctx).Valid ∧
          Repr (s.setColor ch 1) (plug (.node true cl ch cr) ctx2) none := by
      intro cc cl cr ch ctx2 e0 e1 e2 e3 e4 e5
      constructor
      · rw [valid_plug_iff]
        refine ⟨e2, ⟨fun h => by simp at h, e3.2⟩, ?_⟩
        have hcc : cc = false := by
          cases cc with
          | false => rfl
          | true => simp [RBT.bh] at e1
        subst hcc
        simp only [RBT.bh, Bool.false_eq_true, if_false, Nat.add_zero] at e1
        simp only [RBT.bh, e1, if_true, RBT.blackRoot_node]
        rw [e0] at hinv
        exact hinv
      · have := setColor_sim s ctx2 cc cl cr ch 1 e5 e4
        simpa using this
    cases tl with
    | nil =>
      simp only [RBT.root_nil] at h2
      cases tr with
      | nil =>
        simp only [RBT.root_nil] at h3
        have hinv1 : CtxInv tctx (0 + 1) true := by simpa [RBT.bh] using hinv
        obtain ⟨out, ho, hvo⟩ := remFix_valid tctx 0 hinv1
        obtain ⟨l1, l2, l3⟩ := remFix_lists tctx out ho
        have hlen : tctx.length < fuel := by
          have := ctx_length_le tctx
          rw [toList_plug] at hf
          simp only [RBT.toList, List.length_append, List.length_cons, List.length_nil] at hf this
          omega
        obtain ⟨o, s', root', e1, e2, e3, e4, e5, e6⟩ :=
          rb_remove_loop_sim root tctx fuel s true .nil .nil target out hlen hr hnd hroot ho
        refine ⟨s', root', out, true, .nil, .nil, .nil, ?_, e3, e4, Or.inl ⟨rfl, rfl⟩, ?_,
          fun _ => rfl, l1, l2, l3, rfl, rfl, e5, e6⟩
        · simp [Tree.rb_remove, hget, hcol, h2, h3, e1, e2]
        · rw [valid_plug_iff]
          exact ⟨trivial, trivial, hvo⟩
      | node cc cl ch cr =>
        simp only [RBT.root_node] at h3
        obtain ⟨k1, k2⟩ := key cc cl cr ch (.R true .nil target :: tctx) rfl b1.symm b3 n3 hnd hr
        refine ⟨s.setColor ch 1, root, tctx, true, .nil, .node true cl ch cr, .node true cl ch cr,
          ?_, k2, ?_, Or.inl ⟨rfl, rfl⟩, k1, fun _ => rfl, rfl, rfl, fun h => h, rfl, rfl, rfl, rfl⟩
        · simp [Tree.rb_remove, hget, hcol, h2, h3]
        · rw [← hroot, root_plug, root_plug]; rfl
    | node cc cl ch cr =>
      have htr : tr = .nil := by
        rcases hone with e | e
        · simp at e
        · exact e
      subst htr
      simp only [RBT.root_node] at h2
      obtain ⟨k1, k2⟩ := key cc cl cr ch (.L true target .nil :: tctx) b1 b1 b2 n2 hnd hr
      refine ⟨s.setColor ch 1, root, tctx, true, .node true cl ch cr, .nil, .node true cl ch cr,
        ?_, k2, ?_, Or.inr ⟨rfl, rfl⟩, k1, fun _ => rfl, rfl, rfl, fun h => h, rfl, rfl, rfl, rfl⟩
      · simp [Tree.rb_remove, hget, hcol, h2]
      · rw [← hroot, root_plug, root_plug]; rfl

theorem erase_middle (A B : List α) (n : α) (h : n ∉ A) : (A ++ n :: B).erase n = A ++ B := by
  rw [List.erase_append_right _ h, List.erase_cons_head]

/-- The tree after `rb_remove(n, root, lmax_cache)`: a valid red-black tree
with the in-order traversal of the old tree without `n`; the links of `n` are
`null` and its colour is red. -/
theorem rb_remove_sim (s : Store α) (t : RBT α) (n : α) (lmax : Option α) (fuel : Nat)
    (hr : Repr s t none) (hnd : t.toList.Nodup) (hv : t.Valid) (hn : n ∈ t.toList)
    (hl : ∀ p, lmax = some p → (s.lch n).isSome = true → (s.rch n).isSome = true →
      ∃ A B, t.toList = A ++ p :: n :: B)
    (hf : t.toList.length ≤ fuel) :
    ∃ s' root' t', Tree.rb_remove fuel s n t.root lmax = some (s', root') ∧
      Repr s' t' none ∧ t'.root = root' ∧ t'.Valid ∧ t'.toList = t.toList.erase n ∧
      s'.par n = none ∧ s'.lch n = none ∧ s'.rch n = none ∧ s'.color n = 0 ∧
      s'.prev = s.prev ∧ s'.next = s.next := by
  obtain ⟨c, l, r, ctx, e0⟩ := exists_plug_of_mem t n hn
  subst e0
  obtain ⟨target, ct, tl, tr, tctx, hget, e1, hone, htn⟩ :=
    get_target_sim s ctx c l r n lmax fuel hr hnd hf hl
  rw [e1] at hr hnd hv hn hf ⊢
  obtain ⟨s2, root2, tctx2, ct2, tl2, tr2, child2, g1, g2, g3, g4, g5, g6, g7, g8, g9, g10, g11,
    g12, g13⟩ := rb_remove_pre s tctx ct tl tr target n _ lmax fuel hr hnd hv rfl hone hf hget
  have hlist2 : (plug (.node ct2 tl2 target tr2) tctx2).toList =
      (plug (.node ct tl target tr) tctx).toList := by
    rw [toList_plug, toList_plug, g7, g8]
    simp only [RBT.toList, g10, g11]
  have hnd2 : (plug (.node ct2 tl2 target tr2) tctx2).toList.Nodup := by rw [hlist2]; exact hnd
  have hn2 : n ∈ (plug (.node ct2 tl2 target tr2) tctx2).toList := by rw [hlist2]; exact hn
  obtain ⟨t', m1, m2, m3, m4, m5, m6, m7, m8, m9, m10, m11⟩ :=
    move_target_sim s2 tctx2 ct2 tl2 tr2 child2 target n root2 g2 hnd2 g4 g3 hn2 g6
      (fun h => g9 (htn h).2.1)
  refine ⟨_, _, t', g1, m1, m2, m3 g5, ?_, m6, m7, m8, m9, m10.trans g12, m11.trans g13⟩
  have S := plug_sep tctx ct tl target tr hnd
  have hsl : (plug child2 tctx2).toList = ctxLeft tctx ++ (tl.toList ++ tr.toList) ++ ctxRight tctx := by
    rw [toList_plug, g7, g8]
    rcases g4 with ⟨e2, e3⟩ | ⟨e2, e3⟩
    · rw [e3, g11]
      rw [e2] at g10
      simp only [RBT.toList] at g10
      rw [← g10]
      simp
    · rw [e3, g10]
      rw [e2] at g11
      simp only [RBT.toList] at g11
      rw [← g11]
      simp
  have htl : (plug (.node ct tl target tr) tctx).toList =
      (ctxLeft tctx ++ tl.toList) ++ target :: (tr.toList ++ ctxRight tctx) := by
    rw [toList_plug]; simp [RBT.toList]
  by_cases hte : target = n
  · rw [m4 hte, hsl, htl, ← hte]
    rw [erase_middle]
    · simp
    · have h1 := S.x_c
      simp only [List.mem_append, not_or] at h1 ⊢
      exact ⟨h1.1, S.x_l⟩
  · obtain ⟨htr, _, B, hB⟩ := htn hte
    subst htr
    obtain ⟨A', B', q1, q2⟩ := m5 hte
    rw [q2, htl, hB]
    rw [hsl, hB] at q1
    simp only [RBT.toList, List.append_nil, List.nil_append] at q1 ⊢
    have hnd3 := hnd
    rw [htl, hB] at hnd3
    simp only [RBT.toList, List.nil_append] at hnd3
    have hnA : n ∉ ctxLeft tctx ++ tl.toList := by
      intro hm
      have := (List.nodup_append.1 hnd3).2.2 hm
      exact this (by simp)
    have hnd4 : ((ctxLeft tctx ++ tl.toList) ++ n :: B).Nodup := by
      have := List.nodup_cons.1 (List.nodup_middle.1 hnd3)
      exact this.2
    obtain ⟨u1, u2⟩ := split_unique n _ _ _ _ hnd4 q1
    rw [← u1, ← u2]
    have : (ctxLeft tctx ++ tl.toList ++ target :: n :: B) =
        (ctxLeft tctx ++ tl.toList ++ [target]) ++ n :: B := by simp
    rw [this, erase_middle]
    · simp
    · simp only [List.mem_append, List.mem_singleton, not_or]
      simp only [List.mem_append, not_or] at hnA
      exact ⟨⟨hnA.1, hnA.2⟩, fun e => hte e.symm⟩

/-- C7. `rb_remove` preserves the red-black invariants. The fields `s` hold a
valid red-black tree `t` with root `root`, `n` is a node of it, and
`lmax_cache` is `null` or the node right before `n` in order. Then
`rb_remove(n, root, lmax_cache)` returns `r`, which is `null` exactly when `n`
was the only node, and otherwise a node with null parent; the fields then hold
a valid red-black tree with root `r` (root black, no red node with a red
child, equal black height on all paths) whose nodes are those of `t` other
than `n`. -/
theorem rb_remove_preserves (s : Store α) (t : RBT α) (n root : α) (lmax : Option α)
    (fuel : Nat) (hr : Repr s t none) (hroot : t.root = some root) (hnd : t.toList.Nodup)
    (hv : t.Valid) (hn : n ∈ t.toList)
    (hl : lmax = none ∨ ∃ p A B, lmax = some p ∧ t.toList = A ++ p :: n :: B)
    (hf : t.toList.length ≤ fuel) :
    ∃ s' r t', Tree.rb_remove fuel s n (some root) lmax = some (s', r) ∧
      (r = none ↔ t.toList = [n]) ∧ (∀ x, r = some x → s'.par x = none) ∧
      Repr s' t' none ∧ t'.root = r ∧ t'.toList.Nodup ∧ t'.Valid ∧
      ∀ x, x ∈ t'.toList ↔ (x ∈ t.toList ∧ x ≠ n) := by
  obtain ⟨s', r, t', h1, h2, h3, h4, h5, _⟩ := rb_remove_sim s t n lmax fuel hr hnd hv hn
    (fun p hp _ _ => by
      rcases hl with e | ⟨p', A, B, e1, e2⟩
      · rw [e] at hp; simp at hp
      · rw [e1] at hp
        simp only [Option.some.injEq] at hp
        subst hp
        exact ⟨A, B, e2⟩) hf
  rw [hroot] at h1
  have hnd' : t'.toList.Nodup := by rw [h5]; exact hnd.erase n
  refine ⟨s', r, t', h1, ?_, ?_, h2, h3, hnd', h4, ?_⟩
  · rw [← h3]
    constructor
    · intro e
      have ht : t' = .nil := RBT.root_none t' e
      rw [ht] at h5
      simp only [RBT.toList] at h5
      obtain ⟨A, B, e1⟩ := List.append_of_mem hn
      have hnA : n ∉ A := by
        intro hm
        rw [e1] at hnd
        exact (List.nodup_append.1 hnd).2.2 hm (by simp)
      rw [e1, erase_middle A B n hnA] at h5
      have h6 := h5.symm
      simp only [List.append_eq_nil] at h6
      rw [e1, h6.1, h6.2]
      rfl
    · intro e
      rw [e] at h5
      simp only [List.erase_cons_head] at h5
      cases t' with
      | nil => rfl
      | node c l x r => simp [RBT.toList] at h5
  · intro x hx
    rw [← h3] at hx
    cases t' with
    | nil => simp at hx
    | node c l y rr =>
      simp only [RBT.root_node, Option.some.injEq] at hx
      subst hx
      exact h2.1
  · intro x
    rw [h5]
    exact hnd.mem_erase_iff.trans ⟨fun h => ⟨h.2, h.1⟩, fun h => ⟨h.2, h.1⟩⟩

theorem rb_remove_preserves_witness :
    ∃ s' r t', Tree.rb_remove 3 rbDemoStore3 2 (some 2) none = some (s', r) ∧
      (r = none ↔ (RBT.node true (.node false .nil 1 .nil) 2 (.node false .nil 3 .nil)).toList
        = [2]) ∧
      (∀ x, r = some x → s'.par x = none) ∧
      Repr s' t' none ∧ t'.root = r ∧ t'.toList.Nodup ∧ t'.Valid ∧
      ∀ x, x ∈ t'.toList ↔
        (x ∈ (RBT.node true (.node false .nil 1 .nil) 2 (.node false .nil 3 .nil)).toList ∧
          x ≠ 2) :=
  rb_remove_preserves rbDemoStore3
    (.node true (.node false .nil 1 .nil) 2 (.node false .nil 3 .nil)) 2 2 none 3
    ⟨rfl, rfl, rfl, rfl, ⟨rfl, rfl, rfl, rfl, trivial, trivial⟩,
      ⟨rfl, rfl, rfl, rfl, trivial, trivial⟩⟩ rfl (by decide)
    ⟨rfl, ⟨fun h => by simp at h, ⟨fun _ => ⟨rfl, rfl⟩, trivial, trivial⟩,
      ⟨fun _ => ⟨rfl, rfl⟩, trivial, trivial⟩⟩,
      ⟨rfl, ⟨rfl, trivial, trivial⟩, ⟨rfl, trivial, trivial⟩⟩⟩
    (by decide) (Or.inl rfl) (by decide)

/-- In a valid list, the `_l_prev` of a node with a left child is the node
right before it in order. -/
theorem TreeList.Models.prev_pred (prior : α → α → Bool) (L : TreeList α) (t : RBT α)
    (hm : L.Models prior t) (n p : α) (hn : n ∈ t.toList) (hp : L.store.prev n = some p)
    (hl : (L.store.lch n).isSome = true) : ∃ A B, t.toList = A ++ p :: n :: B := by
  obtain ⟨c, l, r, ctx, e⟩ := exists_plug_of_mem t n hn
  have hr := hm.repr
  rw [e, repr_plug_iff] at hr
  obtain ⟨⟨h1, h2, h3, h4, h5, h6⟩, hc⟩ := hr
  cases l with
  | nil => rw [h2] at hl; simp at hl
  | node cl ll x lr =>
    have hlist : t.toList = (ctxLeft ctx ++ (RBT.node cl ll x lr).toList) ++
        n :: (r.toList ++ ctxRight ctx) := by
      rw [e, toList_plug]; simp [RBT.toList]
    rcases List.eq_nil_or_concat (RBT.node cl ll x lr).toList with e1 | ⟨l', y, e1⟩
    · simp [RBT.toList] at e1
    · rw [e1, List.concat_eq_append] at hlist
      have hch := hm.chain
      rw [hlist] at hch
      obtain ⟨p', hp1, hp2⟩ := Chain.prev_last L.store _ L.lHead L.lHead n _ hch
      rw [hp] at hp1
      have : p = p' := Option.some.inj hp1
      subst this
      rw [← List.append_assoc, getLast?_append_singleton] at hp2
      have : y = p := Option.some.inj hp2
      subst this
      refine ⟨ctxLeft ctx ++ l', r.toList ++ ctxRight ctx, ?_⟩
      rw [hlist]
      simp

/-- The method `remove(n)` on a valid list and a member `n`: the new list is
valid, holds the old nodes other than `n` in the old order, and `n` is in no
structure. -/
theorem TreeList.remove_models (prior : α → α → Bool) (L : TreeList α) (t : RBT α) (n : α)
    (fuel : Nat) (hm : L.Models prior t) (hn : n ∈ t.toList) (hf : t.toList.length ≤ fuel) :
    ∃ L' t', L.remove fuel n = some L' ∧ L'.Models prior t' ∧ L'.lHead = L.lHead ∧
      t'.toList = t.toList.erase n ∧ L'.store.Free n ∧ L'.ln = L.ln - 1 := by
  obtain ⟨s1, root1, t', e1, e2, e3, e4, e5, e6, e7, e8, e9, e10, e11⟩ :=
    rb_remove_sim L.store t n (L.store.prev n) fuel hm.repr hm.nodup hm.rb hn
      (fun p hp hl _ => TreeList.Models.prev_pred prior L t hm n p hn hp hl) hf
  obtain ⟨Z1, Z2, hz⟩ := List.append_of_mem hn
  have hnd := hm.nodup
  have hnZ1 : n ∉ Z1 := by
    intro h
    rw [hz] at hnd
    exact (List.nodup_append.1 hnd).2.2 h (by simp)
  have hc1 : Chain s1 L.lHead (Z1 ++ n :: Z2) L.lHead := by
    rw [← hz]
    exact Chain.ofLinksEq _ _ _ _ _ hm.chain e11 e10
  have hnd1 : (L.lHead :: (Z1 ++ n :: Z2)).Nodup := by
    rw [← hz, List.nodup_cons]
    exact ⟨hm.head, hnd⟩
  obtain ⟨s2, g1, g2, g3, g4, g5, g6, g7, g8⟩ := remove_chain s1 n L.lHead Z1 Z2 hc1 hnd1
  have herase : t.toList.erase n = Z1 ++ Z2 := by rw [hz, erase_middle Z1 Z2 n hnZ1]
  refine ⟨{ L with store := s2, tRoot := root1, ln := L.ln - 1 }, t', ?_, ?_, rfl, e5, ?_, rfl⟩
  · simp only [TreeList.remove, hm.root.symm, e1, g1, Option.map_some']
  · refine ⟨Repr.of_eq s1 s2 t' none e2 g5 g6 g7 g8, e3, ?_, e4, ?_, ?_, ?_, ?_⟩
    · rw [e5]; exact hnd.erase n
    · rw [e5, herase]; exact g2
    · rw [e5]
      exact fun h => hm.head (List.mem_of_mem_erase h)
    · show L.ln - 1 = _
      rw [hm.size, e5, List.length_erase_of_mem hn]
      have : 0 < t.toList.length := List.length_pos_of_mem hn
      omega
    · rw [e5]
      exact hm.sorted.sublist (List.erase_sublist n t.toList)
  · exact ⟨g3, g4, by show s2.par n = none; rw [g5]; exact e6,
      by show s2.lch n = none; rw [g6]; exact e7, by show s2.rch n = none; rw [g7]; exact e8,
      by show s2.color n = 0; rw [g8]; exact e9⟩

theorem add_descend_mono (prior : α → α → Bool) (s : Store α) (node : α) :
    ∀ (fuel : Nat) (root : α) (r : α × Bool), Tree.add_descend prior s node fuel root = some r →
      ∀ fuel', fuel ≤ fuel' → Tree.add_descend prior s node fuel' root = some r := by
  intro fuel
  induction fuel with
  | zero => intro root r h; simp [Tree.add_descend] at h
  | succ f ih =>
    intro root r h fuel' hle
    obtain ⟨f', rfl⟩ : ∃ f', fuel' = f' + 1 := ⟨fuel' - 1, by omega⟩
    simp only [Tree.add_descend] at h ⊢
    cases hc : (if prior node root = true then s.lch root else s.rch root) with
    | none => rw [hc] at h; exact h
    | some c => rw [hc] at h; exact ih c r h f' (by omega)

theorem rb_add_loop_mono (root : α) :
    ∀ (fuel : Nat) (s : Store α) (node : α) (r : Tree.AddLoop α),
      Tree.rb_add_loop root fuel s node = some r →
      ∀ fuel', fuel ≤ fuel' → Tree.rb_add_loop root fuel' s node = some r := by
  intro fuel
  induction fuel with
  | zero => intro s node r h; simp [Tree.rb_add_loop] at h
  | succ f ih =>
    intro s node r h fuel' hle
    obtain ⟨f', rfl⟩ : ∃ f', fuel' = f' + 1 := ⟨fuel' - 1, by omega⟩
    rw [Tree.rb_add_loop] at h ⊢
    cases hp : s.par node with
    | none => rw [hp] at h; simp at h
    | some lp =>
      rw [hp] at h
      simp only at h ⊢
      by_cases hc : s.color lp ≠ 0
      · rw [if_pos hc] at h ⊢; exact h
      · rw [if_neg hc] at h ⊢
        cases hpp : s.par lp with
        | none => rw [hpp] at h; simp at h
        | some lpp =>
          rw [hpp] at h
          simp only at h ⊢
          cases hla : (if s.rch lpp ≠ some lp then s.rch lpp else s.lch lpp) with
          | none => rw [hla] at h; exact h
          | some a =>
            rw [hla] at h
            simp only at h ⊢
            by_cases hca : s.color a = 0
            · rw [if_pos hca] at h ⊢
              by_cases hr : lpp ≠ root
              · rw [if_pos hr] at h ⊢
                exact ih _ _ r h f' (by omega)
              · rw [if_neg hr] at h ⊢; exact h
            · rw [if_neg hca] at h ⊢; exact h

theorem get_lmax_loop_mono (s : Store α) :
    ∀ (fuel : Nat) (cur : α) (r : α), Tree.get_lmax_loop s fuel cur = some r →
      ∀ fuel', fuel ≤ fuel' → Tree.get_lmax_loop s fuel' cur = some r := by
  intro fuel
  induction fuel with
  | zero => intro cur r h; simp [Tree.get_lmax_loop] at h
  | succ f ih =>
    intro cur r h fuel' hle
    obtain ⟨f', rfl⟩ : ∃ f', fuel' = f' + 1 := ⟨fuel' - 1, by omega⟩
    simp only [Tree.get_lmax_loop] at h ⊢
    cases hc : s.rch cur with
    | none => rw [hc] at h; exact h
    | some c => rw [hc] at h; exact ih c r h f' (by omega)

theorem rb_remove_loop_mono :
    ∀ (fuel : Nat) (s : Store α) (lch : α) (r : Tree.RemLoop α),
      Tree.rb_remove_loop fuel s lch = some r →
      ∀ fuel', fuel ≤ fuel' → Tree.rb_remove_loop fuel' s lch = some r := by
  intro fuel
  induction fuel with
  | zero => intro s lch r h; simp [Tree.rb_remove_loop] at h
  | succ f ih =>
    intro s lch r h fuel' hle
    obtain ⟨f', rfl⟩ : ∃ f', fuel' = f' + 1 := ⟨fuel' - 1, by omega⟩
    rw [Tree.rb_remove_loop] at h ⊢
    cases hp : s.par lch with
    | none => rw [hp] at h; exact h
    | some lp =>
      rw [hp] at h
      simp only at h ⊢
      by_cases hc : s.color lp ≠ 0
      · rw [if_pos hc] at h ⊢
        cases hla : (if s.rch lp ≠ some lch then s.rch lp else s.lch lp) with
        | none => rw [hla] at h; simp at h
        | some a =>
          rw [hla] at h
          simp only at h ⊢
          by_cases hca : s.color a ≠ 0 ∧ Tree.nullOrBlack s (s.lch a) = true ∧
              Tree.nullOrBlack s (s.rch a) = true
          · rw [if_pos hca] at h ⊢
            exact ih _ _ r h f' (by omega)
          · rw [if_neg hca] at h ⊢; exact h
      · rw [if_neg hc] at h ⊢; exact h

theorem TreeList.add_fuel_mono (prior : α → α → Bool) (fuel fuel' : Nat) (L L' : TreeList α) (n : α)
    (h : L.add prior fuel n = some L') (hle : fuel ≤ fuel') : L.add prior fuel' n = some L' := by
  simp only [TreeList.add] at h ⊢
  cases hroot : L.tRoot with
  | none => rw [hroot] at h; exact h
  | some root =>
    rw [hroot] at h
    simp only at h ⊢
    simp only [Tree.rb_add, Tree.add] at h ⊢
    cases hd : Tree.add_descend prior L.store n fuel root with
    | none => rw [hd] at h; simp at h
    | some d =>
      rw [hd] at h
      rw [add_descend_mono prior L.store n fuel root d hd fuel' hle]
      simp only at h ⊢
      cases hl : Tree.rb_add_loop root fuel
          (if d.2 = true then (L.store.setPar n (some d.1)).setLch d.1 (some n)
            else (L.store.setPar n (some d.1)).setRch d.1 (some n)) n with
      | none => rw [hl] at h; simp at h
      | some o =>
        rw [hl] at h
        rw [rb_add_loop_mono root fuel _ n o hl fuel' hle]
        exact h

theorem TreeList.remove_fuel_mono (fuel fuel' : Nat) (L L' : TreeList α) (n : α)
    (h : L.remove fuel n = some L') (hle : fuel ≤ fuel') : L.remove fuel' n = some L' := by
  simp only [TreeList.remove] at h ⊢
  have key : ∀ r, Tree.rb_remove fuel L.store n L.tRoot (L.store.prev n) = some r →
      Tree.rb_remove fuel' L.store n L.tRoot (L.store.prev n) = some r := by
    intro r hr
    simp only [Tree.rb_remove] at hr ⊢
    have hg : ∀ tg, Tree.get_target fuel L.store n (L.store.prev n) = some tg →
        Tree.get_target fuel' L.store n (L.store.prev n) = some tg := by
      intro tg htg
      simp only [Tree.get_target] at htg ⊢
      split
      · rename_i hc
        rw [if_pos hc] at htg
        cases hp : L.store.prev n with
        | some c => rw [hp] at htg; exact htg
        | none =>
          rw [hp] at htg
          simp only [Tree.get_lmax] at htg ⊢
          cases hl : L.store.lch n with
          | none => rw [hl] at htg; simp at htg
          | some cur =>
            rw [hl] at htg
            exact get_lmax_loop_mono L.store fuel cur tg htg fuel' hle
      · rename_i hc
        rw [if_neg hc] at htg
        exact htg
    cases hget : Tree.get_target fuel L.store n (L.store.prev n) with
    | none => rw [hget] at hr; simp at hr
    | some tg =>
      rw [hget] at hr
      rw [hg tg hget]
      simp only at hr ⊢
      by_cases hc : L.store.color tg ≠ 0
      · rw [if_pos hc] at hr ⊢
        cases hch : (L.store.lch tg).orElse (fun _ => L.store.rch tg) with
        | some c => rw [hch] at hr; exact hr
        | none =>
          rw [hch] at hr
          simp only at hr ⊢
          cases hl : Tree.rb_remove_loop fuel L.store tg with
          | none => rw [hl] at hr; simp at hr
          | some o =>
            rw [hl] at hr
            rw [rb_remove_loop_mono fuel L.store tg o hl fuel' hle]
            exact hr
      · rw [if_neg hc] at hr ⊢; exact hr
  cases hr : Tree.rb_remove fuel L.store n L.tRoot (L.store.prev n) with
  | none => rw [hr] at h; simp at h
  | some r =>
    rw [hr] at h
    rw [key r hr]
    exact h

theorem specInorder_repr (s : Store α) : ∀ (t : RBT α) (p : Option α) (fuel : Nat),
    Repr s t p → t.toList.length < fuel → specInorder s fuel t.root = some t.toList := by
  intro t
  induction t with
  | nil =>
    intro p fuel _ hf
    obtain ⟨f, rfl⟩ : ∃ f, fuel = f + 1 := ⟨fuel - 1, by omega⟩
    rfl
  | node c l x r ihl ihr =>
    intro p fuel hr hf
    obtain ⟨f, rfl⟩ : ∃ f, fuel = f + 1 := ⟨fuel - 1, by omega⟩
    obtain ⟨_, h2, h3, _, h5, h6⟩ := hr
    simp only [RBT.toList, List.length_append, List.length_cons] at hf
    simp only [RBT.root_node, specInorder, h2, h3]
    rw [ihl (some x) f h5 (by omega), ihr (some x) f h6 (by omega)]
    rfl

theorem TreeList.new_models (prior : α → α → Bool) (s : Store α) (head : α) :
    (TreeList.new s head).Models prior .nil := by
  refine ⟨trivial, rfl, by simp [RBT.toList], ⟨rfl, trivial, trivial⟩, ?_, by simp [RBT.toList],
    rfl, by simp [RBT.toList]⟩
  show Chain _ head [] head
  simp [Chain, TreeList.new, Link.init]

theorem TieOrder.mono (prior : α → α → Bool) (h1 h2 : List α) (a b : α)
    (hs : List.Sublist [a, b] h1 → List.Sublist [a, b] h2) (h : TieOrder prior h1 a b) :
    TieOrder prior h2 a b := by
  rcases h with h | ⟨e1, e2, e3⟩
  · exact Or.inl h
  · exact Or.inr ⟨e1, e2, hs e3⟩

/-- Every reached list is valid, holds exactly the members, and is ordered by
priority with ties in the order of the most recent `add`. -/
theorem TreeList.Reach.listInv (prior : α → α → Bool) (sw : StrictWeak prior) (L : TreeList α)
    (hist : List α) (h : TreeList.Reach prior L hist) : ∃ t, L.Inv prior hist t := by
  induction h with
  | new s head =>
    exact ⟨.nil, TreeList.new_models prior s head, by simp [RBT.toList], List.nodup_nil,
      by simp [RBT.toList]⟩
  | add fuel L L' n hist _ hfree hadd ih =>
    obtain ⟨t, hm, hmem, hnd, hties⟩ := ih
    obtain ⟨hnt, _⟩ := Store.Free.not_mem prior L t n hm hfree
    obtain ⟨L2, t', A, B, e1, e2, e3, e4, e5, e6, e7⟩ :=
      TreeList.add_models prior sw L t n (max fuel t.toList.length) hm hfree (le_max_right _ _)
    have := TreeList.add_fuel_mono prior fuel (max fuel t.toList.length) L L' n hadd (le_max_left _ _)
    rw [this] at e1
    simp only [Option.some.injEq] at e1
    subst e1
    have hnh : n ∉ hist := fun hh => hnt ((hmem n).1 hh)
    refine ⟨t', e2, ?_, ?_, ?_⟩
    · intro x
      rw [e5, List.mem_append, hmem x, e4]
      simp only [List.mem_append, List.mem_cons, List.mem_singleton, List.not_mem_nil, or_false]
      constructor
      · rintro ((h | h) | h)
        · exact Or.inl h
        · exact Or.inr (Or.inr h)
        · exact Or.inr (Or.inl h)
      · rintro (h | h | h)
        · exact Or.inl (Or.inl h)
        · exact Or.inr h
        · exact Or.inl (Or.inr h)
    · rw [List.nodup_append]
      refine ⟨hnd, by simp, ?_⟩
      intro a ha hb
      simp only [List.mem_singleton] at hb
      subst hb
      exact hnh ha
    · rw [e5]
      rw [e4] at hties
      rw [List.pairwise_append] at hties ⊢
      have hmono : ∀ a b, TieOrder prior hist a b → TieOrder prior (hist ++ [n]) a b :=
        fun a b => TieOrder.mono prior _ _ a b
          (fun hs => hs.trans (List.sublist_append_left _ _))
      refine ⟨hties.1.imp (hmono _ _), ?_, ?_⟩
      · rw [List.pairwise_cons]
        exact ⟨fun b hb => Or.inl (e7 b hb), hties.2.1.imp (hmono _ _)⟩
      · intro a ha b hb
        rcases List.mem_cons.1 hb with rfl | hb
        · by_cases hp : prior a b = true
          · exact Or.inl hp
          · refine Or.inr ⟨by simpa using hp, e6 a ha, ?_⟩
            have hah : a ∈ hist := (hmem a).2 (by rw [e4]; exact List.mem_append_left _ ha)
            have : List.Sublist [a] hist := List.singleton_sublist.2 hah
            exact List.Sublist.append this (List.Sublist.refl [b])
        · exact hmono _ _ (hties.2.2 a ha b hb)
  | remove fuel L L' n hist _ hn hrem ih =>
    obtain ⟨t, hm, hmem, hnd, hties⟩ := ih
    have hnt : n ∈ t.toList := (hmem n).1 hn
    obtain ⟨L2, t', e1, e2, e3, e4, e5, e6⟩ :=
      TreeList.remove_models prior L t n (max fuel t.toList.length) hm hnt (le_max_right _ _)
    have := TreeList.remove_fuel_mono fuel (max fuel t.toList.length) L L' n hrem (le_max_left _ _)
    rw [this] at e1
    simp only [Option.some.injEq] at e1
    subst e1
    refine ⟨t', e2, ?_, hnd.erase n, ?_⟩
    · intro x
      rw [e4, hnd.mem_erase_iff, hm.nodup.mem_erase_iff, hmem x]
    · rw [e4]
      have h1 : (t.toList.erase n).Pairwise (TieOrder prior hist) :=
        hties.sublist (List.erase_sublist n t.toList)
      refine h1.imp_of_mem ?_
      intro a b ha hb hab
      have han : a ≠ n := (hm.nodup.mem_erase_iff.1 ha).1
      have hbn : b ≠ n := (hm.nodup.mem_erase_iff.1 hb).1
      refine TieOrder.mono prior _ _ a b (fun hs => ?_) hab
      have := hs.erase n
      rw [List.erase_of_not_mem] at this
      · exact this
      · simp only [List.mem_cons, List.mem_singleton, List.not_mem_nil, or_false, not_or]
        exact ⟨fun e => han e.symm, fun e => hbn e.symm⟩

theorem TreeList.Reach.add_ok (prior : α → α → Bool) (sw : StrictWeak prior) (L : TreeList α)
    (hist : List α) (h : TreeList.Reach prior L hist) (n : α) (fuel : Nat)
    (hfree : L.store.Free n) (hf : L.ln < fuel) :
    ∃ L', L.add prior fuel n = some L' ∧ TreeList.Reach prior L' (hist ++ [n]) := by
  obtain ⟨t, hm, _⟩ := TreeList.Reach.listInv prior sw L hist h
  have hsz := hm.size
  obtain ⟨L', _, _, _, e1, _⟩ := TreeList.add_models prior sw L t n fuel hm hfree (by omega)
  exact ⟨L', e1, TreeList.Reach.add fuel L L' n hist h hfree e1⟩

theorem TreeList.Reach.remove_ok (prior : α → α → Bool) (sw : StrictWeak prior) (L : TreeList α)
    (hist : List α) (h : TreeList.Reach prior L hist) (n : α) (fuel : Nat)
    (hn : n ∈ hist) (hf : L.ln < fuel) :
    ∃ L', L.remove fuel n = some L' ∧ TreeList.Reach prior L' (hist.erase n) := by
  obtain ⟨t, hm, hmem, _⟩ := TreeList.Reach.listInv prior sw L hist h
  have hsz := hm.size
  obtain ⟨L', _, e1, _⟩ :=
    TreeList.remove_models prior L t n fuel hm ((hmem n).1 hn) (by omega)
  exact ⟨L', e1, TreeList.Reach.remove fuel L L' n hist h hn e1⟩

theorem strictWeak_valPrior : StrictWeak valPrior := by
  constructor
  · intro a; simp [valPrior]
  · intro a b c; simp only [valPrior, decide_eq_true_eq]; omega
  · intro a b c; simp only [valPrior, decide_eq_false_iff_not]; omega

theorem tlDemo1_eq : tlDemo0.add valPrior 10 (vn 5 1) = some tlDemo1 := rfl

theorem tlDemo2_eq : tlDemo1.add valPrior 10 (vn 3 2) = some tlDemo2 := rfl

theorem tlDemo3_eq : tlDemo2.add valPrior 10 (vn 8 3) = some tlDemo3 := rfl

theorem tlDemo4_eq : tlDemo3.add valPrior 10 (vn 1 4) = some tlDemo4 := rfl

theorem tlDemo5_eq : tlDemo4.add valPrior 10 (vn 3 5) = some tlDemo5 := rfl

theorem tlDemo6_eq : tlDemo5.remove 10 (vn 3 2) = some tlDemo6 := rfl

theorem tlDemo7_eq : tlDemo6.add valPrior 10 (vn 3 2) = some tlDemo7 := rfl

theorem tlDemo4_reach : TreeList.Reach valPrior tlDemo4 [vn 5 1, vn 3 2, vn 8 3, vn 1 4] := by
  have r0 : TreeList.Reach valPrior tlDemo0 [] := TreeList.Reach.new emptyStore (vn 0 0)
  have r1 := TreeList.Reach.add 10 tlDemo0 tlDemo1 (vn 5 1) [] r0 (by decide) tlDemo1_eq
  have r2 := TreeList.Reach.add 10 tlDemo1 tlDemo2 (vn 3 2) _ r1 (by decide) tlDemo2_eq
  have r3 := TreeList.Reach.add 10 tlDemo2 tlDemo3 (vn 8 3) _ r2 (by decide) tlDemo3_eq
  exact TreeList.Reach.add 10 tlDemo3 tlDemo4 (vn 1 4) _ r3 (by decide) tlDemo4_eq

theorem tlDemo5_reach :
    TreeList.Reach valPrior tlDemo5 [vn 5 1, vn 3 2, vn 8 3, vn 1 4, vn 3 5] :=
  TreeList.Reach.add 10 tlDemo4 tlDemo5 (vn 3 5) _ tlDemo4_reach (by decide) tlDemo5_eq

theorem tlDemo7_reach :
    TreeList.Reach valPrior tlDemo7 [vn 5 1, vn 8 3, vn 1 4, vn 3 5, vn 3 2] := by
  have r6 := TreeList.Reach.remove 10 tlDemo5 tlDemo6 (vn 3 2) _ tlDemo5_reach (by decide) tlDemo6_eq
  exact TreeList.Reach.add 10 tlDemo6 tlDemo7 (vn 3 2) _ r6 (by decide) tlDemo7_eq

theorem tlDemo4_valid : tlDemo4.Valid valPrior := by
  obtain ⟨t, h⟩ := TreeList.Reach.listInv valPrior strictWeak_valPrior _ _ tlDemo4_reach
  exact ⟨t, h.models⟩

theorem tlDemo5_valid : tlDemo5.Valid valPrior := by
  obtain ⟨t, h⟩ := TreeList.Reach.listInv valPrior strictWeak_valPrior _ _ tlDemo5_reach
  exact ⟨t, h.models⟩

/-- C4. Tree-list correspondence. For a strict weak order `prior` and every
list reached from a new list by `add` of a node in no structure and `remove`
of a member: following `_l_next` from the sentinel back to the sentinel gives
the in-order traversal of the tree at `tRoot`, node for node in the same
order. From such a list, `add` and `remove` return, given fuel above `ln`, and
their result is again a reached list. -/
theorem tree_list_correspondence (prior : α → α → Bool) (sw : StrictWeak prior)
    (L : TreeList α) (hist : List α) (hr : TreeList.Reach prior L hist) :
    (∀ fuel : Nat, L.ln < fuel →
      ∃ xs, L.toList fuel = some xs ∧ specInorder L.store fuel L.tRoot = some xs) ∧
    (∀ (n : α) (fuel : Nat), L.store.Free n → L.ln < fuel →
      ∃ L', L.add prior fuel n = some L' ∧ TreeList.Reach prior L' (hist ++ [n])) ∧
    (∀ (n : α) (fuel : Nat), n ∈ hist → L.ln < fuel →
      ∃ L', L.remove fuel n = some L' ∧ TreeList.Reach prior L' (hist.erase n)) := by
  refine ⟨?_, fun n fuel => TreeList.Reach.add_ok prior sw L hist hr n fuel,
    fun n fuel => TreeList.Reach.remove_ok prior sw L hist hr n fuel⟩
  intro fuel hf
  obtain ⟨t, hm, _⟩ := TreeList.Reach.listInv prior sw L hist hr
  have hsz := hm.size
  refine ⟨t.toList, hm.toList_eq prior L t fuel hf, ?_⟩
  rw [← hm.root]
  exact specInorder_repr L.store t none fuel hm.repr (by omega)

/-- Instance of C4 at the list built by adding 5, 3, 8, 1 and a second 3,
removing the first 3 and adding it again. -/
theorem tree_list_correspondence_witness :
    (∀ fuel : Nat, tlDemo7.ln < fuel →
      ∃ xs, tlDemo7.toList fuel = some xs ∧
        specInorder tlDemo7.store fuel tlDemo7.tRoot = some xs) ∧
    (∀ (n : ValNode) (fuel : Nat), tlDemo7.store.Free n → tlDemo7.ln < fuel →
      ∃ L', tlDemo7.add valPrior fuel n = some L' ∧
        TreeList.Reach valPrior L' ([vn 5 1, vn 8 3, vn 1 4, vn 3 5, vn 3 2] ++ [n])) ∧
    (∀ (n : ValNode) (fuel : Nat), n ∈ [vn 5 1, vn 8 3, vn 1 4, vn 3 5, vn 3 2] →
      tlDemo7.ln < fuel →
      ∃ L', tlDemo7.remove fuel n = some L' ∧
        TreeList.Reach valPrior L' ([vn 5 1, vn 8 3, vn 1 4, vn 3 5, vn 3 2].erase n)) :=
  tree_list_correspondence valPrior strictWeak_valPrior tlDemo7 _ tlDemo7_reach

/-- C5. Traversal order. For a strict weak order `prior` and every reached
list, with `hist` the members in the order of their most recent `add`: the
forward traversal holds exactly the members, and for `a` before `b` in it,
`a` is prior to `b`, or neither is prior to the other and the most recent
`add` of `a` came before that of `b`. -/
theorem traversal_order (prior : α → α → Bool) (sw : StrictWeak prior) (L : TreeList α)
    (hist : List α) (hr : TreeList.Reach prior L hist) (fuel : Nat) (hf : L.ln < fuel) :
    ∃ xs, L.toList fuel = some xs ∧ (∀ x, x ∈ xs ↔ x ∈ hist) ∧ hist.Nodup ∧
      xs.Pairwise (TieOrder prior hist) := by
  obtain ⟨t, hm, hmem, hnd, hties⟩ := TreeList.Reach.listInv prior sw L hist hr
  exact ⟨t.toList, hm.toList_eq prior L t fuel hf, fun x => (hmem x).symm, hnd, hties⟩

/-- Instance of C5 at the list `tlDemo7`, and the three runs of the claim
under "lower value is prior": tied `A`, `B` added in this order traverse as
`A`, `B`; after `remove(A)` and `add(A)` as `B`, `A`; and 5, 3, 8, 1 and a
second 3 traverse as 1, 3 (first), 3 (second), 5, 8. -/
theorem traversal_order_witness :
    (∃ xs, tlDemo7.toList 10 = some xs ∧
      (∀ x, x ∈ xs ↔ x ∈ [vn 5 1, vn 8 3, vn 1 4, vn 3 5, vn 3 2]) ∧
      [vn 5 1, vn 8 3, vn 1 4, vn 3 5, vn 3 2].Nodup ∧
      xs.Pairwise (TieOrder valPrior [vn 5 1, vn 8 3, vn 1 4, vn 3 5, vn 3 2])) ∧
    ((TreeList.addAll valPrior 10 tlDemo0 [vn 3 2, vn 3 5]).bind (fun L => L.toList 10)) =
      some [vn 3 2, vn 3 5] ∧
    ((((TreeList.addAll valPrior 10 tlDemo0 [vn 3 2, vn 3 5]).bind
      (fun L => L.remove 10 (vn 3 2))).bind (fun L => L.add valPrior 10 (vn 3 2))).bind
      (fun L => L.toList 10)) = some [vn 3 5, vn 3 2] ∧
    ((TreeList.addAll valPrior 10 tlDemo0 [vn 5 1, vn 3 2, vn 8 3, vn 1 4, vn 3 5]).bind
      (fun L => L.toList 10)) = some [vn 1 4, vn 3 2, vn 3 5, vn 5 1, vn 8 3] :=
  ⟨traversal_order valPrior strictWeak_valPrior tlDemo7 _ tlDemo7_reach 10 (by decide),
    by decide, by decide, by decide⟩

/-- C8. Round-trip membership. For a valid list `L` under a strict weak order
and a node `n` in no structure, `L.add(n)` followed by `L.remove(n)` return,
given fuel above `ln + 1`; afterwards `has(n)` is false, `canHave(n)` is true
(all links of `n` are `null` and its colour is red), `size` is as before the
`add`, and the forward traversal is the same sequence of nodes as before. -/
theorem round_trip (prior : α → α → Bool) (sw : StrictWeak prior) (L : TreeList α) (n : α)
    (fuel : Nat) (hv : L.Valid prior) (hfree : L.store.Free n) (hf : L.ln + 1 < fuel) :
    ∃ L1 L2 xs, L.add prior fuel n = some L1 ∧ L1.remove fuel n = some L2 ∧
      L2.has prior fuel n = some false ∧ L2.canHave n = true ∧ L2.store.Free n ∧
      L2.size = L.size ∧ L.toList fuel = some xs ∧ L2.toList fuel = some xs := by
  obtain ⟨t, hm⟩ := hv
  have hsz := hm.size
  obtain ⟨hnt, _⟩ := Store.Free.not_mem prior L t n hm hfree
  obtain ⟨L1, t1, A, B, e1, e2, e3, e4, e5, e6, e7⟩ :=
    TreeList.add_models prior sw L t n fuel hm hfree (by omega)
  have hsz1 := e2.size
  have hlen1 : t1.toList.length = t.toList.length + 1 := by
    rw [e5, e4]
    simp only [List.length_append, List.length_cons]
    omega
  obtain ⟨L2, t2, g1, g2, g3, g4, g5, g6⟩ :=
    TreeList.remove_models prior L1 t1 n fuel e2 (by rw [e5]; simp) (by omega)
  have hnA : n ∉ A := fun h => hnt (by rw [e4]; exact List.mem_append_left _ h)
  have ht2 : t2.toList = t.toList := by rw [g4, e5, erase_middle A B n hnA, e4]
  have hsz2 := g2.size
  have hln2 : L2.ln = L.ln := by rw [hsz2, ht2, hsz]
  refine ⟨L1, L2, t.toList, e1, g1, ?_, ?_, g5, hln2, hm.toList_eq prior L t fuel (by omega), ?_⟩
  · rw [g2.has_eq prior L2 t2 n fuel (by omega), ht2]
    simp [hnt]
  · obtain ⟨f1, _, f3, _, _, f6⟩ := g5
    simp [TreeList.canHave, Link.not_in_list, Tree.not_in_tree, f1, f3, f6]
  · rw [← ht2]
    exact g2.toList_eq prior L2 t2 fuel (by omega)

/-- Instance of C8: `add` and `remove` of a node of value 4 on the list of
5, 3, 8, 1 and a second 3. -/
theorem round_trip_witness :
    ∃ L1 L2 xs, tlDemo5.add valPrior 10 (vn 4 9) = some L1 ∧ L1.remove 10 (vn 4 9) = some L2 ∧
      L2.has valPrior 10 (vn 4 9) = some false ∧ L2.canHave (vn 4 9) = true ∧
      L2.store.Free (vn 4 9) ∧ L2.size = tlDemo5.size ∧ tlDemo5.toList 10 = some xs ∧
      L2.toList 10 = some xs :=
  round_trip valPrior strictWeak_valPrior tlDemo5 (vn 4 9) 10 tlDemo5_valid (by decide) (by decide)

/-- Instance of C9 at the list of 5, 3, 8, 1 and a second 3, for the second
node of value 3. -/
theorem has_exact_witness :
    ∃ xs, tlDemo5.toList 10 = some xs ∧
      tlDemo5.has valPrior 10 (vn 3 5) = some (decide ((vn 3 5) ∈ xs)) :=
  has_exact valPrior tlDemo5 (vn 3 5) 10 tlDemo5_valid (by decide)

theorem tlDemo4_toList : tlDemo4.toList 10 = some [vn 1 4, vn 3 2, vn 5 1, vn 8 3] := by decide

/-- Instance of C10 at the list of 5, 3, 8, 1, for the node of value 8. -/
theorem uniHas_exact_witness :
    ∃ xs, tlDemo4.toList 10 = some xs ∧
      tlDemo4.uniHas valPrior 10 (vn 8 3) = some (decide ((vn 8 3) ∈ xs)) ∧
      tlDemo4.uniHas valPrior 10 (vn 8 3) = tlDemo4.has valPrior 10 (vn 8 3) :=
  uniHas_exact valPrior tlDemo4 (vn 8 3) 10 tlDemo4_valid (by decide) (fun xs h => by
    rw [tlDemo4_toList] at h
    cases h
    decide)

/-- On a queue with the queue invariant, `has(n)` is true exactly for the
nodes of the slots below `ln`, for every node whose `_lh_idx` is -1, undefined
or its slot in a queue with the invariant. -/
theorem has_iff_hmem (prior : α → α → Bool) (q : HeapQueue α) (n : α) (hinv : HeapInv prior q)
    (hn : not_in_heap q.mem n = true ∨
      ∃ q2 : HeapQueue α, HeapInv prior q2 ∧ q2.mem.idx = q.mem.idx ∧ HMem q2.mem q2.ln n) :
    q.has n = true ↔ HMem q.mem q.ln n := by
  constructor
  · intro h
    rw [HeapQueue.has] at h
    rcases hn with hn | ⟨q2, hinv2, hidx, k, hk0, hk1, hk⟩
    · rw [if_pos hn] at h; exact Bool.noConfusion h
    · have h2 : q.mem.idx n = some k := by
        rw [← hidx]; exact hinv2.part.idx k n hk0 hk1 (by omega) hk
      rw [h2] at h
      split at h
      · exact Bool.noConfusion h
      · simp only [Bool.and_eq_true, decide_eq_true_eq] at h
        exact ⟨k, hk0, h.1, h.2⟩
  · rintro ⟨k, hk0, hk1, hk⟩
    have h2 : q.mem.idx n = some k := hinv.part.idx k n hk0 hk1 (by omega) hk
    have h3 : not_in_heap q.mem n = false := by
      simp only [not_in_heap, h2, Bool.or_eq_false_iff, decide_eq_false_iff_not]
      constructor
      · intro e; cases e; omega
      · intro e; cases e
    rw [HeapQueue.has, h3, h2]
    simp [hk1, hk]

/-- `shift_up` from a hole other than slot 0 leaves slot 0 as it is, when
`li` is not prior to the node of slot 0. -/
theorem shift_up_top (prior : α → α → Bool) (li : α) :
    ∀ (fuel : Nat) (m m' : HeapMem α) (i : Int), i ≠ 0 →
      (∀ x, m.arr 0 = some x → prior li x = false) →
      shift_up prior li fuel m i = some m' → m'.arr 0 = m.arr 0 := by
  intro fuel
  induction fuel with
  | zero => intro m m' i _ _ h; simp [shift_up] at h
  | succ f ih =>
    intro m m' i hi ht h
    rw [shift_up] at h
    split at h
    · rename_i hj
      split at h
      · exact Option.noConfusion h
      · rename_i aj haj
        split at h
        · rename_i hpr
          have hj0 : sar1 (i - 1) ≠ 0 := by
            intro e
            rw [e] at haj
            rw [ht aj haj] at hpr
            exact Bool.noConfusion hpr
          have e1 : (m.put i aj).arr 0 = m.arr 0 := by
            rw [put_arr, if_neg (fun e => hi e.symm)]
          rw [ih (m.put i aj) m' _ hj0 (by rw [e1]; exact ht) h, e1]
        · cases h
          rw [put_arr, if_neg (fun e => hi e.symm)]
    · cases h
      rw [put_arr, if_neg (fun e => hi e.symm)]

/-- `shift_down` from a hole below slot 0 leaves slot 0 as it is. -/
theorem shift_down_top (prior : α → α → Bool) (li : α) (ln : Int) (hln : ln ≤ 1073741824) :
    ∀ (fuel : Nat) (m m' : HeapMem α) (i : Int), 0 < i → i < 1073741824 →
      shift_down prior li ln fuel m i = some m' → m'.arr 0 = m.arr 0 := by
  intro fuel
  induction fuel with
  | zero => intro m m' i _ _ h; simp [shift_down] at h
  | succ f ih =>
    intro m m' i hi hi2 h
    have hj : shl1 i + 1 = 2 * i + 1 := shl1_exact i (by omega) hi2
    have hne : (0 : Int) ≠ i := by omega
    rw [shift_down] at h
    simp only [hj] at h
    split at h
    · rename_i hjl
      split at h
      · exact Option.noConfusion h
      · rename_i j hpick
        have hjr : (j = 2 * i + 1 ∨ j = 2 * i + 2) ∧ j < ln := by
          rw [shift_down_pick] at hpick
          split at hpick
          · rename_i hk
            split at hpick
            · cases hpick
              split
              · exact ⟨Or.inr (by omega), by omega⟩
              · exact ⟨Or.inl rfl, hjl⟩
            · exact Option.noConfusion hpick
          · cases hpick; exact ⟨Or.inl rfl, hjl⟩
        split at h
        · exact Option.noConfusion h
        · rename_i aj haj
          split at h
          · have e1 : (m.put i aj).arr 0 = m.arr 0 := by rw [put_arr, if_neg hne]
            rw [ih (m.put i aj) m' j (by omega) (by omega) h, e1]
          · cases h; rw [put_arr, if_neg hne]
    · cases h; rw [put_arr, if_neg hne]

/-- `dequeue()` on a queue of size 0 whose array has no property `-1` ends
in a TypeError, whatever the slot 0 holds. -/
theorem dequeue_empty_none (prior : α → α → Bool) (fuel : Nat) (q : HeapQueue α)
    (h0 : q.ln = 0) (hu : q.mem.arr (-1) = none) : q.dequeue prior fuel = none := by
  rw [HeapQueue.dequeue, Alg.dequeue]
  simp only [h0, zero_sub, hu]
  cases q.mem.arr 0 <;> rfl

/-- C11 (`HeapQueue.has` is exact).  For a strict weak order `prior`, a
queue `q` reached by valid operations and a node `n` that is not in any heap
(`_lh_idx` is -1 or undefined) or is a member of a queue that satisfies the
queue invariant on the same `_lh_idx` fields (as every reached queue does, `q`
itself included), `q.has(n)` is true if and only if `n` is `arr[i]` for some
`0 ≤ i < ln` of `q`. -/
theorem queue_membership_exact (prior : α → α → Bool) (sw : StrictWeak prior) (q : HeapQueue α) (n : α)
    (hr : HeapQueue.Reach prior q)
    (hn : not_in_heap q.mem n = true ∨
      ∃ q2 : HeapQueue α, HeapInv prior q2 ∧ q2.mem.idx = q.mem.idx ∧ HMem q2.mem q2.ln n) :
    q.has n = true ↔ ∃ i, 0 ≤ i ∧ i < q.ln ∧ q.mem.arr i = some n :=
  has_iff_hmem prior q n (HeapQueue.Reach.inv prior sw q hr) hn

/-- Instance of C11 at the queue built from `[5, 3, 8, 1]` by `enqueue(4)` and
`remove(3)`: for its member 1, for the removed node 3 (whose `_lh_idx` is -1)
and for the node 7 that never was in a heap. -/
theorem queue_membership_exact_witness :
    (heapDemo2.has 1 = true ↔ ∃ i, 0 ≤ i ∧ i < heapDemo2.ln ∧ heapDemo2.mem.arr i = some 1) ∧
    (heapDemo2.has 3 = true ↔ ∃ i, 0 ≤ i ∧ i < heapDemo2.ln ∧ heapDemo2.mem.arr i = some 3) ∧
    (heapDemo2.has 7 = true ↔ ∃ i, 0 ≤ i ∧ i < heapDemo2.ln ∧ heapDemo2.mem.arr i = some 7) ∧
    heapDemo2.has 1 = true ∧ heapDemo2.has 3 = false ∧ heapDemo2.has 7 = false :=
  ⟨queue_membership_exact priorLt strictWeak_priorLt heapDemo2 1 heapDemo2_reach
      (Or.inr ⟨heapDemo2, HeapQueue.Reach.inv priorLt strictWeak_priorLt heapDemo2 heapDemo2_reach,
        rfl, 0, by decide, by decide, by decide⟩),
    queue_membership_exact priorLt strictWeak_priorLt heapDemo2 3 heapDemo2_reach (Or.inl (by decide)),
    queue_membership_exact priorLt strictWeak_priorLt heapDemo2 7 heapDemo2_reach (Or.inl (by decide)),
    by decide, by decide, by decide⟩

/-- C13 (top stability).  For a strict weak order `prior` and a non-empty
queue with the queue invariant whose first node is `t`: (a) `enqueue(n)` of a
non-member `n` with `prior(n, t)` false returns, given fuel above `ln`, and
leaves `first()` equal to `t`; (b) `remove(n)` of a member `n` other than `t`
returns, given fuel above `ln`, and leaves `first()` equal to `t`. -/
theorem top_stability (prior : α → α → Bool) (sw : StrictWeak prior) (q : HeapQueue α) (t : α)
    (hinv : HeapInv prior q) (hpos : 0 < q.ln) (ht : q.first.2 = some t) :
    (∀ (n : α) (fuel : Nat), ¬ HMem q.mem q.ln n → q.ln < 1073741824 → prior n t = false →
      q.ln < fuel → ∃ q', q.enqueue prior fuel n = some q' ∧ q'.first.2 = some t) ∧
    (∀ (n : α) (fuel : Nat), HMem q.mem q.ln n → n ≠ t → q.ln < fuel →
      ∃ q', q.remove prior fuel n = some q' ∧ q'.first.2 = some t) := by
  have ht0 : q.mem.arr 0 = some t := ht
  have hhi := hinv.hi
  constructor
  · intro n fuel hn hlt hpr hf
    obtain ⟨q', h, _⟩ := enqueue_spec prior sw q n fuel hinv hlt hn hf
    refine ⟨q', h, ?_⟩
    rw [HeapQueue.enqueue, Alg.enqueue] at h
    cases hs : shift_up prior n fuel q.mem q.ln with
    | none => rw [hs] at h; exact Option.noConfusion h
    | some m1 =>
      rw [hs] at h
      cases h
      have := shift_up_top prior n fuel q.mem m1 q.ln (by omega)
        (by intro x hx; rw [ht0] at hx; cases hx; exact hpr) hs
      rw [HeapQueue.first]
      exact this.trans ht0
  · intro n fuel hm hnt hf
    obtain ⟨q', h, _⟩ := remove_spec prior sw q n fuel hinv hm hf
    refine ⟨q', h, ?_⟩
    obtain ⟨k, hk0, hk1, hk⟩ := hm
    have hkne : k ≠ 0 := by
      intro e; rw [e, ht0] at hk; cases hk; exact hnt rfl
    have hidx : q.mem.idx n = some k := hinv.part.idx k n hk0 hk1 (by omega) hk
    obtain ⟨li, hli⟩ := hinv.part.nodes (q.ln - 1) (by omega) (by omega) (by omega)
    have hlt : prior li t = false :=
      HeapInv.top_min prior sw q hinv t ht0 li ⟨q.ln - 1, by omega, by omega, hli⟩
    have hne0 : (0 : Int) ≠ q.ln - 1 := by omega
    have e0 : Function.update q.mem.arr (q.ln - 1) none 0 = some t := by
      rw [Function.update_noteq hne0]; exact ht0
    rw [HeapQueue.remove, Alg.remove] at h
    simp only [hidx, hli] at h
    rw [HeapQueue.first]
    split at h
    · split at h
      · cases hs : shift_down prior li (q.ln - 1) fuel
          { arr := Function.update q.mem.arr (q.ln - 1) none,
            idx := Function.update q.mem.idx n (some (-1)) } k with
        | none => rw [hs] at h; exact Option.noConfusion h
        | some m2 =>
          rw [hs] at h
          cases h
          have := shift_down_top prior li (q.ln - 1) (by omega) fuel _ m2 k (by omega) (by omega) hs
          exact this.trans e0
      · cases hs : shift_up prior li fuel
          { arr := Function.update q.mem.arr (q.ln - 1) none,
            idx := Function.update q.mem.idx n (some (-1)) } k with
        | none => rw [hs] at h; exact Option.noConfusion h
        | some m2 =>
          rw [hs] at h
          cases h
          have := shift_up_top prior li fuel _ m2 k hkne
            (by intro x hx; have hx2 := e0.symm.trans hx; cases hx2; exact hlt) hs
          exact this.trans e0
    · cases h
      exact e0

/-- Instance of C13 at the queue built from `[5, 3, 8, 1]`, whose first node
is 1. -/
theorem top_stability_witness :
    (∀ (n : Nat) (fuel : Nat), ¬ HMem heapDemo.mem heapDemo.ln n → heapDemo.ln < 1073741824 →
      priorLt n 1 = false → heapDemo.ln < fuel →
      ∃ q', heapDemo.enqueue priorLt fuel n = some q' ∧ q'.first.2 = some 1) ∧
    (∀ (n : Nat) (fuel : Nat), HMem heapDemo.mem heapDemo.ln n → n ≠ 1 → heapDemo.ln < fuel →
      ∃ q', heapDemo.remove priorLt fuel n = some q' ∧ q'.first.2 = some 1) :=
  top_stability priorLt strictWeak_priorLt heapDemo 1 heapDemo_post.inv
    (by rw [heapDemo_post.size]; decide) (by decide)

/-- C16 (the code at the failing input).  `dequeue()` on the queue
`new HeapQueue(prior)` and on the queue emptied by four calls of `dequeue()`
ends in a TypeError (result `none`) for every fuel: `arr[-1]` is undefined,
so `shift_down` ends in `(arr[0] = undefined)._lh_idx = 0`. -/
theorem dequeue_empty_throws :
    (∀ fuel fuel2 : Nat, (HeapQueue.new priorLt fuel (fun _ => none) []).bind
      (fun q => q.dequeue priorLt fuel2) = none) ∧
    (heapDemo.dequeueN priorLt 20 4).map (fun r => r.1) = some heapDrained ∧
    heapDrained.size = 0 ∧
    (∀ fuel : Nat, heapDrained.dequeue priorLt fuel = none) := by
  refine ⟨?_, rfl, by decide, ?_⟩
  · intro fuel fuel2
    have e : HeapQueue.new priorLt fuel (fun _ => none) [] =
        some { mem := { arr := arrOfList [], idx := fun _ => none }, ln := 0 } := rfl
    rw [e, Option.some_bind]
    exact dequeue_empty_none priorLt fuel2 _ rfl rfl
  · intro fuel
    exact dequeue_empty_none priorLt fuel heapDrained (by decide) (by decide)

theorem members_range (f : Nat → Option α) :
    ∀ N : Nat, (∀ k, k < N → ∃ n, f k = some n) →
      (∀ k k2 n, k < N → k2 < N → f k = some n → f k2 = some n → k = k2) →
      ((List.range N).filterMap f).length = N ∧ ((List.range N).filterMap f).Nodup ∧
      ∀ x, x ∈ (List.range N).filterMap f ↔ ∃ k, k < N ∧ f k = some x := by
  intro N
  induction N with
  | zero => intro _ _; simp
  | succ N ih =>
    intro h1 h2
    obtain ⟨a1, a2, a3⟩ := ih (fun k hk => h1 k (by omega))
      (fun k k2 n hk hk2 => h2 k k2 n (by omega) (by omega))
    obtain ⟨n, hn⟩ := h1 N (by omega)
    have e : (List.range (N + 1)).filterMap f = (List.range N).filterMap f ++ [n] := by
      rw [List.range_succ, List.filterMap_append]
      simp [hn]
    rw [e]
    refine ⟨by simp [a1], ?_, ?_⟩
    · rw [List.nodup_append]
      refine ⟨a2, List.nodup_singleton n, ?_⟩
      intro x hx hx2
      rw [List.mem_singleton] at hx2
      subst hx2
      obtain ⟨k, hk, hk2⟩ := (a3 x).1 hx
      have := h2 k N x (by omega) (by omega) hk2 hn
      omega
    · intro x
      rw [List.mem_append, a3 x, List.mem_singleton]
      constructor
      · rintro (⟨k, hk, hk2⟩ | rfl)
        · exact ⟨k, by omega, hk2⟩
        · exact ⟨N, by omega, hn⟩
      · rintro ⟨k, hk, hk2⟩
        by_cases hkN : k = N
        · subst hkN; rw [hn] at hk2; cases hk2; exact Or.inr rfl
        · exact Or.inl ⟨k, by omega, hk2⟩

/-- The member nodes of a queue with the invariant: `ln` distinct nodes, those
of the slots below `ln`. -/
theorem HeapInv.members_spec (prior : α → α → Bool) (q : HeapQueue α) (hinv : HeapInv prior q) :
    (q.members.length : Int) = q.ln ∧ q.members.Nodup ∧
      ∀ x, x ∈ q.members ↔ HMem q.mem q.ln x := by
  have h0 := hinv.lo
  obtain ⟨a1, a2, a3⟩ := members_range (fun k : Nat => q.mem.arr (k : Int)) q.ln.toNat
    (fun k hk => hinv.part.nodes k (by omega) (by omega) (by omega))
    (fun k k2 n hk hk2 e1 e2 => by
      have := hinv.part.inj k k2 n (by omega) (by omega) (by omega) (by omega) (by omega)
        (by omega) e1 e2
      omega)
  refine ⟨by rw [HeapQueue.members, a1]; omega, a2, ?_⟩
  intro x
  rw [HeapQueue.members, a3 x]
  constructor
  · rintro ⟨k, hk, hk2⟩
    exact ⟨k, by omega, by omega, hk2⟩
  · rintro ⟨k, hk0, hk1, hk2⟩
    refine ⟨k.toNat, by omega, ?_⟩
    have : ((k.toNat : Nat) : Int) = k := by omega
    rw [this]; exact hk2

theorem HeapQueue.Run.toReach (prior : α → α → Bool) (sw : StrictWeak prior) (q : HeapQueue α)
    (a d : Nat) (hr : HeapQueue.Run prior q a d) :
    HeapQueue.Reach prior q ∧ q.ln = (a : Int) - d := by
  induction hr with
  | new fuel idx q h =>
    have hp := HeapQueue.new_inv prior sw fuel idx [] q List.nodup_nil (by simp) h
    exact ⟨HeapQueue.Reach.new fuel idx [] q List.nodup_nil (by simp) h, by rw [hp.size]; simp⟩
  | enqueue fuel q q' n a d _ hn hlt h ih =>
    have hp := HeapQueue.enqueue_inv prior sw fuel q q' n (HeapQueue.Reach.inv prior sw q ih.1)
      hlt hn h
    exact ⟨HeapQueue.Reach.enqueue fuel q q' n ih.1 hn hlt h, by rw [hp.size, ih.2]; push_cast; omega⟩
  | dequeue fuel q q' r a d _ hpos h ih =>
    obtain ⟨n, _, _, hp⟩ := HeapQueue.dequeue_inv prior sw fuel q q' r
      (HeapQueue.Reach.inv prior sw q ih.1) hpos h
    exact ⟨HeapQueue.Reach.dequeue fuel q q' r ih.1 hpos h, by rw [hp.size, ih.2]; push_cast; omega⟩
  | remove fuel q q' n a d _ hm h ih =>
    have hp := HeapQueue.remove_inv prior sw fuel q q' n (HeapQueue.Reach.inv prior sw q ih.1) hm h
    exact ⟨HeapQueue.Reach.remove fuel q q' n ih.1 hm h, by rw [hp.size, ih.2]; push_cast; omega⟩

theorem TreeList.Run.toListReach (prior : α → α → Bool) (L : TreeList α) (hist : List α)
    (a d : Nat) (hr : TreeList.Run prior L hist a d) :
    TreeList.Reach prior L hist ∧ hist.length + d = a := by
  induction hr with
  | new s head => exact ⟨TreeList.Reach.new s head, rfl⟩
  | add fuel L L' n hist a d _ hfree h ih =>
    exact ⟨TreeList.Reach.add fuel L L' n hist ih.1 hfree h, by
      rw [List.length_append, List.length_singleton]; omega⟩
  | remove fuel L L' n hist a d _ hn h ih =>
    refine ⟨TreeList.Reach.remove fuel L L' n hist ih.1 hn h, ?_⟩
    have h1 := List.length_erase_of_mem hn
    have h2 : 0 < hist.length := List.length_pos_of_mem hn
    omega

theorem arrOfList_nil_eq : (arrOfList ([] : List (Option α))) = fun _ => none := by
  funext i
  simp [arrOfList]

theorem arrOfList_clip (l : List (Option α)) :
    (fun i : Int => if 0 ≤ i ∧ i < (l.length : Int) then arrOfList l i else none) = arrOfList l := by
  funext i
  by_cases h : 0 ≤ i ∧ i < (l.length : Int)
  · rw [if_pos h]
  · rw [if_neg h]
    unfold arrOfList
    by_cases h0 : 0 ≤ i
    · rw [if_pos h0]
      have : l.length ≤ i.toNat := by omega
      rw [List.getElem?_eq_none this]; rfl
    · rw [if_neg h0]

/-- The constructor on array objects builds the queue of `HeapQueue.new` in a
new array object. -/
theorem HeapQueue.construct_eq (prior : α → α → Bool) (fuel : Nat) (idx : α → Option Int)
    (o : ArrObjs α) (a : Nat) (l : List (Option α))
    (hel : o.elems a = arrOfList l) (hl : o.length a = l.length) :
    HeapQueue.construct prior fuel idx o (some a) =
      (HeapQueue.new prior fuel idx l).map (fun q =>
        ({ elems := Function.update o.elems o.fresh q.mem.arr,
           length := Function.update o.length o.fresh l.length,
           fresh := o.fresh + 1 }, o.fresh, q)) := by
  rw [HeapQueue.construct, HeapQueue.new]
  simp only [hl, ArrObjs.spread, ArrObjs.empty, Function.update_same, hel, arrOfList_clip]
  by_cases h0 : l.length ≠ 0
  · rw [if_pos h0, if_pos h0]
    cases heapify prior fuel { arr := arrOfList l, idx := idx } l.length with
    | none => rfl
    | some m => simp only [Option.map_some', Function.update_idem]
  · rw [if_neg h0, if_neg h0]
    have hnil : l = [] := by
      cases l with
      | nil => rfl
      | cons x t => simp at h0
    subst hnil
    simp only [Option.map_some', arrOfList_nil_eq, List.length_nil, Nat.cast_zero]

/-- C12 (size invariant).  For a strict weak order `prior`: after every
sequence of precondition-respecting calls on a queue that started as
`new HeapQueue(prior)` (`a` calls of `enqueue`, `d` calls of `dequeue` and
`remove`), `size` is `a - d`, is the number of member nodes (the distinct nodes
of the slots below `ln`) and is not negative; after every such sequence on a
list that started as `new TreeList(prior)` (`a` calls of `add`, `d` calls of
`remove`), `size` is `a - d`, is the number of nodes of the forward traversal
(the distinct member nodes) and is not negative. -/
theorem size_invariant (prior : α → α → Bool) (sw : StrictWeak prior) :
    (∀ (q : HeapQueue α) (a d : Nat), HeapQueue.Run prior q a d →
      q.size = (a : Int) - d ∧ q.size = q.members.length ∧ q.members.Nodup ∧
      (∀ x, x ∈ q.members ↔ HMem q.mem q.ln x) ∧ 0 ≤ q.size) ∧
    (∀ (L : TreeList α) (hist : List α) (a d : Nat), TreeList.Run prior L hist a d →
      L.size = (a : Int) - d ∧
      (∃ xs, L.toList (xs.length + 1) = some xs ∧ L.size = xs.length ∧ xs.Nodup ∧
        ∀ x, x ∈ xs ↔ x ∈ hist) ∧
      0 ≤ L.size) := by
  constructor
  · intro q a d hr
    obtain ⟨h1, h2⟩ := HeapQueue.Run.toReach prior sw q a d hr
    have hinv := HeapQueue.Reach.inv prior sw q h1
    obtain ⟨m1, m2, m3⟩ := HeapInv.members_spec prior q hinv
    exact ⟨h2, m1.symm, m2, m3, hinv.lo⟩
  · intro L hist a d hr
    obtain ⟨h1, h2⟩ := TreeList.Run.toListReach prior L hist a d hr
    obtain ⟨t, hm, hmem, hnd, _⟩ := TreeList.Reach.listInv prior sw L hist h1
    have hlen : hist.length = t.toList.length :=
      List.Perm.length_eq ((List.perm_ext_iff_of_nodup hnd hm.nodup).2 hmem)
    have hsz : L.ln = t.toList.length := hm.size
    refine ⟨?_, ⟨t.toList, ?_, hsz, hm.nodup, fun x => (hmem x).symm⟩, ?_⟩
    · rw [TreeList.size, hsz, ← hlen, ← h2]; push_cast; omega
    · exact hm.toList_eq prior L t _ (by rw [hsz]; push_cast; omega)
    · rw [TreeList.size, hsz]; omega

theorem heapRun3_run : HeapQueue.Run priorLt heapRun3 2 1 := by
  have r0 : HeapQueue.Run priorLt heapRun0 0 0 := HeapQueue.Run.new 20 (fun _ => none) heapRun0 rfl
  have p0 : NewPost priorLt [] (fun _ => none) heapRun0 :=
    HeapQueue.new_inv priorLt strictWeak_priorLt 20 _ [] heapRun0 (by decide) (by decide) rfl
  have n0 : ¬ HMem heapRun0.mem heapRun0.ln 5 := by rw [p0.mem]; decide
  have r1 : HeapQueue.Run priorLt heapRun1 1 0 :=
    HeapQueue.Run.enqueue 20 heapRun0 heapRun1 5 0 0 r0 n0 (by decide) rfl
  have p1 : EnqPost priorLt heapRun0 heapRun1 5 :=
    HeapQueue.enqueue_inv priorLt strictWeak_priorLt 20 heapRun0 heapRun1 5 p0.inv (by decide) n0 rfl
  have n1 : ¬ HMem heapRun1.mem heapRun1.ln 3 := by rw [p1.mem, p0.mem]; decide
  have r2 : HeapQueue.Run priorLt heapRun2 2 0 :=
    HeapQueue.Run.enqueue 20 heapRun1 heapRun2 3 1 0 r1 n1 (by decide) rfl
  exact HeapQueue.Run.dequeue 20 heapRun2 heapRun3 (some 3) 2 0 r2 (by decide) rfl

theorem tlDemo7_run :
    TreeList.Run valPrior tlDemo7 [vn 5 1, vn 8 3, vn 1 4, vn 3 5, vn 3 2] 6 1 := by
  have r0 : TreeList.Run valPrior tlDemo0 [] 0 0 := TreeList.Run.new emptyStore (vn 0 0)
  have r1 := TreeList.Run.add 10 tlDemo0 tlDemo1 (vn 5 1) [] 0 0 r0 (by decide) tlDemo1_eq
  have r2 := TreeList.Run.add 10 tlDemo1 tlDemo2 (vn 3 2) _ 1 0 r1 (by decide) tlDemo2_eq
  have r3 := TreeList.Run.add 10 tlDemo2 tlDemo3 (vn 8 3) _ 2 0 r2 (by decide) tlDemo3_eq
  have r4 := TreeList.Run.add 10 tlDemo3 tlDemo4 (vn 1 4) _ 3 0 r3 (by decide) tlDemo4_eq
  have r5 := TreeList.Run.add 10 tlDemo4 tlDemo5 (vn 3 5) _ 4 0 r4 (by decide) tlDemo5_eq
  have r6 := TreeList.Run.remove 10 tlDemo5 tlDemo6 (vn 3 2) _ 5 0 r5 (by decide) tlDemo6_eq
  exact TreeList.Run.add 10 tlDemo6 tlDemo7 (vn 3 2) _ 5 1 r6 (by decide) tlDemo7_eq

/-- Instance of C12: the queue after `enqueue(5)`, `enqueue(3)`, `dequeue()`
has size 2 - 1, and the list after six calls of `add` and one of `remove` has
size 6 - 1. -/
theorem size_invariant_witness :
    (heapRun3.size = ((2 : Nat) : Int) - (1 : Nat) ∧ heapRun3.size = heapRun3.members.length ∧
      heapRun3.members.Nodup ∧
      (∀ x, x ∈ heapRun3.members ↔ HMem heapRun3.mem heapRun3.ln x) ∧ 0 ≤ heapRun3.size) ∧
    (tlDemo7.size = ((6 : Nat) : Int) - (1 : Nat) ∧
      (∃ xs, tlDemo7.toList (xs.length + 1) = some xs ∧ tlDemo7.size = xs.length ∧ xs.Nodup ∧
        ∀ x, x ∈ xs ↔ x ∈ [vn 5 1, vn 8 3, vn 1 4, vn 3 5, vn 3 2]) ∧
      0 ≤ tlDemo7.size) :=
  ⟨(size_invariant priorLt strictWeak_priorLt).1 heapRun3 2 1 heapRun3_run,
    (size_invariant valPrior strictWeak_valPrior).2 tlDemo7 _ 6 1 tlDemo7_run⟩

/-- C15 (bulk construction).  For a strict weak order `prior` and an array
object `a` holding the distinct nodes `nodes` (at most `2^30` of them; their
`_lh_idx` fields are arbitrary), `new HeapQueue(prior, arr)` returns, given
fuel above `2 * arr.length + 1`, with a queue in a new array object: its size
is `arr.length`, its member nodes `arr[0..ln)` are a permutation of the input
nodes, it satisfies the heap order, `arr[i]._lh_idx = i` for every `i < ln`,
and the caller's array still has the same length and holds the same nodes at
the same positions. -/
theorem bulk_construction (prior : α → α → Bool) (sw : StrictWeak prior) (fuel : Nat)
    (idx : α → Option Int) (o : ArrObjs α) (a : Nat) (nodes : List α)
    (hnd : nodes.Nodup) (hlen : (nodes.length : Int) ≤ 1073741824)
    (hf : 2 * (nodes.length : Int) + 1 < fuel)
    (ha : a < o.fresh) (hel : o.elems a = arrOfList (nodes.map some))
    (hl : o.length a = nodes.length) :
    ∃ o' c q, HeapQueue.construct prior fuel idx o (some a) = some (o', c, q) ∧
      HeapQueue.new prior fuel idx (nodes.map some) = some q ∧
      o'.elems c = q.mem.arr ∧ c ≠ a ∧
      q.size = nodes.length ∧ q.members.Perm nodes ∧ HeapOrder prior q ∧
      (∀ i x, 0 ≤ i → i < q.ln → q.mem.arr i = some x → q.mem.idx x = some i) ∧
      o'.length a = nodes.length ∧ o'.elems a = arrOfList (nodes.map some) := by
  obtain ⟨q, hq, hp⟩ := HeapQueue.new_spec prior sw fuel idx nodes hnd hlen hf
  have hne : a ≠ o.fresh := by omega
  have hc := HeapQueue.construct_eq prior fuel idx o a (nodes.map some) hel (by simp [hl])
  rw [hq, Option.map_some'] at hc
  obtain ⟨m1, m2, m3⟩ := HeapInv.members_spec prior q hp.inv
  refine ⟨_, _, q, hc, hq, by simp, fun e => hne e.symm, hp.size, ?_, HeapInv.order prior q hp.inv,
    ?_, ?_, ?_⟩
  · exact (List.perm_ext_iff_of_nodup m2 hnd).2 (fun x => by rw [m3 x, hp.mem x])
  · intro i x h0 h1 hx
    exact hp.inv.part.idx i x h0 h1 (by omega) hx
  · simp only [Function.update_noteq hne, hl]
  · simp only [Function.update_noteq hne, hel]

/-- Instance of C15 at the array `[5, 3, 8, 1]` under "lower value is
prior". -/
theorem bulk_construction_witness :
    ∃ o' c q, HeapQueue.construct priorLt 20 (fun _ => none) arrDemo (some 0) = some (o', c, q) ∧
      HeapQueue.new priorLt 20 (fun _ => none) ([5, 3, 8, 1].map some) = some q ∧
      o'.elems c = q.mem.arr ∧ c ≠ 0 ∧
      q.size = [5, 3, 8, 1].length ∧ q.members.Perm [5, 3, 8, 1] ∧ HeapOrder priorLt q ∧
      (∀ i x, 0 ≤ i → i < q.ln → q.mem.arr i = some x → q.mem.idx x = some i) ∧
      o'.length 0 = [5, 3, 8, 1].length ∧ o'.elems 0 = arrOfList ([5, 3, 8, 1].map some) :=
  bulk_construction priorLt strictWeak_priorLt 20 (fun _ => none) arrDemo 0 [5, 3, 8, 1]
    (by decide) (by decide) (by decide) (by decide) rfl rfl

theorem insertBeforePrior_split (prior : α → α → Bool) (n : α) :
    ∀ (A B : List α), (∀ e, e ∈ A → prior n e = false) → (∀ e, e ∈ B → prior n e = true) →
      insertBeforePrior prior n (A ++ B) = A ++ n :: B := by
  intro A
  induction A with
  | nil =>
    intro B _ hB
    cases B with
    | nil => rfl
    | cons b B => simp [insertBeforePrior, hB b (by simp)]
  | cons a A ih =>
    intro B hA hB
    have h1 : prior n a = false := hA a (by simp)
    have h2 := ih B (fun e he => hA e (by simp [he])) hB
    rw [List.cons_append, insertBeforePrior, h1, h2]
    rfl

/-- The place of `n` at the end of the descent of `add` in a sorted tree: after
the nodes `n` is not prior to and before the nodes it is prior to. -/
theorem insPath_split (prior : α → α → Bool) (sw : StrictWeak prior) (n : α) (t : RBT α)
    (hs : t.toList.Pairwise (fun a b => prior b a = false)) :
    ∃ A B, t.toList = A ++ B ∧
      (plug (.node false .nil n .nil) (RBT.insPath prior n t [])).toList = A ++ n :: B ∧
      (∀ e, e ∈ A → prior n e = false) ∧ (∀ e, e ∈ B → prior n e = true) := by
  have hplug : (plug .nil (RBT.insPath prior n t [])).toList = t.toList := by
    rw [insPath_plug]; rfl
  rw [toList_plug] at hplug
  simp only [RBT.toList, List.append_nil] at hplug
  obtain ⟨h1, h2⟩ := insPath_sides prior sw n t [] hs (by simp [ctxLeft]) (by simp [ctxRight])
  refine ⟨_, _, hplug.symm, ?_, h1, h2⟩
  rw [toList_plug]
  simp [RBT.toList]

theorem insPath_root (prior : α → α → Bool) (n root : α) (t u : RBT α)
    (hroot : t.root = some root) :
    (plug u (RBT.insPath prior n t [])).root = some root := by
  have hne : RBT.insPath prior n t [] ≠ [] := by
    intro e
    have h := insPath_plug prior n t []
    rw [e] at h
    simp only [plug] at h
    rw [← h] at hroot
    simp [RBT.root] at hroot
  rw [root_plug, ctxRoot_irrel _ _ (RBT.nil : RBT α).root hne, ← root_plug, insPath_plug, ← hroot]
  rfl

/-- An iteration of the loop of `rb_add` that does not end in a TypeError read
a non-null parent `lp`, and a non-null grandparent `lpp` when `lp` is red. -/
theorem rb_add_loop_reads (root : α) (fuel : Nat) (s : Store α) (node : α) (o : Tree.AddLoop α)
    (h : Tree.rb_add_loop root fuel s node = some o) :
    ∃ lp, s.par node = some lp ∧ (s.color lp = 0 → ∃ lpp, s.par lp = some lpp) := by
  cases fuel with
  | zero => simp [Tree.rb_add_loop] at h
  | succ f =>
    rw [Tree.rb_add_loop] at h
    cases hp : s.par node with
    | none => rw [hp] at h; exact Option.noConfusion h
    | some lp =>
      refine ⟨lp, rfl, fun hc => ?_⟩
      rw [hp] at h
      simp only [hc, ne_eq, not_true_eq_false, if_false] at h
      cases hpp : s.par lp with
      | none => rw [hpp] at h; exact Option.noConfusion h
      | some lpp => exact ⟨lpp, rfl⟩

/-- An iteration of the loop of `rb_remove` that does not end in a TypeError
read a non-null sibling `la` whenever the parent `lp` is non-null. -/
theorem rb_remove_loop_reads (fuel : Nat) (s : Store α) (lch : α) (o : Tree.RemLoop α)
    (h : Tree.rb_remove_loop fuel s lch = some o) :
    ∀ lp, s.par lch = some lp →
      ∃ la, (if s.rch lp ≠ some lch then s.rch lp else s.lch lp) = some la := by
  intro lp hp
  cases fuel with
  | zero => simp [Tree.rb_remove_loop] at h
  | succ f =>
    rw [Tree.rb_remove_loop] at h
    simp only [hp] at h
    cases hla : (if s.rch lp ≠ some lch then s.rch lp else s.lch lp) with
    | some la => exact ⟨la, rfl⟩
    | none =>
      rw [hla] at h
      simp at h

/-- The rotation code of `rb_remove` that does not end in a TypeError read a
non-null sibling `la` after its first rotation. -/
theorem rb_remove_fix_reads (s : Store α) (root : Option α) (lp la : α)
    (r : Store α × Option α) (h : Tree.rb_remove_fix s root lp la = some r) :
    ∃ s2 root2 la2, Tree.rb_remove_fix1 s root lp la = some (s2, root2, some la2) := by
  rw [Tree.rb_remove_fix] at h
  split at h
  · rename_i s2 root2 la2 e
    exact ⟨s2, root2, la2, e⟩
  · exact Option.noConfusion h

/-- C17 (no missing node is dereferenced).  The fields `s` hold a valid
red-black tree `t` with root `root`.  Then, given fuel of at least the number
of nodes: `rb_add` of an unattached node returns (its `add`, its loop and the
rotation after the loop all return), and `rb_remove` of a node of the tree,
with `lmax_cache` `null` or the node right before it in order, returns; a
result `none` is a TypeError.  In the model a missing node ends the call in
that error: a loop iteration of `rb_add` that returns has read a non-null
parent `lp` and, when `lp` is red, a non-null grandparent `lpp`; a loop
iteration of `rb_remove` that returns has read a non-null sibling `la`; the
rotation code of `rb_remove` that returns has read a non-null `la` after its
first rotation. -/
theorem no_missing_node (prior : α → α → Bool) (s : Store α) (t : RBT α) (root : α)
    (fuel : Nat) (hr : Repr s t none) (hroot : t.root = some root) (hnd : t.toList.Nodup)
    (hv : t.Valid) (hf : t.toList.length ≤ fuel) :
    (∀ n, n ∉ t.toList → s.lch n = none → s.rch n = none → s.color n = 0 →
      ∃ s1 o res, Tree.add prior fuel s n root = some s1 ∧
        Tree.rb_add_loop root fuel s1 n = some o ∧ o.finish root = some res ∧
        Tree.rb_add prior fuel s n root = some res) ∧
    (∀ n lmax, n ∈ t.toList →
      (lmax = none ∨ ∃ p A B, lmax = some p ∧ t.toList = A ++ p :: n :: B) →
      ∃ res, Tree.rb_remove fuel s n (some root) lmax = some res) ∧
    (∀ (f : Nat) (s2 : Store α) (node : α) (o : Tree.AddLoop α),
      Tree.rb_add_loop root f s2 node = some o →
      ∃ lp, s2.par node = some lp ∧ (s2.color lp = 0 → ∃ lpp, s2.par lp = some lpp)) ∧
    (∀ (f : Nat) (s2 : Store α) (lch : α) (o : Tree.RemLoop α),
      Tree.rb_remove_loop f s2 lch = some o → ∀ lp, s2.par lch = some lp →
      ∃ la, (if s2.rch lp ≠ some lch then s2.rch lp else s2.lch lp) = some la) ∧
    (∀ (s2 : Store α) (root2 : Option α) (lp la : α) (r : Store α × Option α),
      Tree.rb_remove_fix s2 root2 lp la = some r →
      ∃ s3 root3 la3, Tree.rb_remove_fix1 s2 root2 lp la = some (s3, root3, some la3)) := by
  refine ⟨?_, ?_, fun f s2 node o => rb_add_loop_reads root f s2 node o,
    fun f s2 lch o => rb_remove_loop_reads f s2 lch o,
    fun s2 root2 lp la r => rb_remove_fix_reads s2 root2 lp la r⟩
  · intro n hn hl hrc hcol
    obtain ⟨s', r, t', h1, _⟩ := rb_add_sim prior s n root t fuel hr hroot hnd hv hn hl hrc hcol hf
    have h2 := h1
    rw [Tree.rb_add] at h2
    cases ha : Tree.add prior fuel s n root with
    | none => rw [ha] at h2; exact Option.noConfusion h2
    | some s1 =>
      simp only [ha] at h2
      cases hlp : Tree.rb_add_loop root fuel s1 n with
      | none => simp only [hlp] at h2; exact Option.noConfusion h2
      | some o =>
        simp only [hlp] at h2
        exact ⟨s1, o, (s', r), rfl, hlp, h2, h1⟩
  · intro n lmax hn hl
    obtain ⟨s', r, t', h1, _⟩ := rb_remove_sim s t n lmax fuel hr hnd hv hn
      (fun p hp _ _ => by
        rcases hl with e | ⟨p', A, B, e1, e2⟩
        · rw [e] at hp; simp at hp
        · rw [e1] at hp
          simp only [Option.some.injEq] at hp
          subst hp
          exact ⟨A, B, e2⟩) hf
    rw [hroot] at h1
    exact ⟨_, h1⟩

/-- Instance of C17 at the tree with black root 2 and red children 1 and 3. -/
theorem no_missing_node_witness :
    (∀ n, n ∉ (RBT.node true (.node false .nil 1 .nil) 2 (.node false .nil 3 .nil)).toList →
      rbDemoStore3.lch n = none → rbDemoStore3.rch n = none → rbDemoStore3.color n = 0 →
      ∃ s1 o res, Tree.add priorLt 3 rbDemoStore3 n 2 = some s1 ∧
        Tree.rb_add_loop 2 3 s1 n = some o ∧ o.finish 2 = some res ∧
        Tree.rb_add priorLt 3 rbDemoStore3 n 2 = some res) ∧
    (∀ n lmax, n ∈ (RBT.node true (.node false .nil 1 .nil) 2 (.node false .nil 3 .nil)).toList →
      (lmax = none ∨ ∃ p A B, lmax = some p ∧
        (RBT.node true (.node false .nil 1 .nil) 2 (.node false .nil 3 .nil)).toList =
          A ++ p :: n :: B) →
      ∃ res, Tree.rb_remove 3 rbDemoStore3 n (some 2) lmax = some res) ∧
    (∀ (f : Nat) (s2 : Store Nat) (node : Nat) (o : Tree.AddLoop Nat),
      Tree.rb_add_loop 2 f s2 node = some o →
      ∃ lp, s2.par node = some lp ∧ (s2.color lp = 0 → ∃ lpp, s2.par lp = some lpp)) ∧
    (∀ (f : Nat) (s2 : Store Nat) (lch : Nat) (o : Tree.RemLoop Nat),
      Tree.rb_remove_loop f s2 lch = some o → ∀ lp, s2.par lch = some lp →
      ∃ la, (if s2.rch lp ≠ some lch then s2.rch lp else s2.lch lp) = some la) ∧
    (∀ (s2 : Store Nat) (root2 : Option Nat) (lp la : Nat) (r : Store Nat × Option Nat),
      Tree.rb_remove_fix s2 root2 lp la = some r →
      ∃ s3 root3 la3, Tree.rb_remove_fix1 s2 root2 lp la = some (s3, root3, some la3)) :=
  no_missing_node priorLt rbDemoStore3
    (.node true (.node false .nil 1 .nil) 2 (.node false .nil 3 .nil)) 2 3
    ⟨rfl, rfl, rfl, rfl, ⟨rfl, rfl, rfl, rfl, trivial, trivial⟩,
      ⟨rfl, rfl, rfl, rfl, trivial, trivial⟩⟩ rfl (by decide)
    ⟨rfl, ⟨fun h => by simp at h, ⟨fun _ => ⟨rfl, rfl⟩, trivial, trivial⟩,
      ⟨fun _ => ⟨rfl, rfl⟩, trivial, trivial⟩⟩,
      ⟨rfl, ⟨rfl, trivial, trivial⟩, ⟨rfl, trivial, trivial⟩⟩⟩
    (by decide)

/-- C18 (insertion position).  The fields `s` hold a valid red-black tree `t`
with root `root` whose in-order sequence is sorted under the strict weak order
`prior` (no later element strictly prior to an earlier one), and `n` is an
unattached node.  Then `rb_add(n, prior, root)` and the plain
`add(n, prior, root)` both return, given fuel of at least the number of nodes,
and the in-order sequence of the resulting tree (read from the fields by
`specInorder`) is the old sequence with `n` inserted immediately before the
first element `x` with `prior(n, x)`, or at the end if there is none: it is
`A ++ n :: B` for the old sequence `A ++ B`, where `n` is prior to no element
of `A`, so that `n` comes after every element it ties with, and prior to every
element of `B`. -/
theorem insertion_position (prior : α → α → Bool) (sw : StrictWeak prior) (s : Store α)
    (n root : α) (t : RBT α) (fuel : Nat) (hr : Repr s t none) (hroot : t.root = some root)
    (hnd : t.toList.Nodup) (hv : t.Valid)
    (hs : t.toList.Pairwise (fun a b => prior b a = false))
    (hn : n ∉ t.toList) (hl : s.lch n = none) (hrc : s.rch n = none) (hcol : s.color n = 0)
    (hf : t.toList.length ≤ fuel) :
    (∃ s' r, Tree.rb_add prior fuel s n root = some (s', r) ∧
      specInorder s' (fuel + 2) (some r) = some (insertBeforePrior prior n t.toList)) ∧
    (∃ s', Tree.add prior fuel s n root = some s' ∧
      specInorder s' (fuel + 2) (some root) = some (insertBeforePrior prior n t.toList)) ∧
    (∃ A B, t.toList = A ++ B ∧ insertBeforePrior prior n t.toList = A ++ n :: B ∧
      (∀ e, e ∈ A → prior n e = false) ∧ (∀ e, e ∈ B → prior n e = true)) := by
  obtain ⟨A, B, hAB, hpl, hA, hB⟩ := insPath_split prior sw n t hs
  have hins : insertBeforePrior prior n t.toList = A ++ n :: B := by
    rw [hAB]; exact insertBeforePrior_split prior n A B hA hB
  have hlen : (A ++ n :: B).length < fuel + 2 := by
    have : (A ++ n :: B).length = t.toList.length + 1 := by
      rw [hAB]; simp only [List.length_append, List.length_cons]; omega
    omega
  refine ⟨?_, ?_, A, B, hAB, hins, hA, hB⟩
  · obtain ⟨s', r, t', h1, _, h3, h4, _, h6, _⟩ :=
      rb_add_sim prior s n root t fuel hr hroot hnd hv hn hl hrc hcol hf
    refine ⟨s', r, h1, ?_⟩
    rw [hins, ← hpl, ← h6, ← h4]
    exact specInorder_repr s' t' none _ h3 (by rw [h6, hpl]; exact hlen)
  · obtain ⟨s', h1, h2, _⟩ := add_sim prior s n root t fuel hr hroot hnd hn hl hrc hcol hf
    refine ⟨s', h1, ?_⟩
    rw [hins, ← hpl, ← insPath_root prior n root t (.node false .nil n .nil) hroot]
    exact specInorder_repr s' _ none _ h2 (by rw [hpl]; exact hlen)

/-- Instance of C18: adding the node 2 to the tree with the single node 1
gives the sequence 1, 2. -/
theorem insertion_position_witness :
    ((∃ s' r, Tree.rb_add priorLt 1 rbDemoStore 2 1 = some (s', r) ∧
      specInorder s' (1 + 2) (some r) =
        some (insertBeforePrior priorLt 2 (RBT.node true .nil 1 .nil).toList)) ∧
    (∃ s', Tree.add priorLt 1 rbDemoStore 2 1 = some s' ∧
      specInorder s' (1 + 2) (some 1) =
        some (insertBeforePrior priorLt 2 (RBT.node true .nil 1 .nil).toList)) ∧
    (∃ A B, (RBT.node true .nil 1 .nil).toList = A ++ B ∧
      insertBeforePrior priorLt 2 (RBT.node true .nil 1 .nil).toList = A ++ 2 :: B ∧
      (∀ e, e ∈ A → priorLt 2 e = false) ∧ (∀ e, e ∈ B → priorLt 2 e = true))) ∧
    insertBeforePrior priorLt 2 (RBT.node true .nil 1 .nil).toList = [1, 2] :=
  ⟨insertion_position priorLt strictWeak_priorLt rbDemoStore 2 1 (.node true .nil 1 .nil) 1
    ⟨rfl, rfl, rfl, rfl, trivial, trivial⟩ rfl (by decide)
    ⟨rfl, ⟨fun h => by simp at h, trivial, trivial⟩, ⟨rfl, trivial, trivial⟩⟩
    (List.pairwise_singleton _ _) (by decide) rfl rfl rfl (by decide), by decide⟩

/-- C19 (deletion removes exactly the node).  The fields `s` hold a valid
red-black tree `t` with root `root`, `n` is a node of it, and `lmax_cache` is
`null` or the node right before `n` in order.  Then
`rb_remove(n, root, lmax_cache)` returns, given fuel of at least the number of
nodes, a root `r` such that the in-order sequence read from the fields at `r`
is the old sequence with `n` deleted (the old sequence is `A ++ n :: B` and
the new one `A ++ B`); `r` is the strict `null` exactly when that sequence is
empty; and afterwards `n` has null parent, null children and colour red. -/
theorem removal_exact (s : Store α) (t : RBT α) (n root : α) (lmax : Option α)
    (fuel : Nat) (hr : Repr s t none) (hroot : t.root = some root) (hnd : t.toList.Nodup)
    (hv : t.Valid) (hn : n ∈ t.toList)
    (hl : lmax = none ∨ ∃ p A B, lmax = some p ∧ t.toList = A ++ p :: n :: B)
    (hf : t.toList.length ≤ fuel) :
    ∃ s' r, Tree.rb_remove fuel s n (some root) lmax = some (s', r) ∧
      specInorder s' (fuel + 1) r = some (t.toList.erase n) ∧
      (∃ A B, t.toList = A ++ n :: B ∧ t.toList.erase n = A ++ B) ∧
      (r = none ↔ t.toList.erase n = []) ∧
      s'.par n = none ∧ s'.lch n = none ∧ s'.rch n = none ∧ s'.color n = 0 := by
  obtain ⟨s', r, t', h1, h2, h3, h4, h5, h6, h7, h8, h9, _⟩ :=
    rb_remove_sim s t n lmax fuel hr hnd hv hn
    (fun p hp _ _ => by
      rcases hl with e | ⟨p', A, B, e1, e2⟩
      · rw [e] at hp; simp at hp
      · rw [e1] at hp
        simp only [Option.some.injEq] at hp
        subst hp
        exact ⟨A, B, e2⟩) hf
  rw [hroot] at h1
  obtain ⟨A, B, e1⟩ := List.append_of_mem hn
  have hnA : n ∉ A := by
    intro hm
    rw [e1] at hnd
    exact (List.nodup_append.1 hnd).2.2 hm (by simp)
  have hle : (t.toList.erase n).length ≤ t.toList.length := by
    rw [List.length_erase_of_mem hn]; omega
  refine ⟨s', r, h1, ?_, ⟨A, B, e1, by rw [e1]; exact erase_middle A B n hnA⟩, ?_, h6, h7, h8, h9⟩
  · rw [← h5, ← h3]
    exact specInorder_repr s' t' none _ h2 (by rw [h5]; omega)
  · rw [← h5, ← h3]
    constructor
    · intro e
      rw [RBT.root_none t' e]; rfl
    · intro e
      cases t' with
      | nil => rfl
      | node c l x rr => simp [RBT.toList] at e

/-- Instance of C19: removing the root 2 of the tree with the nodes 1, 2, 3. -/
theorem removal_exact_witness :
    ∃ s' r, Tree.rb_remove 3 rbDemoStore3 2 (some 2) none = some (s', r) ∧
      specInorder s' (3 + 1) r =
        some ((RBT.node true (.node false .nil 1 .nil) 2 (.node false .nil 3 .nil)).toList.erase 2) ∧
      (∃ A B, (RBT.node true (.node false .nil 1 .nil) 2 (.node false .nil 3 .nil)).toList =
          A ++ 2 :: B ∧
        (RBT.node true (.node false .nil 1 .nil) 2 (.node false .nil 3 .nil)).toList.erase 2 =
          A ++ B) ∧
      (r = none ↔
        (RBT.node true (.node false .nil 1 .nil) 2 (.node false .nil 3 .nil)).toList.erase 2 = []) ∧
      s'.par 2 = none ∧ s'.lch 2 = none ∧ s'.rch 2 = none ∧ s'.color 2 = 0 :=
  removal_exact rbDemoStore3
    (.node true (.node false .nil 1 .nil) 2 (.node false .nil 3 .nil)) 2 2 none 3
    ⟨rfl, rfl, rfl, rfl, ⟨rfl, rfl, rfl, rfl, trivial, trivial⟩,
      ⟨rfl, rfl, rfl, rfl, trivial, trivial⟩⟩ rfl (by decide)
    ⟨rfl, ⟨fun h => by simp at h, ⟨fun _ => ⟨rfl, rfl⟩, trivial, trivial⟩,
      ⟨fun _ => ⟨rfl, rfl⟩, trivial, trivial⟩⟩,
      ⟨rfl, ⟨rfl, trivial, trivial⟩, ⟨rfl, trivial, trivial⟩⟩⟩
    (by decide) (Or.inl rfl) (by decide)

/-- The loop of `forEach` from the node that starts the rest `R` of a valid
list `K ++ R`. -/
theorem forEach_loop_spec {σ : Type} (prior : α → α → Bool)
    (operator : σ → TreeList α → α → σ × Bool × Bool) (rfuel : Nat) (head : α) :
    ∀ (R K : List α) (fuel : Nat) (st : σ) (L : TreeList α) (t : RBT α),
      L.Models prior t → t.toList = K ++ R → L.lHead = head → R.length < fuel →
      (K ++ R).length ≤ rfuel →
      ∃ st' L' tr rest t', TreeList.forEach_loop operator rfuel head fuel st L
          ((R ++ [head]).head?) = some (st', L', tr) ∧
        R = tr.map (fun e => e.1) ++ rest ∧
        (∀ e, e ∈ tr.dropLast → e.2.2 = false) ∧
        (rest ≠ [] → ∃ e, tr.getLast? = some e ∧ e.2.2 = true) ∧
        L'.Models prior t' ∧ t'.toList = K ++ keptOf tr ++ rest ∧ L'.lHead = head := by
  intro R
  induction R with
  | nil =>
    intro K fuel st L t hm ht hh hf hrf
    obtain ⟨f, rfl⟩ : ∃ f, fuel = f + 1 := ⟨fuel - 1, by simp at hf; omega⟩
    refine ⟨st, L, [], [], t, ?_, rfl, by simp, by simp, hm, by simpa [keptOf] using ht, hh⟩
    simp [TreeList.forEach_loop]
  | cons x R ih =>
    intro K fuel st L t hm ht hh hf hrf
    obtain ⟨f, rfl⟩ : ∃ f, fuel = f + 1 := ⟨fuel - 1, by simp at hf; omega⟩
    simp only [List.length_cons] at hf
    have hx : x ∈ t.toList := by rw [ht]; simp
    have hxh : x ≠ head := by
      intro e
      apply hm.head
      rw [hh, ← e]; exact hx
    have hnd : (K ++ x :: R).Nodup := by rw [← ht]; exact hm.nodup
    have hxK : x ∉ K := fun hmem => (List.nodup_append.1 hnd).2.2 hmem (by simp)
    obtain ⟨q, hq1, hq2⟩ := Chain.next_mid L.store K L.lHead L.lHead x R (by rw [← ht]; exact hm.chain)
    rw [hh] at hq2
    have hcur : ((x :: R) ++ [head]).head? = some x := rfl
    rw [hcur, TreeList.forEach_loop]
    simp only [ne_eq, Option.some.injEq, hxh, not_false_eq_true, if_true, hq1, ← hq2]
    cases hrm : (operator st L x).2.1 with
    | true =>
      obtain ⟨L1, t1, e1, e2, e3, e4, _⟩ := TreeList.remove_models prior L t x rfuel hm hx
        (by rw [ht]; exact hrf)
      have ht1 : t1.toList = K ++ R := by rw [e4, ht]; exact erase_middle K R x hxK
      simp only [if_true, e1]
      cases hret : (operator st L x).2.2 with
      | true =>
        refine ⟨(operator st L x).1, L1, [(x, true, true)], R, t1, by simp, by simp, by simp, ?_, e2,
          by simpa [keptOf] using ht1, by rw [e3, hh]⟩
        intro _; exact ⟨_, rfl, rfl⟩
      | false =>
        obtain ⟨st', L', tr, rest, t', i1, i2, i3, i4, i5, i6, i7⟩ :=
          ih K f (operator st L x).1 L1 t1 e2 ht1 (by rw [e3, hh]) (by omega)
            (by simp only [List.length_append, List.length_cons] at hrf ⊢; omega)
        refine ⟨st', L', (x, true, false) :: tr, rest, t', ?_, ?_, ?_, ?_, i5, ?_, i7⟩
        · rw [i1]; rfl
        · simp only [List.map_cons, List.cons_append]; rw [← i2]
        · intro e he
          cases tr with
          | nil => simp at he
          | cons y ys =>
            simp only [List.dropLast_cons₂, List.mem_cons] at he
            rcases he with rfl | he
            · rfl
            · exact i3 e he
        · intro hr
          obtain ⟨e, he1, he2⟩ := i4 hr
          refine ⟨e, ?_, he2⟩
          cases tr with
          | nil => simp at he1
          | cons y ys => rw [List.getLast?_cons_cons]; exact he1
        · rw [i6]; simp [keptOf]
    | false =>
      simp only [Bool.false_eq_true, if_false]
      cases hret : (operator st L x).2.2 with
      | true =>
        refine ⟨(operator st L x).1, L, [(x, false, true)], R, t, by simp, by simp, by simp, ?_, hm,
          by simpa [keptOf] using ht, hh⟩
        intro _; exact ⟨_, rfl, rfl⟩
      | false =>
        obtain ⟨st', L', tr, rest, t', i1, i2, i3, i4, i5, i6, i7⟩ :=
          ih (K ++ [x]) f (operator st L x).1 L t hm (by rw [ht]; simp) hh (by omega)
            (by simp only [List.length_append, List.length_cons, List.length_nil] at hrf ⊢; omega)
        refine ⟨st', L', (x, false, false) :: tr, rest, t', ?_, ?_, ?_, ?_, i5, ?_, i7⟩
        · rw [i1]; rfl
        · simp only [List.map_cons, List.cons_append]; rw [← i2]
        · intro e he
          cases tr with
          | nil => simp at he
          | cons y ys =>
            simp only [List.dropLast_cons₂, List.mem_cons] at he
            rcases he with rfl | he
            · rfl
            · exact i3 e he
        · intro hr
          obtain ⟨e, he1, he2⟩ := i4 hr
          refine ⟨e, ?_, he2⟩
          cases tr with
          | nil => simp at he1
          | cons y ys => rw [List.getLast?_cons_cons]; exact he1
        · rw [i6]; simp [keptOf]

theorem keptOf_length_le (tr : List (α × Bool × Bool)) : (keptOf tr).length ≤ tr.length := by
  rw [keptOf, List.length_map]
  exact List.length_filter_le _ _

theorem tlDemo7_valid : tlDemo7.Valid valPrior := by
  obtain ⟨t, h⟩ := TreeList.Reach.listInv valPrior strictWeak_valPrior _ _ tlDemo7_reach
  exact ⟨t, h.models⟩

/-- C20 (removing the current element during traversal).  For a valid list
with forward traversal `xs` and an operator that, for each node it is handed,
calls `remove` on that node or leaves the list as it is, `forEach(operator)`
returns (given fuel above `ln` for the loop and of at least `ln` for `remove`):
the calls of the operator are on the nodes of `xs` in order, each node once,
up to the first call that returned true (`rest` are the nodes after it; no
call other than the last returned true, and `rest` is empty unless the last
call returned true); the list afterwards is a valid list whose forward
traversal is the nodes handed over and not removed, followed by `rest`, in
their original order. -/
theorem forEach_removal_safe {σ : Type} (prior : α → α → Bool)
    (operator : σ → TreeList α → α → σ × Bool × Bool) (L : TreeList α) (xs : List α) (st : σ)
    (rfuel fuel : Nat) (hv : L.Valid prior) (hf : L.ln < fuel) (hxs : L.toList fuel = some xs)
    (hrf : xs.length ≤ rfuel) :
    ∃ st' L' tr rest, L.forEach operator rfuel fuel st = some (st', L', tr) ∧
      xs = tr.map (fun e => e.1) ++ rest ∧ xs.Nodup ∧
      (∀ e, e ∈ tr.dropLast → e.2.2 = false) ∧
      (rest ≠ [] → ∃ e, tr.getLast? = some e ∧ e.2.2 = true) ∧
      L'.Valid prior ∧ L'.toList fuel = some (keptOf tr ++ rest) := by
  obtain ⟨t, hm⟩ := hv
  have hsz := hm.size
  have e0 := hm.toList_eq prior L t fuel hf
  rw [hxs] at e0
  simp only [Option.some.injEq] at e0
  subst e0
  obtain ⟨q, hq1, hq2⟩ := Chain.next_head L.store t.toList L.lHead L.lHead hm.chain
  obtain ⟨st', L', tr, rest, t', i1, i2, i3, i4, i5, i6, i7⟩ :=
    forEach_loop_spec prior operator rfuel L.lHead t.toList [] fuel st L t hm rfl rfl (by omega)
      (by simpa using hrf)
  refine ⟨st', L', tr, rest, ⟨?_, i2, hm.nodup, i3, i4, ⟨t', i5⟩, ?_⟩⟩
  · rw [TreeList.forEach, hq1, ← hq2]; exact i1
  · have hsz' := i5.size
    simp only [List.nil_append] at i6
    rw [← i6]
    refine i5.toList_eq prior L' t' fuel ?_
    have h1 := keptOf_length_le tr
    have h2 : t.toList.length = tr.length + rest.length := by
      conv_lhs => rw [i2]
      simp
    have h3 : t'.toList.length = (keptOf tr).length + rest.length := by rw [i6]; simp
    omega

/-- Instance of C20: on the list with the values 1, 3, 3, 5, 8, the operator
that removes the nodes of value 3 is called on all five nodes in order, and
the list afterwards holds 1, 5, 8. -/
theorem forEach_removal_safe_witness :
    (∃ st' L' tr rest, tlDemo7.forEach dropThrees 10 10 () = some (st', L', tr) ∧
      [vn 1 4, vn 3 5, vn 3 2, vn 5 1, vn 8 3] = tr.map (fun e => e.1) ++ rest ∧
      [vn 1 4, vn 3 5, vn 3 2, vn 5 1, vn 8 3].Nodup ∧
      (∀ e, e ∈ tr.dropLast → e.2.2 = false) ∧
      (rest ≠ [] → ∃ e, tr.getLast? = some e ∧ e.2.2 = true) ∧
      L'.Valid valPrior ∧ L'.toList 10 = some (keptOf tr ++ rest)) ∧
    (tlDemo7.forEach dropThrees 10 10 ()).map (fun r => r.2.2) =
      some [(vn 1 4, false, false), (vn 3 5, true, false), (vn 3 2, true, false),
        (vn 5 1, false, false), (vn 8 3, false, false)] ∧
    (tlDemo7.forEach dropThrees 10 10 ()).bind (fun r => r.2.1.toList 10) =
      some [vn 1 4, vn 5 1, vn 8 3] :=
  ⟨forEach_removal_safe valPrior dropThrees tlDemo7 [vn 1 4, vn 3 5, vn 3 2, vn 5 1, vn 8 3] ()
    10 10 tlDemo7_valid (by decide) (by decide) (by decide), by decide, by decide⟩

theorem callsOk_nil : CallsOk ([] : List (Option α × Option α)) := by
  intro c hc; simp at hc

theorem callsOk_cons (x y : α) (cs : List (Option α × Option α)) (hxy : x ≠ y)
    (h : CallsOk cs) : CallsOk ((some x, some y) :: cs) := by
  intro c hc
  rcases List.mem_cons.1 hc with rfl | hc
  · exact ⟨x, y, rfl, hxy⟩
  · exact h c hc

theorem callsOk_append (cs ds : List (Option α × Option α)) (h1 : CallsOk cs) (h2 : CallsOk ds) :
    CallsOk (cs ++ ds) := by
  intro c hc
  rcases List.mem_append.1 hc with hc | hc
  · exact h1 c hc
  · exact h2 c hc

theorem holed_move (m : HeapMem α) (N i j : Int) (li aj : α) (h : Holed m N i li)
    (hi0 : 0 ≤ i) (hiN : i < N) (hj0 : 0 ≤ j) (hjN : j < N) (hji : j ≠ i)
    (haj : m.arr j = some aj) : Holed (m.put i aj) N j li := by
  have hajli : aj ≠ li := by
    obtain ⟨n, h1, h2⟩ := h.nodes j hj0 hjN hji
    rw [haj] at h1; cases h1; exact h2
  constructor
  · intro k h0 h1 hk
    rw [put_arr]
    split
    · exact ⟨aj, rfl, hajli⟩
    · rename_i hki; exact h.nodes k h0 h1 hki
  · intro k k2 n h0 h1 h2 h3 hk hk2
    rw [put_arr, put_arr]
    split <;> split
    · intros; omega
    · rename_i hki hk2i
      intro e e2; cases e
      exact absurd (h.inj k2 j _ h2 h3 hj0 hjN hk2i hji e2 haj) hk2
    · rename_i hki hk2i
      intro e e2; cases e2
      exact absurd (h.inj k j _ h0 h1 hj0 hjN hki hji e haj) hk
    · rename_i hki hk2i
      exact h.inj k k2 n h0 h1 h2 h3 hki hk2i

theorem holed_fill (m : HeapMem α) (N i : Int) (li : α) (h : Holed m N i li)
    (hi0 : 0 ≤ i) (hiN : i < N) : Loaded (m.put i li) N := by
  constructor
  · intro k h0 h1
    rw [put_arr]
    split
    · exact ⟨li, rfl⟩
    · rename_i hki
      obtain ⟨n, hn, _⟩ := h.nodes k h0 h1 hki
      exact ⟨n, hn⟩
  · intro k k2 n h0 h1 h2 h3
    rw [put_arr, put_arr]
    split <;> split
    · intros; omega
    · rename_i hki hk2i
      intro e e2; cases e
      obtain ⟨n, hn, hne⟩ := h.nodes k2 h2 h3 hk2i
      rw [hn] at e2; cases e2; exact absurd rfl hne
    · rename_i hki hk2i
      intro e e2; cases e2
      obtain ⟨n, hn, hne⟩ := h.nodes k h0 h1 hki
      rw [hn] at e; cases e; exact absurd rfl hne
    · rename_i hki hk2i
      exact h.inj k k2 n h0 h1 h2 h3 hki hk2i

theorem loaded_holed (m : HeapMem α) (N i : Int) (li : α) (h : Loaded m N)
    (hi0 : 0 ≤ i) (hiN : i < N) (hli : m.arr i = some li) : Holed m N i li := by
  constructor
  · intro k h0 h1 hk
    obtain ⟨n, hn⟩ := h.nodes k h0 h1
    refine ⟨n, hn, ?_⟩
    rintro rfl
    exact hk (h.inj k i n h0 h1 hi0 hiN hn hli)
  · intro k k2 n h0 h1 h2 h3 _ _
    exact h.inj k k2 n h0 h1 h2 h3

theorem shift_up_calls_ok (prior : α → α → Bool) (li : α) (N : Int) (hN : N ≤ 1073741824) :
    ∀ (fuel : Nat) (m : HeapMem α) (i : Int), 0 ≤ i → i < N → Holed m N i li →
      CallsOk (shift_up_calls prior li fuel m i) := by
  intro fuel
  induction fuel with
  | zero => intro m i _ _ _; exact callsOk_nil
  | succ f ih =>
    intro m i hi0 hiN hh
    have hj : sar1 (i - 1) = (i - 1) / 2 := sar1_exact _ (by omega) (by omega)
    rw [shift_up_calls]
    simp only [hj]
    by_cases h0 : i = 0
    · subst h0
      simp only [zero_sub, Int.reduceNeg, ne_eq]
      exact fun c hc => by simp at hc
    · have hjne : (i - 1) / 2 ≠ -1 := by omega
      have hj0 : 0 ≤ (i - 1) / 2 := by omega
      have hjN : (i - 1) / 2 < N := by omega
      have hji : (i - 1) / 2 ≠ i := by omega
      obtain ⟨aj, haj, hne⟩ := hh.nodes _ hj0 hjN hji
      simp only [hjne, ne_eq, not_false_eq_true, if_true, haj]
      refine callsOk_cons li aj _ (fun e => hne e.symm) ?_
      split
      · exact ih _ _ hj0 hjN (holed_move m N i _ li aj hh hi0 hiN hj0 hjN hji haj)
      · exact callsOk_nil

theorem shift_down_calls_ok (prior : α → α → Bool) (li : α) (N : Int) (hN : N ≤ 1073741824) :
    ∀ (fuel : Nat) (m : HeapMem α) (i : Int), 0 ≤ i → i < N → Holed m N i li →
      CallsOk (shift_down_calls prior li N fuel m i) ∧
      ∀ m', shift_down prior li N fuel m i = some m' → Loaded m' N := by
  intro fuel
  induction fuel with
  | zero =>
    intro m i _ _ _
    refine ⟨callsOk_nil, ?_⟩
    intro m' h; simp [shift_down] at h
  | succ f ih =>
    intro m i hi0 hiN hh
    have hj : shl1 i + 1 = 2 * i + 1 := shl1_exact i hi0 (by omega)
    have key : ∀ jj, (jj = 2 * i + 1 ∨ jj = 2 * i + 2) → jj < N →
        CallsOk ((m.arr jj, some li) ::
          (match m.arr jj with
          | none => []
          | some aj =>
            if prior aj li then shift_down_calls prior li N f (m.put i aj) jj else [])) ∧
        ∀ m', (match m.arr jj with
          | none => none
          | some aj => if prior aj li = true then shift_down prior li N f (m.put i aj) jj
              else some (m.put i li)) = some m' → Loaded m' N := by
      intro jj hjj hjjN
      have hjj0 : 0 ≤ jj := by omega
      have hjji : jj ≠ i := by omega
      obtain ⟨aj, haj, hne⟩ := hh.nodes jj hjj0 hjjN hjji
      simp only [haj]
      obtain ⟨r1, r2⟩ := ih (m.put i aj) jj hjj0 hjjN
        (holed_move m N i jj li aj hh hi0 hiN hjj0 hjjN hjji haj)
      constructor
      · refine callsOk_cons aj li _ hne ?_
        split
        · exact r1
        · exact callsOk_nil
      · intro m' h
        split at h
        · exact r2 m' h
        · cases h; exact holed_fill m N i li hh hi0 hiN
    rw [shift_down_calls, shift_down]
    simp only [hj]
    by_cases hjN : 2 * i + 1 < N
    · simp only [hjN, if_true]
      obtain ⟨aj, haj, _⟩ := hh.nodes (2 * i + 1) (by omega) hjN (by omega)
      by_cases hkN : 2 * i + 1 + 1 < N
      · obtain ⟨ak, hak, _⟩ := hh.nodes (2 * i + 1 + 1) (by omega) hkN (by omega)
        have hakj : ak ≠ aj := by
          rintro rfl
          have := hh.inj (2 * i + 1 + 1) (2 * i + 1) ak (by omega) hkN (by omega) hjN (by omega)
            (by omega) hak haj
          omega
        simp only [shift_down_pick, hkN, if_true, hak, haj]
        by_cases hpr : prior ak aj = true
        · simp only [hpr, if_true]
          obtain ⟨k1, k2⟩ := key (2 * i + 1 + 1) (by omega) hkN
          exact ⟨callsOk_append _ _ (callsOk_cons ak aj [] hakj callsOk_nil) k1, k2⟩
        · have hpr2 : prior ak aj = false := by simpa using hpr
          simp only [hpr2, Bool.false_eq_true, if_false]
          obtain ⟨k1, k2⟩ := key (2 * i + 1) (by omega) hjN
          exact ⟨callsOk_append _ _ (callsOk_cons ak aj [] hakj callsOk_nil) k1, k2⟩
      · simp only [shift_down_pick, hkN, if_false, List.nil_append]
        exact key (2 * i + 1) (by omega) hjN
    · simp only [hjN, if_false]
      refine ⟨callsOk_nil, ?_⟩
      intro m' h; cases h
      exact holed_fill m N i li hh hi0 hiN

theorem heapify_mark_arr (ln : Int) :
    ∀ (fuel : Nat) (m m' : HeapMem α) (i : Int), heapify_mark ln fuel m i = some m' →
      m'.arr = m.arr := by
  intro fuel
  induction fuel with
  | zero => intro m m' i h; simp [heapify_mark] at h
  | succ f ih =>
    intro m m' i h
    rw [heapify_mark] at h
    split at h
    · split at h
      · exact Option.noConfusion h
      · exact (ih _ m' _ h :)
    · cases h; rfl

theorem heapify_loop_calls_ok (prior : α → α → Bool) (N : Int) (hN : N ≤ 1073741824) :
    ∀ (fuel : Nat) (m : HeapMem α) (q : Int), -1 ≤ q → q < N → Loaded m N →
      CallsOk (heapify_loop_calls prior N fuel m q) := by
  intro fuel
  induction fuel with
  | zero => intro m q _ _ _; exact callsOk_nil
  | succ f ih =>
    intro m q hq0 hqN hl
    rw [heapify_loop_calls]
    by_cases hq : q = -1
    · simp only [hq, ne_eq, not_true_eq_false, if_false]
      exact callsOk_nil
    · simp only [hq, ne_eq, not_false_eq_true, if_true]
      obtain ⟨x, hx⟩ := hl.nodes q (by omega) hqN
      simp only [hx]
      obtain ⟨r1, r2⟩ := shift_down_calls_ok prior x N hN f m q (by omega) hqN
        (loaded_holed m N q x hl (by omega) hqN hx)
      refine callsOk_append _ _ r1 ?_
      cases hs : shift_down prior x N f m q with
      | none => exact callsOk_nil
      | some m1 => exact ih m1 (q - 1) (by omega) (by omega) (r2 m1 hs)

theorem heapify_calls_ok (prior : α → α → Bool) (fuel : Nat) (m : HeapMem α) (N : Int)
    (hN0 : 0 ≤ N) (hN : N ≤ 1073741824) (hl : Loaded m N) :
    CallsOk (heapify_calls prior fuel m N) := by
  have hq : sar1 N = N / 2 := sar1_exact N (by omega) (by omega)
  rw [heapify_calls]
  simp only [hq]
  cases hm : heapify_mark N fuel m (N / 2 - 1 + 1) with
  | none => exact callsOk_nil
  | some m1 =>
    have harr := heapify_mark_arr N fuel m m1 _ hm
    refine heapify_loop_calls_ok prior N hN fuel m1 (N / 2 - 1) (by omega) (by omega) ?_
    exact ⟨fun k h0 h1 => by rw [harr]; exact hl.nodes k h0 h1,
      fun k k2 n h0 h1 h2 h3 => by rw [harr]; exact hl.inj k k2 n h0 h1 h2 h3⟩

theorem enqueue_calls_ok (prior : α → α → Bool) (fuel : Nat) (q : HeapQueue α) (n : α)
    (hinv : HeapInv prior q) (hlt : q.ln < 1073741824) (hn : ¬ HMem q.mem q.ln n) :
    CallsOk (q.enqueue_calls prior fuel n) := by
  have h0 := hinv.lo
  refine shift_up_calls_ok prior n (q.ln + 1) (by omega) fuel q.mem q.ln h0 (by omega) ?_
  constructor
  · intro k hk0 hk1 hk
    obtain ⟨x, hx⟩ := hinv.part.nodes k hk0 (by omega) (by omega)
    refine ⟨x, hx, ?_⟩
    rintro rfl
    exact hn ⟨k, hk0, by omega, hx⟩
  · intro k k2 x a1 a2 a3 a4 a5 a6
    exact hinv.part.inj k k2 x a1 (by omega) a3 (by omega) (by omega) (by omega)

theorem dequeue_calls_ok (prior : α → α → Bool) (fuel : Nat) (q : HeapQueue α)
    (hinv : HeapInv prior q) (hpos : 0 < q.ln) : CallsOk (q.dequeue_calls prior fuel) := by
  have hhi := hinv.hi
  obtain ⟨node, hnode⟩ := hinv.part.nodes 0 (le_refl _) hpos (by omega)
  obtain ⟨li, hli⟩ := hinv.part.nodes (q.ln - 1) (by omega) (by omega) (by omega)
  rw [HeapQueue.dequeue_calls, Alg.dequeue_calls]
  simp only [hnode, hli]
  by_cases h1 : q.ln - 1 = 0
  · have e : shift_down_calls prior li (q.ln - 1) fuel q.mem 0 = [] := by
      cases fuel with
      | zero => rfl
      | succ f =>
        rw [shift_down_calls]
        have : ¬ (shl1 0 + 1 < q.ln - 1) := by
          rw [shl1_exact 0 (le_refl _) (by omega)]; omega
        simp only [this, if_false]
    rw [e]; exact callsOk_nil
  · refine (shift_down_calls_ok prior li (q.ln - 1) (by omega) fuel q.mem 0 (le_refl _)
      (by omega) ?_).1
    constructor
    · intro k hk0 hk1 hk
      obtain ⟨x, hx⟩ := hinv.part.nodes k hk0 (by omega) (by omega)
      refine ⟨x, hx, ?_⟩
      rintro rfl
      have := hinv.part.inj k (q.ln - 1) x hk0 (by omega) (by omega) (by omega) (by omega)
        (by omega) hx hli
      omega
    · intro k k2 x a1 a2 a3 a4 a5 a6
      exact hinv.part.inj k k2 x a1 (by omega) a3 (by omega) (by omega) (by omega)

theorem remove_calls_ok (prior : α → α → Bool) (fuel : Nat) (q : HeapQueue α) (n : α)
    (hinv : HeapInv prior q) (hmem : HMem q.mem q.ln n) :
    CallsOk (q.remove_calls prior fuel n) := by
  have hhi := hinv.hi
  obtain ⟨i, hi0, hiN, hi⟩ := hmem
  have hidx : q.mem.idx n = some i := hinv.part.idx i n hi0 hiN (by omega) hi
  obtain ⟨li, hli⟩ := hinv.part.nodes (q.ln - 1) (by omega) (by omega) (by omega)
  rw [HeapQueue.remove_calls, Alg.remove_calls]
  simp only [hidx, hli]
  by_cases hnl : n = li
  · subst hnl
    simp only [ne_eq, not_true_eq_false, if_false]
    exact callsOk_nil
  · have hnl2 : some n ≠ some li := fun e => hnl (Option.some.inj e)
    rw [if_pos hnl2]
    have hiN2 : i < q.ln - 1 := by
      by_contra hc
      have : i = q.ln - 1 := by omega
      rw [this, hli] at hi
      exact hnl2 hi.symm
    have hh : Holed (HeapMem.mk (Function.update q.mem.arr (q.ln - 1) none)
        (Function.update q.mem.idx n (some (-1)))) (q.ln - 1) i li := by
      constructor
      · intro k hk0 hk1 hk
        obtain ⟨x, hx⟩ := hinv.part.nodes k hk0 (by omega) (by omega)
        refine ⟨x, by simp only [Function.update_noteq (show k ≠ q.ln - 1 by omega)]; exact hx, ?_⟩
        rintro rfl
        have := hinv.part.inj k (q.ln - 1) x hk0 (by omega) (by omega) (by omega) (by omega)
          (by omega) hx hli
        omega
      · intro k k2 x a1 a2 a3 a4 a5 a6
        simp only [Function.update_noteq (show k ≠ q.ln - 1 by omega),
          Function.update_noteq (show k2 ≠ q.ln - 1 by omega)]
        exact hinv.part.inj k k2 x a1 (by omega) a3 (by omega) (by omega) (by omega)
    refine callsOk_cons n li _ hnl ?_
    split
    · exact (shift_down_calls_ok prior li (q.ln - 1) (by omega) fuel _ i hi0 hiN2 hh).1
    · exact shift_up_calls_ok prior li (q.ln - 1) (by omega) fuel _ i hi0 hiN2 hh

theorem add_descend_calls_ok (prior : α → α → Bool) (s : Store α) (n : α) :
    ∀ (t : RBT α) (p : Option α) (root : α) (fuel : Nat), Repr s t p → t.root = some root →
      n ∉ t.toList → CallsOk (Tree.add_descend_calls prior s n fuel root) := by
  intro t
  induction t with
  | nil => intro p root fuel _ h; simp [RBT.root] at h
  | node c l x r ihl ihr =>
    intro p root fuel hr hroot hn
    simp only [RBT.root, Option.some.injEq] at hroot
    subst hroot
    obtain ⟨_, h2, h3, _, h5, h6⟩ := hr
    simp only [RBT.toList, List.mem_append, List.mem_cons, not_or] at hn
    cases fuel with
    | zero => exact callsOk_nil
    | succ f =>
      rw [Tree.add_descend_calls]
      refine callsOk_cons n x _ hn.2.1 ?_
      by_cases hp : prior n x = true
      · simp only [hp, if_true, h2]
        cases hl : l.root with
        | none => exact callsOk_nil
        | some y => exact ihl (some x) y f h5 hl hn.1
      · simp only [hp, if_false, h3, Bool.false_eq_true]
        cases hrr : r.root with
        | none => exact callsOk_nil
        | some y => exact ihr (some x) y f h6 hrr hn.2.2

theorem add_calls_ok (prior : α → α → Bool) (fuel : Nat) (L : TreeList α) (n : α)
    (hv : L.Valid prior) (hfree : L.store.Free n) : CallsOk (L.add_calls prior fuel n) := by
  obtain ⟨t, hm⟩ := hv
  obtain ⟨hn, _⟩ := Store.Free.not_mem prior L t n hm hfree
  rw [TreeList.add_calls]
  cases hroot : L.tRoot with
  | none => exact callsOk_nil
  | some root =>
    exact add_descend_calls_ok prior L.store n t none root fuel hm.repr
      (by rw [hm.root, hroot]) hn

theorem descend_calls_ok (prior : α → α → Bool) (s : Store α) (n : α) :
    ∀ (fuel : Nat) (cur : Option α), CallsOk (TreeList.descend_calls prior s n fuel cur) := by
  intro fuel
  induction fuel with
  | zero => intro cur; exact callsOk_nil
  | succ f ih =>
    intro cur
    cases cur with
    | none => exact callsOk_nil
    | some c =>
      rw [TreeList.descend_calls]
      split
      · exact callsOk_nil
      · rename_i hc
        exact callsOk_cons n c _ (fun e => hc e.symm) (ih _)

/-- C14 (the comparator is never called with the same node twice).  For
every comparator and every fuel, every call `prior(a, b)` made by one of the
following calls has two non-null arguments that are distinct nodes: `heapify`
on an array of `0 ≤ N ≤ 2^30` distinct nodes; the methods `enqueue` of a
non-member below the size bound, `dequeue` on a non-empty queue and `remove`
of a member, on a queue with the queue invariant; the method `add` of a node
in no structure on a valid `TreeList`; the methods `has` and `uniHas` on any
list and node. -/
theorem comparator_distinct (prior : α → α → Bool) :
    (∀ (fuel : Nat) (m : HeapMem α) (N : Int), 0 ≤ N → N ≤ 1073741824 → Loaded m N →
      CallsOk (heapify_calls prior fuel m N)) ∧
    (∀ (fuel : Nat) (q : HeapQueue α) (n : α), HeapInv prior q → q.ln < 1073741824 →
      ¬ HMem q.mem q.ln n → CallsOk (q.enqueue_calls prior fuel n)) ∧
    (∀ (fuel : Nat) (q : HeapQueue α), HeapInv prior q → 0 < q.ln →
      CallsOk (q.dequeue_calls prior fuel)) ∧
    (∀ (fuel : Nat) (q : HeapQueue α) (n : α), HeapInv prior q → HMem q.mem q.ln n →
      CallsOk (q.remove_calls prior fuel n)) ∧
    (∀ (fuel : Nat) (L : TreeList α) (n : α), L.Valid prior → L.store.Free n →
      CallsOk (L.add_calls prior fuel n)) ∧
    (∀ (fuel : Nat) (L : TreeList α) (n : α), CallsOk (L.has_calls prior fuel n)) ∧
    (∀ (fuel : Nat) (L : TreeList α) (n : α), CallsOk (L.uniHas_calls prior fuel n)) := by
  refine ⟨fun fuel m N h0 h1 hl => heapify_calls_ok prior fuel m N h0 h1 hl,
    fun fuel q n hinv hlt hn => enqueue_calls_ok prior fuel q n hinv hlt hn,
    fun fuel q hinv hpos => dequeue_calls_ok prior fuel q hinv hpos,
    fun fuel q n hinv hm => remove_calls_ok prior fuel q n hinv hm,
    fun fuel L n hv hfree => add_calls_ok prior fuel L n hv hfree, ?_, ?_⟩
  · intro fuel L n
    rw [TreeList.has_calls]
    split
    · exact callsOk_nil
    · exact descend_calls_ok prior L.store n fuel L.tRoot
  · intro fuel L n
    rw [TreeList.uniHas_calls]
    split
    · exact callsOk_nil
    · exact descend_calls_ok prior L.store n fuel L.tRoot

/-- Instance of C14: the calls of the comparator made by `heapify` on
`[5, 3, 8, 1]`, by `remove(3)` and `dequeue()` on the queue built from it and
`enqueue(4)`, and by `add` and `has` of the second node of value 3 on the list
with the values 1, 3, 5, 8. -/
theorem comparator_distinct_witness :
    (CallsOk (heapify_calls priorLt 20
        (HeapMem.mk (arrOfList ([5, 3, 8, 1].map some)) (fun _ => none)) 4) ∧
      CallsOk (heapDemo1.remove_calls priorLt 20 3) ∧
      CallsOk (heapDemo1.dequeue_calls priorLt 20) ∧
      CallsOk (tlDemo4.add_calls valPrior 10 (vn 3 5)) ∧
      CallsOk (tlDemo5.has_calls valPrior 10 (vn 3 5))) ∧
    heapify_calls priorLt 20 (HeapMem.mk (arrOfList ([5, 3, 8, 1].map some)) (fun _ => none)) 4 =
      [(some 1, some 3), (some 8, some 1), (some 1, some 5), (some 3, some 5)] ∧
    heapDemo1.remove_calls priorLt 20 3 = [(some 3, some 4), (some 5, some 4)] ∧
    heapDemo1.dequeue_calls priorLt 20 = [(some 8, some 3), (some 3, some 4), (some 5, some 4)] ∧
    tlDemo4.add_calls valPrior 10 (vn 3 5) =
      [(some (vn 3 5), some (vn 5 1)), (some (vn 3 5), some (vn 3 2))] ∧
    tlDemo5.has_calls valPrior 10 (vn 3 5) =
      [(some (vn 3 5), some (vn 5 1)), (some (vn 3 5), some (vn 3 2))] :=
  ⟨⟨(comparator_distinct priorLt).1 20 _ 4 (by decide) (by decide)
      (loaded_ofList [5, 3, 8, 1] (by decide) (fun _ => none)),
    (comparator_distinct priorLt).2.2.2.1 20 heapDemo1 3 heapDemo1_post.inv
      (by rw [heapDemo1_post.mem, heapDemo_post.mem]; decide),
    (comparator_distinct priorLt).2.2.1 20 heapDemo1 heapDemo1_post.inv
      (by rw [heapDemo1_post.size, heapDemo_post.size]; decide),
    (comparator_distinct valPrior).2.2.2.2.1 10 tlDemo4 (vn 3 5) tlDemo4_valid (by decide),
    (comparator_distinct valPrior).2.2.2.2.2.1 10 tlDemo5 (vn 3 5)⟩,
    by decide, by decide, by decide, by decide, by decide⟩

theorem placeBefore_mid (n a : α) : ∀ (Z1 Z2 : List α), a ∉ Z1 →
    placeBefore n a (Z1 ++ a :: Z2) = Z1 ++ n :: a :: Z2 := by
  intro Z1
  induction Z1 with
  | nil => intro Z2 _; simp [placeBefore]
  | cons z Z1 ih =>
    intro Z2 h
    have hz : z ≠ a := fun e => h (by simp [e])
    have := ih Z2 (fun e => h (List.mem_cons_of_mem _ e))
    rw [List.cons_append, placeBefore, if_neg hz, this]
    rfl

theorem placeBefore_absent (n a : α) : ∀ (xs : List α), a ∉ xs →
    placeBefore n a xs = xs ++ [n] := by
  intro xs
  induction xs with
  | nil => intro _; rfl
  | cons z xs ih =>
    intro h
    have hz : z ≠ a := fun e => h (by simp [e])
    rw [placeBefore, if_neg hz, ih (fun e => h (List.mem_cons_of_mem _ e))]
    rfl

theorem placeAfter_mid (n a : α) : ∀ (Z1 Z2 : List α), a ∉ Z1 →
    placeAfter n a (Z1 ++ a :: Z2) = Z1 ++ a :: n :: Z2 := by
  intro Z1
  induction Z1 with
  | nil => intro Z2 _; simp [placeAfter]
  | cons z Z1 ih =>
    intro Z2 h
    have hz : z ≠ a := fun e => h (by simp [e])
    have := ih Z2 (fun e => h (List.mem_cons_of_mem _ e))
    rw [List.cons_append, placeAfter, if_neg hz, this]
    rfl

theorem Chain.prev_end_last (s : Store α) : ∀ (xs : List α) (a b : α), Chain s a xs b →
    ∃ p, s.prev b = some p ∧ (a :: xs).getLast? = some p := by
  intro xs
  induction xs with
  | nil => intro a b h; exact ⟨a, h.2, rfl⟩
  | cons x xs ih =>
    intro a b h
    obtain ⟨p, h1, h2⟩ := ih x b h.2.2
    exact ⟨p, h1, by rw [List.getLast?_cons_cons]; exact h2⟩

/-- In a chain every node is linked with its successor in both directions. -/
theorem Chain.step_linked (s : Store α) : ∀ (xs : List α) (a b : α), Chain s a xs b →
    (∀ x, x ∈ a :: xs → ∃ y, s.next x = some y ∧ s.prev y = some x ∧ y ∈ xs ++ [b]) ∧
    (∀ y, y ∈ xs ++ [b] → ∃ p, s.prev y = some p ∧ s.next p = some y ∧ p ∈ a :: xs) := by
  intro xs
  induction xs with
  | nil =>
    intro a b h
    constructor
    · intro x hx
      simp only [List.mem_singleton] at hx
      subst hx
      exact ⟨b, h.1, h.2, by simp⟩
    · intro y hy
      simp only [List.nil_append, List.mem_singleton] at hy
      subst hy
      exact ⟨a, h.2, h.1, by simp⟩
  | cons z zs ih =>
    intro a b h
    obtain ⟨i1, i2⟩ := ih z b h.2.2
    constructor
    · intro x hx
      rcases List.mem_cons.1 hx with rfl | hx
      · exact ⟨z, h.1, h.2.1, by simp⟩
      · obtain ⟨y, h1, h2, h3⟩ := i1 x hx
        exact ⟨y, h1, h2, by simp only [List.cons_append, List.mem_cons]; exact Or.inr h3⟩
    · intro y hy
      simp only [List.cons_append, List.mem_cons] at hy
      rcases hy with rfl | hy
      · exact ⟨a, h.2.1, h.1, by simp⟩
      · obtain ⟨p, h1, h2, h3⟩ := i2 y hy
        exact ⟨p, h1, h2, List.mem_cons_of_mem _ h3⟩

/-- The nodes of a cycle are linked to their neighbours in both directions. -/
theorem Chain.linked (s : Store α) (h : α) (xs : List α) (hc : Chain s h xs h) :
    Linked s (h :: xs) := by
  obtain ⟨i1, i2⟩ := Chain.step_linked s xs h h hc
  have e : ∀ y, y ∈ xs ++ [h] ↔ y ∈ h :: xs := by
    intro y
    rw [List.mem_append, List.mem_singleton, List.mem_cons]
    exact Or.comm
  intro x hx
  constructor
  · obtain ⟨y, h1, h2, h3⟩ := i1 x hx
    exact ⟨y, h1, h2, (e y).1 h3⟩
  · obtain ⟨p, h1, h2, h3⟩ := i2 x ((e x).2 hx)
    exact ⟨p, h1, h2, h3⟩

/-- The list after `insert_before(n, h)` for the first node `h` of the cycle:
`n` comes last. -/
theorem insert_before_head (s : Store α) (n h : α) (xs : List α)
    (hc : Chain s h xs h) (hnd : (h :: xs).Nodup) (hn : n ∉ h :: xs) :
    ∃ s', Link.insert_before s n h = some s' ∧ Chain s' h (xs ++ [n]) h := by
  obtain ⟨p, hp, hl⟩ := Chain.prev_end_last s xs h h hc
  rw [insert_before_eq s n h p hp]
  have hnh : n ≠ h := fun e => hn (by simp [e])
  have hnp : n ≠ p := fun e => hn (e ▸ getLast?_mem _ _ hl)
  refine ⟨_, rfl, ?_⟩
  refine chain_insert s _ p n h h [] xs h (by simpa using hc) hl rfl (by simpa using hnd)
    (by simpa using (List.nodup_cons.1 hnd).1) (by simpa using hn) hnh ?_ ?_ ?_ ?_ ?_ ?_
  · simp
  · simp [hnh]
  · simp [hnp]
  · simp
  · intro y h1 h2; simp [h1, h2]
  · intro y h1 h2; simp [h1, h2]

theorem splice_nodup (A B : List α) (n : α) (h : (A ++ B).Nodup) (hn : n ∉ A ++ B) :
    (A ++ n :: B).Nodup :=
  List.nodup_middle.2 (List.nodup_cons.2 ⟨hn, h⟩)

theorem mem_split_first (a : α) : ∀ (xs : List α), a ∈ xs →
    ∃ Z1 Z2, xs = Z1 ++ a :: Z2 ∧ a ∉ Z1 := by
  intro xs
  induction xs with
  | nil => intro h; simp at h
  | cons x xs ih =>
    intro h
    by_cases e : x = a
    · exact ⟨[], xs, by simp [e], by simp⟩
    · have hm : a ∈ xs := by
        rcases List.mem_cons.1 h with e1 | e1
        · exact absurd e1.symm e
        · exact e1
      obtain ⟨Z1, Z2, h1, h2⟩ := ih hm
      refine ⟨x :: Z1, Z2, by simp [h1], ?_⟩
      simp only [List.mem_cons, not_or]
      exact ⟨fun e2 => e e2.symm, h2⟩

/-- C21 (splice into a circular list).  The fields hold a circular list with
the cyclic sequence `h, xs` (distinct nodes; `xs` is empty for a self-linked
sentinel alone), `anchor` is a member and `n` is not a member.  Then
`insert_before(n, anchor)` returns and the fields hold the circular list
`h, placeBefore n anchor xs`: the old sequence with `n` immediately before
`anchor` (last, when `anchor` is `h`); `insert_after(n, anchor)` returns and
the fields hold the old sequence with `n` immediately after `anchor`.  In both
results the nodes are distinct and every node is linked with its neighbours
in both directions. -/
theorem cyclic_splice (s : Store α) (h anchor n : α) (xs : List α)
    (hc : Chain s h xs h) (hnd : (h :: xs).Nodup) (ha : anchor ∈ h :: xs)
    (hn : n ∉ h :: xs) :
    (∃ s', Link.insert_before s n anchor = some s' ∧
      Chain s' h (placeBefore n anchor xs) h ∧ (h :: placeBefore n anchor xs).Nodup ∧
      Linked s' (h :: placeBefore n anchor xs)) ∧
    (∃ s', Link.insert_after s n anchor = some s' ∧
      (placeAfter n anchor (h :: xs)).head? = some h ∧
      Chain s' h (placeAfter n anchor (h :: xs)).tail h ∧
      (placeAfter n anchor (h :: xs)).Nodup ∧ Linked s' (placeAfter n anchor (h :: xs))) := by
  have hxs : xs.Nodup := (List.nodup_cons.1 hnd).2
  have hhx : h ∉ xs := (List.nodup_cons.1 hnd).1
  have hnx : n ∉ xs := fun e => hn (List.mem_cons_of_mem _ e)
  have hnh : n ≠ h := fun e => hn (by simp [e])
  by_cases e : anchor = h
  · subst e
    constructor
    · obtain ⟨s', h1, h2⟩ := insert_before_head s n anchor xs hc hnd hn
      rw [placeBefore_absent n anchor xs hhx]
      have hnd2 : (anchor :: (xs ++ [n])).Nodup := by
        have := splice_nodup (anchor :: xs) [] n (by simpa using hnd) (by simpa using hn)
        simpa using this
      exact ⟨s', h1, h2, hnd2, Chain.linked s' anchor _ h2⟩
    · obtain ⟨s', h1, h2, _⟩ := insert_after_chain s n anchor anchor [] xs hc hnd hn rfl
      have e2 : placeAfter n anchor (anchor :: xs) = anchor :: n :: xs := by
        rw [placeAfter, if_pos rfl]
      rw [e2]
      have hnd2 : (anchor :: n :: xs).Nodup := splice_nodup [anchor] xs n hnd hn
      exact ⟨s', h1, rfl, h2, hnd2, Chain.linked s' anchor _ h2⟩
  · have hax : anchor ∈ xs := by
      rcases List.mem_cons.1 ha with e1 | e1
      · exact absurd e1 e
      · exact e1
    obtain ⟨Z1, Z2, hz, haZ⟩ := mem_split_first anchor xs hax
    subst hz
    constructor
    · obtain ⟨s', h1, h2, _⟩ := insert_before_chain s n h anchor Z1 (anchor :: Z2) hc hnd hn rfl
      rw [placeBefore_mid n anchor Z1 Z2 haZ]
      have hnd2 : (h :: (Z1 ++ n :: anchor :: Z2)).Nodup :=
        splice_nodup (h :: Z1) (anchor :: Z2) n hnd hn
      exact ⟨s', h1, h2, hnd2, Chain.linked s' h _ h2⟩
    · have hc2 : Chain s h ((Z1 ++ [anchor]) ++ Z2) h := by simpa using hc
      obtain ⟨s', h1, h2, _⟩ := insert_after_chain s n h anchor (Z1 ++ [anchor]) Z2 hc2
        (by simpa using hnd) (by simpa using hn) (List.getLast?_concat (h :: Z1))
      have e2 : placeAfter n anchor (h :: (Z1 ++ anchor :: Z2)) =
          h :: (Z1 ++ anchor :: n :: Z2) := by
        rw [placeAfter, if_neg (fun e1 => e e1.symm), placeAfter_mid n anchor Z1 Z2 haZ]
      rw [e2]
      have h3 : Chain s' h (Z1 ++ anchor :: n :: Z2) h := by simpa using h2
      have hnd2 : (h :: (Z1 ++ anchor :: n :: Z2)).Nodup := by
        have := splice_nodup (h :: (Z1 ++ [anchor])) Z2 n (by simpa using hnd) (by simpa using hn)
        simpa using this
      exact ⟨s', h1, rfl, h3, hnd2, Chain.linked s' h _ h3⟩

/-- Instance of C21 at the cycle 0, 1, 2 with anchor 1 and the new node 3. -/
theorem cyclic_splice_witness :
    ((∃ s', Link.insert_before linkDemo2 3 1 = some s' ∧
      Chain s' 0 (placeBefore 3 1 [1, 2]) 0 ∧ (0 :: placeBefore 3 1 [1, 2]).Nodup ∧
      Linked s' (0 :: placeBefore 3 1 [1, 2])) ∧
    (∃ s', Link.insert_after linkDemo2 3 1 = some s' ∧
      (placeAfter 3 1 (0 :: [1, 2])).head? = some 0 ∧
      Chain s' 0 (placeAfter 3 1 (0 :: [1, 2])).tail 0 ∧
      (placeAfter 3 1 (0 :: [1, 2])).Nodup ∧ Linked s' (placeAfter 3 1 (0 :: [1, 2])))) ∧
    placeBefore 3 1 [1, 2] = [3, 1, 2] ∧ placeAfter 3 1 (0 :: [1, 2]) = [0, 1, 3, 2] :=
  ⟨cyclic_splice linkDemo2 0 1 3 [1, 2] ⟨rfl, rfl, rfl, rfl, rfl, rfl⟩ (by decide) (by decide)
    (by decide), by decide, by decide⟩

/-- The fields after `remove(n)` of `link.js` when `n._l_prev` is `p` and
`n._l_next` is `q`. -/
theorem remove_eq (s : Store α) (n p q : α) (hp : s.prev n = some p) (hq : s.next n = some q) :
    Link.remove s n =
      some ((((s.setNext p (some q)).setPrev q (some p)).setNext n none).setPrev n none) := by
  simp [Link.remove, hp, hq]

/-- C22 (unlink undoes a splice).  The fields hold a circular list with the
cyclic sequence `h, xs` (distinct nodes), `anchor` is a member and `n` is not
a member.  Then `insert_before(n, anchor)` followed by `remove(n)` returns
and leaves every `_l_prev` and `_l_next` field of every node other than `n`
at its value before the insert, and `n` with both fields `null`, so that
`not_in_list(n)` is true; the same holds for `insert_after(n, anchor)`.  And
`remove(m)` of a member `m` of `xs` returns and leaves the circular list with
the cyclic sequence without `m`, and `m` with both fields `null`. -/
theorem unlink_undoes_splice (s : Store α) (h anchor n : α) (xs : List α)
    (hc : Chain s h xs h) (hnd : (h :: xs).Nodup) (ha : anchor ∈ h :: xs)
    (hn : n ∉ h :: xs) :
    (∃ s1 s2, Link.insert_before s n anchor = some s1 ∧ Link.remove s1 n = some s2 ∧
      (∀ x, x ≠ n → s2.prev x = s.prev x ∧ s2.next x = s.next x) ∧
      s2.prev n = none ∧ s2.next n = none ∧ Link.not_in_list s2 n = true) ∧
    (∃ s1 s2, Link.insert_after s n anchor = some s1 ∧ Link.remove s1 n = some s2 ∧
      (∀ x, x ≠ n → s2.prev x = s.prev x ∧ s2.next x = s.next x) ∧
      s2.prev n = none ∧ s2.next n = none ∧ Link.not_in_list s2 n = true) ∧
    (∀ (m : α) (Z1 Z2 : List α), xs = Z1 ++ m :: Z2 →
      ∃ s', Link.remove s m = some s' ∧ Chain s' h (Z1 ++ Z2) h ∧
        s'.prev m = none ∧ s'.next m = none ∧ Link.not_in_list s' m = true) := by
  obtain ⟨⟨q, hq1, hq2, hq3⟩, ⟨p, hp1, hp2, hp3⟩⟩ := Chain.linked s h xs hc anchor ha
  have hna : n ≠ anchor := fun e => hn (e ▸ ha)
  have hnp : n ≠ p := fun e => hn (e ▸ hp3)
  have hnq : n ≠ q := fun e => hn (e ▸ hq3)
  refine ⟨?_, ?_, ?_⟩
  · rw [insert_before_eq s n anchor p hp1]
    refine ⟨_, _, rfl, remove_eq _ n p anchor (by simp [hna, hna.symm])
      (by simp [hnp, hnp.symm]), ?_, by simp, by simp, by simp [Link.not_in_list]⟩
    intro x hx
    constructor
    · by_cases e : x = anchor
      · subst e; simp [hx, hp1]
      · simp [hx, e]
    · by_cases e : x = p
      · subst e; simp [hx, hp2]
      · simp [hx, e]
  · rw [insert_after_eq s n anchor q hq1]
    refine ⟨_, _, rfl, remove_eq _ n anchor q (by simp [hnq, hnq.symm])
      (by simp [hna, hna.symm]), ?_, by simp, by simp, by simp [Link.not_in_list]⟩
    intro x hx
    constructor
    · by_cases e : x = q
      · subst e; simp [hx, hq2]
      · simp [hx, e]
    · by_cases e : x = anchor
      · subst e; simp [hx, hq1]
      · simp [hx, e]
  · intro m Z1 Z2 e
    subst e
    obtain ⟨s', h1, h2, h3, h4, _⟩ := remove_chain s m h Z1 Z2 hc hnd
    exact ⟨s', h1, h2, h3, h4, by simp [Link.not_in_list, h3]⟩

/-- Instance of C22 at the cycle 0, 1, 2 with anchor 1 and the new node 3. -/
theorem unlink_undoes_splice_witness :
    (∃ s1 s2, Link.insert_before linkDemo2 3 1 = some s1 ∧ Link.remove s1 3 = some s2 ∧
      (∀ x, x ≠ 3 → s2.prev x = linkDemo2.prev x ∧ s2.next x = linkDemo2.next x) ∧
      s2.prev 3 = none ∧ s2.next 3 = none ∧ Link.not_in_list s2 3 = true) ∧
    (∃ s1 s2, Link.insert_after linkDemo2 3 1 = some s1 ∧ Link.remove s1 3 = some s2 ∧
      (∀ x, x ≠ 3 → s2.prev x = linkDemo2.prev x ∧ s2.next x = linkDemo2.next x) ∧
      s2.prev 3 = none ∧ s2.next 3 = none ∧ Link.not_in_list s2 3 = true) ∧
    (∀ (m : Nat) (Z1 Z2 : List Nat), [1, 2] = Z1 ++ m :: Z2 →
      ∃ s', Link.remove linkDemo2 m = some s' ∧ Chain s' 0 (Z1 ++ Z2) 0 ∧
        s'.prev m = none ∧ s'.next m = none ∧ Link.not_in_list s' m = true) :=
  unlink_undoes_splice linkDemo2 0 1 3 [1, 2] ⟨rfl, rfl, rfl, rfl, rfl, rfl⟩ (by decide)
    (by decide) (by decide)

/-- C23 (index arithmetic).  For every integer `0 ≤ i < 2^30`, the 32-bit
computations `(i << 1) + 1` of `shift_down` and `(i - 1) >> 1` of `shift_up`
are `2 i + 1` and the floor of `(i - 1) / 2`; the latter is -1 exactly when
`i = 0`; for a heap of at most `MAX_SAFE_SIZE = 2^30` nodes the child index
stays below `2^31` and the parent index is a slot below `i`.  For `i = 2^30`
the value `(i << 1) + 1` is `-2147483647`, not `2 i + 1`. -/
theorem index_arith_exact :
    (∀ i : Int, 0 ≤ i → i < HeapQueue.MAX_SAFE_SIZE →
      shl1 i + 1 = 2 * i + 1 ∧ sar1 (i - 1) = (i - 1) / 2 ∧
      2 * sar1 (i - 1) ≤ i - 1 ∧ i - 1 < 2 * sar1 (i - 1) + 2 ∧
      (sar1 (i - 1) = -1 ↔ i = 0) ∧
      shl1 i + 1 < 2147483648 ∧ (0 < i → 0 ≤ sar1 (i - 1) ∧ sar1 (i - 1) < i)) ∧
    HeapQueue.MAX_SAFE_SIZE = 1073741824 ∧
    shl1 HeapQueue.MAX_SAFE_SIZE + 1 = -2147483647 ∧
    shl1 HeapQueue.MAX_SAFE_SIZE + 1 ≠ 2 * HeapQueue.MAX_SAFE_SIZE + 1 := by
  have hm : HeapQueue.MAX_SAFE_SIZE = 1073741824 := by
    unfold HeapQueue.MAX_SAFE_SIZE; norm_num
  refine ⟨?_, hm, ?_, ?_⟩
  · intro i h0 h1
    rw [hm] at h1
    have e1 := shl1_exact i h0 h1
    have e2 := sar1_exact (i - 1) (by omega) (by omega)
    refine ⟨e1, e2, ?_, ?_, ?_, ?_, ?_⟩
    · rw [e2]; omega
    · rw [e2]; omega
    · rw [e2]; omega
    · rw [e1]; omega
    · rw [e2]; omega
  · rw [hm]; decide
  · rw [hm]; decide

/-- Instance of C23 at the largest index `2^30 - 1`. -/
theorem index_arith_exact_witness :
    (0 : Int) ≤ 1073741823 ∧ (1073741823 : Int) < HeapQueue.MAX_SAFE_SIZE ∧
    (shl1 1073741823 + 1 = 2 * 1073741823 + 1 ∧
      sar1 (1073741823 - 1) = (1073741823 - 1) / 2 ∧
      2 * sar1 (1073741823 - 1) ≤ 1073741823 - 1 ∧
      1073741823 - 1 < 2 * sar1 (1073741823 - 1) + 2 ∧
      (sar1 (1073741823 - 1) = -1 ↔ (1073741823 : Int) = 0) ∧
      shl1 1073741823 + 1 < 2147483648 ∧
      ((0 : Int) < 1073741823 → 0 ≤ sar1 (1073741823 - 1) ∧
        sar1 (1073741823 - 1) < 1073741823)) :=
  ⟨by decide, by decide, index_arith_exact.1 1073741823 (by decide) (by decide)⟩

theorem shift_up_out (prior : α → α → Bool) (li : α) :
    ∀ (fuel : Nat) (m m' : HeapMem α) (i : Int), 0 ≤ i → i < 2147483648 →
      shift_up prior li fuel m i = some m' → ∀ k, i < k → m'.arr k = m.arr k := by
  intro fuel
  induction fuel with
  | zero => intro m m' i _ _ h; simp [shift_up] at h
  | succ f ih =>
    intro m m' i hi0 hi1 h k hk
    have hj : sar1 (i - 1) = (i - 1) / 2 := sar1_exact _ (by omega) (by omega)
    have hne : k ≠ i := by omega
    rw [shift_up] at h
    simp only [hj] at h
    split at h
    · rename_i hjn
      split at h
      · exact Option.noConfusion h
      · rename_i aj haj
        split at h
        · rw [ih (m.put i aj) m' _ (by omega) (by omega) h k (by omega), put_arr, if_neg hne]
        · cases h; rw [put_arr, if_neg hne]
    · cases h; rw [put_arr, if_neg hne]

theorem shift_down_out (prior : α → α → Bool) (li : α) (ln : Int) :
    ∀ (fuel : Nat) (m m' : HeapMem α) (i : Int),
      shift_down prior li ln fuel m i = some m' → ∀ k, ln ≤ k → k ≠ i → m'.arr k = m.arr k := by
  intro fuel
  induction fuel with
  | zero => intro m m' i h; simp [shift_down] at h
  | succ f ih =>
    intro m m' i h k hk hki
    rw [shift_down] at h
    split at h
    · rename_i hjl
      split at h
      · exact Option.noConfusion h
      · rename_i j hpick
        have hjr : j < ln := by
          rw [shift_down_pick] at hpick
          split at hpick
          · rename_i hk2
            split at hpick
            · cases hpick
              split
              · exact hk2
              · exact hjl
            · exact Option.noConfusion hpick
          · cases hpick; exact hjl
        split at h
        · exact Option.noConfusion h
        · rename_i aj haj
          split at h
          · rw [ih (m.put i aj) m' j h k hk (by omega), put_arr, if_neg hki]
          · cases h; rw [put_arr, if_neg hki]
    · cases h; rw [put_arr, if_neg hki]

/-- Every slot from `ln` on holds `null` or is undefined, in every reached
queue. -/
theorem HeapQueue.Reach.tail_null (prior : α → α → Bool) (sw : StrictWeak prior)
    (q : HeapQueue α) (hr : HeapQueue.Reach prior q) : ∀ k, q.ln ≤ k → q.mem.arr k = none := by
  induction hr with
  | new fuel idx nodes q hnd hlen h =>
    intro k hk
    rw [HeapQueue.new] at h
    split at h
    · rename_i h0
      have hl : (List.map some nodes).length = nodes.length := by simp
      rw [hl] at h
      obtain ⟨m', hm', _, _, hout, _⟩ := heapify_spec prior sw nodes.length (by omega) hlen
        (max fuel (2 * nodes.length + 2)) (HeapMem.mk (arrOfList (nodes.map some)) idx)
        (by have := le_max_right fuel (2 * nodes.length + 2); push_cast; omega)
        (loaded_ofList nodes hnd idx)
      cases hh : heapify prior fuel (HeapMem.mk (arrOfList (nodes.map some)) idx) nodes.length with
      | none => rw [hh] at h; exact Option.noConfusion h
      | some m =>
        rw [hh] at h
        have := heapify_mono prior fuel (max fuel (2 * nodes.length + 2)) _ m _ hh
          (le_max_left _ _)
        rw [this] at hm'
        cases hm'
        cases h
        dsimp only at hk ⊢
        rw [hout k (Or.inr hk)]
        dsimp only [arrOfList]
        split
        · have : nodes.length ≤ k.toNat := by omega
          rw [List.getElem?_eq_none (by simpa using this)]; rfl
        · rfl
    · cases h
      dsimp only [arrOfList]
      split
      · rfl
      · rfl
  | enqueue fuel q q' n _ hn hlt h ih =>
    intro k hk
    have hinv := HeapQueue.Reach.inv prior sw q (by assumption)
    have h0 := hinv.lo
    rw [HeapQueue.enqueue, Alg.enqueue] at h
    cases hs : shift_up prior n fuel q.mem q.ln with
    | none => rw [hs] at h; exact Option.noConfusion h
    | some m1 =>
      rw [hs] at h
      cases h
      dsimp only at hk ⊢
      rw [shift_up_out prior n fuel q.mem m1 q.ln h0 (by omega) hs k (by omega)]
      exact ih k (by omega)
  | dequeue fuel q q' r _ hpos h ih =>
    intro k hk
    obtain ⟨x, _, _, hp⟩ := HeapQueue.dequeue_inv prior sw fuel q q' r
      (HeapQueue.Reach.inv prior sw q (by assumption)) hpos h
    have hsz := hp.size
    by_cases e : k = q'.ln
    · rw [e]; exact hp.slot
    · rw [HeapQueue.dequeue, Alg.dequeue] at h
      split at h
      · rename_i node li h1 h2
        cases hs : shift_down prior li (q.ln - 1) fuel q.mem 0 with
        | none => rw [hs] at h; exact Option.noConfusion h
        | some m1 =>
          rw [hs] at h
          cases h
          dsimp only at hk e hsz ⊢
          rw [Function.update_noteq e,
            shift_down_out prior li (q.ln - 1) fuel q.mem m1 0 hs k hk (by omega)]
          exact ih k (by omega)
      · exact Option.noConfusion h
  | remove fuel q q' n _ hm h ih =>
    intro k hk
    have hinv := HeapQueue.Reach.inv prior sw q (by assumption)
    have hp := HeapQueue.remove_inv prior sw fuel q q' n hinv hm h
    have hsz := hp.size
    by_cases e : k = q'.ln
    · rw [e]; exact hp.slot
    · obtain ⟨i, hi0, hiN, hi⟩ := hm
      have hidx : q.mem.idx n = some i := hinv.part.idx i n hi0 hiN (by omega) hi
      obtain ⟨li, hli⟩ := hinv.part.nodes (q.ln - 1) (by omega) (by omega) (by omega)
      have hhi := hinv.hi
      have hbase : Function.update q.mem.arr (q.ln - 1) none k = none := by
        rw [hsz] at e
        rw [Function.update_noteq e]
        exact ih k (by omega)
      rw [HeapQueue.remove, Alg.remove] at h
      simp only [hidx, hli] at h
      split at h
      · rename_i hne
        have hiN2 : i < q.ln - 1 := by
          by_contra hc
          have : i = q.ln - 1 := by omega
          rw [this, hli] at hi
          exact hne hi.symm
        split at h
        · cases hs : shift_down prior li (q.ln - 1) fuel
            (HeapMem.mk (Function.update q.mem.arr (q.ln - 1) none)
              (Function.update q.mem.idx n (some (-1)))) i with
          | none => rw [hs] at h; exact Option.noConfusion h
          | some m2 =>
            rw [hs] at h
            cases h
            dsimp only at hk ⊢
            rw [shift_down_out prior li (q.ln - 1) fuel _ m2 i hs k hk (by omega)]
            exact hbase
        · cases hs : shift_up prior li fuel
            (HeapMem.mk (Function.update q.mem.arr (q.ln - 1) none)
              (Function.update q.mem.idx n (some (-1)))) i with
          | none => rw [hs] at h; exact Option.noConfusion h
          | some m2 =>
            rw [hs] at h
            cases h
            dsimp only at hk ⊢
            rw [shift_up_out prior li fuel _ m2 i hi0 (by omega) hs k (by omega)]
            exact hbase
      · cases h
        exact hbase

/-- C29 (heap index bookkeeping).  For a strict weak order `prior` and every
queue reached by precondition-respecting constructor, `enqueue`, `dequeue` and
`remove` calls: `arr[i]` is a node with `arr[i]._lh_idx = i` for every
`0 ≤ i < ln`; no node occurs in two slots below `ln`; every slot from `ln` on
holds `null` (or was never written); `dequeue()` on a non-empty queue and
`remove(n)` of a member return, given fuel above `ln`, with the vacated slot
`arr[ln']` holding `null` and the returned or removed node having
`_lh_idx = -1`, so that `canHave` of it is true and `has` of it is false. -/
theorem index_bookkeeping (prior : α → α → Bool) (sw : StrictWeak prior) (q : HeapQueue α)
    (hr : HeapQueue.Reach prior q) :
    (∀ i, 0 ≤ i → i < q.ln → ∃ x, q.mem.arr i = some x ∧ q.mem.idx x = some i) ∧
    (∀ i j x, 0 ≤ i → i < q.ln → 0 ≤ j → j < q.ln → q.mem.arr i = some x →
      q.mem.arr j = some x → i = j) ∧
    (∀ k, q.ln ≤ k → q.mem.arr k = none) ∧
    (∀ fuel : Nat, 0 < q.ln → q.ln < fuel →
      ∃ q' r, q.dequeue prior fuel = some (q', some r) ∧ q'.mem.arr q'.ln = none ∧
        q'.mem.idx r = some (-1) ∧ q'.canHave r = true ∧ q'.has r = false) ∧
    (∀ (fuel : Nat) (n : α), HMem q.mem q.ln n → q.ln < fuel →
      ∃ q', q.remove prior fuel n = some q' ∧ q'.mem.arr q'.ln = none ∧
        q'.mem.idx n = some (-1) ∧ q'.canHave n = true ∧ q'.has n = false) := by
  have hinv := HeapQueue.Reach.inv prior sw q hr
  refine ⟨?_, ?_, HeapQueue.Reach.tail_null prior sw q hr, ?_, ?_⟩
  · intro i h0 h1
    obtain ⟨x, hx⟩ := hinv.part.nodes i h0 h1 (by omega)
    exact ⟨x, hx, hinv.part.idx i x h0 h1 (by omega) hx⟩
  · intro i j x h0 h1 h2 h3 e1 e2
    exact hinv.part.inj i j x h0 h1 h2 h3 (by omega) (by omega) e1 e2
  · intro fuel hpos hf
    obtain ⟨q', r, h1, _, hp⟩ := dequeue_spec prior sw q fuel hinv hpos hf
    refine ⟨q', r, h1, hp.slot, hp.idxN, ?_, ?_⟩
    · simp [HeapQueue.canHave, not_in_heap, hp.idxN]
    · simp [HeapQueue.has, not_in_heap, hp.idxN]
  · intro fuel n hm hf
    obtain ⟨q', h1, hp⟩ := remove_spec prior sw q n fuel hinv hm hf
    refine ⟨q', h1, hp.slot, hp.idxN, ?_, ?_⟩
    · simp [HeapQueue.canHave, not_in_heap, hp.idxN]
    · simp [HeapQueue.has, not_in_heap, hp.idxN]

/-- Instance of C29 at the queue built from `[5, 3, 8, 1]` by `enqueue(4)` and
`remove(3)`. -/
theorem index_bookkeeping_witness :
    (∀ i, 0 ≤ i → i < heapDemo2.ln →
      ∃ x, heapDemo2.mem.arr i = some x ∧ heapDemo2.mem.idx x = some i) ∧
    (∀ i j x, 0 ≤ i → i < heapDemo2.ln → 0 ≤ j → j < heapDemo2.ln →
      heapDemo2.mem.arr i = some x → heapDemo2.mem.arr j = some x → i = j) ∧
    (∀ k, heapDemo2.ln ≤ k → heapDemo2.mem.arr k = none) ∧
    (∀ fuel : Nat, 0 < heapDemo2.ln → heapDemo2.ln < fuel →
      ∃ q' r, heapDemo2.dequeue priorLt fuel = some (q', some r) ∧ q'.mem.arr q'.ln = none ∧
        q'.mem.idx r = some (-1) ∧ q'.canHave r = true ∧ q'.has r = false) ∧
    (∀ (fuel : Nat) (n : Nat), HMem heapDemo2.mem heapDemo2.ln n → heapDemo2.ln < fuel →
      ∃ q', heapDemo2.remove priorLt fuel n = some q' ∧ q'.mem.arr q'.ln = none ∧
        q'.mem.idx n = some (-1) ∧ q'.canHave n = true ∧ q'.has n = false) :=
  index_bookkeeping priorLt strictWeak_priorLt heapDemo2 heapDemo2_reach

theorem tieHeap_inv : HeapInv valPrior tieHeap :=
  (HeapQueue.new_inv valPrior strictWeak_valPrior 20 _ [vn 1 1, vn 3 2, vn 3 3] tieHeap
    (by decide) (by decide) rfl).inv

/-- C25 as stated fails where the removed node and the last node tie: in the
queue `[1, 3, 3]`, `remove` of the first node of value 3 (index 1, not the
last) has the second node of value 3 as `li`; `prior(li, n)` is false, yet
`remove` runs `shift_up` (it calls `prior(li, arr[0])`), not `shift_down`. -/
theorem sift_tie_counterexample :
    tieHeap.mem.arr 1 = some (vn 3 2) ∧ tieHeap.ln - 1 = 2 ∧
    tieHeap.mem.arr (tieHeap.ln - 1) = some (vn 3 3) ∧
    valPrior (vn 3 3) (vn 3 2) = false ∧
    remove_sift valPrior (vn 3 2) tieHeap.mem tieHeap.ln = some false ∧
    tieHeap.remove_calls valPrior 20 (vn 3 2) =
      [(some (vn 3 2), some (vn 3 3)), (some (vn 3 3), some (vn 1 1))] ∧
    ¬ (∀ (q : HeapQueue ValNode) (n li : ValNode) (i : Int), HeapInv valPrior q → 0 ≤ i →
      i < q.ln - 1 → q.mem.arr i = some n → q.mem.arr (q.ln - 1) = some li →
      ((remove_sift valPrior n q.mem q.ln = some true ↔ valPrior li n = false) ∧
        (remove_sift valPrior n q.mem q.ln = some false ↔ valPrior li n = true))) := by
  refine ⟨by decide, by decide, by decide, by decide, by decide, by decide, ?_⟩
  intro h
  have h1 := (h tieHeap (vn 3 2) (vn 3 3) 1 tieHeap_inv (by decide) (by decide) (by decide)
    (by decide)).1.2 (by decide)
  revert h1
  decide

/-- C25, amended.  For a strict weak order `prior`, a queue with the queue
invariant, a member `n` at index `i` that is not the last node, and the last
node `li = arr[ln - 1]`: `remove(n)` returns, given fuel above `ln`; it sifts
`li` down from index `i` exactly when `prior(n, li)` is true, and sifts `li`
up from index `i` exactly when `prior(n, li)` is false.  So it sifts up when
`prior(li, n)` is true, and when it sifts down `prior(li, n)` is false. -/
theorem sift_direction (prior : α → α → Bool) (sw : StrictWeak prior) (q : HeapQueue α)
    (n li : α) (i : Int) (fuel : Nat) (hinv : HeapInv prior q) (hi0 : 0 ≤ i)
    (hi : i < q.ln - 1) (hn : q.mem.arr i = some n) (hli : q.mem.arr (q.ln - 1) = some li)
    (hf : q.ln < fuel) :
    remove_sift prior n q.mem q.ln = some (prior n li) ∧
    (∃ q', q.remove prior fuel n = some q') ∧
    (prior n li = true →
      q.remove prior fuel n = (shift_down prior li (q.ln - 1) fuel
        (HeapMem.mk (Function.update q.mem.arr (q.ln - 1) none)
          (Function.update q.mem.idx n (some (-1)))) i).map
        (fun m2 => HeapQueue.mk m2 (q.ln - 1)) ∧
      q.remove_calls prior fuel n = (some n, some li) :: shift_down_calls prior li (q.ln - 1) fuel
        (HeapMem.mk (Function.update q.mem.arr (q.ln - 1) none)
          (Function.update q.mem.idx n (some (-1)))) i) ∧
    (prior n li = false →
      q.remove prior fuel n = (shift_up prior li fuel
        (HeapMem.mk (Function.update q.mem.arr (q.ln - 1) none)
          (Function.update q.mem.idx n (some (-1)))) i).map
        (fun m2 => HeapQueue.mk m2 (q.ln - 1)) ∧
      q.remove_calls prior fuel n = (some n, some li) :: shift_up_calls prior li fuel
        (HeapMem.mk (Function.update q.mem.arr (q.ln - 1) none)
          (Function.update q.mem.idx n (some (-1)))) i) ∧
    (prior li n = true → remove_sift prior n q.mem q.ln = some false) ∧
    (remove_sift prior n q.mem q.ln = some true → prior li n = false) := by
  have hhi := hinv.hi
  have hidx : q.mem.idx n = some i := hinv.part.idx i n hi0 (by omega) (by omega) hn
  have hne : n ≠ li := by
    rintro rfl
    have := hinv.part.inj i (q.ln - 1) n hi0 (by omega) (by omega) (by omega) (by omega)
      (by omega) hn hli
    omega
  have hne2 : some n ≠ some li := fun e => hne (Option.some.inj e)
  have hs : remove_sift prior n q.mem q.ln = some (prior n li) := by
    simp only [remove_sift, hli, ne_eq, hne2, not_false_eq_true, if_true]
  obtain ⟨q', hq'⟩ := remove_spec prior sw q n fuel hinv ⟨i, hi0, by omega, hn⟩ hf
  refine ⟨hs, ⟨q', hq'.1⟩, ?_, ?_, ?_, ?_⟩
  · intro hp
    constructor
    · simp only [HeapQueue.remove, Alg.remove, hidx, hli, ne_eq, hne2, not_false_eq_true, if_true,
        hp, Option.map_map]
      rfl
    · simp only [HeapQueue.remove_calls, Alg.remove_calls, hidx, hli, ne_eq, hne2,
        not_false_eq_true, if_true, hp]
  · intro hp
    constructor
    · simp only [HeapQueue.remove, Alg.remove, hidx, hli, ne_eq, hne2, not_false_eq_true, if_true,
        hp, Option.map_map, Bool.false_eq_true, if_false]
      rfl
    · simp only [HeapQueue.remove_calls, Alg.remove_calls, hidx, hli, ne_eq, hne2,
        not_false_eq_true, if_true, hp, Bool.false_eq_true, if_false]
  · intro hp
    rw [hs, sw.asymm hp]
  · intro h
    rw [hs] at h
    exact sw.asymm (Option.some.inj h)

/-- Instance of the amended C25 at the queue `[1, 3, 3]` and its first node of
value 3. -/
theorem sift_direction_witness :
    remove_sift valPrior (vn 3 2) tieHeap.mem tieHeap.ln = some (valPrior (vn 3 2) (vn 3 3)) ∧
    (∃ q', tieHeap.remove valPrior 20 (vn 3 2) = some q') ∧
    (valPrior (vn 3 2) (vn 3 3) = true →
      tieHeap.remove valPrior 20 (vn 3 2) = (shift_down valPrior (vn 3 3) (tieHeap.ln - 1) 20
        (HeapMem.mk (Function.update tieHeap.mem.arr (tieHeap.ln - 1) none)
          (Function.update tieHeap.mem.idx (vn 3 2) (some (-1)))) 1).map
        (fun m2 => HeapQueue.mk m2 (tieHeap.ln - 1)) ∧
      tieHeap.remove_calls valPrior 20 (vn 3 2) = (some (vn 3 2), some (vn 3 3)) ::
        shift_down_calls valPrior (vn 3 3) (tieHeap.ln - 1) 20
        (HeapMem.mk (Function.update tieHeap.mem.arr (tieHeap.ln - 1) none)
          (Function.update tieHeap.mem.idx (vn 3 2) (some (-1)))) 1) ∧
    (valPrior (vn 3 2) (vn 3 3) = false →
      tieHeap.remove valPrior 20 (vn 3 2) = (shift_up valPrior (vn 3 3) 20
        (HeapMem.mk (Function.update tieHeap.mem.arr (tieHeap.ln - 1) none)
          (Function.update tieHeap.mem.idx (vn 3 2) (some (-1)))) 1).map
        (fun m2 => HeapQueue.mk m2 (tieHeap.ln - 1)) ∧
      tieHeap.remove_calls valPrior 20 (vn 3 2) = (some (vn 3 2), some (vn 3 3)) ::
        shift_up_calls valPrior (vn 3 3) 20
        (HeapMem.mk (Function.update tieHeap.mem.arr (tieHeap.ln - 1) none)
          (Function.update tieHeap.mem.idx (vn 3 2) (some (-1)))) 1) ∧
    (valPrior (vn 3 3) (vn 3 2) = true →
      remove_sift valPrior (vn 3 2) tieHeap.mem tieHeap.ln = some false) ∧
    (remove_sift valPrior (vn 3 2) tieHeap.mem tieHeap.ln = some true →
      valPrior (vn 3 3) (vn 3 2) = false) :=
  sift_direction valPrior strictWeak_valPrior tieHeap (vn 3 2) (vn 3 3) 1 20 tieHeap_inv
    (by decide) (by decide) (by decide) (by decide) (by decide)

theorem option_toList_length_le (o : Option α) : o.toList.length ≤ 1 := by
  cases o <;> simp

theorem not_mem_option_toList (o : Option α) (y : α) : y ∉ o.toList ↔ some y ≠ o := by
  cases o with
  | none => simp
  | some a => simp [eq_comm]

theorem rotate_right_frame (s s' : Store α) (x : α) (h : Tree.rotate_right s x = some s') :
    (rotate_right_writes s x).length ≤ 4 ∧ FrameOutside s s' (rotate_right_writes s x) := by
  rw [Tree.rotate_right] at h
  rw [rotate_right_writes]
  cases hl : s.lch x with
  | none => rw [hl] at h; exact Option.noConfusion h
  | some ll =>
    rw [hl] at h
    simp only [Option.some.injEq] at h
    subst h
    have l1 := option_toList_length_le (s.rch ll)
    have l2 := option_toList_length_le (s.par x)
    refine ⟨by simp only [List.length_append, List.length_cons, List.length_nil]; omega,
      by simp, by simp, by simp, ?_⟩
    intro y hy
    simp only [List.mem_append, List.mem_cons, List.mem_singleton, List.not_mem_nil, or_false,
      not_or] at hy
    obtain ⟨⟨⟨hyx, hyl⟩, hy1⟩, hy2⟩ := hy
    rw [not_mem_option_toList] at hy1 hy2
    have hy2' : ¬ (s.par x = some y) := fun e => hy2 e.symm
    have hyl' : ¬ (some y = some ll) := fun e => hyl (Option.some.inj e)
    have hyx' : ¬ (some y = some x) := fun e => hyx (Option.some.inj e)
    refine ⟨?_, ?_, ?_⟩
    · simp [hyl', hyx', hy1]
    · simp [bind_replace_lch, hy2', hyx]
    · simp [bind_replace_rch, hy2', hyl]

theorem rotate_left_frame (s s' : Store α) (x : α) (h : Tree.rotate_left s x = some s') :
    (rotate_left_writes s x).length ≤ 4 ∧ FrameOutside s s' (rotate_left_writes s x) := by
  rw [Tree.rotate_left] at h
  rw [rotate_left_writes]
  cases hl : s.rch x with
  | none => rw [hl] at h; exact Option.noConfusion h
  | some lr =>
    rw [hl] at h
    simp only [Option.some.injEq] at h
    subst h
    have l1 := option_toList_length_le (s.lch lr)
    have l2 := option_toList_length_le (s.par x)
    refine ⟨by simp only [List.length_append, List.length_cons, List.length_nil]; omega,
      by simp, by simp, by simp, ?_⟩
    intro y hy
    simp only [List.mem_append, List.mem_cons, List.mem_singleton, List.not_mem_nil, or_false,
      not_or] at hy
    obtain ⟨⟨⟨hyx, hyl⟩, hy1⟩, hy2⟩ := hy
    rw [not_mem_option_toList] at hy1 hy2
    have hy2' : ¬ (s.par x = some y) := fun e => hy2 e.symm
    have hyl' : ¬ (some y = some lr) := fun e => hyl (Option.some.inj e)
    have hyx' : ¬ (some y = some x) := fun e => hyx (Option.some.inj e)
    refine ⟨?_, ?_, ?_⟩
    · simp [hyl', hyx', hy1]
    · simp [bind_replace_lch, hy2', hyl]
    · simp [bind_replace_rch, hy2', hyx]

theorem rotate_right_left_frame (s s' : Store α) (x : α)
    (h : Tree.rotate_right_left s x = some s') :
    (rotate_right_left_writes s x).length ≤ 6 ∧
      FrameOutside s s' (rotate_right_left_writes s x) := by
  rw [Tree.rotate_right_left] at h
  rw [rotate_right_left_writes]
  cases hl : s.lch x with
  | none => rw [hl] at h; exact Option.noConfusion h
  | some ll =>
    cases hp : s.par x with
    | none => rw [hl, hp] at h; exact Option.noConfusion h
    | some lp =>
      rw [hl, hp] at h
      simp only [Option.some.injEq] at h
      subst h
      have l1 := option_toList_length_le (s.rch ll)
      have l2 := option_toList_length_le (s.lch ll)
      have l3 := option_toList_length_le (s.par lp)
      refine ⟨by simp only [List.length_append, List.length_cons, List.length_nil]; omega,
        by simp, by simp, by simp, ?_⟩
      intro y hy
      simp only [List.mem_append, List.mem_cons, List.mem_singleton, List.not_mem_nil, or_false,
        not_or] at hy
      obtain ⟨⟨⟨⟨hyx, hyl, hyp⟩, hy1⟩, hy2⟩, hy3⟩ := hy
      rw [not_mem_option_toList] at hy1 hy2 hy3
      have hy3' : ¬ (s.par lp = some y) := fun e => hy3 e.symm
      have hyl' : ¬ (some y = some ll) := fun e => hyl (Option.some.inj e)
      have hyx' : ¬ (some y = some x) := fun e => hyx (Option.some.inj e)
      have hyp' : ¬ (some y = some lp) := fun e => hyp (Option.some.inj e)
      refine ⟨?_, ?_, ?_⟩
      · by_cases e : ll = x
        · subst e; simp [hyl', hyx', hyp', hy1, hy2]
        · simp [hyl', hyx', hyp', hy1, hy2, e]
      · simp [bind_replace_lch, hy3', hyx, hyl]
      · simp [bind_replace_rch, hy3', hyl, hyp]

theorem rotate_left_right_frame (s s' : Store α) (x : α)
    (h : Tree.rotate_left_right s x = some s') :
    (rotate_left_right_writes s x).length ≤ 6 ∧
      FrameOutside s s' (rotate_left_right_writes s x) := by
  rw [Tree.rotate_left_right] at h
  rw [rotate_left_right_writes]
  cases hl : s.rch x with
  | none => rw [hl] at h; exact Option.noConfusion h
  | some lr =>
    cases hp : s.par x with
    | none => rw [hl, hp] at h; exact Option.noConfusion h
    | some lp =>
      rw [hl, hp] at h
      simp only [Option.some.injEq] at h
      subst h
      have l1 := option_toList_length_le (s.lch lr)
      have l2 := option_toList_length_le (s.rch lr)
      have l3 := option_toList_length_le (s.par lp)
      refine ⟨by simp only [List.length_append, List.length_cons, List.length_nil]; omega,
        by simp, by simp, by simp, ?_⟩
      intro y hy
      simp only [List.mem_append, List.mem_cons, List.mem_singleton, List.not_mem_nil, or_false,
        not_or] at hy
      obtain ⟨⟨⟨⟨hyx, hyl, hyp⟩, hy1⟩, hy2⟩, hy3⟩ := hy
      rw [not_mem_option_toList] at hy1 hy2 hy3
      have hy3' : ¬ (s.par lp = some y) := fun e => hy3 e.symm
      have hyl' : ¬ (some y = some lr) := fun e => hyl (Option.some.inj e)
      have hyx' : ¬ (some y = some x) := fun e => hyx (Option.some.inj e)
      have hyp' : ¬ (some y = some lp) := fun e => hyp (Option.some.inj e)
      refine ⟨?_, ?_, ?_⟩
      · by_cases e : lr = x
        · subst e; simp [hyl', hyx', hyp', hy1, hy2]
        · simp [hyl', hyx', hyp', hy1, hy2, e]
      · simp [bind_replace_lch, hy3', hyl, hyp]
      · simp [bind_replace_rch, hy3', hyx, hyl]

theorem rotDemo_repr : Repr rotDemo rotDemoTree none :=
  ⟨rfl, rfl, rfl, rfl, trivial, rfl, rfl, rfl, rfl, trivial, rfl, rfl, rfl, rfl,
    ⟨rfl, rfl, rfl, rfl, ⟨rfl, rfl, rfl, rfl, trivial, trivial⟩,
      ⟨rfl, rfl, rfl, rfl, trivial, trivial⟩⟩, trivial⟩

/-- C28 as stated fails for the double rotations: on the tree of `rotDemo`,
where 3 is a right child with the left child 4, `rotate_right_left(3)` changes
a tree link of each of the six nodes 1 to 6, so no set of at most four nodes
holds all the nodes written. -/
theorem rotation_six_counterexample :
    Repr rotDemo rotDemoTree none ∧ rotDemoTree.toList.Nodup ∧
    rotDemo.par 3 = some 2 ∧ rotDemo.rch 2 = some 3 ∧ rotDemo.lch 3 = some 4 ∧
    ∃ s', Tree.rotate_right_left rotDemo 3 = some s' ∧
      (∀ y, y ∈ [1, 2, 3, 4, 5, 6] →
        ¬ (s'.par y = rotDemo.par y ∧ s'.lch y = rotDemo.lch y ∧ s'.rch y = rotDemo.rch y)) ∧
      ¬ ∃ W : List Nat, W.length ≤ 4 ∧ FrameOutside rotDemo s' W := by
  refine ⟨rotDemo_repr, by decide, rfl, rfl, rfl, ?_⟩
  · have hch : ∀ y, y ∈ [1, 2, 3, 4, 5, 6] →
        ¬ (((Tree.rotate_right_left rotDemo 3).getD rotDemo).par y = rotDemo.par y ∧
          ((Tree.rotate_right_left rotDemo 3).getD rotDemo).lch y = rotDemo.lch y ∧
          ((Tree.rotate_right_left rotDemo 3).getD rotDemo).rch y = rotDemo.rch y) := by
      decide
    refine ⟨(Tree.rotate_right_left rotDemo 3).getD rotDemo, rfl, hch, ?_⟩
    rintro ⟨W, hW, _, _, _, hf⟩
    have hsub : [1, 2, 3, 4, 5, 6] ⊆ W := by
      intro y hy
      by_contra hn
      exact hch y hy (hf y hn)
    have := (List.Nodup.subperm (by decide) hsub).length_le
    simp only [List.length_cons, List.length_nil] at this
    omega

/-- C28, amended (rotation frame).  When a rotation returns, no `_lt_color`,
`_l_prev` or `_l_next` field differs afterwards, and every node whose
`_lt_par`, `_lt_lch` or `_lt_rch` field differs is among the nodes written: at
most four nodes for `rotate_right` and `rotate_left` (the node, its child that
moves up, the inner child of that child, the parent of the node) and at most
six nodes for `rotate_right_left` and `rotate_left_right` (the node, its child
that moves up, both children of that child, the parent and the grandparent of
the node). -/
theorem rotation_frame (s s' : Store α) (x : α) :
    (Tree.rotate_right s x = some s' →
      (rotate_right_writes s x).length ≤ 4 ∧ FrameOutside s s' (rotate_right_writes s x)) ∧
    (Tree.rotate_left s x = some s' →
      (rotate_left_writes s x).length ≤ 4 ∧ FrameOutside s s' (rotate_left_writes s x)) ∧
    (Tree.rotate_right_left s x = some s' →
      (rotate_right_left_writes s x).length ≤ 6 ∧
        FrameOutside s s' (rotate_right_left_writes s x)) ∧
    (Tree.rotate_left_right s x = some s' →
      (rotate_left_right_writes s x).length ≤ 6 ∧
        FrameOutside s s' (rotate_left_right_writes s x)) :=
  ⟨rotate_right_frame s s' x, rotate_left_frame s s' x, rotate_right_left_frame s s' x,
    rotate_left_right_frame s s' x⟩

/-- Instance of the amended C28: `rotate_right_left(3)` and `rotate_right(3)`
on the tree of `rotDemo`. -/
theorem rotation_frame_witness :
    (∃ s', Tree.rotate_right_left rotDemo 3 = some s' ∧
      (rotate_right_left_writes rotDemo 3).length ≤ 6 ∧
      FrameOutside rotDemo s' (rotate_right_left_writes rotDemo 3)) ∧
    (∃ s', Tree.rotate_right rotDemo 3 = some s' ∧
      (rotate_right_writes rotDemo 3).length ≤ 4 ∧
      FrameOutside rotDemo s' (rotate_right_writes rotDemo 3)) ∧
    rotate_right_left_writes rotDemo 3 = [3, 4, 2, 6, 5, 1] ∧
    rotate_right_writes rotDemo 3 = [3, 4, 6, 2] :=
  ⟨⟨_, rfl, (rotation_frame rotDemo _ 3).2.2.1 rfl⟩, ⟨_, rfl, (rotation_frame rotDemo _ 3).1 rfl⟩,
    by decide, by decide⟩

theorem node_left_some (s : Store α) (c : Bool) (l r : RBT α) (x : α) (p : Option α)
    (hr : Repr s (.node c l x r) p) (h : (s.lch x).isSome = true) :
    ∃ cl a ll b, l = .node cl a ll b := by
  cases l with
  | nil =>
    have := hr.2.1
    rw [this] at h
    simp [RBT.root] at h
  | node cl a ll b => exact ⟨cl, a, ll, b, rfl⟩

theorem node_right_some (s : Store α) (c : Bool) (l r : RBT α) (x : α) (p : Option α)
    (hr : Repr s (.node c l x r) p) (h : (s.rch x).isSome = true) :
    ∃ cr a lr b, r = .node cr a lr b := by
  cases r with
  | nil =>
    have := hr.2.2.1
    rw [this] at h
    simp [RBT.root] at h
  | node cr a lr b => exact ⟨cr, a, lr, b, rfl⟩

/-- A node of a tree that is the right child of its parent sits below a frame
of kind `R`. -/
theorem ctx_of_right_child (s : Store α) (ctx : List (Frame α)) (c : Bool) (l r : RBT α)
    (x p : α) (hr : Repr s (plug (.node c l x r) ctx) none)
    (hnd : (plug (.node c l x r) ctx).toList.Nodup)
    (hp : s.par x = some p) (hc : s.rch p = some x) :
    ∃ cp sib rest, ctx = .R cp sib p :: rest := by
  obtain ⟨h1, h2⟩ := (repr_plug_iff s ctx _).1 hr
  have hsep := plug_sep ctx c l x r hnd
  have hpar : ctxPar ctx = some p := by rw [← h1.1]; exact hp
  cases ctx with
  | nil => simp [ctxPar] at hpar
  | cons f rest =>
    cases f with
    | L cp y r' =>
      simp only [ctxPar, Frame.node, Option.some.injEq] at hpar
      subst hpar
      have h3 : s.rch y = r'.root := h2.2.2.1
      rw [hc] at h3
      have hm := RBT.root_mem r' x h3.symm
      exact absurd (by simp [ctxRight, hm]) hsep.x_c
    | R cp sib y =>
      simp only [ctxPar, Frame.node, Option.some.injEq] at hpar
      subst hpar
      exact ⟨cp, sib, rest, rfl⟩

/-- A node of a tree that is the left child of its parent sits below a frame
of kind `L`. -/
theorem ctx_of_left_child (s : Store α) (ctx : List (Frame α)) (c : Bool) (l r : RBT α)
    (x p : α) (hr : Repr s (plug (.node c l x r) ctx) none)
    (hnd : (plug (.node c l x r) ctx).toList.Nodup)
    (hp : s.par x = some p) (hc : s.lch p = some x) :
    ∃ cp sib rest, ctx = .L cp p sib :: rest := by
  obtain ⟨h1, h2⟩ := (repr_plug_iff s ctx _).1 hr
  have hsep := plug_sep ctx c l x r hnd
  have hpar : ctxPar ctx = some p := by rw [← h1.1]; exact hp
  cases ctx with
  | nil => simp [ctxPar] at hpar
  | cons f rest =>
    cases f with
    | R cp l' y =>
      simp only [ctxPar, Frame.node, Option.some.injEq] at hpar
      subst hpar
      have h3 : s.lch y = l'.root := h2.2.1
      rw [hc] at h3
      have hm := RBT.root_mem l' x h3.symm
      exact absurd (by simp [ctxLeft, hm]) hsep.x_c
    | L cp y sib =>
      simp only [ctxPar, Frame.node, Option.some.injEq] at hpar
      subst hpar
      exact ⟨cp, sib, rest, rfl⟩

/-- C27 (rotations preserve the in-order sequence).  The fields `s` hold a
binary tree `t` with consistent parent and child links and distinct nodes, and
`x` is a node of it.  If `x` satisfies the precondition of a rotation
(`rotate_right`: `x` has a left child; `rotate_left`: `x` has a right child;
`rotate_right_left`: `x` is a right child with a left child;
`rotate_left_right`: `x` is a left child with a right child), the rotation
returns and the fields then hold a tree with consistent links whose in-order
sequence is that of `t`. -/
theorem rotation_inorder (s : Store α) (t : RBT α) (x : α) (hr : Repr s t none)
    (hnd : t.toList.Nodup) (hx : x ∈ t.toList) :
    ((s.lch x).isSome = true →
      ∃ s' t', Tree.rotate_right s x = some s' ∧ Repr s' t' none ∧ t'.toList = t.toList) ∧
    ((s.rch x).isSome = true →
      ∃ s' t', Tree.rotate_left s x = some s' ∧ Repr s' t' none ∧ t'.toList = t.toList) ∧
    ((s.lch x).isSome = true → (∃ p, s.par x = some p ∧ s.rch p = some x) →
      ∃ s' t', Tree.rotate_right_left s x = some s' ∧ Repr s' t' none ∧
        t'.toList = t.toList) ∧
    ((s.rch x).isSome = true → (∃ p, s.par x = some p ∧ s.lch p = some x) →
      ∃ s' t', Tree.rotate_left_right s x = some s' ∧ Repr s' t' none ∧
        t'.toList = t.toList) := by
  obtain ⟨c, l, r, ctx, rfl⟩ := exists_plug_of_mem t x hx
  have h1 := ((repr_plug_iff s ctx _).1 hr).1
  refine ⟨?_, ?_, ?_, ?_⟩
  · intro hl
    obtain ⟨cl, a, ll, b, rfl⟩ := node_left_some s c l r x _ h1 hl
    obtain ⟨s', e1, e2, _⟩ := rotate_right_sim s ctx c cl a b r x ll hr hnd
    refine ⟨s', _, e1, e2, ?_⟩
    rw [toList_plug, toList_plug]
    simp [RBT.toList]
  · intro hrc
    obtain ⟨cr, a, lr, b, rfl⟩ := node_right_some s c l r x _ h1 hrc
    obtain ⟨s', e1, e2, _⟩ := rotate_left_sim s ctx c cr l a b x lr hr hnd
    refine ⟨s', _, e1, e2, ?_⟩
    rw [toList_plug, toList_plug]
    simp [RBT.toList]
  · rintro hl ⟨p, hp, hc⟩
    obtain ⟨cl, a, ll, b, rfl⟩ := node_left_some s c l r x _ h1 hl
    obtain ⟨cp, sib, rest, rfl⟩ := ctx_of_right_child s ctx c _ r x p hr hnd hp hc
    obtain ⟨s', e1, e2, _⟩ := rotate_right_left_sim s rest cp c cl sib a b r p x ll hr hnd
    refine ⟨s', _, e1, e2, ?_⟩
    simp only [plug]
    rw [toList_plug, toList_plug]
    simp [RBT.toList]
  · rintro hrc ⟨p, hp, hc⟩
    obtain ⟨cr, a, lr, b, rfl⟩ := node_right_some s c l r x _ h1 hrc
    obtain ⟨cp, sib, rest, rfl⟩ := ctx_of_left_child s ctx c l _ x p hr hnd hp hc
    obtain ⟨s', e1, e2, _⟩ := rotate_left_right_sim s rest cp c cr sib a b l p x lr hr hnd
    refine ⟨s', _, e1, e2, ?_⟩
    simp only [plug]
    rw [toList_plug, toList_plug]
    simp [RBT.toList]

/-- Instance of C27 at the node 3 of the tree of `rotDemo`, which is a right
child with a left child. -/
theorem rotation_inorder_witness :
    ((rotDemo.lch 3).isSome = true →
      ∃ s' t', Tree.rotate_right rotDemo 3 = some s' ∧ Repr s' t' none ∧
        t'.toList = rotDemoTree.toList) ∧
    ((rotDemo.rch 3).isSome = true →
      ∃ s' t', Tree.rotate_left rotDemo 3 = some s' ∧ Repr s' t' none ∧
        t'.toList = rotDemoTree.toList) ∧
    ((rotDemo.lch 3).isSome = true → (∃ p, rotDemo.par 3 = some p ∧ rotDemo.rch p = some 3) →
      ∃ s' t', Tree.rotate_right_left rotDemo 3 = some s' ∧ Repr s' t' none ∧
        t'.toList = rotDemoTree.toList) ∧
    ((rotDemo.rch 3).isSome = true → (∃ p, rotDemo.par 3 = some p ∧ rotDemo.lch p = some 3) →
      ∃ s' t', Tree.rotate_left_right rotDemo 3 = some s' ∧ Repr s' t' none ∧
        t'.toList = rotDemoTree.toList) :=
  rotation_inorder rotDemo rotDemoTree 3 rotDemo_repr (by decide) (by decide)

/-- C26 (the list predecessor is a valid hint).  For a valid list with
forward traversal `xs` and a member `n` that has both a left and a right
child, `n._l_prev` is a node `p` other than the sentinel, `get_lmax(n)`
returns `p` (given fuel above `ln`), `get_target` chooses the same target with
the hint `p` as without a hint, and `rb_remove(n, tRoot, null)` returns, with
`rb_remove(n, tRoot, n._l_prev)` returning the same result (the same fields,
hence links and colours, and the same root). -/
theorem prev_is_lmax (prior : α → α → Bool) (L : TreeList α) (xs : List α) (n : α)
    (fuel : Nat) (hv : L.Valid prior) (hf : L.ln < fuel) (hxs : L.toList fuel = some xs)
    (hn : n ∈ xs) (hl : (L.store.lch n).isSome = true) (hrc : (L.store.rch n).isSome = true) :
    ∃ p, L.store.prev n = some p ∧ p ≠ L.lHead ∧ p ∈ xs ∧
      Tree.get_lmax fuel L.store n = some p ∧
      Tree.get_target fuel L.store n (some p) = Tree.get_target fuel L.store n none ∧
      ∃ s' r, Tree.rb_remove fuel L.store n L.tRoot none = some (s', r) ∧
        Tree.rb_remove fuel L.store n L.tRoot (L.store.prev n) = some (s', r) := by
  obtain ⟨t, hm⟩ := hv
  have hsz := hm.size
  have e0 := hm.toList_eq prior L t fuel hf
  rw [hxs] at e0
  simp only [Option.some.injEq] at e0
  subst e0
  have hps := Chain.prev_some L.store t.toList L.lHead L.lHead hm.chain n hn
  obtain ⟨p, hp⟩ := Option.isSome_iff_exists.1 hps
  obtain ⟨A, B, hAB⟩ := hm.prev_pred prior L t n p hn hp hl
  have hnd := hm.nodup
  obtain ⟨c, l, r, ctx, ht⟩ := exists_plug_of_mem t n hn
  have hr := hm.repr
  rw [ht] at hr
  have h1 := ((repr_plug_iff L.store ctx _).1 hr).1
  obtain ⟨cl, a, ll, b, rfl⟩ := node_left_some L.store c l r n _ h1 hl
  have hlen : (RBT.node cl a ll b).toList.length ≤ fuel := by
    have : (RBT.node cl a ll b).toList.length ≤ t.toList.length := by
      rw [ht, toList_plug]
      simp only [RBT.toList, List.length_append, List.length_cons]
      omega
    omega
  obtain ⟨ct, tl, x, lctx, e1, e2, e3⟩ := get_lmax_spec L.store (.node cl a ll b) (some n) ll fuel
    rfl h1.2.2.2.2.1 hlen
  have hlm : Tree.get_lmax fuel L.store n = some x := by
    rw [Tree.get_lmax, h1.2.1]
    exact e3
  have hx : ∃ A' B', t.toList = A' ++ x :: n :: B' := by
    refine ⟨ctxLeft ctx ++ (ctxLeft lctx ++ tl.toList), r.toList ++ ctxRight ctx, ?_⟩
    rw [ht, toList_plug]
    have : (RBT.node c (RBT.node cl a ll b) n r).toList =
        (RBT.node cl a ll b).toList ++ n :: r.toList := rfl
    rw [this, e1, toList_plug, e2]
    simp [RBT.toList]
  obtain ⟨A', B', hAB'⟩ := hx
  have hpx : p = x := by
    have hnd2 : ((A ++ [p]) ++ n :: B).Nodup := by
      have h := hnd
      rw [hAB] at h
      simpa using h
    have := (split_unique n (A ++ [p]) (A' ++ [x]) B B' hnd2
      (by simp only [List.append_assoc, List.singleton_append]; rw [← hAB, hAB'])).1
    have h2 := congrArg List.getLast? this
    simpa using h2
  subst hpx
  have hpm : p ∈ t.toList := by rw [hAB]; simp
  have hgt : Tree.get_target fuel L.store n (some p) = Tree.get_target fuel L.store n none := by
    simp only [Tree.get_target, hl, hrc, Bool.and_self, if_true, hlm]
  obtain ⟨s', r', t', g1, _⟩ := rb_remove_sim L.store t n none fuel hm.repr hnd hm.rb hn
    (fun q hq => Option.noConfusion hq) (by omega)
  rw [hm.root] at g1
  refine ⟨p, hp, fun e => hm.head (e ▸ hpm), hpm, hlm, hgt, s', r', g1, ?_⟩
  rw [← g1, hp]
  simp only [Tree.rb_remove, hgt]

/-- Instance of C26 at the root 5 of the list with the values 1, 3, 5, 8: it
has both children and its list predecessor is the node of value 3. -/
theorem prev_is_lmax_witness :
    (∃ p, tlDemo4.store.prev (vn 5 1) = some p ∧ p ≠ tlDemo4.lHead ∧
      p ∈ [vn 1 4, vn 3 2, vn 5 1, vn 8 3] ∧
      Tree.get_lmax 10 tlDemo4.store (vn 5 1) = some p ∧
      Tree.get_target 10 tlDemo4.store (vn 5 1) (some p) =
        Tree.get_target 10 tlDemo4.store (vn 5 1) none ∧
      ∃ s' r, Tree.rb_remove 10 tlDemo4.store (vn 5 1) tlDemo4.tRoot none = some (s', r) ∧
        Tree.rb_remove 10 tlDemo4.store (vn 5 1) tlDemo4.tRoot (tlDemo4.store.prev (vn 5 1)) =
          some (s', r)) ∧
    tlDemo4.store.prev (vn 5 1) = some (vn 3 2) :=
  ⟨prev_is_lmax valPrior tlDemo4 [vn 1 4, vn 3 2, vn 5 1, vn 8 3] (vn 5 1) 10 tlDemo4_valid
    (by decide) (by decide) (by decide) (by decide) (by decide), by decide⟩

/-- The call `add(n)` on a valid non-empty list, step by step: `rb_add` returns
a tree that holds `n` as a leaf or with a right child that has no left child,
the list insertion returns, and the resulting list is valid for that tree. -/
theorem add_shape (prior : α → α → Bool) (sw : StrictWeak prior) (L : TreeList α) (t : RBT α)
    (n root : α) (fuel : Nat) (hm : L.Models prior t) (hroot : L.tRoot = some root)
    (hfree : L.store.Free n) (hf : t.toList.length ≤ fuel) :
    ∃ s1 r t' s2 ctx c l r', Tree.rb_add prior fuel L.store n root = some (s1, r) ∧
      Repr s1 t' none ∧ t'.root = some r ∧ t'.toList.Nodup ∧
      t'.toList.length = t.toList.length + 1 ∧ t' = plug (.node c l n r') ctx ∧
      ((l = .nil ∧ r' = .nil) ∨ ∃ c2 x r2, r' = .node c2 .nil x r2) ∧
      TreeList.add_link s1 n = some s2 ∧
      L.add prior fuel n = some { L with store := s2, tRoot := some r, ln := L.ln + 1 } ∧
      TreeList.Models prior { L with store := s2, tRoot := some r, ln := L.ln + 1 } t' := by
  obtain ⟨hn, hnh⟩ := Store.Free.not_mem prior L t n hm hfree
  obtain ⟨f1, f2, f3, f4, f5, f6⟩ := hfree
  have hroot2 : t.root = some root := by rw [hm.root, hroot]
  obtain ⟨s1, r, t', e1, e2, e3, e4, e5, e6, e7, e8, e9⟩ :=
    rb_add_sim prior L.store n root t fuel hm.repr hroot2 hm.nodup hm.rb hn f4 f5 f6 hf
  have hsh : InsShape n t' :=
    insFix_shape n false _ (RBT.insPath prior n t []) [] t' (le_refl _) e2
  have hplug : (plug .nil (RBT.insPath prior n t [])).toList = t.toList := by
    rw [insPath_plug]; rfl
  rw [toList_plug] at hplug e6
  simp only [RBT.toList, List.append_nil, List.nil_append, List.append_assoc,
    List.singleton_append] at hplug e6
  have hne : ctxLeft (RBT.insPath prior n t []) ++ ctxRight (RBT.insPath prior n t []) ≠ [] := by
    rw [hplug]
    intro e
    have := RBT.root_mem t root hroot2
    rw [e] at this
    simp at this
  have hnd' : t'.toList.Nodup := by
    rw [toList_plug] at e7
    simp only [RBT.toList, List.append_nil, List.nil_append, List.append_assoc,
      List.singleton_append] at e7
    rw [e6]; exact e7
  have hh' : L.lHead ∉ t'.toList := by
    rw [e6]
    intro hmem
    rcases List.mem_append.1 hmem with e | e
    · exact hm.head (by rw [← hplug]; exact List.mem_append_left _ e)
    · rcases List.mem_cons.1 e with e | e
      · exact hnh e.symm
      · exact hm.head (by rw [← hplug]; exact List.mem_append_right _ e)
  have hc1 : Chain s1 L.lHead
      (ctxLeft (RBT.insPath prior n t []) ++ ctxRight (RBT.insPath prior n t [])) L.lHead := by
    rw [hplug]
    exact Chain.ofLinksEq _ _ _ _ _ hm.chain e9 e8
  obtain ⟨s2, g1, g2, g3, g4, g5, g6⟩ := add_link_sim s1 n L.lHead t' _ _ e3 hsh hnd' e6 hne hc1 hh'
  obtain ⟨hsl, hsr⟩ := insPath_sides prior sw n t [] hm.sorted (by simp [ctxLeft])
    (by simp [ctxRight])
  have hlen : t'.toList.length = t.toList.length + 1 := by
    rw [e6, ← hplug]
    simp only [List.length_append, List.length_cons]
    omega
  obtain ⟨ctx, c, l, r', k1, k2⟩ := hsh
  refine ⟨s1, r, t', s2, ctx, c, l, r', e1, e3, e4, hnd', hlen, k1, k2, g1, ?_, ?_⟩
  · simp only [TreeList.add, hroot, e1, g1, Option.map_some']
  · refine ⟨Repr.of_eq s1 s2 t' none e3 g3 g4 g5 g6, e4, hnd', e5, ?_, hh', ?_, ?_⟩
    · rw [e6]; exact g2
    · show L.ln + 1 = _
      rw [hm.size, hlen]
      push_cast
      rfl
    · rw [e6]
      have hs := hm.sorted
      rw [← hplug] at hs
      rw [List.pairwise_append] at hs ⊢
      refine ⟨hs.1, ?_, ?_⟩
      · rw [List.pairwise_cons]
        exact ⟨fun b hb => sw.asymm (hsr b hb), hs.2.1⟩
      · intro a ha b hb
        rcases List.mem_cons.1 hb with rfl | hb
        · exact hsl a ha
        · exact hs.2.2 a ha b hb

theorem tlTwo_valid : tlTwo.Valid valPrior := by
  have hr : TreeList.Reach valPrior tlTwo [vn 1 1, vn 3 2] := by
    have r0 : TreeList.Reach valPrior tlDemo0 [] := TreeList.Reach.new emptyStore (vn 0 0)
    have r1 := TreeList.Reach.add 10 tlDemo0 ((tlDemo0.add valPrior 10 (vn 1 1)).getD tlDemo0)
      (vn 1 1) [] r0 (by decide) rfl
    exact TreeList.Reach.add 10 _ tlTwo (vn 3 2) _ r1 (by decide) rfl
  obtain ⟨t, h⟩ := TreeList.Reach.listInv valPrior strictWeak_valPrior _ _ hr
  exact ⟨t, h.models⟩

theorem tlDemo1_valid : tlDemo1.Valid valPrior := by
  have hr : TreeList.Reach valPrior tlDemo1 [vn 5 1] :=
    TreeList.Reach.add 10 tlDemo0 tlDemo1 (vn 5 1) [] (TreeList.Reach.new emptyStore (vn 0 0))
      (by decide) rfl
  obtain ⟨t, h⟩ := TreeList.Reach.listInv valPrior strictWeak_valPrior _ _ hr
  exact ⟨t, h.models⟩

/-- C24 as stated fails: on the valid list with the values 1 and 3, `rb_add` of
a node of value 2 ends with the new node as root with the right child 3, so
`add` takes the right-child branch. -/
theorem right_branch_counterexample :
    tlTwo.Valid valPrior ∧ tlTwo.tRoot = some (vn 1 1) ∧ tlTwo.store.Free (vn 2 3) ∧
    (Tree.rb_add valPrior 10 tlTwo.store (vn 2 3) (vn 1 1)).map
      (fun r => (r.1.rch (vn 2 3), r.2)) = some (some (vn 3 2), vn 2 3) ∧
    ¬ (∀ (L : TreeList ValNode) (n root : ValNode) (s1 : Store ValNode) (r : ValNode),
      L.Valid valPrior → L.tRoot = some root → L.store.Free n →
      Tree.rb_add valPrior 10 L.store n root = some (s1, r) → s1.rch n = none) := by
  have hv : tlTwo.Valid valPrior := tlTwo_valid
  refine ⟨hv, rfl, by decide, by decide, ?_⟩
  intro h
  have h1 := h tlTwo (vn 2 3) (vn 1 1)
    ((Tree.rb_add valPrior 10 tlTwo.store (vn 2 3) (vn 1 1)).getD (emptyStore, vn 0 0)).1
    ((Tree.rb_add valPrior 10 tlTwo.store (vn 2 3) (vn 1 1)).getD (emptyStore, vn 0 0)).2
    hv rfl (by decide) rfl
  revert h1
  decide

/-- C24, amended.  On a valid non-empty list `L` and a node `n` in no
structure, `rb_add(n, prior, tRoot)` returns, and at the point where `add`
inspects `n._lt_rch`: when `n` has no right child, `n` is a leaf with a parent
`lp` whose left or right child it is, and the list position is chosen from
`lp` (`insert_after(n, lp)` if `n` is the right child of `lp`,
`insert_before(n, lp)` otherwise); when `n` has a right child `x` (which does
happen), the right-child branch is taken and the position is chosen by
`insert_before(n, x)`.  In both cases `add` returns a valid list. -/
theorem add_position_choice (prior : α → α → Bool) (sw : StrictWeak prior) (L : TreeList α)
    (n root : α) (fuel : Nat) (hv : L.Valid prior) (hroot : L.tRoot = some root)
    (hfree : L.store.Free n) (hf : L.ln ≤ fuel) :
    ∃ s1 r, Tree.rb_add prior fuel L.store n root = some (s1, r) ∧
      (s1.rch n = none → s1.lch n = none ∧ ∃ lp, s1.par n = some lp ∧
        (s1.lch lp = some n ∨ s1.rch lp = some n) ∧
        TreeList.add_link s1 n =
          (if s1.rch lp = some n then Link.insert_after s1 n lp
           else Link.insert_before s1 n lp)) ∧
      (∀ x, s1.rch n = some x → TreeList.add_link s1 n = Link.insert_before s1 n x) ∧
      ∃ s2, TreeList.add_link s1 n = some s2 ∧
        L.add prior fuel n = some { L with store := s2, tRoot := some r, ln := L.ln + 1 } ∧
        TreeList.Valid prior { L with store := s2, tRoot := some r, ln := L.ln + 1 } := by
  obtain ⟨t, hm⟩ := hv
  have hf2 : t.toList.length ≤ fuel := by
    have := hm.size
    omega
  obtain ⟨s1, r, t', s2, ctx, c, l, r', e1, e2, e3, e4, e5, e6, e7, e8, e9, e10⟩ :=
    add_shape prior sw L t n root fuel hm hroot hfree hf2
  subst e6
  obtain ⟨h1, h2⟩ := (repr_plug_iff s1 ctx _).1 e2
  refine ⟨s1, r, e1, ?_, ?_, s2, e8, e9, ⟨_, e10⟩⟩
  · intro hnr
    have hr' : r' = .nil := by
      rcases e7 with ⟨_, h⟩ | ⟨c2, x, r2, h⟩
      · exact h
      · have := h1.2.2.1
        rw [hnr, h] at this
        simp [RBT.root] at this
    have hl : l = .nil := by
      rcases e7 with ⟨h, _⟩ | ⟨c2, x, r2, h⟩
      · exact h
      · rw [hr'] at h; cases h
    subst hr' hl
    have hlch : s1.lch n = none := h1.2.1
    refine ⟨hlch, ?_⟩
    cases ctx with
    | nil =>
      simp only [plug, RBT.toList, List.nil_append, List.length_singleton] at e5
      have hmem := RBT.root_mem t root (by rw [hm.root, hroot])
      have h0 : t.toList = [] := List.length_eq_zero.1 (by omega)
      rw [h0] at hmem
      simp at hmem
    | cons f rest =>
      have hp : s1.par n = some f.node := h1.1
      refine ⟨f.node, hp, ?_, ?_⟩
      · cases f with
        | L cf x rf => exact Or.inl h2.2.1
        | R cf lf x => exact Or.inr h2.2.2.1
      · simp only [TreeList.add_link, hnr, hp]
  · intro x hx
    simp only [TreeList.add_link, hx]

/-- Instance of C24 (amended): adding the node of value 3 to the list with the
single value 5 leaves the new node a leaf, the left child of 5, and the
position is chosen by `insert_before` on that parent. -/
theorem add_position_choice_witness :
    (∃ s1 r, Tree.rb_add valPrior 10 tlDemo1.store (vn 3 2) (vn 5 1) = some (s1, r) ∧
      (s1.rch (vn 3 2) = none → s1.lch (vn 3 2) = none ∧ ∃ lp, s1.par (vn 3 2) = some lp ∧
        (s1.lch lp = some (vn 3 2) ∨ s1.rch lp = some (vn 3 2)) ∧
        TreeList.add_link s1 (vn 3 2) =
          (if s1.rch lp = some (vn 3 2) then Link.insert_after s1 (vn 3 2) lp
           else Link.insert_before s1 (vn 3 2) lp)) ∧
      (∀ x, s1.rch (vn 3 2) = some x →
        TreeList.add_link s1 (vn 3 2) = Link.insert_before s1 (vn 3 2) x) ∧
      ∃ s2, TreeList.add_link s1 (vn 3 2) = some s2 ∧
        tlDemo1.add valPrior 10 (vn 3 2) =
          some { tlDemo1 with store := s2, tRoot := some r, ln := tlDemo1.ln + 1 } ∧
        TreeList.Valid valPrior
          { tlDemo1 with store := s2, tRoot := some r, ln := tlDemo1.ln + 1 }) ∧
    (Tree.rb_add valPrior 10 tlDemo1.store (vn 3 2) (vn 5 1)).map
      (fun r => (r.1.rch (vn 3 2), r.1.par (vn 3 2), r.1.lch (vn 5 1))) =
        some (none, some (vn 5 1), some (vn 3 2)) :=
  ⟨add_position_choice valPrior strictWeak_valPrior tlDemo1 (vn 3 2) (vn 5 1) 10 tlDemo1_valid
    rfl (by decide) (by decide), by decide⟩

/-- C30 (a right child after `rb_add` is the in-order successor).  On a valid
non-empty list `L` and a node `n` in no structure, `rb_add(n, prior, tRoot)`
returns with root `r`, and the in-order sequence `ys` of the tree at `r` has no
repetition.  If `n` then has a right child `x`, then `x` has no left child, `x`
comes right after `n` in `ys`, and `insert_before(n, x)` returns the fields
with which `add(n)` ends: a valid list whose traversal from the sentinel is
`ys`, so that `n` stands at its in-order position. -/
theorem right_child_successor (prior : α → α → Bool) (sw : StrictWeak prior) (L : TreeList α)
    (n root : α) (fuel : Nat) (hv : L.Valid prior) (hroot : L.tRoot = some root)
    (hfree : L.store.Free n) (hf : L.ln ≤ fuel) :
    ∃ s1 r ys, Tree.rb_add prior fuel L.store n root = some (s1, r) ∧
      specInorder s1 (fuel + 2) (some r) = some ys ∧ ys.Nodup ∧ n ∈ ys ∧
      ∀ x, s1.rch n = some x →
        s1.lch x = none ∧ (∃ A B, ys = A ++ n :: x :: B) ∧
        ∃ s2, Link.insert_before s1 n x = some s2 ∧
          L.add prior fuel n = some { L with store := s2, tRoot := some r, ln := L.ln + 1 } ∧
          TreeList.toList (fuel + 2) { L with store := s2, tRoot := some r, ln := L.ln + 1 } =
            some ys ∧
          TreeList.Valid prior { L with store := s2, tRoot := some r, ln := L.ln + 1 } := by
  obtain ⟨t, hm⟩ := hv
  have hsz := hm.size
  have hf2 : t.toList.length ≤ fuel := by omega
  obtain ⟨s1, r, t', s2, ctx, c, l, r', e1, e2, e3, e4, e5, e6, e7, e8, e9, e10⟩ :=
    add_shape prior sw L t n root fuel hm hroot hfree hf2
  have hin := specInorder_repr s1 t' none (fuel + 2) e2 (by omega)
  rw [e3] at hin
  have hwalk := TreeList.Models.toList_eq prior _ t' e10 (fuel + 2) (by
    show L.ln + 1 < ((fuel + 2 : Nat) : Int)
    push_cast
    omega)
  subst e6
  obtain ⟨h1, h2⟩ := (repr_plug_iff s1 ctx _).1 e2
  refine ⟨s1, r, _, e1, hin, e4, ?_, ?_⟩
  · rw [toList_plug]
    simp [RBT.toList]
  · intro x hx
    have hr' : ∃ c2 r2, r' = .node c2 .nil x r2 := by
      rcases e7 with ⟨_, h⟩ | ⟨c2, y, r2, h⟩
      · have := h1.2.2.1
        rw [hx, h] at this
        simp [RBT.root] at this
      · have := h1.2.2.1
        rw [hx, h] at this
        simp only [RBT.root, Option.some.injEq] at this
        subst this
        exact ⟨c2, r2, h⟩
    obtain ⟨c2, r2, rfl⟩ := hr'
    have hrx : Repr s1 (.node c2 .nil x r2) (some n) := h1.2.2.2.2.2
    have hlx : s1.lch x = none := hrx.2.1
    have hlink : TreeList.add_link s1 n = Link.insert_before s1 n x := by
      simp only [TreeList.add_link, hx]
    refine ⟨hlx, ⟨ctxLeft ctx ++ l.toList, r2.toList ++ ctxRight ctx, ?_⟩, s2, ?_, e9, hwalk,
      ⟨_, e10⟩⟩
    · rw [toList_plug]
      simp [RBT.toList]
    · rw [← hlink]; exact e8

/-- Instance of C30: adding the values 1, 3, 2 under "lower value is prior"
makes 2 the root with right child 3, which has no left child, and the list
after `add` is 1, 2, 3. -/
theorem right_child_successor_witness :
    (∃ s1 r ys, Tree.rb_add valPrior 10 tlTwo.store (vn 2 3) (vn 1 1) = some (s1, r) ∧
      specInorder s1 (10 + 2) (some r) = some ys ∧ ys.Nodup ∧ vn 2 3 ∈ ys ∧
      ∀ x, s1.rch (vn 2 3) = some x →
        s1.lch x = none ∧ (∃ A B, ys = A ++ vn 2 3 :: x :: B) ∧
        ∃ s2, Link.insert_before s1 (vn 2 3) x = some s2 ∧
          tlTwo.add valPrior 10 (vn 2 3) =
            some { tlTwo with store := s2, tRoot := some r, ln := tlTwo.ln + 1 } ∧
          TreeList.toList (10 + 2)
            { tlTwo with store := s2, tRoot := some r, ln := tlTwo.ln + 1 } = some ys ∧
          TreeList.Valid valPrior
            { tlTwo with store := s2, tRoot := some r, ln := tlTwo.ln + 1 }) ∧
    (Tree.rb_add valPrior 10 tlTwo.store (vn 2 3) (vn 1 1)).map
      (fun r => (r.2, r.1.rch (vn 2 3), r.1.lch (vn 3 2))) =
        some (vn 2 3, some (vn 3 2), none) ∧
    ((tlTwo.add valPrior 10 (vn 2 3)).bind (fun L => L.toList (10 + 2))) =
      some [vn 1 1, vn 2 3, vn 3 2] :=
  ⟨right_child_successor valPrior strictWeak_valPrior tlTwo (vn 2 3) (vn 1 1) 10 tlTwo_valid
    rfl (by decide) (by decide), by decide, by decide⟩

end Alg
